import Mathlib

/-!
# AVL tree (`AVLTemplateClass.h`): embedding and verification

The C++ class `BinarySearchTree<DATA_TYPE>` is a pointer structure: every node
holds its value, a stored height, two child pointers and a parent pointer.
The embedding keeps that shape.  Node addresses are natural numbers, the
free store is a function from addresses to nodes, a null pointer is `none`,
and every operation is a function on the whole tree state.  An operation
yields `none` when the C++ program would dereference a null or a released
pointer or names a member the node class does not declare (or when a loop
runs out of the fuel the embedding gives it); a C++ exception is an `Outcome`
of its own.  The `int` members `treeHeight` and
`nodeCount` are integers without a bound: a stored height never exceeds the
number of live nodes plus one, and the count is the number of live nodes.

The second part of the file describes the tree a store holds (`Shape`, `Rep`,
`Linked`), the invariants of the data model on it (`BST`, `HeightOK`,
`Balanced`) and the sequence of its values (`inOrderValues`), and proves what
`insert`, `remove`, `search`, `returnHeight` and `inOrder` do to such a tree.
-/

namespace AVL

/-! ## Data model -/

/-- Node of the tree: `BinaryTreeNode` of the source.  Pointers are optional addresses. -/
structure BinaryTreeNode (α : Type) where
  nodeValue : α
  treeHeight : Int
  leftChild : Option Nat
  rightChild : Option Nat
  parent : Option Nat

/-- State of a `BinarySearchTree` object: the members `root` and `nodeCount`, together with
the free store its nodes live in (`store`) and the next address `new` hands out (`fresh`).
The comparator member `compare` is set once by the constructor and never written again; the
operations below take it as the argument `cmp`. -/
structure BinarySearchTree (α : Type) where
  root : Option Nat
  nodeCount : Int
  store : Nat → Option (BinaryTreeNode α)
  fresh : Nat

/-- How a public member function ends: it returns, or it throws one of the two exceptions
the class throws. -/
inductive Outcome (β : Type) where
  | returned (value : β)
  | duplicateItemException
  | itemNotFoundException

variable {α : Type}

/-- The comparison function of the test driver (`compare` in `AVLTreeTestMain.cpp`). -/
def compare (item1 item2 : Int) : Int :=
  if item1 < item2 then -1 else if item1 = item2 then 0 else 1

/-- The members of `BinaryTreeNode` that hold a `DATA_TYPE`, by name: the class declares
`nodeValue` and no other. -/
def BinaryTreeNode.dataMember (name : String) : Option (BinaryTreeNode α → α) :=
  if name = "nodeValue" then some BinaryTreeNode.nodeValue else none

/-- Reading through a pointer (`p->...`): fails on null and on a released address. -/
def BinarySearchTree.deref (t : BinarySearchTree α) (p : Option Nat) : Option (BinaryTreeNode α) :=
  match p with
  | none => none
  | some a => t.store a

/-- The store with the node at address `a` replaced by `n`. -/
def BinarySearchTree.write (t : BinarySearchTree α) (a : Nat) (n : BinaryTreeNode α) :
    BinarySearchTree α :=
  { t with store := Function.update t.store a (some n) }

/-- Writing through a pointer (`p->field = ...`): the node at `p` is replaced by `f` of it;
fails on null and on a released address. -/
def BinarySearchTree.assign (t : BinarySearchTree α) (p : Option Nat)
    (f : BinaryTreeNode α → BinaryTreeNode α) : Option (BinarySearchTree α) :=
  match p with
  | none => none
  | some a => (t.store a).map (fun n => t.write a (f n))

/-- The statements `new BinaryTreeNode(); ->nodeValue = item; ->treeHeight = 1;`: a node with
three null pointers at a fresh address. -/
def BinarySearchTree.newNode (t : BinarySearchTree α) (item : α) : Nat × BinarySearchTree α :=
  (t.fresh, { t.write t.fresh ⟨item, 1, none, none, none⟩ with fresh := t.fresh + 1 })

/-- The store with the node at address `a` released. -/
def BinarySearchTree.release (t : BinarySearchTree α) (a : Nat) : BinarySearchTree α :=
  { t with store := Function.update t.store a none }

/-- The statement `delete p`. -/
def BinarySearchTree.delete (t : BinarySearchTree α) (p : Option Nat) : Option (BinarySearchTree α) :=
  match p with
  | none => some t
  | some a => some (t.release a)

/-- The recurring source pattern `int h = 0; if (p != nullptr) h = p->treeHeight;`. -/
def BinarySearchTree.heightOrZero (t : BinarySearchTree α) (p : Option Nat) : Option Int :=
  match p with
  | none => some 0
  | some a => (t.store a).map (fun n => n.treeHeight)

/-- Fuel given to every loop: no simple path in the store is longer than the number of
addresses handed out; the ascent of `remove` may visit a rotated node twice. -/
def BinarySearchTree.fuel (t : BinarySearchTree α) : Nat := 2 * t.fresh + 2

/-! ## Operations, in the order of the source -/

/-- Source `getHeight(node)`. -/
def getHeight (t : BinarySearchTree α) (node : Option Nat) : Option Int := do
  let n ← t.deref node
  let rightTreeHeight ← t.heightOrZero n.rightChild
  let leftTreeHeight ← t.heightOrZero n.leftChild
  if rightTreeHeight ≤ leftTreeHeight then pure (leftTreeHeight + 1)
  else pure (rightTreeHeight + 1)

/-- Source `privateInOrder(node, visit)`, the visitor collecting the values it is handed.
The statement `visit(node->data)` names a member `BinaryTreeNode` does not declare.  C++
looks the name up when the member function is instantiated, before any call of it runs, so
the lookup comes first here and its failure is the result of every call. -/
def privateInOrder (t : BinarySearchTree α) : Nat → Option Nat → Option (List α)
  | 0, _ => none
  | k + 1, node => do
    let data ← (BinaryTreeNode.dataMember "data" : Option (BinaryTreeNode α → α))
    match node with
    | none => pure []
    | some a => do
      let n ← t.store a
      let ls ← privateInOrder t k n.leftChild
      let rs ← privateInOrder t k n.rightChild
      pure (ls ++ data n :: rs)

/-- Source `inOrder(visit)`. -/
def inOrder (t : BinarySearchTree α) : Option (List α) :=
  privateInOrder t t.fuel t.root

/-- Source `count()`. -/
def count (t : BinarySearchTree α) : Int := t.nodeCount

/-- The `while (current)` loop of `findParentOrDuplicate`. -/
def findLoop (cmp : α → α → Int) (t : BinarySearchTree α) (item : α) :
    Nat → Option Nat → Option Nat → Option (Option Nat)
  | 0, _, _ => none
  | _ + 1, none, parent => some parent
  | k + 1, some c, _ => do
    let n ← t.store c
    if cmp n.nodeValue item = 0 then pure (some c)
    else if cmp n.nodeValue item = 1 then findLoop cmp t item k n.leftChild (some c)
    else findLoop cmp t item k n.rightChild (some c)

/-- Source `findParentOrDuplicate(item)`. -/
def findParentOrDuplicate (cmp : α → α → Int) (t : BinarySearchTree α) (item : α) :
    Option (Option Nat) :=
  findLoop cmp t item t.fuel t.root t.root

/-- Source `rotateRight(node)`. -/
def rotateRight (t : BinarySearchTree α) (node : Option Nat) : Option (BinarySearchTree α) := do
  let n ← t.deref node
  let parent := n.parent
  let noderightChild := n.rightChild
  let t ←
    if parent ≠ t.root then do
      let p ← t.deref parent
      let grandparent := p.parent
      let t ← t.assign node (fun x => { x with parent := grandparent })
      let g ← t.deref grandparent
      let t ←
        if g.leftChild = parent then t.assign grandparent (fun x => { x with leftChild := node })
        else t.assign grandparent (fun x => { x with rightChild := node })
      let t ← t.assign parent (fun x => { x with leftChild := noderightChild })
      let t ← t.assign node (fun x => { x with rightChild := parent })
      let t ← t.assign parent (fun x => { x with parent := node })
      if noderightChild ≠ none then t.assign noderightChild (fun x => { x with parent := parent })
      else pure t
    else do
      let t := { t with root := node }
      let t ← t.assign parent (fun x => { x with leftChild := noderightChild })
      let t ← t.assign node (fun x => { x with rightChild := parent })
      let t ← t.assign node (fun x => { x with parent := none })
      let t ← t.assign parent (fun x => { x with parent := node })
      if noderightChild ≠ none then t.assign noderightChild (fun x => { x with parent := parent })
      else pure t
  let h ← getHeight t parent
  let t ← t.assign parent (fun x => { x with treeHeight := h })
  let h ← getHeight t node
  t.assign node (fun x => { x with treeHeight := h })

/-- Source `rotateLeft(node)`. -/
def rotateLeft (t : BinarySearchTree α) (node : Option Nat) : Option (BinarySearchTree α) := do
  let n ← t.deref node
  let parent := n.parent
  let nodeleftChild := n.leftChild
  let t ←
    if parent ≠ t.root then do
      let p ← t.deref parent
      let grandparent := p.parent
      let t ← t.assign node (fun x => { x with parent := grandparent })
      let g ← t.deref grandparent
      let t ←
        if g.leftChild = parent then t.assign grandparent (fun x => { x with leftChild := node })
        else t.assign grandparent (fun x => { x with rightChild := node })
      let t ← t.assign parent (fun x => { x with rightChild := nodeleftChild })
      let t ← t.assign node (fun x => { x with leftChild := parent })
      let t ← t.assign parent (fun x => { x with parent := node })
      if nodeleftChild ≠ none then t.assign nodeleftChild (fun x => { x with parent := parent })
      else pure t
    else do
      let t := { t with root := node }
      let t ← t.assign parent (fun x => { x with rightChild := nodeleftChild })
      let t ← t.assign node (fun x => { x with leftChild := parent })
      let t ← t.assign node (fun x => { x with parent := none })
      let t ← t.assign parent (fun x => { x with parent := node })
      if nodeleftChild ≠ none then t.assign nodeleftChild (fun x => { x with parent := parent })
      else pure t
  let h ← getHeight t parent
  let t ← t.assign parent (fun x => { x with treeHeight := h })
  let h ← getHeight t node
  t.assign node (fun x => { x with treeHeight := h })

/-- Source `insertRebalance(offbalanceNode, preNode, prepreNode)`. -/
def insertRebalance (t : BinarySearchTree α) (offbalanceNode preNode prepreNode : Option Nat) :
    Option (BinarySearchTree α) := do
  let ob ← t.deref offbalanceNode
  if ob.leftChild = preNode then do
    let pn ← t.deref preNode
    if pn.leftChild = prepreNode then rotateRight t preNode
    else if pn.rightChild = prepreNode then do
      let t ← rotateLeft t prepreNode
      rotateRight t prepreNode
    else pure t
  else if ob.rightChild = preNode then do
    let pn ← t.deref preNode
    if pn.leftChild = prepreNode then do
      let t ← rotateRight t prepreNode
      rotateLeft t prepreNode
    else if pn.rightChild = prepreNode then rotateLeft t preNode
    else pure t
  else pure t

/-- Source `removeRebalance(offbalanceNode, preNode, prepreNode)`. -/
def removeRebalance (t : BinarySearchTree α) (offbalanceNode preNode _prepreNode : Option Nat) :
    Option (BinarySearchTree α) := do
  let ob ← t.deref offbalanceNode
  if ob.leftChild = preNode then do
    let rightChild := ob.rightChild
    let (rightTreeHeight, leftTreeHeight) ←
      if rightChild ≠ none then do
        let rc ← t.deref rightChild
        let r ← t.heightOrZero rc.rightChild
        let l ← t.heightOrZero rc.leftChild
        pure (r, l)
      else pure ((0 : Int), (0 : Int))
    let balanceFactor := rightTreeHeight - leftTreeHeight
    if balanceFactor = 0 ∨ balanceFactor = 1 then rotateLeft t rightChild
    else if balanceFactor = -1 then do
      let rc ← t.deref rightChild
      let rightleftChild := rc.leftChild
      let t ← rotateRight t rightleftChild
      rotateLeft t rightleftChild
    else pure t
  else if ob.rightChild = preNode then do
    let leftChild := ob.leftChild
    let (rightTreeHeight, leftTreeHeight) ←
      if leftChild ≠ none then do
        let lc ← t.deref leftChild
        let r ← t.heightOrZero lc.rightChild
        let l ← t.heightOrZero lc.leftChild
        pure (r, l)
      else pure ((0 : Int), (0 : Int))
    let balanceFactor := rightTreeHeight - leftTreeHeight
    if balanceFactor = 0 ∨ balanceFactor = -1 then rotateRight t leftChild
    else if balanceFactor = 1 then do
      let lc ← t.deref leftChild
      let leftrightChild := lc.rightChild
      let t ← rotateLeft t leftrightChild
      rotateRight t leftrightChild
    else pure t
  else pure t

/-- The `while (node->parent)` loop of `insert`. -/
def insertLoop : Nat → BinarySearchTree α → Option Nat → Option Nat → Option Nat →
    Option (BinarySearchTree α)
  | 0, _, _, _, _ => none
  | k + 1, t, node, previousNode, _prePreviousNode => do
    let n ← t.deref node
    if n.parent = none then pure t
    else do
      let prePreviousNode := previousNode
      let previousNode := node
      let node := n.parent
      let x ← t.deref node
      let rightTreeHeight ← t.heightOrZero x.rightChild
      let leftTreeHeight ← t.heightOrZero x.leftChild
      let balanceFactor := rightTreeHeight - leftTreeHeight
      if balanceFactor < -1 ∨ balanceFactor > 1 then
        insertRebalance t node previousNode prePreviousNode
      else do
        let h ← getHeight t node
        let t ← t.assign node (fun y => { y with treeHeight := h })
        insertLoop k t node previousNode prePreviousNode

/-- Source `insert(item)`. -/
def insert (cmp : α → α → Int) (t : BinarySearchTree α) (item : α) :
    Option (Outcome Unit × BinarySearchTree α) :=
  if t.root = none then
    let (a, t) := t.newNode item
    some (Outcome.returned (), { t with root := some a, nodeCount := t.nodeCount + 1 })
  else do
    let searchNode ← findParentOrDuplicate cmp t item
    let sn ← t.deref searchNode
    if cmp sn.nodeValue item = 0 then pure (Outcome.duplicateItemException, t)
    else do
      let (a, t) := t.newNode item
      let node := some a
      let t ← t.assign node (fun x => { x with parent := searchNode })
      let t ←
        if cmp sn.nodeValue item = 1 then t.assign searchNode (fun x => { x with leftChild := node })
        else t.assign searchNode (fun x => { x with rightChild := node })
      let t := { t with nodeCount := t.nodeCount + 1 }
      let t ← insertLoop t.fuel t node none none
      pure (Outcome.returned (), t)

/-- The `while (current->rightChild)` loop of `remove` (search of the predecessor). -/
def rightmostLoop (t : BinarySearchTree α) : Nat → Option Nat → Option (Option Nat)
  | 0, _ => none
  | k + 1, current => do
    let c ← t.deref current
    if c.rightChild ≠ none then rightmostLoop t k c.rightChild
    else pure current

/-- The `while (parent)` loop of `remove`. -/
def removeLoop : Nat → BinarySearchTree α → Option Nat → Option Nat → Option Nat →
    Option (BinarySearchTree α)
  | 0, _, _, _, _ => none
  | k + 1, t, parent, previousNode, prePreviousNode =>
    if parent = none then pure t
    else do
      let h ← getHeight t parent
      let t ← t.assign parent (fun y => { y with treeHeight := h })
      let p ← t.deref parent
      let rightTreeHeight ← t.heightOrZero p.rightChild
      let leftTreeHeight ← t.heightOrZero p.leftChild
      let balanceFactor := rightTreeHeight - leftTreeHeight
      let t ←
        if balanceFactor < -1 ∨ balanceFactor > 1 then
          removeRebalance t parent previousNode prePreviousNode
        else pure t
      let prePreviousNode := previousNode
      let previousNode := parent
      let p ← t.deref parent
      removeLoop k t p.parent previousNode prePreviousNode

/-- Second half of the source `remove(item)`, from `BinaryTreeNode* child = ...` on: the node
`searchResult` is spliced out and released, the count is lowered, and the ascent runs from
its parent with `previousNode` and `prePreviousNode` null. -/
def removeNode (t : BinarySearchTree α) (searchResult : Option Nat) :
    Option (Outcome Unit × BinarySearchTree α) := do
  let sr ← t.deref searchResult
  let child := if sr.rightChild ≠ none then sr.rightChild else sr.leftChild
  let parent := sr.parent
  let t ←
    if parent ≠ none then do
      let p ← t.deref parent
      let t ←
        if p.rightChild = searchResult then t.assign parent (fun x => { x with rightChild := child })
        else t.assign parent (fun x => { x with leftChild := child })
      if child ≠ none then t.assign child (fun x => { x with parent := parent })
      else pure t
    else pure { t with root := child }
  let t ← t.delete searchResult
  let t := { t with nodeCount := t.nodeCount - 1 }
  let t ← removeLoop t.fuel t parent none none
  pure (Outcome.returned (), t)

/-- Source `remove(item)`: the search, the exchange of values with the in-order predecessor
when the node found has two children, then `removeNode`. -/
def remove (cmp : α → α → Int) (t : BinarySearchTree α) (item : α) :
    Option (Outcome Unit × BinarySearchTree α) := do
  let searchResult ← findParentOrDuplicate cmp t item
  if searchResult = none then pure (Outcome.itemNotFoundException, t)
  else do
    let sr ← t.deref searchResult
    if cmp sr.nodeValue item ≠ 0 then pure (Outcome.itemNotFoundException, t)
    else if sr.leftChild ≠ none ∧ sr.rightChild ≠ none then do
      let current ← rightmostLoop t t.fuel sr.leftChild
      let c ← t.deref current
      let tmp := sr.nodeValue
      let t ← t.assign searchResult (fun x => { x with nodeValue := c.nodeValue })
      let t ← t.assign current (fun x => { x with nodeValue := tmp })
      removeNode t current
    else removeNode t searchResult

/-- Source `search(item)`. -/
def search (cmp : α → α → Int) (t : BinarySearchTree α) (item : α) :
    Option (Outcome α × BinarySearchTree α) := do
  let searchResult ← findParentOrDuplicate cmp t item
  if searchResult = none then pure (Outcome.itemNotFoundException, t)
  else do
    let sr ← t.deref searchResult
    if cmp sr.nodeValue item ≠ 0 then pure (Outcome.itemNotFoundException, t)
    else pure (Outcome.returned sr.nodeValue, t)

/-- Source `returnHeight(item)`. -/
def returnHeight (cmp : α → α → Int) (t : BinarySearchTree α) (item : α) : Option Int := do
  let node ← findParentOrDuplicate cmp t item
  let n ← t.deref node
  pure n.treeHeight

/-- The constructor `BinarySearchTree(cmp)`: no root, no node. -/
def empty : BinarySearchTree α :=
  { root := none, nodeCount := 0, store := fun _ => none, fresh := 0 }

/-! ## The tree a store holds -/

/-- Tree laid out in the store: every node with its address, value and stored height. -/
inductive Shape (α : Type) where
  | nil : Shape α
  | node (addr : Nat) (left : Shape α) (value : α) (height : Int) (right : Shape α) : Shape α

open Shape

/-- Pointer to the root node of the shape; null for the empty shape. -/
def Shape.ptr : Shape α → Option Nat
  | nil => none
  | node a _ _ _ _ => some a

/-- Stored height of the root node; a missing node counts 0. -/
def Shape.ht : Shape α → Int
  | nil => 0
  | node _ _ _ h _ => h

/-- Addresses of the nodes, left subtree first. -/
def Shape.addrs : Shape α → List Nat
  | nil => []
  | node a l _ _ r => l.addrs ++ a :: r.addrs

/-- Values of the nodes in in-order (left subtree, node, right subtree). -/
def Shape.values : Shape α → List α
  | nil => []
  | node _ l v _ r => l.values ++ v :: r.values

/-- Number of nodes. -/
def Shape.size : Shape α → Nat
  | nil => 0
  | node _ l _ _ r => l.size + 1 + r.size

/-- Number of nodes on the longest downward path. -/
def Shape.depth : Shape α → Nat
  | nil => 0
  | node _ l _ _ r => max l.depth r.depth + 1

/-- The store holds the shape below a node whose address is `par` (null for the root): each
node is stored at its address with its value, its height, the addresses of its two children
and `par` as parent pointer. -/
def Rep (s : Nat → Option (BinaryTreeNode α)) : Option Nat → Shape α → Prop
  | _, Shape.nil => True
  | par, Shape.node a l v h r =>
    s a = some ⟨v, h, l.ptr, r.ptr, par⟩ ∧ Rep s (some a) l ∧ Rep s (some a) r

/-- Value computed by `getHeight` from the two child heights. -/
def hgt (l r : Int) : Int := if r ≤ l then l + 1 else r + 1

/-- Invariant 3 of the data model, on stored heights. -/
def HeightOK : Shape α → Prop
  | Shape.nil => True
  | Shape.node _ l _ h r => h = 1 + max l.ht r.ht ∧ HeightOK l ∧ HeightOK r

/-- Invariant 2 of the data model, on stored heights. -/
def Balanced : Shape α → Prop
  | Shape.nil => True
  | Shape.node _ l _ _ r => |l.ht - r.ht| ≤ 1 ∧ Balanced l ∧ Balanced r

/-- Invariant 1 of the data model: values on the left compare less, values on the right
compare greater. -/
def BST (cmp : α → α → Int) : Shape α → Prop
  | Shape.nil => True
  | Shape.node _ l v _ r =>
    (∀ x ∈ l.values, cmp x v = -1) ∧ (∀ x ∈ r.values, cmp v x = -1) ∧ BST cmp l ∧ BST cmp r

/-- The values below a pointer in the order left subtree, node, right subtree, read from the
store through the declared member `nodeValue`.  It is not a function of the source: it
measures what a tree state holds, and it is the sequence `privateInOrder` would hand to its
visitor if it named that member. -/
def valuesBelow (t : BinarySearchTree α) : Nat → Option Nat → Option (List α)
  | 0, _ => none
  | _ + 1, none => some []
  | k + 1, some a => do
    let n ← t.store a
    let ls ← valuesBelow t k n.leftChild
    let rs ← valuesBelow t k n.rightChild
    pure (ls ++ n.nodeValue :: rs)

/-- The in-order sequence of the values of a tree state: `valuesBelow` from the root. -/
def inOrderValues (t : BinarySearchTree α) : Option (List α) :=
  valuesBelow t t.fuel t.root

/-! ## Paths from a node up to the root -/

/-- One step of a path towards the root: an ancestor with the subtree on the other side.
`inLeft` is an ancestor whose left child lies on the path, `inRight` one whose right child
does. -/
inductive Frame (α : Type) where
  | inLeft (addr : Nat) (value : α) (height : Int) (right : Shape α) : Frame α
  | inRight (addr : Nat) (left : Shape α) (value : α) (height : Int) : Frame α

/-- Address of the ancestor. -/
def Frame.addr : Frame α → Nat
  | inLeft a _ _ _ => a
  | inRight a _ _ _ => a

/-- The subtree rooted at the ancestor, with `t` on the path side. -/
def Frame.fill : Frame α → Shape α → Shape α
  | inLeft a v h r, t => Shape.node a t v h r
  | inRight a l v h, t => Shape.node a l v h t

/-- The subtree on the other side of the path. -/
def Frame.sibling : Frame α → Shape α
  | inLeft _ _ _ r => r
  | inRight _ l _ _ => l

/-- Stored height of the ancestor. -/
def Frame.height : Frame α → Int
  | inLeft _ _ h _ => h
  | inRight _ _ _ h => h

/-- The whole tree: `t` with the ancestors of the path above it, nearest ancestor first. -/
def plug : Shape α → List (Frame α) → Shape α
  | t, [] => t
  | t, f :: fs => plug (f.fill t) fs

/-- Pointer to the nearest ancestor; `rp`, the parent pointer of the root, when the path is
empty. -/
def ctxPtr (rp : Option Nat) : List (Frame α) → Option Nat
  | [] => rp
  | f :: _ => some f.addr

/-- Addresses of the ancestors and of the subtrees hanging off the path. -/
def ctxAddrs : List (Frame α) → List Nat
  | [] => []
  | f :: fs => f.addr :: f.sibling.addrs ++ ctxAddrs fs

/-- Values stored before the path position in in-order. -/
def ctxBefore : List (Frame α) → List α
  | [] => []
  | Frame.inLeft _ _ _ _ :: fs => ctxBefore fs
  | Frame.inRight _ l v _ :: fs => ctxBefore fs ++ (l.values ++ [v])

/-- Values stored after the path position in in-order. -/
def ctxAfter : List (Frame α) → List α
  | [] => []
  | Frame.inLeft _ v _ r :: fs => (v :: r.values) ++ ctxAfter fs
  | Frame.inRight _ _ _ _ :: fs => ctxAfter fs

/-- The store holds the ancestors of a path whose lowest node is pointed to by `c`; the root
stores `rp` as its parent pointer. -/
def RepCtx (s : Nat → Option (BinaryTreeNode α)) (rp : Option Nat) :
    Option Nat → List (Frame α) → Prop
  | _, [] => True
  | c, Frame.inLeft a v h r :: fs =>
    s a = some ⟨v, h, c, r.ptr, ctxPtr rp fs⟩ ∧ Rep s (some a) r ∧ RepCtx s rp (some a) fs
  | c, Frame.inRight a l v h :: fs =>
    s a = some ⟨v, h, l.ptr, c, ctxPtr rp fs⟩ ∧ Rep s (some a) l ∧ RepCtx s rp (some a) fs

/-- Heights and balance along a path, for a path subtree of height `h0`: each ancestor stores
`1 + max` of the height below it on the path and its sibling height, is balanced, and the
subtrees hanging off the path satisfy invariants 2 and 3. -/
def CtxAVL : Int → List (Frame α) → Prop
  | _, [] => True
  | h0, f :: fs =>
    f.height = 1 + max h0 f.sibling.ht ∧ |h0 - f.sibling.ht| ≤ 1 ∧
      HeightOK f.sibling ∧ Balanced f.sibling ∧ CtxAVL f.height fs

/-- Stored height behind a pointer, read from a store (`heightOrZero` on the store alone). -/
def hz (s : Nat → Option (BinaryTreeNode α)) (p : Option Nat) : Option Int :=
  match p with
  | none => some 0
  | some a => (s a).map (fun n => n.treeHeight)

/-- The comparator contract (spec 4.1): a three-valued strict total order. -/
structure StrictTotal (cmp : α → α → Int) : Prop where
  range : ∀ a b, cmp a b = -1 ∨ cmp a b = 0 ∨ cmp a b = 1
  eq_iff : ∀ a b, cmp a b = 0 ↔ a = b
  flip : ∀ a b, cmp a b = 1 ↔ cmp b a = -1
  trans : ∀ a b c, cmp a b = -1 → cmp b c = -1 → cmp a c = -1

/-- Where the descent for `item` left the path: at an `inLeft` ancestor the comparator said 1
(go left), at an `inRight` ancestor it said neither 0 nor 1 (go right). -/
def HeadFits (cmp : α → α → Int) (item : α) : List (Frame α) → Prop
  | [] => True
  | Frame.inLeft _ v _ _ :: _ => cmp v item ≠ 0 ∧ cmp v item = 1
  | Frame.inRight _ _ v _ :: _ => cmp v item ≠ 0 ∧ cmp v item ≠ 1

/-- The store `t2` holds the shape `T2`, which has the values and the nodes of `T`; nothing
was allocated and the node count is that of `t`. -/
def Kept (t2 : BinarySearchTree α) (T2 : Shape α) (t : BinarySearchTree α) (T : Shape α) :
    Prop :=
  Rep t2.store none T2 ∧ t2.root = T2.ptr ∧ T2.values = T.values ∧ T2.addrs.Perm T.addrs ∧
    t2.fresh = t.fresh ∧ t2.nodeCount = t.nodeCount

/-- The information the ascent of `insert` has about a subtree that grew by one: it is the
new leaf, or its child on the path (pointed to by `pre`) is the higher one by exactly one. -/
def Grown (old : Int) (pre : Option Nat) (l r : Shape α) : Prop :=
  (old = 0 ∧ l = nil ∧ r = nil) ∨ (pre = l.ptr ∧ l.ht = old ∧ r.ht = old - 1) ∨
    (pre = r.ptr ∧ r.ht = old ∧ l.ht = old - 1)

/-- Where the ascent of `insert` met an unbalanced ancestor: a rotation put a subtree `U2`
with another root in the place of the subtree of the ancestor `f` of the path, `U2` has the
height `f` had stored, and the ancestors `c2` above `f` are as they were. -/
def Replaced (T2 : Shape α) (ctx : List (Frame α)) : Prop :=
  ∃ c1 f c2 U2, ctx = c1 ++ f :: c2 ∧ T2 = plug U2 c2 ∧ U2.ptr ≠ some f.addr ∧
    U2.ht = f.height

/-- The tree object `t` holds the shape `T`: the store holds `T` below a root without parent
(invariant 5), `root` points to it, every node is owned once, and every address in use was
handed out by `new`. -/
def Linked (t : BinarySearchTree α) (T : Shape α) : Prop :=
  Rep t.store none T ∧ t.root = T.ptr ∧ T.addrs.Nodup ∧ ∀ a ∈ T.addrs, a < t.fresh

/-- Strictly increasing in the comparator order. -/
def Sorted (cmp : α → α → Int) (xs : List α) : Prop :=
  xs.Pairwise (fun a b => cmp a b = -1)

/-- The tree state `insert` hands to its ascent: the new leaf `item` at the fresh address,
linked below the node `A`, whose updated content is `x`. -/
def linkedLeaf (t : BinarySearchTree α) (item : α) (A : Nat) (x : BinaryTreeNode α) :
    BinarySearchTree α :=
  { (({ t.write t.fresh ⟨item, 1, none, none, none⟩ with fresh := t.fresh + 1 } :
      BinarySearchTree α).write t.fresh ⟨item, 1, none, none, some A⟩).write A x with
    nodeCount := t.nodeCount + 1 }

/-- Content of the node of an ancestor on a path, with `c` as child pointer on the path side
and `p` as parent pointer. -/
def Frame.record : Frame α → Option Nat → Option Nat → BinaryTreeNode α
  | Frame.inLeft _ v h r, c, p => ⟨v, h, c, r.ptr, p⟩
  | Frame.inRight _ l v h, c, p => ⟨v, h, l.ptr, c, p⟩

/-- How a successful `insert` changed the shape `T` into `T2`.  Either no rotation took place:
the new leaf (at address `a`) hangs below the same ancestors.  Or a rotation took place at an
ancestor: its subtree `U` was replaced by a subtree `U2` with another root, which has the
stored height of `U`, and the ancestors `c` above are untouched. -/
def Ascent (T T2 : Shape α) (a : Nat) (item : α) : Prop :=
  (∃ ctx ctx2, T = plug nil ctx ∧ T2 = plug (node a nil item 1 nil) ctx2 ∧
    ctx2.map Frame.addr = ctx.map Frame.addr) ∨
  (∃ c U U2, T = plug U c ∧ T2 = plug U2 c ∧ U2.ptr ≠ U.ptr ∧ U2.ht = U.ht)

/-- The state of an ascent: the store holds the subtree `sub` below the path `ctx`, nodes
are owned once, and `root` points to the top of the path. -/
def Ready (t : BinarySearchTree α) (sub : Shape α) (ctx : List (Frame α)) : Prop :=
  Rep t.store (ctxPtr none ctx) sub ∧ RepCtx t.store none sub.ptr ctx ∧
    (sub.addrs ++ ctxAddrs ctx).Nodup ∧ t.root = (plug sub ctx).ptr

/-- One ancestor of the ascent of `remove` is dealt with: from the ancestor at `A` (with
`k + 2` units of fuel) the loop arrives above it with the subtree `sub2` in place of the
ancestor's subtree. -/
def Passed (k : Nat) (t : BinarySearchTree α) (A : Nat) (pre pp : Option Nat) (sub : Shape α)
    (f : Frame α) (fs : List (Frame α)) : Prop :=
  ∃ k2 t2 sub2 pp2, k ≤ k2 ∧
    removeLoop (k + 2) t (some A) pre pp = removeLoop k2 t2 (ctxPtr none fs) sub2.ptr pp2 ∧
    Kept t2 (plug sub2 fs) t (plug sub (f :: fs)) ∧ Ready t2 sub2 fs ∧ HeightOK sub2 ∧
    (sub2.ht = f.height ∨ sub2.ht = f.height - 1) ∧
    (pre = sub.ptr → Balanced sub → Balanced sub2)

/-- The node content `removeNode` leaves in the parent of the spliced node. -/
def spliceRecord (x : BinaryTreeNode α) (s : Nat) (child : Option Nat) : BinaryTreeNode α :=
  if x.rightChild = some s then { x with rightChild := child } else { x with leftChild := child }

/-- The subtree that takes the place of a spliced node: its right child when it has one,
else its left child. -/
def onlyChild (sl sr : Shape α) : Shape α :=
  match sr with
  | nil => sl
  | node a l v h r => node a l v h r

/-- A path that only descends to the right. -/
def AllRight (ctx : List (Frame α)) : Prop :=
  ∀ f ∈ ctx, ∃ a l v h, f = Frame.inRight a l v h

/-- What a successful `remove` leaves, for a tree `T` held by `t`: a tree `T2` in the store
of `t2` (below a root whose parent pointer is `rp`) with one value `v` less. -/
def Removed (t2 : BinarySearchTree α) (T2 : Shape α) (rp : Option Nat) (t : BinarySearchTree α)
    (T : Shape α) (l1 l2 : List α) (v : α) : Prop :=
  Rep t2.store rp T2 ∧ t2.root = T2.ptr ∧ T.values = l1 ++ v :: l2 ∧ T2.values = l1 ++ l2 ∧
    (∃ s, (s :: T2.addrs).Perm T.addrs) ∧ t2.fresh = t.fresh ∧
    t2.nodeCount = t.nodeCount - 1 ∧ HeightOK T2

/-- The rightmost node of the shape (the node the `while (current->rightChild)` loop of
`remove` stops at) has no child. -/
def RightmostLeaf : Shape α → Prop
  | nil => False
  | node _ l _ _ nil => l = nil
  | node _ _ _ _ (node a l v h r) => RightmostLeaf (node a l v h r)

/-- The nodes `rotateRight(node)` and `rotateLeft(node)` read through on entry: `node`, its
parent (`node->parent`), and, when the parent is not the root, the grandparent
(`parent->parent`, read as `grandparent->leftChild`). -/
def RotationReads (t : BinarySearchTree α) (node : Option Nat) : Prop :=
  ∃ n p, t.deref node = some n ∧ t.deref n.parent = some p ∧
    (n.parent ≠ t.root → ∃ g, t.deref p.parent = some g)

/-! ## The descent and the ascent of `insert` along a path -/

/-- The nodes the `while (current)` loop of `findParentOrDuplicate` visits, in the order of
the visits: `findLoop` with a record of the values `current` takes. -/
def findVisits (cmp : α → α → Int) (t : BinarySearchTree α) (item : α) :
    Nat → Option Nat → Option (List Nat)
  | 0, _ => none
  | _ + 1, none => some []
  | k + 1, some c => do
    let n ← t.store c
    if cmp n.nodeValue item = 0 then pure [c]
    else if cmp n.nodeValue item = 1 then
      (findVisits cmp t item k n.leftChild).map (fun vs => c :: vs)
    else (findVisits cmp t item k n.rightChild).map (fun vs => c :: vs)

/-- The node `findParentOrDuplicate` returns, from the nodes it visited: the last one, or the
initial value of `parent` when it visited none. -/
def lastVisit (parent : Option Nat) : List Nat → Option Nat
  | [] => parent
  | c :: vs => lastVisit (some c) vs

/-- The ancestors of a path with the heights the ascent of `insert` stores in them on its
way up, when the subtree below the path has the stored height `h0`. -/
def lift (h0 : Int) : List (Frame α) → List (Frame α)
  | [] => []
  | Frame.inLeft A v _ r :: gs => Frame.inLeft A v (hgt h0 r.ht) r :: lift (hgt h0 r.ht) gs
  | Frame.inRight A l v _ :: gs => Frame.inRight A l v (hgt l.ht h0) :: lift (hgt l.ht h0) gs

/-- The stored height at the top of a path after the ascent of `insert` went up all of it. -/
def topHeight (h0 : Int) : List (Frame α) → Int
  | [] => h0
  | Frame.inLeft _ _ _ r :: gs => topHeight (hgt h0 r.ht) gs
  | Frame.inRight _ l _ _ :: gs => topHeight (hgt l.ht h0) gs

/-- The stored height at the top of a path as it is: the height its last ancestor stores,
`h0` for the empty path. -/
def topStored (h0 : Int) : List (Frame α) → Int
  | [] => h0
  | g :: gs => topStored g.height gs

/-- Every ancestor of the path passes the balance test of the ascent of `insert`, when the
subtree below the path has the stored height `h0`. -/
def PathBalanced (h0 : Int) : List (Frame α) → Prop
  | [] => True
  | Frame.inLeft _ _ _ r :: gs => |h0 - r.ht| ≤ 1 ∧ PathBalanced (hgt h0 r.ht) gs
  | Frame.inRight _ l _ _ :: gs => |l.ht - h0| ≤ 1 ∧ PathBalanced (hgt l.ht h0) gs

/-- The descent of `findParentOrDuplicate` for `item` runs down the path: at each ancestor
the comparator sends it to the side of the path. -/
def Descends (cmp : α → α → Int) (item : α) : List (Frame α) → Prop
  | [] => True
  | Frame.inLeft _ v _ _ :: gs => (cmp v item ≠ 0 ∧ cmp v item = 1) ∧ Descends cmp item gs
  | Frame.inRight _ _ v _ :: gs => (cmp v item ≠ 0 ∧ cmp v item ≠ 1) ∧ Descends cmp item gs

/-! ## Runs of the test driver (`AVLTreeTestMain.cpp`) -/

/-- A row of statements `tree.insert(v);` as in `main`; an exception ends the run. -/
def insertAll (t : BinarySearchTree Int) : List Int → Option (BinarySearchTree Int)
  | [] => some t
  | v :: vs =>
    match insert compare t v with
    | some (Outcome.returned _, t2) => insertAll t2 vs
    | _ => none

/-- The tree object after `BinarySearchTree<int> tree(compare);` and a row of insertions. -/
def treeOf (items : List Int) : BinarySearchTree Int :=
  (insertAll empty items).getD empty

/-- The object `testTree5` of `main` after its seven insertions, before `remove(3)`. -/
def testTree5 : BinarySearchTree Int := treeOf [5, 2, 8, 3, 7, 9, 10]

/-- The tree `testTree5` holds after its seven insertions. -/
def testShape5 : Shape Int :=
  node 0 (node 1 nil 2 2 (node 3 nil 3 1 nil)) 5 4
    (node 2 (node 4 nil 7 1 nil) 8 3 (node 5 nil 9 2 (node 6 nil 10 1 nil)))

/-- The object `testTree8` of `main` after its twelve insertions and `remove(7)`. -/
def testTree8 : BinarySearchTree Int :=
  ((remove compare (treeOf [8, 5, 10, 3, 6, 9, 2, 4, 7, 11, 12, 1]) 7).map Prod.snd).getD empty

/-- The tree `testTree8` holds after its twelve insertions and `remove(7)`. -/
def testShape8 : Shape Int :=
  node 0
    (node 3 (node 6 (node 11 nil 1 1 nil) 2 2 nil) 3 3
      (node 1 (node 7 nil 4 1 nil) 5 2 (node 4 nil 6 1 nil)))
    8 4 (node 2 (node 5 nil 9 1 nil) 10 3 (node 9 nil 11 2 (node 10 nil 12 1 nil)))

/-- A tree whose node `2` has one child and a sibling subtree higher by one: the insertions
5, 2, 8, 1, 7, 9, 10. -/
def lowLeftTree : BinarySearchTree Int := treeOf [5, 2, 8, 1, 7, 9, 10]

/-- The tree `lowLeftTree` holds. -/
def lowLeftShape : Shape Int :=
  node 0 (node 1 (node 3 nil 1 1 nil) 2 2 nil) 5 4
    (node 2 (node 4 nil 7 1 nil) 8 3 (node 5 nil 9 2 (node 6 nil 10 1 nil)))

/-- The tree `lowLeftTree` holds after `remove(2)`. -/
def lowLeftRemoved : Shape Int :=
  node 0 (node 3 nil 1 1 nil) 5 4
    (node 2 (node 4 nil 7 1 nil) 8 3 (node 5 nil 9 2 (node 6 nil 10 1 nil)))

/-- A caller that hands the values to `insert` one after another and goes on after a
`DuplicateItemException`. -/
def insertEach (cmp : α → α → Int) (t : BinarySearchTree α) :
    List α → Option (BinarySearchTree α)
  | [] => some t
  | v :: vs => (insert cmp t v).bind (fun r => insertEach cmp r.2 vs)

/-- The tree after `insert(5); insert(2);`: a root with one child. -/
def rootWithChild : BinarySearchTree Int := treeOf [5, 2]

/-- The tree `rootWithChild` holds. -/
def rootWithChildShape : Shape Int := node 0 (node 1 nil 2 1 nil) 5 2 nil

/-- The object `testTree1` of `main` before its last insertion (of 6). -/
def testTree1 : BinarySearchTree Int := treeOf [5, 2, 8, 7]

/-- The tree `testTree1` holds before its last insertion. -/
def testShape1 : Shape Int :=
  node 0 (node 1 nil 2 1 nil) 5 3 (node 2 (node 3 nil 7 1 nil) 8 2 nil)

/-- The object `testTree2` of `main` before its last insertion (of 8). -/
def testTree2 : BinarySearchTree Int := treeOf [5, 2, 9, 7]

/-- The tree `testTree2` holds before its last insertion. -/
def testShape2 : Shape Int :=
  node 0 (node 1 nil 2 1 nil) 5 3 (node 2 (node 3 nil 7 1 nil) 9 2 nil)

/-- The object `testTree3` of `main` before its last insertion (of 10). -/
def testTree3 : BinarySearchTree Int := treeOf [5, 2, 9, 11]

/-- The tree `testTree3` holds before its last insertion. -/
def testShape3 : Shape Int :=
  node 0 (node 1 nil 2 1 nil) 5 3 (node 2 nil 9 2 (node 3 nil 11 1 nil))

/-- The object `testTree4` of `main` before its last insertion (of 4). -/
def testTree4 : BinarySearchTree Int := treeOf [5, 2, 9, 3]

/-- The tree `testTree4` holds before its last insertion. -/
def testShape4 : Shape Int :=
  node 0 (node 1 nil 2 2 (node 3 nil 3 1 nil)) 5 3 (node 2 nil 9 1 nil)

/-- The tree object after a row of insertions and `remove(k)`. -/
def removedFrom (items : List Int) (k : Int) : BinarySearchTree Int :=
  ((remove compare (treeOf items) k).map Prod.snd).getD empty

/-- The tree `remove(8)` leaves of the insertions 5, 2, 8, 1, 3, 9, 0: the left subtree of
the root is the higher one by two and leans to the left. -/
def lowRightRemoved : Shape Int :=
  node 0 (node 1 (node 3 (node 6 nil 0 1 nil) 1 2 nil) 2 3 (node 4 nil 3 1 nil)) 5 4
    (node 5 nil 9 1 nil)

/-- The tree `remove(2)` leaves of the insertions 5, 2, 8, 1, 7, 9, 6: the right subtree of
the root is the higher one by two and leans to the left. -/
def lowLeftInnerRemoved : Shape Int :=
  node 0 (node 3 nil 1 1 nil) 5 4
    (node 2 (node 4 (node 6 nil 6 1 nil) 7 2 nil) 8 3 (node 5 nil 9 1 nil))

/-- The tree `remove(8)` leaves of the insertions 5, 2, 8, 1, 3, 9, 4: the left subtree of
the root is the higher one by two and leans to the right. -/
def lowRightInnerRemoved : Shape Int :=
  node 0 (node 1 (node 3 nil 1 1 nil) 2 3 (node 4 nil 3 2 (node 6 nil 4 1 nil))) 5 4
    (node 5 nil 9 1 nil)

@[simp]
theorem Shape.ptr_nil : (nil : Shape α).ptr = none := rfl

@[simp]
theorem Shape.ptr_node (a : Nat) (l : Shape α) (v : α) (h : Int) (r : Shape α) :
    (node a l v h r).ptr = some a := rfl

@[simp]
theorem Shape.ht_nil : (nil : Shape α).ht = 0 := rfl

@[simp]
theorem Shape.ht_node (a : Nat) (l : Shape α) (v : α) (h : Int) (r : Shape α) :
    (node a l v h r).ht = h := rfl

theorem hgt_eq (l r : Int) : hgt l r = 1 + max l r := by
  unfold hgt; split_ifs <;> omega

theorem Shape.size_eq_length (T : Shape α) : T.size = T.addrs.length := by
  induction T with
  | nil => rfl
  | node a l v h r ihl ihr => simp [Shape.size, Shape.addrs, ihl, ihr]; omega

theorem Shape.depth_le_size (T : Shape α) : T.depth ≤ T.size := by
  induction T with
  | nil => simp [Shape.depth, Shape.size]
  | node a l v h r ihl ihr => simp [Shape.depth, Shape.size]; omega

theorem HeightOK.ht_nonneg {T : Shape α} (h : HeightOK T) : 0 ≤ T.ht := by
  induction T with
  | nil => simp
  | node a l v h r ihl ihr =>
    obtain ⟨h1, h2, h3⟩ := h
    have := ihl h2; have := ihr h3
    simp only [Shape.ht_node]; omega

theorem HeightOK.ht_pos {a : Nat} {l r : Shape α} {v : α} {h : Int}
    (hk : HeightOK (Shape.node a l v h r)) : 1 ≤ h := by
  obtain ⟨h1, h2, h3⟩ := hk
  have := h2.ht_nonneg; have := h3.ht_nonneg
  omega

theorem Rep.congr {s s2 : Nat → Option (BinaryTreeNode α)} {par : Option Nat} {T : Shape α}
    (h : Rep s par T) (hs : ∀ a ∈ T.addrs, s2 a = s a) : Rep s2 par T := by
  induction T generalizing par with
  | nil => trivial
  | node a l v ht r ihl ihr =>
    obtain ⟨h1, h2, h3⟩ := h
    refine ⟨?_, ihl h2 ?_, ihr h3 ?_⟩
    · rw [hs a (by simp [Shape.addrs]), h1]
    · intro x hx; exact hs x (by simp [Shape.addrs, hx])
    · intro x hx; exact hs x (by simp [Shape.addrs, hx])

theorem heightOrZero_rep {t : BinarySearchTree α} {par : Option Nat} {T : Shape α}
    (h : Rep t.store par T) : t.heightOrZero T.ptr = some T.ht := by
  cases T with
  | nil => rfl
  | node a l v ht r => simp [BinarySearchTree.heightOrZero, h.1]

theorem valuesBelow_rep {t : BinarySearchTree α} {T : Shape α} :
    ∀ (k : Nat) (par : Option Nat), Rep t.store par T → T.depth < k →
      valuesBelow t k T.ptr = some T.values := by
  induction T with
  | nil =>
    intro k par _ hk
    cases k with
    | zero => simp [Shape.depth] at hk
    | succ k => rfl
  | node a l v ht r ihl ihr =>
    intro k par h hk
    cases k with
    | zero => simp at hk
    | succ k =>
      obtain ⟨h1, h2, h3⟩ := h
      simp only [Shape.depth] at hk
      have hl : l.depth < k := by omega
      have hr : r.depth < k := by omega
      simp [valuesBelow, h1, ihl k _ h2 hl, ihr k _ h3 hr, Shape.values]

@[simp]
theorem fill_ptr (f : Frame α) (t : Shape α) : (f.fill t).ptr = some f.addr := by
  cases f <;> rfl

@[simp]
theorem fill_ht (f : Frame α) (t : Shape α) : (f.fill t).ht = f.height := by
  cases f <;> rfl

@[simp]
theorem ctxPtr_nil (rp : Option Nat) : ctxPtr rp ([] : List (Frame α)) = rp := rfl

@[simp]
theorem ctxPtr_cons (rp : Option Nat) (f : Frame α) (fs : List (Frame α)) :
    ctxPtr rp (f :: fs) = some f.addr := rfl

theorem plug_append (t : Shape α) (c1 c2 : List (Frame α)) :
    plug t (c1 ++ c2) = plug (plug t c1) c2 := by
  induction c1 generalizing t with
  | nil => rfl
  | cons f fs ih => simp [plug, ih]

theorem rep_fill {s : Nat → Option (BinaryTreeNode α)} {rp : Option Nat} (f : Frame α)
    (fs : List (Frame α)) (t : Shape α) :
    Rep s (ctxPtr rp fs) (f.fill t) ∧ RepCtx s rp (some f.addr) fs ↔
      Rep s (some f.addr) t ∧ RepCtx s rp t.ptr (f :: fs) := by
  cases f <;> simp only [Frame.fill, Rep, RepCtx, Frame.addr] <;> tauto

theorem rep_plug {s : Nat → Option (BinaryTreeNode α)} {rp : Option Nat} (t : Shape α)
    (ctx : List (Frame α)) :
    Rep s rp (plug t ctx) ↔ Rep s (ctxPtr rp ctx) t ∧ RepCtx s rp t.ptr ctx := by
  induction ctx generalizing t with
  | nil => simp [plug, RepCtx]
  | cons f fs ih => rw [plug, ih, fill_ptr, rep_fill, ctxPtr_cons]

theorem RepCtx.congrCtx {s s2 : Nat → Option (BinaryTreeNode α)} {rp c : Option Nat}
    {ctx : List (Frame α)} (h : RepCtx s rp c ctx) (hs : ∀ a ∈ ctxAddrs ctx, s2 a = s a) :
    RepCtx s2 rp c ctx := by
  induction ctx generalizing c with
  | nil => trivial
  | cons f fs ih =>
    have hfs : ∀ a ∈ ctxAddrs fs, s2 a = s a := fun a ha => hs a (by simp [ctxAddrs, ha])
    have hsib : ∀ a ∈ f.sibling.addrs, s2 a = s a := fun a ha => hs a (by simp [ctxAddrs, ha])
    have hf : s2 f.addr = s f.addr := hs _ (by simp [ctxAddrs])
    cases f with
    | inLeft a v ht r => exact ⟨by rw [← h.1]; exact hf, h.2.1.congr hsib, ih h.2.2 hfs⟩
    | inRight a l v ht => exact ⟨by rw [← h.1]; exact hf, h.2.1.congr hsib, ih h.2.2 hfs⟩

theorem addrs_plug (t : Shape α) (ctx : List (Frame α)) :
    (plug t ctx).addrs.Perm (t.addrs ++ ctxAddrs ctx) := by
  induction ctx generalizing t with
  | nil => simp [plug, ctxAddrs]
  | cons f fs ih =>
    refine (ih (f.fill t)).trans ?_
    cases f with
    | inLeft a v ht r =>
      simp only [Frame.fill, Shape.addrs, ctxAddrs, Frame.addr, Frame.sibling, List.append_assoc,
        List.cons_append]
      exact List.Perm.refl _
    | inRight a l v ht =>
      simp only [Frame.fill, Shape.addrs, ctxAddrs, Frame.addr, Frame.sibling, List.append_assoc,
        List.cons_append]
      refine List.perm_middle.trans (List.Perm.trans ?_ List.perm_middle.symm)
      exact List.Perm.cons _ (List.perm_append_comm_assoc _ _ _)

theorem values_plug (t : Shape α) (ctx : List (Frame α)) :
    (plug t ctx).values = ctxBefore ctx ++ t.values ++ ctxAfter ctx := by
  induction ctx generalizing t with
  | nil => simp [plug, ctxBefore, ctxAfter]
  | cons f fs ih =>
    cases f <;> simp [plug, ih, Frame.fill, Shape.values, ctxBefore, ctxAfter]

theorem length_le_depth_plug (t : Shape α) (ctx : List (Frame α)) :
    ctx.length + t.depth ≤ (plug t ctx).depth := by
  induction ctx generalizing t with
  | nil => simp [plug]
  | cons f fs ih =>
    have := ih (f.fill t)
    have h2 : t.depth + 1 ≤ (f.fill t).depth := by
      cases f <;> simp [Frame.fill, Shape.depth]
    simp only [plug, List.length_cons]; omega

theorem plug_ptr_cons (t t2 : Shape α) (f : Frame α) (fs : List (Frame α)) :
    (plug t (f :: fs)).ptr = (plug t2 (f :: fs)).ptr := by
  induction fs generalizing t t2 f with
  | nil => simp [plug]
  | cons g gs ih => exact ih _ _ g

theorem plug_ptr_mem (t : Shape α) (f : Frame α) (fs : List (Frame α)) :
    ∃ a, (plug t (f :: fs)).ptr = some a ∧ a ∈ ctxAddrs (f :: fs) := by
  induction fs generalizing t f with
  | nil => exact ⟨f.addr, by simp [plug], by simp [ctxAddrs]⟩
  | cons g gs ih =>
    obtain ⟨a, h1, h2⟩ := ih (f.fill t) g
    refine ⟨a, h1, ?_⟩
    rw [ctxAddrs]
    simp [h2]

theorem avl_plug_split {t : Shape α} {ctx : List (Frame α)} :
    HeightOK (plug t ctx) → Balanced (plug t ctx) →
      HeightOK t ∧ Balanced t ∧ CtxAVL t.ht ctx := by
  induction ctx generalizing t with
  | nil => intro h1 h2; exact ⟨h1, h2, trivial⟩
  | cons f fs ih =>
    intro h1 h2
    obtain ⟨k1, k2, k3⟩ := ih h1 h2
    rw [fill_ht] at k3
    cases f with
    | inLeft a v ht r =>
      obtain ⟨e1, e2, e3⟩ := k1
      obtain ⟨b1, b2, b3⟩ := k2
      exact ⟨e2, b2, e1, b1, e3, b3, k3⟩
    | inRight a l v ht =>
      obtain ⟨e1, e2, e3⟩ := k1
      obtain ⟨b1, b2, b3⟩ := k2
      refine ⟨e3, b3, ?_, ?_, e2, b2, k3⟩
      · simp only [Frame.height, Frame.sibling]; rw [e1, max_comm]
      · simp only [Frame.sibling]; rw [abs_sub_comm]; exact b1

theorem heightOK_plug {t : Shape α} {ctx : List (Frame α)} :
    HeightOK t → CtxAVL t.ht ctx → HeightOK (plug t ctx) := by
  induction ctx generalizing t with
  | nil => intro h _; exact h
  | cons f fs ih =>
    intro h1 h2
    obtain ⟨e1, e2, e3, e4, e5⟩ := h2
    apply ih
    · cases f with
      | inLeft a v ht r => exact ⟨e1, h1, e3⟩
      | inRight a l v ht =>
        refine ⟨?_, e3, h1⟩
        simp only [Frame.height, Frame.sibling] at e1; rw [e1, max_comm]
    · rw [fill_ht]; exact e5

theorem balanced_plug {t : Shape α} {ctx : List (Frame α)} :
    Balanced t → CtxAVL t.ht ctx → Balanced (plug t ctx) := by
  induction ctx generalizing t with
  | nil => intro h _; exact h
  | cons f fs ih =>
    intro h1 h2
    obtain ⟨e1, e2, e3, e4, e5⟩ := h2
    apply ih
    · cases f with
      | inLeft a v ht r => exact ⟨e2, h1, e4⟩
      | inRight a l v ht =>
        refine ⟨?_, e4, h1⟩
        simp only [Frame.sibling] at e2; rw [abs_sub_comm]; exact e2
    · rw [fill_ht]; exact e5

theorem heightOrZero_eq (t : BinarySearchTree α) (p : Option Nat) :
    t.heightOrZero p = hz t.store p := rfl

@[simp]
theorem hz_none (s : Nat → Option (BinaryTreeNode α)) : hz s none = some 0 := rfl

@[simp]
theorem hz_some (s : Nat → Option (BinaryTreeNode α)) (a : Nat) :
    hz s (some a) = (s a).map (fun n => n.treeHeight) := rfl

@[simp]
theorem write_store_same (t : BinarySearchTree α) (a : Nat) (n : BinaryTreeNode α) :
    (t.write a n).store a = some n := by
  simp [BinarySearchTree.write]

theorem write_store_ne (t : BinarySearchTree α) {a b : Nat} (n : BinaryTreeNode α) (h : b ≠ a) :
    (t.write a n).store b = t.store b := by
  simp [BinarySearchTree.write, Function.update_apply, h]

@[simp]
theorem write_root (t : BinarySearchTree α) (a : Nat) (n : BinaryTreeNode α) :
    (t.write a n).root = t.root := rfl

@[simp]
theorem write_fresh (t : BinarySearchTree α) (a : Nat) (n : BinaryTreeNode α) :
    (t.write a n).fresh = t.fresh := rfl

@[simp]
theorem write_nodeCount (t : BinarySearchTree α) (a : Nat) (n : BinaryTreeNode α) :
    (t.write a n).nodeCount = t.nodeCount := rfl

theorem hz_write (t : BinarySearchTree α) (a : Nat) (n : BinaryTreeNode α)
    (p : Option Nat) (h : p ≠ some a) : hz (t.write a n).store p = hz t.store p := by
  cases p with
  | none => rfl
  | some b =>
    have : b ≠ a := fun e => h (by rw [e])
    simp [write_store_ne, this]

theorem assign_some (t : BinarySearchTree α) (a : Nat) (f : BinaryTreeNode α → BinaryTreeNode α) :
    t.assign (some a) f = (t.store a).map (fun n => t.write a (f n)) := rfl

theorem deref_some (t : BinarySearchTree α) (a : Nat) : t.deref (some a) = t.store a := rfl

theorem getHeight_some (t : BinarySearchTree α) (a : Nat) :
    getHeight t (some a) = (t.store a).bind (fun n => (hz t.store n.rightChild).bind (fun r =>
      (hz t.store n.leftChild).bind (fun l => some (hgt l r)))) := by
  simp only [getHeight, deref_some, heightOrZero_eq, hgt]
  cases t.store a with
  | none => rfl
  | some n =>
    simp only [Option.bind_eq_bind, Option.some_bind]
    cases hz t.store n.rightChild with
    | none => rfl
    | some r =>
      cases hz t.store n.leftChild with
      | none => rfl
      | some l => simp only [Option.some_bind]; split_ifs <;> rfl

theorem hz_rep {s : Nat → Option (BinaryTreeNode α)} {par : Option Nat} {T : Shape α}
    (h : Rep s par T) : hz s T.ptr = some T.ht := by
  cases T with
  | nil => rfl
  | node a l v ht r => simp [h.1]

theorem rep_write {t : BinarySearchTree α} {par : Option Nat} {T : Shape α} {a : Nat}
    (n : BinaryTreeNode α) (h : a ∉ T.addrs) :
    Rep (t.write a n).store par T ↔ Rep t.store par T := by
  constructor
  · intro k
    exact k.congr (fun x hx => (write_store_ne t n (ne_of_mem_of_not_mem hx h)).symm)
  · intro k
    exact k.congr (fun x hx => write_store_ne t n (ne_of_mem_of_not_mem hx h))

theorem repCtx_write {t : BinarySearchTree α} {rp c : Option Nat} {ctx : List (Frame α)} {a : Nat}
    (n : BinaryTreeNode α) (h : a ∉ ctxAddrs ctx) :
    RepCtx (t.write a n).store rp c ctx ↔ RepCtx t.store rp c ctx := by
  constructor
  · intro k
    exact k.congrCtx (fun x hx => (write_store_ne t n (ne_of_mem_of_not_mem hx h)).symm)
  · intro k
    exact k.congrCtx (fun x hx => write_store_ne t n (ne_of_mem_of_not_mem hx h))

theorem ptr_mem {T : Shape α} {a : Nat} (h : T.ptr = some a) : a ∈ T.addrs := by
  cases T with
  | nil => simp at h
  | node b l v ht r => simp at h; simp [Shape.addrs, h]

theorem ptr_ne {T : Shape α} {a : Nat} (h : a ∉ T.addrs) : T.ptr ≠ some a :=
  fun e => h (ptr_mem e)

set_option maxHeartbeats 1000000 in
theorem rotateRight_spec {t : BinarySearchTree α} {ctx : List (Frame α)}
    {A B : Nat} {bl br ar : Shape α} {av bv : α} {ah bh : Int}
    (hrep : Rep t.store (ctxPtr none ctx) (node A (node B bl bv bh br) av ah ar))
    (hctx : RepCtx t.store none (some A) ctx)
    (hnd : ((node A (node B bl bv bh br) av ah ar).addrs ++ ctxAddrs ctx).Nodup)
    (hroot : t.root = (plug (node A (node B bl bv bh br) av ah ar) ctx).ptr) :
    ∃ t2, rotateRight t (some B) = some t2 ∧
      Rep t2.store (ctxPtr none ctx)
        (node B bl bv (hgt bl.ht (hgt br.ht ar.ht)) (node A br av (hgt br.ht ar.ht) ar)) ∧
      RepCtx t2.store none (some B) ctx ∧
      t2.root = (plug (node B bl bv (hgt bl.ht (hgt br.ht ar.ht)) (node A br av (hgt br.ht ar.ht) ar)) ctx).ptr ∧
      t2.fresh = t.fresh ∧ t2.nodeCount = t.nodeCount := by
  obtain ⟨hA, ⟨hB, hbo, hbi⟩, ho⟩ := hrep
  have hzl := hz_rep hbo
  have hzr := hz_rep ho
  simp only [ptr_node] at hA
  cases ctx with
  | nil =>
    simp only [plug, ptr_node, ctxPtr_nil] at hroot hA ⊢
    cases br with
    | nil =>
      simp [Shape.addrs, ctxAddrs, Frame.addr, Frame.sibling, List.nodup_append, List.nodup_cons] at hnd
      have hAB : A ≠ B := by
        exact Ne.symm (by simp only [ne_eq, hnd, not_false_eq_true])
      have hBA : B ≠ A := hAB.symm
      have hblA : A ∉ bl.addrs := by simp only [hnd, not_false_eq_true]
      have hblB : B ∉ bl.addrs := by simp only [hnd, not_false_eq_true]
      have harA : A ∉ ar.addrs := by simp only [hnd, not_false_eq_true]
      have harB : B ∉ ar.addrs := by simp only [hnd, not_false_eq_true]
      have pblA := ptr_ne hblA
      have pblB := ptr_ne hblB
      have parA := ptr_ne harA
      have parB := ptr_ne harB
      simp only [ptr_nil] at hB
      simp only [rotateRight, deref_some, hB, hroot, Option.bind_eq_bind, Option.some_bind,
        ne_eq, not_true_eq_false, not_false_eq_true, ite_true, ite_false, if_true, if_false,
        Option.some.injEq, reduceCtorEq, pblA, pblB, parA, parB]
      simp only [assign_some, deref_some, getHeight_some, write_store_same,
        write_store_ne, hz_write, hz_some, hz_none, write_root, write_fresh, write_nodeCount,
        Option.bind_eq_bind, Option.some_bind, Option.map_some', Option.pure_def,
        Option.bind_some, ne_eq, not_true_eq_false, not_false_eq_true, ite_true, ite_false,
        if_true, if_false, Option.some.injEq, reduceCtorEq, exists_eq_left', and_true, true_and,
        hzl, hzr, hroot,
        hA, hB, hAB, hBA, hblA, hblB, harA, harB, pblA, pblB, parA, parB]
      simp only [Rep, RepCtx, rep_write, repCtx_write, write_store_same, write_store_ne, ne_eq,
        not_false_eq_true, ptr_node, ptr_nil, ht_node, ht_nil, ctxPtr_cons, Frame.addr,
        and_self, and_true, true_and,
        hA, hB, hAB, hBA, hblA, hblB, harA, harB, hbo, ho]
    | node c cl cv ch cr =>
      obtain ⟨hc, hcl, hcr⟩ := hbi
      simp [Shape.addrs, ctxAddrs, Frame.addr, Frame.sibling, List.nodup_append, List.nodup_cons] at hnd
      have hAB : A ≠ B := by
        exact Ne.symm (by simp only [ne_eq, hnd, not_false_eq_true])
      have hBA : B ≠ A := hAB.symm
      have hAc : A ≠ c := by
        exact Ne.symm (by simp only [ne_eq, hnd, not_false_eq_true])
      have hcA : c ≠ A := hAc.symm
      have hBc : B ≠ c := by
        simp only [ne_eq, hnd, not_false_eq_true]
      have hcB : c ≠ B := hBc.symm
      have hblA : A ∉ bl.addrs := by simp only [hnd, not_false_eq_true]
      have hblB : B ∉ bl.addrs := by simp only [hnd, not_false_eq_true]
      have hblc : c ∉ bl.addrs := by simp only [hnd, not_false_eq_true]
      have harA : A ∉ ar.addrs := by simp only [hnd, not_false_eq_true]
      have harB : B ∉ ar.addrs := by simp only [hnd, not_false_eq_true]
      have harc : c ∉ ar.addrs := by simp only [hnd, not_false_eq_true]
      have hclA : A ∉ cl.addrs := by simp only [hnd, not_false_eq_true]
      have hclB : B ∉ cl.addrs := by simp only [hnd, not_false_eq_true]
      have hclc : c ∉ cl.addrs := by simp only [hnd, not_false_eq_true]
      have hcrA : A ∉ cr.addrs := by simp only [hnd, not_false_eq_true]
      have hcrB : B ∉ cr.addrs := by simp only [hnd, not_false_eq_true]
      have hcrc : c ∉ cr.addrs := by simp only [hnd, not_false_eq_true]
      have pblA := ptr_ne hblA
      have pblB := ptr_ne hblB
      have pblc := ptr_ne hblc
      have parA := ptr_ne harA
      have parB := ptr_ne harB
      have parc := ptr_ne harc
      simp only [ptr_node] at hB
      simp only [rotateRight, deref_some, hB, hroot, Option.bind_eq_bind, Option.some_bind,
        ne_eq, not_true_eq_false, not_false_eq_true, ite_true, ite_false, if_true, if_false,
        Option.some.injEq, reduceCtorEq, pblA, pblB, pblc, parA, parB, parc]
      simp only [assign_some, deref_some, getHeight_some, write_store_same,
        write_store_ne, hz_write, hz_some, hz_none, write_root, write_fresh, write_nodeCount,
        Option.bind_eq_bind, Option.some_bind, Option.map_some', Option.pure_def,
        Option.bind_some, ne_eq, not_true_eq_false, not_false_eq_true, ite_true, ite_false,
        if_true, if_false, Option.some.injEq, reduceCtorEq, exists_eq_left', and_true, true_and,
        hzl, hzr, hroot,
        hA, hB, hc, hAB, hBA, hAc, hcA, hBc, hcB, hblA, hblB, hblc, harA, harB, harc, hclA,
        hclB, hclc, hcrA, hcrB, hcrc, pblA, pblB, pblc, parA, parB, parc]
      simp only [Rep, RepCtx, rep_write, repCtx_write, write_store_same, write_store_ne, ne_eq,
        not_false_eq_true, ptr_node, ptr_nil, ht_node, ht_nil, ctxPtr_cons, Frame.addr,
        and_self, and_true, true_and,
        hA, hB, hc, hAB, hBA, hAc, hcA, hBc, hcB, hblA, hblB, hblc, harA, harB, harc, hclA,
        hclB, hclc, hcrA, hcrB, hcrc, hbo, ho, hcl, hcr]
  | cons f fs =>
    obtain ⟨r0, hr0, hr0mem⟩ := plug_ptr_mem (node A (node B bl bv bh br) av ah ar) f fs
    rw [hr0] at hroot
    rw [plug_ptr_cons _ (node A (node B bl bv bh br) av ah ar), hr0]
    have hAr0 : A ≠ r0 := by
      rintro rfl
      have := (List.nodup_append.1 hnd).2.2
      exact this (by simp [Shape.addrs]) hr0mem
    simp only [ctxPtr_cons] at hA ⊢
    cases f with
    | inLeft g gv gh gs =>
      obtain ⟨hg, hgs, hfs⟩ := hctx
      simp only [Frame.addr] at hA
      cases br with
      | nil =>
        simp [Shape.addrs, ctxAddrs, Frame.addr, Frame.sibling, List.nodup_append, List.nodup_cons] at hnd
        have hAB : A ≠ B := by
          exact Ne.symm (by simp only [ne_eq, hnd, not_false_eq_true])
        have hBA : B ≠ A := hAB.symm
        have hAg : A ≠ g := by
          simp only [ne_eq, hnd, not_false_eq_true]
        have hgA : g ≠ A := hAg.symm
        have hBg : B ≠ g := by
          simp only [ne_eq, hnd, not_false_eq_true]
        have hgB : g ≠ B := hBg.symm
        have hblA : A ∉ bl.addrs := by simp only [hnd, not_false_eq_true]
        have hblB : B ∉ bl.addrs := by simp only [hnd, not_false_eq_true]
        have hblg : g ∉ bl.addrs := by simp only [hnd, not_false_eq_true]
        have harA : A ∉ ar.addrs := by simp only [hnd, not_false_eq_true]
        have harB : B ∉ ar.addrs := by simp only [hnd, not_false_eq_true]
        have harg : g ∉ ar.addrs := by simp only [hnd, not_false_eq_true]
        have hgsA : A ∉ gs.addrs := by simp only [hnd, not_false_eq_true]
        have hgsB : B ∉ gs.addrs := by simp only [hnd, not_false_eq_true]
        have hgsg : g ∉ gs.addrs := by simp only [hnd, not_false_eq_true]
        have hfsA : A ∉ ctxAddrs fs := by simp only [hnd, not_false_eq_true]
        have hfsB : B ∉ ctxAddrs fs := by simp only [hnd, not_false_eq_true]
        have hfsg : g ∉ ctxAddrs fs := by simp only [hnd, not_false_eq_true]
        have pblA := ptr_ne hblA
        have pblB := ptr_ne hblB
        have pblg := ptr_ne hblg
        have parA := ptr_ne harA
        have parB := ptr_ne harB
        have parg := ptr_ne harg
        have pgsA := ptr_ne hgsA
        have pgsB := ptr_ne hgsB
        have pgsg := ptr_ne hgsg
        simp only [ptr_nil] at hB
        simp only [rotateRight, deref_some, hB, hg, hroot, Option.bind_eq_bind, Option.some_bind,
        ne_eq, not_true_eq_false, not_false_eq_true, ite_true, ite_false, if_true, if_false,
        Option.some.injEq, reduceCtorEq, hAr0, pblA, pblB, pblg, parA, parB, parg, pgsA, pgsB, pgsg]
        simp only [assign_some, deref_some, getHeight_some, write_store_same,
        write_store_ne, hz_write, hz_some, hz_none, write_root, write_fresh, write_nodeCount,
        Option.bind_eq_bind, Option.some_bind, Option.map_some', Option.pure_def,
        Option.bind_some, ne_eq, not_true_eq_false, not_false_eq_true, ite_true, ite_false,
        if_true, if_false, Option.some.injEq, reduceCtorEq, exists_eq_left', and_true, true_and,
        hzl, hzr, hroot,
        hA, hB, hg, hAB, hBA, hAg, hgA, hBg, hgB, hblA, hblB, hblg, harA, harB, harg, hgsA,
        hgsB, hgsg, hfsA, hfsB, hfsg, pblA, pblB, pblg, parA, parB, parg, pgsA, pgsB, pgsg]
        simp only [Rep, RepCtx, rep_write, repCtx_write, write_store_same, write_store_ne, ne_eq,
        not_false_eq_true, ptr_node, ptr_nil, ht_node, ht_nil, ctxPtr_cons, Frame.addr,
        and_self, and_true, true_and,
        hA, hB, hg, hAB, hBA, hAg, hgA, hBg, hgB, hblA, hblB, hblg, harA, harB, harg, hgsA,
        hgsB, hgsg, hfsA, hfsB, hfsg, hbo, ho, hgs, hfs]
      | node c cl cv ch cr =>
        obtain ⟨hc, hcl, hcr⟩ := hbi
        simp [Shape.addrs, ctxAddrs, Frame.addr, Frame.sibling, List.nodup_append, List.nodup_cons] at hnd
        have hAB : A ≠ B := by
          exact Ne.symm (by simp only [ne_eq, hnd, not_false_eq_true])
        have hBA : B ≠ A := hAB.symm
        have hAc : A ≠ c := by
          exact Ne.symm (by simp only [ne_eq, hnd, not_false_eq_true])
        have hcA : c ≠ A := hAc.symm
        have hAg : A ≠ g := by
          simp only [ne_eq, hnd, not_false_eq_true]
        have hgA : g ≠ A := hAg.symm
        have hBc : B ≠ c := by
          simp only [ne_eq, hnd, not_false_eq_true]
        have hcB : c ≠ B := hBc.symm
        have hBg : B ≠ g := by
          simp only [ne_eq, hnd, not_false_eq_true]
        have hgB : g ≠ B := hBg.symm
        have hcg : c ≠ g := by
          simp only [ne_eq, hnd, not_false_eq_true]
        have hgc : g ≠ c := hcg.symm
        have hblA : A ∉ bl.addrs := by simp only [hnd, not_false_eq_true]
        have hblB : B ∉ bl.addrs := by simp only [hnd, not_false_eq_true]
        have hblc : c ∉ bl.addrs := by simp only [hnd, not_false_eq_true]
        have hblg : g ∉ bl.addrs := by simp only [hnd, not_false_eq_true]
        have harA : A ∉ ar.addrs := by simp only [hnd, not_false_eq_true]
        have harB : B ∉ ar.addrs := by simp only [hnd, not_false_eq_true]
        have harc : c ∉ ar.addrs := by simp only [hnd, not_false_eq_true]
        have harg : g ∉ ar.addrs := by simp only [hnd, not_false_eq_true]
        have hclA : A ∉ cl.addrs := by simp only [hnd, not_false_eq_true]
        have hclB : B ∉ cl.addrs := by simp only [hnd, not_false_eq_true]
        have hclc : c ∉ cl.addrs := by simp only [hnd, not_false_eq_true]
        have hclg : g ∉ cl.addrs := by simp only [hnd, not_false_eq_true]
        have hcrA : A ∉ cr.addrs := by simp only [hnd, not_false_eq_true]
        have hcrB : B ∉ cr.addrs := by simp only [hnd, not_false_eq_true]
        have hcrc : c ∉ cr.addrs := by simp only [hnd, not_false_eq_true]
        have hcrg : g ∉ cr.addrs := by simp only [hnd, not_false_eq_true]
        have hgsA : A ∉ gs.addrs := by simp only [hnd, not_false_eq_true]
        have hgsB : B ∉ gs.addrs := by simp only [hnd, not_false_eq_true]
        have hgsc : c ∉ gs.addrs := by simp only [hnd, not_false_eq_true]
        have hgsg : g ∉ gs.addrs := by simp only [hnd, not_false_eq_true]
        have hfsA : A ∉ ctxAddrs fs := by simp only [hnd, not_false_eq_true]
        have hfsB : B ∉ ctxAddrs fs := by simp only [hnd, not_false_eq_true]
        have hfsc : c ∉ ctxAddrs fs := by simp only [hnd, not_false_eq_true]
        have hfsg : g ∉ ctxAddrs fs := by simp only [hnd, not_false_eq_true]
        have pblA := ptr_ne hblA
        have pblB := ptr_ne hblB
        have pblc := ptr_ne hblc
        have pblg := ptr_ne hblg
        have parA := ptr_ne harA
        have parB := ptr_ne harB
        have parc := ptr_ne harc
        have parg := ptr_ne harg
        have pgsA := ptr_ne hgsA
        have pgsB := ptr_ne hgsB
        have pgsc := ptr_ne hgsc
        have pgsg := ptr_ne hgsg
        simp only [ptr_node] at hB
        simp only [rotateRight, deref_some, hB, hg, hroot, Option.bind_eq_bind, Option.some_bind,
        ne_eq, not_true_eq_false, not_false_eq_true, ite_true, ite_false, if_true, if_false,
        Option.some.injEq, reduceCtorEq, hAr0, pblA, pblB, pblc, pblg, parA, parB, parc, parg, pgsA, pgsB, pgsc, pgsg]
        simp only [assign_some, deref_some, getHeight_some, write_store_same,
        write_store_ne, hz_write, hz_some, hz_none, write_root, write_fresh, write_nodeCount,
        Option.bind_eq_bind, Option.some_bind, Option.map_some', Option.pure_def,
        Option.bind_some, ne_eq, not_true_eq_false, not_false_eq_true, ite_true, ite_false,
        if_true, if_false, Option.some.injEq, reduceCtorEq, exists_eq_left', and_true, true_and,
        hzl, hzr, hroot,
        hA, hB, hc, hg, hAB, hBA, hAc, hcA, hAg, hgA, hBc, hcB, hBg, hgB, hcg, hgc, hblA, hblB,
        hblc, hblg, harA, harB, harc, harg, hclA, hclB, hclc, hclg, hcrA, hcrB, hcrc, hcrg,
        hgsA, hgsB, hgsc, hgsg, hfsA, hfsB, hfsc, hfsg, pblA, pblB, pblc, pblg, parA, parB,
        parc, parg, pgsA, pgsB, pgsc, pgsg]
        simp only [Rep, RepCtx, rep_write, repCtx_write, write_store_same, write_store_ne, ne_eq,
        not_false_eq_true, ptr_node, ptr_nil, ht_node, ht_nil, ctxPtr_cons, Frame.addr,
        and_self, and_true, true_and,
        hA, hB, hc, hg, hAB, hBA, hAc, hcA, hAg, hgA, hBc, hcB, hBg, hgB, hcg, hgc, hblA, hblB,
        hblc, hblg, harA, harB, harc, harg, hclA, hclB, hclc, hclg, hcrA, hcrB, hcrc, hcrg,
        hgsA, hgsB, hgsc, hgsg, hfsA, hfsB, hfsc, hfsg, hbo, ho, hcl, hcr, hgs, hfs]
    | inRight g gs gv gh =>
      obtain ⟨hg, hgs, hfs⟩ := hctx
      simp only [Frame.addr] at hA
      cases br with
      | nil =>
        simp [Shape.addrs, ctxAddrs, Frame.addr, Frame.sibling, List.nodup_append, List.nodup_cons] at hnd
        have hAB : A ≠ B := by
          exact Ne.symm (by simp only [ne_eq, hnd, not_false_eq_true])
        have hBA : B ≠ A := hAB.symm
        have hAg : A ≠ g := by
          simp only [ne_eq, hnd, not_false_eq_true]
        have hgA : g ≠ A := hAg.symm
        have hBg : B ≠ g := by
          simp only [ne_eq, hnd, not_false_eq_true]
        have hgB : g ≠ B := hBg.symm
        have hblA : A ∉ bl.addrs := by simp only [hnd, not_false_eq_true]
        have hblB : B ∉ bl.addrs := by simp only [hnd, not_false_eq_true]
        have hblg : g ∉ bl.addrs := by simp only [hnd, not_false_eq_true]
        have harA : A ∉ ar.addrs := by simp only [hnd, not_false_eq_true]
        have harB : B ∉ ar.addrs := by simp only [hnd, not_false_eq_true]
        have harg : g ∉ ar.addrs := by simp only [hnd, not_false_eq_true]
        have hgsA : A ∉ gs.addrs := by simp only [hnd, not_false_eq_true]
        have hgsB : B ∉ gs.addrs := by simp only [hnd, not_false_eq_true]
        have hgsg : g ∉ gs.addrs := by simp only [hnd, not_false_eq_true]
        have hfsA : A ∉ ctxAddrs fs := by simp only [hnd, not_false_eq_true]
        have hfsB : B ∉ ctxAddrs fs := by simp only [hnd, not_false_eq_true]
        have hfsg : g ∉ ctxAddrs fs := by simp only [hnd, not_false_eq_true]
        have pblA := ptr_ne hblA
        have pblB := ptr_ne hblB
        have pblg := ptr_ne hblg
        have parA := ptr_ne harA
        have parB := ptr_ne harB
        have parg := ptr_ne harg
        have pgsA := ptr_ne hgsA
        have pgsB := ptr_ne hgsB
        have pgsg := ptr_ne hgsg
        simp only [ptr_nil] at hB
        simp only [rotateRight, deref_some, hB, hg, hroot, Option.bind_eq_bind, Option.some_bind,
        ne_eq, not_true_eq_false, not_false_eq_true, ite_true, ite_false, if_true, if_false,
        Option.some.injEq, reduceCtorEq, hAr0, pblA, pblB, pblg, parA, parB, parg, pgsA, pgsB, pgsg]
        simp only [assign_some, deref_some, getHeight_some, write_store_same,
        write_store_ne, hz_write, hz_some, hz_none, write_root, write_fresh, write_nodeCount,
        Option.bind_eq_bind, Option.some_bind, Option.map_some', Option.pure_def,
        Option.bind_some, ne_eq, not_true_eq_false, not_false_eq_true, ite_true, ite_false,
        if_true, if_false, Option.some.injEq, reduceCtorEq, exists_eq_left', and_true, true_and,
        hzl, hzr, hroot,
        hA, hB, hg, hAB, hBA, hAg, hgA, hBg, hgB, hblA, hblB, hblg, harA, harB, harg, hgsA,
        hgsB, hgsg, hfsA, hfsB, hfsg, pblA, pblB, pblg, parA, parB, parg, pgsA, pgsB, pgsg]
        simp only [Rep, RepCtx, rep_write, repCtx_write, write_store_same, write_store_ne, ne_eq,
        not_false_eq_true, ptr_node, ptr_nil, ht_node, ht_nil, ctxPtr_cons, Frame.addr,
        and_self, and_true, true_and,
        hA, hB, hg, hAB, hBA, hAg, hgA, hBg, hgB, hblA, hblB, hblg, harA, harB, harg, hgsA,
        hgsB, hgsg, hfsA, hfsB, hfsg, hbo, ho, hgs, hfs]
      | node c cl cv ch cr =>
        obtain ⟨hc, hcl, hcr⟩ := hbi
        simp [Shape.addrs, ctxAddrs, Frame.addr, Frame.sibling, List.nodup_append, List.nodup_cons] at hnd
        have hAB : A ≠ B := by
          exact Ne.symm (by simp only [ne_eq, hnd, not_false_eq_true])
        have hBA : B ≠ A := hAB.symm
        have hAc : A ≠ c := by
          exact Ne.symm (by simp only [ne_eq, hnd, not_false_eq_true])
        have hcA : c ≠ A := hAc.symm
        have hAg : A ≠ g := by
          simp only [ne_eq, hnd, not_false_eq_true]
        have hgA : g ≠ A := hAg.symm
        have hBc : B ≠ c := by
          simp only [ne_eq, hnd, not_false_eq_true]
        have hcB : c ≠ B := hBc.symm
        have hBg : B ≠ g := by
          simp only [ne_eq, hnd, not_false_eq_true]
        have hgB : g ≠ B := hBg.symm
        have hcg : c ≠ g := by
          simp only [ne_eq, hnd, not_false_eq_true]
        have hgc : g ≠ c := hcg.symm
        have hblA : A ∉ bl.addrs := by simp only [hnd, not_false_eq_true]
        have hblB : B ∉ bl.addrs := by simp only [hnd, not_false_eq_true]
        have hblc : c ∉ bl.addrs := by simp only [hnd, not_false_eq_true]
        have hblg : g ∉ bl.addrs := by simp only [hnd, not_false_eq_true]
        have harA : A ∉ ar.addrs := by simp only [hnd, not_false_eq_true]
        have harB : B ∉ ar.addrs := by simp only [hnd, not_false_eq_true]
        have harc : c ∉ ar.addrs := by simp only [hnd, not_false_eq_true]
        have harg : g ∉ ar.addrs := by simp only [hnd, not_false_eq_true]
        have hclA : A ∉ cl.addrs := by simp only [hnd, not_false_eq_true]
        have hclB : B ∉ cl.addrs := by simp only [hnd, not_false_eq_true]
        have hclc : c ∉ cl.addrs := by simp only [hnd, not_false_eq_true]
        have hclg : g ∉ cl.addrs := by simp only [hnd, not_false_eq_true]
        have hcrA : A ∉ cr.addrs := by simp only [hnd, not_false_eq_true]
        have hcrB : B ∉ cr.addrs := by simp only [hnd, not_false_eq_true]
        have hcrc : c ∉ cr.addrs := by simp only [hnd, not_false_eq_true]
        have hcrg : g ∉ cr.addrs := by simp only [hnd, not_false_eq_true]
        have hgsA : A ∉ gs.addrs := by simp only [hnd, not_false_eq_true]
        have hgsB : B ∉ gs.addrs := by simp only [hnd, not_false_eq_true]
        have hgsc : c ∉ gs.addrs := by simp only [hnd, not_false_eq_true]
        have hgsg : g ∉ gs.addrs := by simp only [hnd, not_false_eq_true]
        have hfsA : A ∉ ctxAddrs fs := by simp only [hnd, not_false_eq_true]
        have hfsB : B ∉ ctxAddrs fs := by simp only [hnd, not_false_eq_true]
        have hfsc : c ∉ ctxAddrs fs := by simp only [hnd, not_false_eq_true]
        have hfsg : g ∉ ctxAddrs fs := by simp only [hnd, not_false_eq_true]
        have pblA := ptr_ne hblA
        have pblB := ptr_ne hblB
        have pblc := ptr_ne hblc
        have pblg := ptr_ne hblg
        have parA := ptr_ne harA
        have parB := ptr_ne harB
        have parc := ptr_ne harc
        have parg := ptr_ne harg
        have pgsA := ptr_ne hgsA
        have pgsB := ptr_ne hgsB
        have pgsc := ptr_ne hgsc
        have pgsg := ptr_ne hgsg
        simp only [ptr_node] at hB
        simp only [rotateRight, deref_some, hB, hg, hroot, Option.bind_eq_bind, Option.some_bind,
        ne_eq, not_true_eq_false, not_false_eq_true, ite_true, ite_false, if_true, if_false,
        Option.some.injEq, reduceCtorEq, hAr0, pblA, pblB, pblc, pblg, parA, parB, parc, parg, pgsA, pgsB, pgsc, pgsg]
        simp only [assign_some, deref_some, getHeight_some, write_store_same,
        write_store_ne, hz_write, hz_some, hz_none, write_root, write_fresh, write_nodeCount,
        Option.bind_eq_bind, Option.some_bind, Option.map_some', Option.pure_def,
        Option.bind_some, ne_eq, not_true_eq_false, not_false_eq_true, ite_true, ite_false,
        if_true, if_false, Option.some.injEq, reduceCtorEq, exists_eq_left', and_true, true_and,
        hzl, hzr, hroot,
        hA, hB, hc, hg, hAB, hBA, hAc, hcA, hAg, hgA, hBc, hcB, hBg, hgB, hcg, hgc, hblA, hblB,
        hblc, hblg, harA, harB, harc, harg, hclA, hclB, hclc, hclg, hcrA, hcrB, hcrc, hcrg,
        hgsA, hgsB, hgsc, hgsg, hfsA, hfsB, hfsc, hfsg, pblA, pblB, pblc, pblg, parA, parB,
        parc, parg, pgsA, pgsB, pgsc, pgsg]
        simp only [Rep, RepCtx, rep_write, repCtx_write, write_store_same, write_store_ne, ne_eq,
        not_false_eq_true, ptr_node, ptr_nil, ht_node, ht_nil, ctxPtr_cons, Frame.addr,
        and_self, and_true, true_and,
        hA, hB, hc, hg, hAB, hBA, hAc, hcA, hAg, hgA, hBc, hcB, hBg, hgB, hcg, hgc, hblA, hblB,
        hblc, hblg, harA, harB, harc, harg, hclA, hclB, hclc, hclg, hcrA, hcrB, hcrc, hcrg,
        hgsA, hgsB, hgsc, hgsg, hfsA, hfsB, hfsc, hfsg, hbo, ho, hcl, hcr, hgs, hfs]

set_option maxHeartbeats 1000000 in
theorem rotateLeft_spec {t : BinarySearchTree α} {ctx : List (Frame α)}
    {A B : Nat} {al bl br : Shape α} {av bv : α} {ah bh : Int}
    (hrep : Rep t.store (ctxPtr none ctx) (node A al av ah (node B bl bv bh br)))
    (hctx : RepCtx t.store none (some A) ctx)
    (hnd : ((node A al av ah (node B bl bv bh br)).addrs ++ ctxAddrs ctx).Nodup)
    (hroot : t.root = (plug (node A al av ah (node B bl bv bh br)) ctx).ptr) :
    ∃ t2, rotateLeft t (some B) = some t2 ∧
      Rep t2.store (ctxPtr none ctx)
        (node B (node A al av (hgt al.ht bl.ht) bl) bv (hgt (hgt al.ht bl.ht) br.ht) br) ∧
      RepCtx t2.store none (some B) ctx ∧
      t2.root = (plug (node B (node A al av (hgt al.ht bl.ht) bl) bv (hgt (hgt al.ht bl.ht) br.ht) br) ctx).ptr ∧
      t2.fresh = t.fresh ∧ t2.nodeCount = t.nodeCount := by
  obtain ⟨hA, ho, hB, hbi, hbo⟩ := hrep
  have hzl := hz_rep hbo
  have hzr := hz_rep ho
  simp only [ptr_node] at hA
  cases ctx with
  | nil =>
    simp only [plug, ptr_node, ctxPtr_nil] at hroot hA ⊢
    cases bl with
    | nil =>
      simp [Shape.addrs, ctxAddrs, Frame.addr, Frame.sibling, List.nodup_append, List.nodup_cons] at hnd
      have hAB : A ≠ B := by
        simp only [ne_eq, hnd, not_false_eq_true]
      have hBA : B ≠ A := hAB.symm
      have hbrA : A ∉ br.addrs := by simp only [hnd, not_false_eq_true]
      have hbrB : B ∉ br.addrs := by simp only [hnd, not_false_eq_true]
      have halA : A ∉ al.addrs := by simp only [hnd, not_false_eq_true]
      have halB : B ∉ al.addrs := by simp only [hnd, not_false_eq_true]
      have pbrA := ptr_ne hbrA
      have pbrB := ptr_ne hbrB
      have palA := ptr_ne halA
      have palB := ptr_ne halB
      simp only [ptr_nil] at hB
      simp only [rotateLeft, deref_some, hB, hroot, Option.bind_eq_bind, Option.some_bind,
        ne_eq, not_true_eq_false, not_false_eq_true, ite_true, ite_false, if_true, if_false,
        Option.some.injEq, reduceCtorEq, pbrA, pbrB, palA, palB]
      simp only [assign_some, deref_some, getHeight_some, write_store_same,
        write_store_ne, hz_write, hz_some, hz_none, write_root, write_fresh, write_nodeCount,
        Option.bind_eq_bind, Option.some_bind, Option.map_some', Option.pure_def,
        Option.bind_some, ne_eq, not_true_eq_false, not_false_eq_true, ite_true, ite_false,
        if_true, if_false, Option.some.injEq, reduceCtorEq, exists_eq_left', and_true, true_and,
        hzl, hzr, hroot,
        hA, hB, hAB, hBA, hbrA, hbrB, halA, halB, pbrA, pbrB, palA, palB]
      simp only [Rep, RepCtx, rep_write, repCtx_write, write_store_same, write_store_ne, ne_eq,
        not_false_eq_true, ptr_node, ptr_nil, ht_node, ht_nil, ctxPtr_cons, Frame.addr,
        and_self, and_true, true_and,
        hA, hB, hAB, hBA, hbrA, hbrB, halA, halB, hbo, ho]
    | node c cl cv ch cr =>
      obtain ⟨hc, hcl, hcr⟩ := hbi
      simp [Shape.addrs, ctxAddrs, Frame.addr, Frame.sibling, List.nodup_append, List.nodup_cons] at hnd
      have hAB : A ≠ B := by
        simp only [ne_eq, hnd, not_false_eq_true]
      have hBA : B ≠ A := hAB.symm
      have hAc : A ≠ c := by
        simp only [ne_eq, hnd, not_false_eq_true]
      have hcA : c ≠ A := hAc.symm
      have hBc : B ≠ c := by
        exact Ne.symm (by simp only [ne_eq, hnd, not_false_eq_true])
      have hcB : c ≠ B := hBc.symm
      have hbrA : A ∉ br.addrs := by simp only [hnd, not_false_eq_true]
      have hbrB : B ∉ br.addrs := by simp only [hnd, not_false_eq_true]
      have hbrc : c ∉ br.addrs := by simp only [hnd, not_false_eq_true]
      have halA : A ∉ al.addrs := by simp only [hnd, not_false_eq_true]
      have halB : B ∉ al.addrs := by simp only [hnd, not_false_eq_true]
      have halc : c ∉ al.addrs := by simp only [hnd, not_false_eq_true]
      have hclA : A ∉ cl.addrs := by simp only [hnd, not_false_eq_true]
      have hclB : B ∉ cl.addrs := by simp only [hnd, not_false_eq_true]
      have hclc : c ∉ cl.addrs := by simp only [hnd, not_false_eq_true]
      have hcrA : A ∉ cr.addrs := by simp only [hnd, not_false_eq_true]
      have hcrB : B ∉ cr.addrs := by simp only [hnd, not_false_eq_true]
      have hcrc : c ∉ cr.addrs := by simp only [hnd, not_false_eq_true]
      have pbrA := ptr_ne hbrA
      have pbrB := ptr_ne hbrB
      have pbrc := ptr_ne hbrc
      have palA := ptr_ne halA
      have palB := ptr_ne halB
      have palc := ptr_ne halc
      simp only [ptr_node] at hB
      simp only [rotateLeft, deref_some, hB, hroot, Option.bind_eq_bind, Option.some_bind,
        ne_eq, not_true_eq_false, not_false_eq_true, ite_true, ite_false, if_true, if_false,
        Option.some.injEq, reduceCtorEq, pbrA, pbrB, pbrc, palA, palB, palc]
      simp only [assign_some, deref_some, getHeight_some, write_store_same,
        write_store_ne, hz_write, hz_some, hz_none, write_root, write_fresh, write_nodeCount,
        Option.bind_eq_bind, Option.some_bind, Option.map_some', Option.pure_def,
        Option.bind_some, ne_eq, not_true_eq_false, not_false_eq_true, ite_true, ite_false,
        if_true, if_false, Option.some.injEq, reduceCtorEq, exists_eq_left', and_true, true_and,
        hzl, hzr, hroot,
        hA, hB, hc, hAB, hBA, hAc, hcA, hBc, hcB, hbrA, hbrB, hbrc, halA, halB, halc, hclA,
        hclB, hclc, hcrA, hcrB, hcrc, pbrA, pbrB, pbrc, palA, palB, palc]
      simp only [Rep, RepCtx, rep_write, repCtx_write, write_store_same, write_store_ne, ne_eq,
        not_false_eq_true, ptr_node, ptr_nil, ht_node, ht_nil, ctxPtr_cons, Frame.addr,
        and_self, and_true, true_and,
        hA, hB, hc, hAB, hBA, hAc, hcA, hBc, hcB, hbrA, hbrB, hbrc, halA, halB, halc, hclA,
        hclB, hclc, hcrA, hcrB, hcrc, hbo, ho, hcl, hcr]
  | cons f fs =>
    obtain ⟨r0, hr0, hr0mem⟩ := plug_ptr_mem (node A al av ah (node B bl bv bh br)) f fs
    rw [hr0] at hroot
    rw [plug_ptr_cons _ (node A al av ah (node B bl bv bh br)), hr0]
    have hAr0 : A ≠ r0 := by
      rintro rfl
      have := (List.nodup_append.1 hnd).2.2
      exact this (by simp [Shape.addrs]) hr0mem
    simp only [ctxPtr_cons] at hA ⊢
    cases f with
    | inLeft g gv gh gs =>
      obtain ⟨hg, hgs, hfs⟩ := hctx
      simp only [Frame.addr] at hA
      cases bl with
      | nil =>
        simp [Shape.addrs, ctxAddrs, Frame.addr, Frame.sibling, List.nodup_append, List.nodup_cons] at hnd
        have hAB : A ≠ B := by
          simp only [ne_eq, hnd, not_false_eq_true]
        have hBA : B ≠ A := hAB.symm
        have hAg : A ≠ g := by
          simp only [ne_eq, hnd, not_false_eq_true]
        have hgA : g ≠ A := hAg.symm
        have hBg : B ≠ g := by
          simp only [ne_eq, hnd, not_false_eq_true]
        have hgB : g ≠ B := hBg.symm
        have hbrA : A ∉ br.addrs := by simp only [hnd, not_false_eq_true]
        have hbrB : B ∉ br.addrs := by simp only [hnd, not_false_eq_true]
        have hbrg : g ∉ br.addrs := by simp only [hnd, not_false_eq_true]
        have halA : A ∉ al.addrs := by simp only [hnd, not_false_eq_true]
        have halB : B ∉ al.addrs := by simp only [hnd, not_false_eq_true]
        have halg : g ∉ al.addrs := by simp only [hnd, not_false_eq_true]
        have hgsA : A ∉ gs.addrs := by simp only [hnd, not_false_eq_true]
        have hgsB : B ∉ gs.addrs := by simp only [hnd, not_false_eq_true]
        have hgsg : g ∉ gs.addrs := by simp only [hnd, not_false_eq_true]
        have hfsA : A ∉ ctxAddrs fs := by simp only [hnd, not_false_eq_true]
        have hfsB : B ∉ ctxAddrs fs := by simp only [hnd, not_false_eq_true]
        have hfsg : g ∉ ctxAddrs fs := by simp only [hnd, not_false_eq_true]
        have pbrA := ptr_ne hbrA
        have pbrB := ptr_ne hbrB
        have pbrg := ptr_ne hbrg
        have palA := ptr_ne halA
        have palB := ptr_ne halB
        have palg := ptr_ne halg
        have pgsA := ptr_ne hgsA
        have pgsB := ptr_ne hgsB
        have pgsg := ptr_ne hgsg
        simp only [ptr_nil] at hB
        simp only [rotateLeft, deref_some, hB, hg, hroot, Option.bind_eq_bind, Option.some_bind,
        ne_eq, not_true_eq_false, not_false_eq_true, ite_true, ite_false, if_true, if_false,
        Option.some.injEq, reduceCtorEq, hAr0, pbrA, pbrB, pbrg, palA, palB, palg, pgsA, pgsB, pgsg]
        simp only [assign_some, deref_some, getHeight_some, write_store_same,
        write_store_ne, hz_write, hz_some, hz_none, write_root, write_fresh, write_nodeCount,
        Option.bind_eq_bind, Option.some_bind, Option.map_some', Option.pure_def,
        Option.bind_some, ne_eq, not_true_eq_false, not_false_eq_true, ite_true, ite_false,
        if_true, if_false, Option.some.injEq, reduceCtorEq, exists_eq_left', and_true, true_and,
        hzl, hzr, hroot,
        hA, hB, hg, hAB, hBA, hAg, hgA, hBg, hgB, hbrA, hbrB, hbrg, halA, halB, halg, hgsA,
        hgsB, hgsg, hfsA, hfsB, hfsg, pbrA, pbrB, pbrg, palA, palB, palg, pgsA, pgsB, pgsg]
        simp only [Rep, RepCtx, rep_write, repCtx_write, write_store_same, write_store_ne, ne_eq,
        not_false_eq_true, ptr_node, ptr_nil, ht_node, ht_nil, ctxPtr_cons, Frame.addr,
        and_self, and_true, true_and,
        hA, hB, hg, hAB, hBA, hAg, hgA, hBg, hgB, hbrA, hbrB, hbrg, halA, halB, halg, hgsA,
        hgsB, hgsg, hfsA, hfsB, hfsg, hbo, ho, hgs, hfs]
      | node c cl cv ch cr =>
        obtain ⟨hc, hcl, hcr⟩ := hbi
        simp [Shape.addrs, ctxAddrs, Frame.addr, Frame.sibling, List.nodup_append, List.nodup_cons] at hnd
        have hAB : A ≠ B := by
          simp only [ne_eq, hnd, not_false_eq_true]
        have hBA : B ≠ A := hAB.symm
        have hAc : A ≠ c := by
          simp only [ne_eq, hnd, not_false_eq_true]
        have hcA : c ≠ A := hAc.symm
        have hAg : A ≠ g := by
          simp only [ne_eq, hnd, not_false_eq_true]
        have hgA : g ≠ A := hAg.symm
        have hBc : B ≠ c := by
          exact Ne.symm (by simp only [ne_eq, hnd, not_false_eq_true])
        have hcB : c ≠ B := hBc.symm
        have hBg : B ≠ g := by
          simp only [ne_eq, hnd, not_false_eq_true]
        have hgB : g ≠ B := hBg.symm
        have hcg : c ≠ g := by
          simp only [ne_eq, hnd, not_false_eq_true]
        have hgc : g ≠ c := hcg.symm
        have hbrA : A ∉ br.addrs := by simp only [hnd, not_false_eq_true]
        have hbrB : B ∉ br.addrs := by simp only [hnd, not_false_eq_true]
        have hbrc : c ∉ br.addrs := by simp only [hnd, not_false_eq_true]
        have hbrg : g ∉ br.addrs := by simp only [hnd, not_false_eq_true]
        have halA : A ∉ al.addrs := by simp only [hnd, not_false_eq_true]
        have halB : B ∉ al.addrs := by simp only [hnd, not_false_eq_true]
        have halc : c ∉ al.addrs := by simp only [hnd, not_false_eq_true]
        have halg : g ∉ al.addrs := by simp only [hnd, not_false_eq_true]
        have hclA : A ∉ cl.addrs := by simp only [hnd, not_false_eq_true]
        have hclB : B ∉ cl.addrs := by simp only [hnd, not_false_eq_true]
        have hclc : c ∉ cl.addrs := by simp only [hnd, not_false_eq_true]
        have hclg : g ∉ cl.addrs := by simp only [hnd, not_false_eq_true]
        have hcrA : A ∉ cr.addrs := by simp only [hnd, not_false_eq_true]
        have hcrB : B ∉ cr.addrs := by simp only [hnd, not_false_eq_true]
        have hcrc : c ∉ cr.addrs := by simp only [hnd, not_false_eq_true]
        have hcrg : g ∉ cr.addrs := by simp only [hnd, not_false_eq_true]
        have hgsA : A ∉ gs.addrs := by simp only [hnd, not_false_eq_true]
        have hgsB : B ∉ gs.addrs := by simp only [hnd, not_false_eq_true]
        have hgsc : c ∉ gs.addrs := by simp only [hnd, not_false_eq_true]
        have hgsg : g ∉ gs.addrs := by simp only [hnd, not_false_eq_true]
        have hfsA : A ∉ ctxAddrs fs := by simp only [hnd, not_false_eq_true]
        have hfsB : B ∉ ctxAddrs fs := by simp only [hnd, not_false_eq_true]
        have hfsc : c ∉ ctxAddrs fs := by simp only [hnd, not_false_eq_true]
        have hfsg : g ∉ ctxAddrs fs := by simp only [hnd, not_false_eq_true]
        have pbrA := ptr_ne hbrA
        have pbrB := ptr_ne hbrB
        have pbrc := ptr_ne hbrc
        have pbrg := ptr_ne hbrg
        have palA := ptr_ne halA
        have palB := ptr_ne halB
        have palc := ptr_ne halc
        have palg := ptr_ne halg
        have pgsA := ptr_ne hgsA
        have pgsB := ptr_ne hgsB
        have pgsc := ptr_ne hgsc
        have pgsg := ptr_ne hgsg
        simp only [ptr_node] at hB
        simp only [rotateLeft, deref_some, hB, hg, hroot, Option.bind_eq_bind, Option.some_bind,
        ne_eq, not_true_eq_false, not_false_eq_true, ite_true, ite_false, if_true, if_false,
        Option.some.injEq, reduceCtorEq, hAr0, pbrA, pbrB, pbrc, pbrg, palA, palB, palc, palg, pgsA, pgsB, pgsc, pgsg]
        simp only [assign_some, deref_some, getHeight_some, write_store_same,
        write_store_ne, hz_write, hz_some, hz_none, write_root, write_fresh, write_nodeCount,
        Option.bind_eq_bind, Option.some_bind, Option.map_some', Option.pure_def,
        Option.bind_some, ne_eq, not_true_eq_false, not_false_eq_true, ite_true, ite_false,
        if_true, if_false, Option.some.injEq, reduceCtorEq, exists_eq_left', and_true, true_and,
        hzl, hzr, hroot,
        hA, hB, hc, hg, hAB, hBA, hAc, hcA, hAg, hgA, hBc, hcB, hBg, hgB, hcg, hgc, hbrA, hbrB,
        hbrc, hbrg, halA, halB, halc, halg, hclA, hclB, hclc, hclg, hcrA, hcrB, hcrc, hcrg,
        hgsA, hgsB, hgsc, hgsg, hfsA, hfsB, hfsc, hfsg, pbrA, pbrB, pbrc, pbrg, palA, palB,
        palc, palg, pgsA, pgsB, pgsc, pgsg]
        simp only [Rep, RepCtx, rep_write, repCtx_write, write_store_same, write_store_ne, ne_eq,
        not_false_eq_true, ptr_node, ptr_nil, ht_node, ht_nil, ctxPtr_cons, Frame.addr,
        and_self, and_true, true_and,
        hA, hB, hc, hg, hAB, hBA, hAc, hcA, hAg, hgA, hBc, hcB, hBg, hgB, hcg, hgc, hbrA, hbrB,
        hbrc, hbrg, halA, halB, halc, halg, hclA, hclB, hclc, hclg, hcrA, hcrB, hcrc, hcrg,
        hgsA, hgsB, hgsc, hgsg, hfsA, hfsB, hfsc, hfsg, hbo, ho, hcl, hcr, hgs, hfs]
    | inRight g gs gv gh =>
      obtain ⟨hg, hgs, hfs⟩ := hctx
      simp only [Frame.addr] at hA
      cases bl with
      | nil =>
        simp [Shape.addrs, ctxAddrs, Frame.addr, Frame.sibling, List.nodup_append, List.nodup_cons] at hnd
        have hAB : A ≠ B := by
          simp only [ne_eq, hnd, not_false_eq_true]
        have hBA : B ≠ A := hAB.symm
        have hAg : A ≠ g := by
          simp only [ne_eq, hnd, not_false_eq_true]
        have hgA : g ≠ A := hAg.symm
        have hBg : B ≠ g := by
          simp only [ne_eq, hnd, not_false_eq_true]
        have hgB : g ≠ B := hBg.symm
        have hbrA : A ∉ br.addrs := by simp only [hnd, not_false_eq_true]
        have hbrB : B ∉ br.addrs := by simp only [hnd, not_false_eq_true]
        have hbrg : g ∉ br.addrs := by simp only [hnd, not_false_eq_true]
        have halA : A ∉ al.addrs := by simp only [hnd, not_false_eq_true]
        have halB : B ∉ al.addrs := by simp only [hnd, not_false_eq_true]
        have halg : g ∉ al.addrs := by simp only [hnd, not_false_eq_true]
        have hgsA : A ∉ gs.addrs := by simp only [hnd, not_false_eq_true]
        have hgsB : B ∉ gs.addrs := by simp only [hnd, not_false_eq_true]
        have hgsg : g ∉ gs.addrs := by simp only [hnd, not_false_eq_true]
        have hfsA : A ∉ ctxAddrs fs := by simp only [hnd, not_false_eq_true]
        have hfsB : B ∉ ctxAddrs fs := by simp only [hnd, not_false_eq_true]
        have hfsg : g ∉ ctxAddrs fs := by simp only [hnd, not_false_eq_true]
        have pbrA := ptr_ne hbrA
        have pbrB := ptr_ne hbrB
        have pbrg := ptr_ne hbrg
        have palA := ptr_ne halA
        have palB := ptr_ne halB
        have palg := ptr_ne halg
        have pgsA := ptr_ne hgsA
        have pgsB := ptr_ne hgsB
        have pgsg := ptr_ne hgsg
        simp only [ptr_nil] at hB
        simp only [rotateLeft, deref_some, hB, hg, hroot, Option.bind_eq_bind, Option.some_bind,
        ne_eq, not_true_eq_false, not_false_eq_true, ite_true, ite_false, if_true, if_false,
        Option.some.injEq, reduceCtorEq, hAr0, pbrA, pbrB, pbrg, palA, palB, palg, pgsA, pgsB, pgsg]
        simp only [assign_some, deref_some, getHeight_some, write_store_same,
        write_store_ne, hz_write, hz_some, hz_none, write_root, write_fresh, write_nodeCount,
        Option.bind_eq_bind, Option.some_bind, Option.map_some', Option.pure_def,
        Option.bind_some, ne_eq, not_true_eq_false, not_false_eq_true, ite_true, ite_false,
        if_true, if_false, Option.some.injEq, reduceCtorEq, exists_eq_left', and_true, true_and,
        hzl, hzr, hroot,
        hA, hB, hg, hAB, hBA, hAg, hgA, hBg, hgB, hbrA, hbrB, hbrg, halA, halB, halg, hgsA,
        hgsB, hgsg, hfsA, hfsB, hfsg, pbrA, pbrB, pbrg, palA, palB, palg, pgsA, pgsB, pgsg]
        simp only [Rep, RepCtx, rep_write, repCtx_write, write_store_same, write_store_ne, ne_eq,
        not_false_eq_true, ptr_node, ptr_nil, ht_node, ht_nil, ctxPtr_cons, Frame.addr,
        and_self, and_true, true_and,
        hA, hB, hg, hAB, hBA, hAg, hgA, hBg, hgB, hbrA, hbrB, hbrg, halA, halB, halg, hgsA,
        hgsB, hgsg, hfsA, hfsB, hfsg, hbo, ho, hgs, hfs]
      | node c cl cv ch cr =>
        obtain ⟨hc, hcl, hcr⟩ := hbi
        simp [Shape.addrs, ctxAddrs, Frame.addr, Frame.sibling, List.nodup_append, List.nodup_cons] at hnd
        have hAB : A ≠ B := by
          simp only [ne_eq, hnd, not_false_eq_true]
        have hBA : B ≠ A := hAB.symm
        have hAc : A ≠ c := by
          simp only [ne_eq, hnd, not_false_eq_true]
        have hcA : c ≠ A := hAc.symm
        have hAg : A ≠ g := by
          simp only [ne_eq, hnd, not_false_eq_true]
        have hgA : g ≠ A := hAg.symm
        have hBc : B ≠ c := by
          exact Ne.symm (by simp only [ne_eq, hnd, not_false_eq_true])
        have hcB : c ≠ B := hBc.symm
        have hBg : B ≠ g := by
          simp only [ne_eq, hnd, not_false_eq_true]
        have hgB : g ≠ B := hBg.symm
        have hcg : c ≠ g := by
          simp only [ne_eq, hnd, not_false_eq_true]
        have hgc : g ≠ c := hcg.symm
        have hbrA : A ∉ br.addrs := by simp only [hnd, not_false_eq_true]
        have hbrB : B ∉ br.addrs := by simp only [hnd, not_false_eq_true]
        have hbrc : c ∉ br.addrs := by simp only [hnd, not_false_eq_true]
        have hbrg : g ∉ br.addrs := by simp only [hnd, not_false_eq_true]
        have halA : A ∉ al.addrs := by simp only [hnd, not_false_eq_true]
        have halB : B ∉ al.addrs := by simp only [hnd, not_false_eq_true]
        have halc : c ∉ al.addrs := by simp only [hnd, not_false_eq_true]
        have halg : g ∉ al.addrs := by simp only [hnd, not_false_eq_true]
        have hclA : A ∉ cl.addrs := by simp only [hnd, not_false_eq_true]
        have hclB : B ∉ cl.addrs := by simp only [hnd, not_false_eq_true]
        have hclc : c ∉ cl.addrs := by simp only [hnd, not_false_eq_true]
        have hclg : g ∉ cl.addrs := by simp only [hnd, not_false_eq_true]
        have hcrA : A ∉ cr.addrs := by simp only [hnd, not_false_eq_true]
        have hcrB : B ∉ cr.addrs := by simp only [hnd, not_false_eq_true]
        have hcrc : c ∉ cr.addrs := by simp only [hnd, not_false_eq_true]
        have hcrg : g ∉ cr.addrs := by simp only [hnd, not_false_eq_true]
        have hgsA : A ∉ gs.addrs := by simp only [hnd, not_false_eq_true]
        have hgsB : B ∉ gs.addrs := by simp only [hnd, not_false_eq_true]
        have hgsc : c ∉ gs.addrs := by simp only [hnd, not_false_eq_true]
        have hgsg : g ∉ gs.addrs := by simp only [hnd, not_false_eq_true]
        have hfsA : A ∉ ctxAddrs fs := by simp only [hnd, not_false_eq_true]
        have hfsB : B ∉ ctxAddrs fs := by simp only [hnd, not_false_eq_true]
        have hfsc : c ∉ ctxAddrs fs := by simp only [hnd, not_false_eq_true]
        have hfsg : g ∉ ctxAddrs fs := by simp only [hnd, not_false_eq_true]
        have pbrA := ptr_ne hbrA
        have pbrB := ptr_ne hbrB
        have pbrc := ptr_ne hbrc
        have pbrg := ptr_ne hbrg
        have palA := ptr_ne halA
        have palB := ptr_ne halB
        have palc := ptr_ne halc
        have palg := ptr_ne halg
        have pgsA := ptr_ne hgsA
        have pgsB := ptr_ne hgsB
        have pgsc := ptr_ne hgsc
        have pgsg := ptr_ne hgsg
        simp only [ptr_node] at hB
        simp only [rotateLeft, deref_some, hB, hg, hroot, Option.bind_eq_bind, Option.some_bind,
        ne_eq, not_true_eq_false, not_false_eq_true, ite_true, ite_false, if_true, if_false,
        Option.some.injEq, reduceCtorEq, hAr0, pbrA, pbrB, pbrc, pbrg, palA, palB, palc, palg, pgsA, pgsB, pgsc, pgsg]
        simp only [assign_some, deref_some, getHeight_some, write_store_same,
        write_store_ne, hz_write, hz_some, hz_none, write_root, write_fresh, write_nodeCount,
        Option.bind_eq_bind, Option.some_bind, Option.map_some', Option.pure_def,
        Option.bind_some, ne_eq, not_true_eq_false, not_false_eq_true, ite_true, ite_false,
        if_true, if_false, Option.some.injEq, reduceCtorEq, exists_eq_left', and_true, true_and,
        hzl, hzr, hroot,
        hA, hB, hc, hg, hAB, hBA, hAc, hcA, hAg, hgA, hBc, hcB, hBg, hgB, hcg, hgc, hbrA, hbrB,
        hbrc, hbrg, halA, halB, halc, halg, hclA, hclB, hclc, hclg, hcrA, hcrB, hcrc, hcrg,
        hgsA, hgsB, hgsc, hgsg, hfsA, hfsB, hfsc, hfsg, pbrA, pbrB, pbrc, pbrg, palA, palB,
        palc, palg, pgsA, pgsB, pgsc, pgsg]
        simp only [Rep, RepCtx, rep_write, repCtx_write, write_store_same, write_store_ne, ne_eq,
        not_false_eq_true, ptr_node, ptr_nil, ht_node, ht_nil, ctxPtr_cons, Frame.addr,
        and_self, and_true, true_and,
        hA, hB, hc, hg, hAB, hBA, hAc, hcA, hAg, hgA, hBc, hcB, hBg, hgB, hcg, hgc, hbrA, hbrB,
        hbrc, hbrg, halA, halB, halc, halg, hclA, hclB, hclc, hclg, hcrA, hcrB, hcrc, hcrg,
        hgsA, hgsB, hgsc, hgsg, hfsA, hfsB, hfsc, hfsg, hbo, ho, hcl, hcr, hgs, hfs]

theorem findLoop_spec {cmp : α → α → Int} (hc : StrictTotal cmp) {t : BinarySearchTree α}
    {item : α} (sub : Shape α) :
    ∀ (ctx : List (Frame α)) (k : Nat) (par0 : Option Nat),
      Rep t.store (ctxPtr none ctx) sub → BST cmp sub →
      (∀ x ∈ ctxBefore ctx, cmp x item = -1) → (∀ x ∈ ctxAfter ctx, cmp item x = -1) →
      HeadFits cmp item ctx →
      sub.depth < k → (sub = nil → par0 = ctxPtr none ctx) →
      ∃ sub2 ctx2, plug sub2 ctx2 = plug sub ctx ∧
        ((∃ a l v h r, sub2 = node a l v h r ∧ cmp v item = 0 ∧
            findLoop cmp t item k sub.ptr par0 = some (some a)) ∨
         (sub2 = nil ∧ findLoop cmp t item k sub.ptr par0 = some (ctxPtr none ctx2) ∧
            (∀ x ∈ ctxBefore ctx2, cmp x item = -1) ∧ (∀ x ∈ ctxAfter ctx2, cmp item x = -1) ∧
            HeadFits cmp item ctx2)) := by
  induction sub with
  | nil =>
    intro ctx k par0 _ _ hb ha hf hk hp
    cases k with
    | zero => simp at hk
    | succ k =>
      refine ⟨nil, ctx, rfl, Or.inr ⟨rfl, ?_, hb, ha, hf⟩⟩
      simp [findLoop, hp rfl]
  | node a l v h r ihl ihr =>
    intro ctx k par0 hrep hbst hb ha hf hk _
    cases k with
    | zero => simp at hk
    | succ k =>
      obtain ⟨h1, h2, h3⟩ := hrep
      obtain ⟨b1, b2, b3, b4⟩ := hbst
      simp only [Shape.depth] at hk
      by_cases e0 : cmp v item = 0
      · refine ⟨node a l v h r, ctx, rfl, Or.inl ⟨a, l, v, h, r, rfl, e0, ?_⟩⟩
        simp [findLoop, h1, e0]
      · by_cases e1 : cmp v item = 1
        · have hiv : cmp item v = -1 := (hc.flip v item).1 e1
          obtain ⟨sub2, ctx2, hp, hres⟩ := ihl (Frame.inLeft a v h r :: ctx) k (some a)
            (by simpa using h2) b3 (by simpa [ctxBefore] using hb)
            (by
              intro x hx
              simp only [ctxAfter, List.cons_append, List.mem_cons, List.mem_append] at hx
              rcases hx with rfl | hx | hx
              · exact hiv
              · exact hc.trans _ _ _ hiv (b2 x hx)
              · exact ha x hx)
            ⟨e0, e1⟩ (by omega) (by intro _; rfl)
          refine ⟨sub2, ctx2, by rw [hp]; rfl, ?_⟩
          simpa [findLoop, h1, e0, e1] using hres
        · have hvi : cmp v item = -1 := by
            rcases hc.range v item with h | h | h
            · exact h
            · exact absurd h e0
            · exact absurd h e1
          obtain ⟨sub2, ctx2, hp, hres⟩ := ihr (Frame.inRight a l v h :: ctx) k (some a)
            (by simpa using h3) b4
            (by
              intro x hx
              simp only [ctxBefore, List.mem_append, List.mem_singleton] at hx
              rcases hx with hx | hx | rfl
              · exact hb x hx
              · exact hc.trans _ _ _ (b1 x hx) hvi
              · exact hvi)
            (by simpa [ctxAfter] using ha)
            ⟨e0, e1⟩ (by omega) (by intro _; rfl)
          refine ⟨sub2, ctx2, by rw [hp]; rfl, ?_⟩
          simpa [findLoop, h1, e0, e1] using hres

theorem plug_ptr_congr {t1 t2 : Shape α} (ctx : List (Frame α)) (h : t1.ptr = t2.ptr) :
    (plug t1 ctx).ptr = (plug t2 ctx).ptr := by
  cases ctx with
  | nil => exact h
  | cons f fs => exact plug_ptr_cons _ _ f fs

theorem values_plug_congr {t1 t2 : Shape α} (ctx : List (Frame α)) (h : t1.values = t2.values) :
    (plug t1 ctx).values = (plug t2 ctx).values := by
  rw [values_plug, values_plug, h]

theorem addrs_plug_congr {t1 t2 : Shape α} (ctx : List (Frame α)) (h : t1.addrs.Perm t2.addrs) :
    (plug t1 ctx).addrs.Perm (plug t2 ctx).addrs :=
  (addrs_plug t1 ctx).trans ((List.Perm.append_right _ h).trans (addrs_plug t2 ctx).symm)

theorem insertLoop_root {t : BinarySearchTree α} {a : Nat} {n : BinaryTreeNode α} (k : Nat)
    (pre pp : Option Nat) (ha : t.store a = some n) (hp : n.parent = none) :
    insertLoop (k + 1) t (some a) pre pp = some t := by
  simp [insertLoop, deref_some, ha, hp]

theorem insertLoop_balanced {t : BinarySearchTree α} {a A : Nat} {n x : BinaryTreeNode α}
    {rh lh : Int} (k : Nat) (pre pp : Option Nat) (ha : t.store a = some n)
    (hp : n.parent = some A) (hA : t.store A = some x)
    (hr : hz t.store x.rightChild = some rh) (hl : hz t.store x.leftChild = some lh)
    (hb : ¬(rh - lh < -1 ∨ rh - lh > 1)) :
    insertLoop (k + 1) t (some a) pre pp =
      insertLoop k (t.write A { x with treeHeight := hgt lh rh }) (some A) (some a) pre := by
  simp [insertLoop, deref_some, ha, hp, hA, heightOrZero_eq, hr, hl, hb, getHeight_some,
    assign_some]

theorem insertLoop_unbalanced {t : BinarySearchTree α} {a A : Nat} {n x : BinaryTreeNode α}
    {rh lh : Int} (k : Nat) (pre pp : Option Nat) (ha : t.store a = some n)
    (hp : n.parent = some A) (hA : t.store A = some x)
    (hr : hz t.store x.rightChild = some rh) (hl : hz t.store x.leftChild = some lh)
    (hb : rh - lh < -1 ∨ rh - lh > 1) :
    insertLoop (k + 1) t (some a) pre pp = insertRebalance t (some A) (some a) pre := by
  simp [insertLoop, deref_some, ha, hp, hA, heightOrZero_eq, hr, hl, hb]

theorem insertRebalance_LL {t : BinarySearchTree α} {a A : Nat} {n x : BinaryTreeNode α}
    {pp : Option Nat} (hA : t.store A = some x) (hx : x.leftChild = some a)
    (ha : t.store a = some n) (hn : n.leftChild = pp) :
    insertRebalance t (some A) (some a) pp = rotateRight t (some a) := by
  simp [insertRebalance, deref_some, hA, hx, ha, hn]

theorem insertRebalance_LR {t : BinarySearchTree α} {a A : Nat} {n x : BinaryTreeNode α}
    {pp : Option Nat} (hA : t.store A = some x) (hx : x.leftChild = some a)
    (ha : t.store a = some n) (hn : n.leftChild ≠ pp) (hn2 : n.rightChild = pp) :
    insertRebalance t (some A) (some a) pp = (rotateLeft t pp).bind (fun t2 => rotateRight t2 pp) := by
  simp [insertRebalance, deref_some, hA, hx, ha, hn, hn2]

theorem insertRebalance_RL {t : BinarySearchTree α} {a A : Nat} {n x : BinaryTreeNode α}
    {pp : Option Nat} (hA : t.store A = some x) (hx : x.leftChild ≠ some a)
    (hx2 : x.rightChild = some a)
    (ha : t.store a = some n) (hn : n.leftChild = pp) :
    insertRebalance t (some A) (some a) pp = (rotateRight t pp).bind (fun t2 => rotateLeft t2 pp) := by
  simp [insertRebalance, deref_some, hA, hx, hx2, ha, hn]

theorem insertRebalance_RR {t : BinarySearchTree α} {a A : Nat} {n x : BinaryTreeNode α}
    {pp : Option Nat} (hA : t.store A = some x) (hx : x.leftChild ≠ some a)
    (hx2 : x.rightChild = some a)
    (ha : t.store a = some n) (hn : n.leftChild ≠ pp) (hn2 : n.rightChild = pp) :
    insertRebalance t (some A) (some a) pp = rotateLeft t (some a) := by
  simp [insertRebalance, deref_some, hA, hx, hx2, ha, hn, hn2]

theorem addrs_fill (f : Frame α) (t : Shape α) (fs : List (Frame α)) :
    ((f.fill t).addrs ++ ctxAddrs fs).Perm (t.addrs ++ ctxAddrs (f :: fs)) := by
  cases f with
  | inLeft a v ht r =>
    simp only [Frame.fill, Shape.addrs, ctxAddrs, Frame.addr, Frame.sibling, List.append_assoc,
      List.cons_append]
    exact List.Perm.refl _
  | inRight a l v ht =>
    simp only [Frame.fill, Shape.addrs, ctxAddrs, Frame.addr, Frame.sibling, List.append_assoc,
      List.cons_append]
    refine List.perm_middle.trans (List.Perm.trans ?_ List.perm_middle.symm)
    exact List.Perm.cons _ (List.perm_append_comm_assoc _ _ _)

theorem Kept.trans {t3 t2 t : BinarySearchTree α} {T3 T2 T : Shape α}
    (h1 : Kept t3 T3 t2 T2) (h2 : Kept t2 T2 t T) : Kept t3 T3 t T := by
  obtain ⟨a1, a2, a3, a4, a5, a6⟩ := h1
  obtain ⟨b1, b2, b3, b4, b5, b6⟩ := h2
  exact ⟨a1, a2, a3.trans b3, a4.trans b4, a5.trans b5, a6.trans b6⟩

theorem rotateRight_kept {t : BinarySearchTree α} {fs : List (Frame α)}
    {A B : Nat} {bl br ar : Shape α} {av bv : α} {ah bh : Int}
    (hrep : Rep t.store (ctxPtr none fs) (node A (node B bl bv bh br) av ah ar))
    (hctx : RepCtx t.store none (some A) fs)
    (hnd : ((node A (node B bl bv bh br) av ah ar).addrs ++ ctxAddrs fs).Nodup)
    (hroot : t.root = (plug (node A (node B bl bv bh br) av ah ar) fs).ptr) :
    ∃ t2, rotateRight t (some B) = some t2 ∧
      Kept t2 (plug (node B bl bv (hgt bl.ht (hgt br.ht ar.ht))
        (node A br av (hgt br.ht ar.ht) ar)) fs) t
        (plug (node A (node B bl bv bh br) av ah ar) fs) := by
  obtain ⟨t2, hrot, hrep2, hctx2, hroot2, hf2, hn2⟩ := rotateRight_spec hrep hctx hnd hroot
  refine ⟨t2, hrot, (rep_plug _ _).2 ⟨hrep2, hctx2⟩, hroot2, ?_, ?_, hf2, hn2⟩
  · exact values_plug_congr fs (by simp [Shape.values])
  · exact addrs_plug_congr fs (by
      simp only [Shape.addrs, List.append_assoc, List.cons_append]
      exact List.Perm.refl _)

theorem rotateLeft_kept {t : BinarySearchTree α} {fs : List (Frame α)}
    {A B : Nat} {al bl br : Shape α} {av bv : α} {ah bh : Int}
    (hrep : Rep t.store (ctxPtr none fs) (node A al av ah (node B bl bv bh br)))
    (hctx : RepCtx t.store none (some A) fs)
    (hnd : ((node A al av ah (node B bl bv bh br)).addrs ++ ctxAddrs fs).Nodup)
    (hroot : t.root = (plug (node A al av ah (node B bl bv bh br)) fs).ptr) :
    ∃ t2, rotateLeft t (some B) = some t2 ∧
      Kept t2 (plug (node B (node A al av (hgt al.ht bl.ht) bl) bv
        (hgt (hgt al.ht bl.ht) br.ht) br) fs) t
        (plug (node A al av ah (node B bl bv bh br)) fs) := by
  obtain ⟨t2, hrot, hrep2, hctx2, hroot2, hf2, hn2⟩ := rotateLeft_spec hrep hctx hnd hroot
  refine ⟨t2, hrot, (rep_plug _ _).2 ⟨hrep2, hctx2⟩, hroot2, ?_, ?_, hf2, hn2⟩
  · exact values_plug_congr fs (by simp [Shape.values])
  · exact addrs_plug_congr fs (by
      simp only [Shape.addrs, List.append_assoc, List.cons_append]
      exact List.Perm.refl _)

/-- Double rotation on the left side: `rotateLeft(C); rotateRight(C)` for the right child
`C` of the left child `B` of `A`. -/
theorem rotateLeftRight_kept {t : BinarySearchTree α} {fs : List (Frame α)}
    {A B C : Nat} {bl cl cr ar : Shape α} {av bv cv : α} {ah bh ch : Int}
    (hrep : Rep t.store (ctxPtr none fs)
      (node A (node B bl bv bh (node C cl cv ch cr)) av ah ar))
    (hctx : RepCtx t.store none (some A) fs)
    (hnd : ((node A (node B bl bv bh (node C cl cv ch cr)) av ah ar).addrs ++
      ctxAddrs fs).Nodup)
    (hroot : t.root = (plug (node A (node B bl bv bh (node C cl cv ch cr)) av ah ar) fs).ptr) :
    ∃ t2, (rotateLeft t (some C)).bind (fun t1 => rotateRight t1 (some C)) = some t2 ∧
      Kept t2 (plug (node C (node B bl bv (hgt bl.ht cl.ht) cl) cv
        (hgt (hgt bl.ht cl.ht) (hgt cr.ht ar.ht)) (node A cr av (hgt cr.ht ar.ht) ar)) fs) t
        (plug (node A (node B bl bv bh (node C cl cv ch cr)) av ah ar) fs) := by
  obtain ⟨hsA, hB, har⟩ := hrep
  have hnd1 : ((node B bl bv bh (node C cl cv ch cr)).addrs ++
      ctxAddrs (Frame.inLeft A av ah ar :: fs)).Nodup :=
    (addrs_fill (Frame.inLeft A av ah ar) _ fs).nodup_iff.1 hnd
  obtain ⟨t1, hrot1, hrep1, hctx1, hroot1, hf1, hn1⟩ :=
    @rotateLeft_spec _ _ (Frame.inLeft A av ah ar :: fs) _ _ _ _ _ _ _ _ _ hB ⟨hsA, har, hctx⟩ hnd1 hroot
  obtain ⟨hsA1, har1, hfs1⟩ := hctx1
  have hnd3 : ((node A (node C (node B bl bv (hgt bl.ht cl.ht) cl) cv
      (hgt (hgt bl.ht cl.ht) cr.ht) cr) av ah ar).addrs ++ ctxAddrs fs).Nodup := by
    simpa [Shape.addrs] using hnd
  obtain ⟨t2, hrot2, hrep2, hctx2, hroot2, hf2, hn2⟩ :=
    @rotateRight_spec _ _ fs _ _ _ _ _ _ _ _ _ ⟨hsA1, hrep1, har1⟩ hfs1 hnd3 hroot1
  refine ⟨t2, by simp [hrot1, hrot2], (rep_plug _ _).2 ⟨hrep2, hctx2⟩, hroot2, ?_, ?_,
    hf2.trans hf1, hn2.trans hn1⟩
  · exact values_plug_congr fs (by simp [Shape.values])
  · exact addrs_plug_congr fs (by
      simp only [Shape.addrs, List.append_assoc, List.cons_append]
      exact List.Perm.refl _)

/-- Double rotation on the right side: `rotateRight(C); rotateLeft(C)` for the left child
`C` of the right child `B` of `A`. -/
theorem rotateRightLeft_kept {t : BinarySearchTree α} {fs : List (Frame α)}
    {A B C : Nat} {al cl cr br : Shape α} {av bv cv : α} {ah bh ch : Int}
    (hrep : Rep t.store (ctxPtr none fs)
      (node A al av ah (node B (node C cl cv ch cr) bv bh br)))
    (hctx : RepCtx t.store none (some A) fs)
    (hnd : ((node A al av ah (node B (node C cl cv ch cr) bv bh br)).addrs ++
      ctxAddrs fs).Nodup)
    (hroot : t.root = (plug (node A al av ah (node B (node C cl cv ch cr) bv bh br)) fs).ptr) :
    ∃ t2, (rotateRight t (some C)).bind (fun t1 => rotateLeft t1 (some C)) = some t2 ∧
      Kept t2 (plug (node C (node A al av (hgt al.ht cl.ht) cl) cv
        (hgt (hgt al.ht cl.ht) (hgt cr.ht br.ht)) (node B cr bv (hgt cr.ht br.ht) br)) fs) t
        (plug (node A al av ah (node B (node C cl cv ch cr) bv bh br)) fs) := by
  obtain ⟨hsA, hal, hB⟩ := hrep
  have hnd1 : ((node B (node C cl cv ch cr) bv bh br).addrs ++
      ctxAddrs (Frame.inRight A al av ah :: fs)).Nodup :=
    (addrs_fill (Frame.inRight A al av ah) _ fs).nodup_iff.1 hnd
  obtain ⟨t1, hrot1, hrep1, hctx1, hroot1, hf1, hn1⟩ :=
    @rotateRight_spec _ _ (Frame.inRight A al av ah :: fs) _ _ _ _ _ _ _ _ _ hB ⟨hsA, hal, hctx⟩ hnd1 hroot
  obtain ⟨hsA1, hal1, hfs1⟩ := hctx1
  have hnd3 : ((node A al av ah (node C cl cv (hgt cl.ht (hgt cr.ht br.ht))
      (node B cr bv (hgt cr.ht br.ht) br))).addrs ++ ctxAddrs fs).Nodup := by
    simpa [Shape.addrs] using hnd
  obtain ⟨t2, hrot2, hrep2, hctx2, hroot2, hf2, hn2⟩ :=
    @rotateLeft_spec _ _ fs _ _ _ _ _ _ _ _ _ ⟨hsA1, hal1, hrep1⟩ hfs1 hnd3 hroot1
  refine ⟨t2, by simp [hrot1, hrot2], (rep_plug _ _).2 ⟨hrep2, hctx2⟩, hroot2, ?_, ?_,
    hf2.trans hf1, hn2.trans hn1⟩
  · exact values_plug_congr fs (by simp [Shape.values])
  · exact addrs_plug_congr fs (by
      simp only [Shape.addrs, List.append_assoc, List.cons_append]
      exact List.Perm.refl _)

theorem insert_step_left {t : BinarySearchTree α} {fs : List (Frame α)} {a A : Nat}
    {l r ar : Shape α} {v av : α} {h ah : Int} (k : Nat) (pre pp : Option Nat)
    (hrep : Rep t.store (some A) (node a l v h r))
    (hctx : RepCtx t.store none (some a) (Frame.inLeft A av ah ar :: fs))
    (hnd : ((node A (node a l v h r) av ah ar).addrs ++ ctxAddrs fs).Nodup)
    (hb : ¬(ar.ht - h < -1 ∨ ar.ht - h > 1)) :
    ∃ t2, insertLoop (k + 1) t (some a) pre pp = insertLoop k t2 (some A) (some a) pre ∧
      Rep t2.store (ctxPtr none fs) (node A (node a l v h r) av (hgt h ar.ht) ar) ∧
      RepCtx t2.store none (some A) fs ∧ t2.root = t.root ∧ t2.fresh = t.fresh ∧
      t2.nodeCount = t.nodeCount := by
  obtain ⟨hsA, har, hfs⟩ := hctx
  have hzr : hz t.store ar.ptr = some ar.ht := hz_rep har
  have hzl : hz t.store (some a) = some h := by simp [hrep.1]
  simp [Shape.addrs, List.nodup_append, List.nodup_cons] at hnd
  have hAsub : A ∉ (node a l v h r).addrs := by
    simp only [Shape.addrs, List.mem_append, List.mem_cons]
    simp only [hnd, not_false_eq_true, or_self, false_or, or_false]
    exact Ne.symm (by simp only [ne_eq, hnd, not_false_eq_true])
  have hAar : A ∉ ar.addrs := by simp only [hnd, not_false_eq_true]
  have hAfs : A ∉ ctxAddrs fs := by simp only [hnd, not_false_eq_true]
  refine ⟨t.write A ⟨av, hgt h ar.ht, some a, ar.ptr, ctxPtr none fs⟩,
    insertLoop_balanced k pre pp hrep.1 rfl hsA hzr hzl hb,
    ⟨write_store_same _ _ _, (rep_write _ hAsub).2 hrep, (rep_write _ hAar).2 har⟩,
    (repCtx_write _ hAfs).2 hfs, rfl, rfl, rfl⟩

theorem insert_step_right {t : BinarySearchTree α} {fs : List (Frame α)} {a A : Nat}
    {l r al : Shape α} {v av : α} {h ah : Int} (k : Nat) (pre pp : Option Nat)
    (hrep : Rep t.store (some A) (node a l v h r))
    (hctx : RepCtx t.store none (some a) (Frame.inRight A al av ah :: fs))
    (hnd : ((node A al av ah (node a l v h r)).addrs ++ ctxAddrs fs).Nodup)
    (hb : ¬(h - al.ht < -1 ∨ h - al.ht > 1)) :
    ∃ t2, insertLoop (k + 1) t (some a) pre pp = insertLoop k t2 (some A) (some a) pre ∧
      Rep t2.store (ctxPtr none fs) (node A al av (hgt al.ht h) (node a l v h r)) ∧
      RepCtx t2.store none (some A) fs ∧ t2.root = t.root ∧ t2.fresh = t.fresh ∧
      t2.nodeCount = t.nodeCount := by
  obtain ⟨hsA, hal, hfs⟩ := hctx
  have hzl : hz t.store al.ptr = some al.ht := hz_rep hal
  have hzr : hz t.store (some a) = some h := by simp [hrep.1]
  simp [Shape.addrs, List.nodup_append, List.nodup_cons] at hnd
  have hAsub : A ∉ (node a l v h r).addrs := by
    simp only [Shape.addrs, List.mem_append, List.mem_cons]
    simp only [hnd, not_false_eq_true, or_self, false_or, or_false]
  have hAal : A ∉ al.addrs := by simp only [hnd, not_false_eq_true]
  have hAfs : A ∉ ctxAddrs fs := by simp only [hnd, not_false_eq_true]
  refine ⟨t.write A ⟨av, hgt al.ht h, al.ptr, some a, ctxPtr none fs⟩,
    insertLoop_balanced k pre pp hrep.1 rfl hsA hzr hzl hb,
    ⟨write_store_same _ _ _, (rep_write _ hAal).2 hal, (rep_write _ hAsub).2 hrep⟩,
    (repCtx_write _ hAfs).2 hfs, rfl, rfl, rfl⟩

set_option maxHeartbeats 1000000 in
theorem insert_unbal_left {t : BinarySearchTree α} {fs : List (Frame α)} {a A : Nat}
    {l r ar : Shape α} {v av : α} {h ah old : Int} (k : Nat) (pre pp : Option Nat)
    (hrep : Rep t.store (some A) (node a l v h r))
    (hctx : RepCtx t.store none (some a) (Frame.inLeft A av ah ar :: fs))
    (hnd : ((node A (node a l v h r) av ah ar).addrs ++ ctxAddrs fs).Nodup)
    (hroot : t.root = (plug (node A (node a l v h r) av ah ar) fs).ptr)
    (hok : HeightOK (node a l v h r)) (hbal : Balanced (node a l v h r))
    (hcx : CtxAVL old (Frame.inLeft A av ah ar :: fs))
    (hh : h = old ∨ h = old + 1) (hgrow : h = old + 1 → Grown old pre l r)
    (hb : ar.ht - h < -1 ∨ ar.ht - h > 1) :
    ∃ t2 T2, insertLoop (k + 1) t (some a) pre pp = some t2 ∧
      Kept t2 T2 t (plug (node A (node a l v h r) av ah ar) fs) ∧ HeightOK T2 ∧
      Balanced T2 ∧ Replaced T2 (Frame.inLeft A av ah ar :: fs) := by
  obtain ⟨hsa, hl, hr⟩ := hrep
  obtain ⟨hsA, har, hfs⟩ := hctx
  obtain ⟨ok1, okl, okr⟩ := hok
  obtain ⟨bal1, ball, balr⟩ := hbal
  obtain ⟨c1, c2, c3, c4, c5⟩ := hcx
  simp only [Frame.height, Frame.sibling] at c1 c2 c3 c4 c5
  rw [abs_le] at c2 bal1
  have hnl := okl.ht_nonneg
  have hnr := okr.ht_nonneg
  have hnn := c3.ht_nonneg
  have hzr : hz t.store ar.ptr = some ar.ht := hz_rep har
  have hzl : hz t.store (some a) = some h := by simp [hsa]
  rw [insertLoop_unbalanced k pre pp hsa rfl hsA hzr hzl hb]
  have hh1 : h = old + 1 := by omega
  have har1 : ar.ht = old - 1 := by omega
  rcases hgrow hh1 with ⟨h0, _, _⟩ | ⟨hpre, hlh, hrh⟩ | ⟨hpre, hrh, hlh⟩
  · omega
  · rw [insertRebalance_LL hsA rfl hsa hpre.symm]
    obtain ⟨t2, hrot, hk⟩ :=
      @rotateRight_kept _ _ fs _ _ _ _ _ _ _ _ _ ⟨hsA, ⟨hsa, hl, hr⟩, har⟩ hfs hnd hroot
    have e1 : hgt r.ht ar.ht = old := by rw [hgt_eq]; omega
    have e2 : hgt l.ht old = ah := by rw [hgt_eq]; omega
    rw [e1, e2] at hk
    refine ⟨t2, _, hrot, hk, heightOK_plug ?_ c5, balanced_plug ?_ c5,
      [], _, fs, _, rfl, rfl, ?hne, rfl⟩
    case hne =>
      have hy := hnd
      simp [Shape.addrs, List.nodup_append, List.nodup_cons] at hy
      simp only [ptr_node, Frame.addr, ne_eq, Option.some.injEq]
      simp only [hy, not_false_eq_true]
    · exact ⟨by simp only [ht_node]; omega, okl, by omega, okr, c3⟩
    · refine ⟨?_, ball, ?_, balr, c4⟩
      · rw [abs_le]; simp only [ht_node]; omega
      · rw [abs_le]; omega
  · cases r with
    | nil => simp only [ht_nil] at hrh; omega
    | node c cl cv ch cr =>
      simp only [ht_node] at hrh
      simp only [ptr_node] at hpre
      obtain ⟨okc, okcl, okcr⟩ := okr
      obtain ⟨balc, balcl, balcr⟩ := balr
      rw [abs_le] at balc
      have hncl := okcl.ht_nonneg
      have hncr := okcr.ht_nonneg
      have hcl : c ∉ l.addrs := by
        have hy := hnd
        simp [Shape.addrs, List.nodup_append, List.nodup_cons] at hy
        simp only [hy, not_false_eq_true]
      rw [insertRebalance_LR hsA rfl hsa (hpre ▸ ptr_ne hcl) hpre.symm, hpre]
      obtain ⟨t2, hrot, hk⟩ :=
        @rotateLeftRight_kept _ _ fs _ _ _ _ _ _ _ _ _ _ _ _ _ ⟨hsA, ⟨hsa, hl, hr⟩, har⟩ hfs hnd hroot
      have e1 : hgt l.ht cl.ht = old := by rw [hgt_eq]; omega
      have e2 : hgt cr.ht ar.ht = old := by rw [hgt_eq]; omega
      have e3 : hgt old old = ah := by rw [hgt_eq]; omega
      rw [e1, e2, e3] at hk
      refine ⟨t2, _, hrot, hk, heightOK_plug ?_ c5, balanced_plug ?_ c5,
        [], _, fs, _, rfl, rfl, ?hne, rfl⟩
      case hne =>
        have hy := hnd
        simp [Shape.addrs, List.nodup_append, List.nodup_cons] at hy
        simp only [ptr_node, Frame.addr, ne_eq, Option.some.injEq]
        simp only [hy, not_false_eq_true]
      · exact ⟨by simp only [ht_node]; omega, ⟨by omega, okl, okcl⟩, by omega, okcr, c3⟩
      · refine ⟨?_, ⟨?_, ball, balcl⟩, ?_, balcr, c4⟩
        · rw [abs_le]; simp only [ht_node]; omega
        · rw [abs_le]; omega
        · rw [abs_le]; omega

set_option maxHeartbeats 1000000 in
theorem insert_unbal_right {t : BinarySearchTree α} {fs : List (Frame α)} {a A : Nat}
    {l r al : Shape α} {v av : α} {h ah old : Int} (k : Nat) (pre pp : Option Nat)
    (hrep : Rep t.store (some A) (node a l v h r))
    (hctx : RepCtx t.store none (some a) (Frame.inRight A al av ah :: fs))
    (hnd : ((node A al av ah (node a l v h r)).addrs ++ ctxAddrs fs).Nodup)
    (hroot : t.root = (plug (node A al av ah (node a l v h r)) fs).ptr)
    (hok : HeightOK (node a l v h r)) (hbal : Balanced (node a l v h r))
    (hcx : CtxAVL old (Frame.inRight A al av ah :: fs))
    (hh : h = old ∨ h = old + 1) (hgrow : h = old + 1 → Grown old pre l r)
    (hb : h - al.ht < -1 ∨ h - al.ht > 1) :
    ∃ t2 T2, insertLoop (k + 1) t (some a) pre pp = some t2 ∧
      Kept t2 T2 t (plug (node A al av ah (node a l v h r)) fs) ∧ HeightOK T2 ∧
      Balanced T2 ∧ Replaced T2 (Frame.inRight A al av ah :: fs) := by
  obtain ⟨hsa, hl, hr⟩ := hrep
  obtain ⟨hsA, hal, hfs⟩ := hctx
  obtain ⟨ok1, okl, okr⟩ := hok
  obtain ⟨bal1, ball, balr⟩ := hbal
  obtain ⟨c1, c2, c3, c4, c5⟩ := hcx
  simp only [Frame.height, Frame.sibling] at c1 c2 c3 c4 c5
  rw [abs_le] at c2 bal1
  have hnl := okl.ht_nonneg
  have hnr := okr.ht_nonneg
  have hnn := c3.ht_nonneg
  have hzl : hz t.store al.ptr = some al.ht := hz_rep hal
  have hzr : hz t.store (some a) = some h := by simp [hsa]
  have haal : a ∉ al.addrs := by
    have hy := hnd
    simp [Shape.addrs, List.nodup_append, List.nodup_cons] at hy
    simp only [hy, not_false_eq_true]
  rw [insertLoop_unbalanced k pre pp hsa rfl hsA hzr hzl hb]
  have hh1 : h = old + 1 := by omega
  have har1 : al.ht = old - 1 := by omega
  rcases hgrow hh1 with ⟨h0, _, _⟩ | ⟨hpre, hlh, hrh⟩ | ⟨hpre, hrh, hlh⟩
  · omega
  · cases l with
    | nil => simp only [ht_nil] at hlh; omega
    | node c cl cv ch cr =>
      simp only [ht_node] at hlh
      simp only [ptr_node] at hpre
      obtain ⟨okc, okcl, okcr⟩ := okl
      obtain ⟨balc, balcl, balcr⟩ := ball
      rw [abs_le] at balc
      have hncl := okcl.ht_nonneg
      have hncr := okcr.ht_nonneg
      rw [insertRebalance_RL hsA (ptr_ne haal) rfl hsa hpre.symm, hpre]
      obtain ⟨t2, hrot, hk⟩ :=
        @rotateRightLeft_kept _ _ fs _ _ _ _ _ _ _ _ _ _ _ _ _ ⟨hsA, hal, ⟨hsa, hl, hr⟩⟩ hfs hnd hroot
      have e1 : hgt al.ht cl.ht = old := by rw [hgt_eq]; omega
      have e2 : hgt cr.ht r.ht = old := by rw [hgt_eq]; omega
      have e3 : hgt old old = ah := by rw [hgt_eq]; omega
      rw [e1, e2, e3] at hk
      refine ⟨t2, _, hrot, hk, heightOK_plug ?_ c5, balanced_plug ?_ c5,
        [], _, fs, _, rfl, rfl, ?hne, rfl⟩
      case hne =>
        have hy := hnd
        simp [Shape.addrs, List.nodup_append, List.nodup_cons] at hy
        simp only [ptr_node, Frame.addr, ne_eq, Option.some.injEq]
        exact Ne.symm (by simp only [ne_eq, hy, not_false_eq_true])
      · exact ⟨by simp only [ht_node]; omega, ⟨by omega, c3, okcl⟩, by omega, okcr, okr⟩
      · refine ⟨?_, ⟨?_, c4, balcl⟩, ?_, balcr, balr⟩
        · rw [abs_le]; simp only [ht_node]; omega
        · rw [abs_le]; omega
        · rw [abs_le]; omega
  · cases r with
    | nil => simp only [ht_nil] at hrh; omega
    | node c cl cv ch cr =>
      simp only [ptr_node] at hpre
      have hcl : c ∉ l.addrs := by
        have hy := hnd
        simp [Shape.addrs, List.nodup_append, List.nodup_cons] at hy
        simp only [hy, not_false_eq_true]
      rw [insertRebalance_RR hsA (ptr_ne haal) rfl hsa (hpre ▸ ptr_ne hcl) hpre.symm]
      obtain ⟨t2, hrot, hk⟩ :=
        @rotateLeft_kept _ _ fs _ _ _ _ _ _ _ _ _ ⟨hsA, hal, ⟨hsa, hl, hr⟩⟩ hfs hnd hroot
      simp only [ht_node] at hrh hk
      have e1 : hgt al.ht l.ht = old := by rw [hgt_eq]; omega
      have e2 : hgt old ch = ah := by rw [hgt_eq]; omega
      rw [e1, e2] at hk
      refine ⟨t2, _, hrot, hk, heightOK_plug ?_ c5, balanced_plug ?_ c5,
        [], _, fs, _, rfl, rfl, ?hne, rfl⟩
      case hne =>
        have hy := hnd
        simp [Shape.addrs, List.nodup_append, List.nodup_cons] at hy
        simp only [ptr_node, Frame.addr, ne_eq, Option.some.injEq]
        exact Ne.symm (by simp only [ne_eq, hy, not_false_eq_true])
      · exact ⟨by simp only [ht_node]; omega, ⟨by omega, c3, okl⟩, okr⟩
      · refine ⟨?_, ⟨?_, c4, ball⟩, balr⟩
        · rw [abs_le]; simp only [ht_node]; omega
        · rw [abs_le]; omega

theorem insertLoop_spec :
    ∀ (ctx : List (Frame α)) (k : Nat) (t : BinarySearchTree α) (a : Nat) (l : Shape α) (v : α)
      (h : Int) (r : Shape α) (old : Int) (pre pp : Option Nat),
      Rep t.store (ctxPtr none ctx) (node a l v h r) →
      RepCtx t.store none (some a) ctx →
      ((node a l v h r).addrs ++ ctxAddrs ctx).Nodup →
      t.root = (plug (node a l v h r) ctx).ptr →
      HeightOK (node a l v h r) → Balanced (node a l v h r) → CtxAVL old ctx →
      (h = old ∨ h = old + 1) → (h = old + 1 → Grown old pre l r) →
      ctx.length < k →
      ∃ t2 T2, insertLoop k t (some a) pre pp = some t2 ∧
        Kept t2 T2 t (plug (node a l v h r) ctx) ∧ HeightOK T2 ∧ Balanced T2 ∧
        (Replaced T2 ctx ∨ ∃ ctx2, T2 = plug (node a l v h r) ctx2 ∧
          ctx2.map Frame.addr = ctx.map Frame.addr) := by
  intro ctx
  induction ctx with
  | nil =>
    intro k t a l v h r old pre pp hrep _ hnd hroot hok hbal _ _ _ hk
    cases k with
    | zero => simp at hk
    | succ k =>
      exact ⟨t, node a l v h r, insertLoop_root k pre pp hrep.1 rfl,
        ⟨hrep, hroot, rfl, List.Perm.refl _, rfl, rfl⟩, hok, hbal, Or.inr ⟨[], rfl, rfl⟩⟩
  | cons f fs ih =>
    intro k t a l v h r old pre pp hrep hctx hnd hroot hok hbal hcx hh hgrow hk
    cases k with
    | zero => simp at hk
    | succ k =>
      have hk2 : fs.length < k := by simpa using hk
      have hnd2 := (addrs_fill f (node a l v h r) fs).nodup_iff.2 hnd
      cases f with
      | inLeft A av ah ar =>
        by_cases hb : ar.ht - h < -1 ∨ ar.ht - h > 1
        · obtain ⟨t2, T2, u1, u2, u3, u4, u5⟩ :=
            insert_unbal_left k pre pp hrep hctx hnd2 hroot hok hbal hcx hh hgrow hb
          exact ⟨t2, T2, u1, u2, u3, u4, Or.inl u5⟩
        · obtain ⟨t1, hstep, hrep1, hctx1, hroot1, hf1, hn1⟩ :=
            insert_step_left k pre pp hrep hctx hnd2 hb
          obtain ⟨c1, c2, c3, c4, c5⟩ := hcx
          simp only [Frame.height, Frame.sibling] at c1 c2 c3 c4 c5
          have hb1 : |h - ar.ht| ≤ 1 := by rw [abs_le]; omega
          rw [abs_le] at c2
          obtain ⟨t2, T2, hrun, ⟨q1, q2, q3, q4, q5, q6⟩, q7, q8, q9⟩ :=
            ih k t1 A (node a l v h r) av (hgt h ar.ht) ar ah (some a) pre hrep1 hctx1 hnd2
              (hroot1.trans (hroot.trans (plug_ptr_congr fs rfl)))
              ⟨hgt_eq _ _, hok, c3⟩ ⟨hb1, hbal, c4⟩ c5
              (by rw [hgt_eq]; omega)
              (by
                intro e
                rw [hgt_eq] at e
                refine Or.inr (Or.inl ⟨rfl, ?_, ?_⟩)
                · simp only [ht_node]; omega
                · omega)
              hk2
          refine ⟨t2, T2, hstep.trans hrun,
            ⟨q1, q2, q3.trans ?_, q4.trans ?_, q5.trans hf1, q6.trans hn1⟩, q7, q8, ?hwhere⟩
          case hwhere =>
            rcases q9 with ⟨d1, g, d2, U2, e, eT, hp, hu⟩ | ⟨ctx2, eT, em⟩
            · exact Or.inl ⟨_ :: d1, g, d2, U2, by rw [e]; rfl, eT, hp, hu⟩
            · exact Or.inr ⟨Frame.inLeft A av (hgt h ar.ht) ar :: ctx2, eT, by
                simp only [List.map_cons, em, Frame.addr]⟩
          · exact values_plug_congr fs (by simp [Shape.values, Frame.fill])
          · exact addrs_plug_congr fs (by
              simp only [Shape.addrs, Frame.fill, List.append_assoc, List.cons_append]
              exact List.Perm.refl _)
      | inRight A al av ah =>
        by_cases hb : h - al.ht < -1 ∨ h - al.ht > 1
        · obtain ⟨t2, T2, u1, u2, u3, u4, u5⟩ :=
            insert_unbal_right k pre pp hrep hctx hnd2 hroot hok hbal hcx hh hgrow hb
          exact ⟨t2, T2, u1, u2, u3, u4, Or.inl u5⟩
        · obtain ⟨t1, hstep, hrep1, hctx1, hroot1, hf1, hn1⟩ :=
            insert_step_right k pre pp hrep hctx hnd2 hb
          obtain ⟨c1, c2, c3, c4, c5⟩ := hcx
          simp only [Frame.height, Frame.sibling] at c1 c2 c3 c4 c5
          have hb1 : |al.ht - h| ≤ 1 := by rw [abs_le]; omega
          rw [abs_le] at c2
          obtain ⟨t2, T2, hrun, ⟨q1, q2, q3, q4, q5, q6⟩, q7, q8, q9⟩ :=
            ih k t1 A al av (hgt al.ht h) (node a l v h r) ah (some a) pre hrep1 hctx1 hnd2
              (hroot1.trans (hroot.trans (plug_ptr_congr fs rfl)))
              ⟨hgt_eq _ _, c3, hok⟩ ⟨hb1, c4, hbal⟩ c5
              (by rw [hgt_eq]; omega)
              (by
                intro e
                rw [hgt_eq] at e
                refine Or.inr (Or.inr ⟨rfl, ?_, ?_⟩)
                · simp only [ht_node]; omega
                · omega)
              hk2
          refine ⟨t2, T2, hstep.trans hrun,
            ⟨q1, q2, q3.trans ?_, q4.trans ?_, q5.trans hf1, q6.trans hn1⟩, q7, q8, ?hwhere⟩
          case hwhere =>
            rcases q9 with ⟨d1, g, d2, U2, e, eT, hp, hu⟩ | ⟨ctx2, eT, em⟩
            · exact Or.inl ⟨_ :: d1, g, d2, U2, by rw [e]; rfl, eT, hp, hu⟩
            · exact Or.inr ⟨Frame.inRight A al av (hgt al.ht h) :: ctx2, eT, by
                simp only [List.map_cons, em, Frame.addr]⟩
          · exact values_plug_congr fs (by simp [Shape.values, Frame.fill])
          · exact addrs_plug_congr fs (by
              simp only [Shape.addrs, Frame.fill, List.append_assoc, List.cons_append]
              exact List.Perm.refl _)

theorem bst_iff_sorted {cmp : α → α → Int} (hc : StrictTotal cmp) (T : Shape α) :
    BST cmp T ↔ Sorted cmp T.values := by
  induction T with
  | nil => simp [BST, Sorted, Shape.values]
  | node a l v h r ihl ihr =>
    simp only [BST, Sorted, Shape.values, List.pairwise_append, List.pairwise_cons,
      List.mem_cons] at *
    rw [ihl, ihr]
    constructor
    · rintro ⟨h1, h2, h3, h4⟩
      refine ⟨h3, ⟨h2, h4⟩, ?_⟩
      rintro x hx y (rfl | hy)
      · exact h1 x hx
      · exact hc.trans _ _ _ (h1 x hx) (h2 y hy)
    · rintro ⟨h3, ⟨h2, h4⟩, h5⟩
      exact ⟨fun x hx => h5 x hx v (Or.inl rfl), h2, h3, h4⟩

theorem length_le_of_nodup_lt {l : List Nat} {n : Nat} (hnd : l.Nodup) (h : ∀ a ∈ l, a < n) :
    l.length ≤ n := by
  have h1 : l.toFinset ⊆ Finset.range n := by
    intro x hx
    simp only [List.mem_toFinset] at hx
    simpa using h x hx
  have h2 := Finset.card_le_card h1
  rw [List.toFinset_card_of_nodup hnd, Finset.card_range] at h2
  exact h2

theorem Linked.depth_lt_fuel {t : BinarySearchTree α} {T : Shape α} (h : Linked t T) :
    T.depth < t.fuel := by
  have h1 := length_le_of_nodup_lt h.2.2.1 h.2.2.2
  have h2 := T.depth_le_size
  rw [T.size_eq_length] at h2
  simp only [BinarySearchTree.fuel]
  omega

/-- What `findParentOrDuplicate` returns on a search tree: the node holding a value that
compares equal to `item`, or the last node of the descent, below which `item` belongs. -/
theorem findParentOrDuplicate_spec {cmp : α → α → Int} (hc : StrictTotal cmp)
    {t : BinarySearchTree α} {T : Shape α} (hL : Linked t T) (hbst : BST cmp T) (item : α) :
    ∃ sub ctx, plug sub ctx = T ∧
      ((∃ a l v h r, sub = node a l v h r ∧ cmp v item = 0 ∧
          findParentOrDuplicate cmp t item = some (some a)) ∨
       (sub = nil ∧ findParentOrDuplicate cmp t item = some (ctxPtr none ctx) ∧
          (∀ x ∈ ctxBefore ctx, cmp x item = -1) ∧ (∀ x ∈ ctxAfter ctx, cmp item x = -1) ∧
          HeadFits cmp item ctx)) := by
  have := @findLoop_spec _ _ hc t item T [] t.fuel t.root hL.1 hbst
    (by simp [ctxBefore]) (by simp [ctxAfter]) trivial hL.depth_lt_fuel
    (by intro e; rw [hL.2.1, e]; rfl)
  simp only [plug, ← hL.2.1] at this
  exact this

theorem not_stored_of_bounds {cmp : α → α → Int} (hc : StrictTotal cmp) {item : α}
    {l1 l2 : List α} (h1 : ∀ x ∈ l1, cmp x item = -1) (h2 : ∀ x ∈ l2, cmp item x = -1) :
    ∀ x ∈ l1 ++ l2, cmp x item ≠ 0 := by
  intro x hx
  rcases List.mem_append.1 hx with hx | hx
  · rw [h1 x hx]; decide
  · rw [(hc.flip x item).2 (h2 x hx)]; decide

theorem insert_eq_left {cmp : α → α → Int} {t : BinarySearchTree α} {item : α} {A : Nat}
    {x : BinaryTreeNode α} (hroot : t.root ≠ none)
    (hfind : findParentOrDuplicate cmp t item = some (some A)) (hA : t.store A = some x)
    (_h0 : cmp x.nodeValue item ≠ 0) (h1 : cmp x.nodeValue item = 1) (hne : A ≠ t.fresh) :
    insert cmp t item =
      (insertLoop (linkedLeaf t item A { x with leftChild := some t.fresh }).fuel
        (linkedLeaf t item A { x with leftChild := some t.fresh }) (some t.fresh) none none).bind
        (fun t2 => some (Outcome.returned (), t2)) := by
  have h10 : ¬((1 : Int) = 0) := by decide
  simp only [insert, hroot, if_false, hfind, Option.bind_eq_bind, Option.some_bind, deref_some,
    hA, h1, h10, if_true, BinarySearchTree.newNode, assign_some, write_store_same,
    write_store_ne _ _ hne, Option.map_some', Option.pure_def, linkedLeaf]
  rfl

theorem insert_eq_right {cmp : α → α → Int} {t : BinarySearchTree α} {item : α} {A : Nat}
    {x : BinaryTreeNode α} (hroot : t.root ≠ none)
    (hfind : findParentOrDuplicate cmp t item = some (some A)) (hA : t.store A = some x)
    (h0 : cmp x.nodeValue item ≠ 0) (h1 : cmp x.nodeValue item ≠ 1) (hne : A ≠ t.fresh) :
    insert cmp t item =
      (insertLoop (linkedLeaf t item A { x with rightChild := some t.fresh }).fuel
        (linkedLeaf t item A { x with rightChild := some t.fresh }) (some t.fresh) none none).bind
        (fun t2 => some (Outcome.returned (), t2)) := by
  simp only [insert, hroot, if_false, hfind, Option.bind_eq_bind, Option.some_bind, deref_some,
    hA, h0, h1, BinarySearchTree.newNode, assign_some, write_store_same,
    write_store_ne _ _ hne, Option.map_some', Option.pure_def, linkedLeaf]
  rfl

theorem insert_eq_dup {cmp : α → α → Int} {t : BinarySearchTree α} {item : α} {A : Nat}
    {x : BinaryTreeNode α} (hroot : t.root ≠ none)
    (hfind : findParentOrDuplicate cmp t item = some (some A)) (hA : t.store A = some x)
    (h0 : cmp x.nodeValue item = 0) :
    insert cmp t item = some (Outcome.duplicateItemException, t) := by
  simp [insert, hroot, hfind, deref_some, hA, h0]

theorem insert_eq_empty {cmp : α → α → Int} {t : BinarySearchTree α} {item : α}
    (hroot : t.root = none) :
    insert cmp t item = some (Outcome.returned (),
      { t.write t.fresh ⟨item, 1, none, none, none⟩ with
        fresh := t.fresh + 1, root := some t.fresh, nodeCount := t.nodeCount + 1 }) := by
  simp [insert, hroot, BinarySearchTree.newNode]

@[simp]
theorem linkedLeaf_root (t : BinarySearchTree α) (item : α) (A : Nat)
    (x : BinaryTreeNode α) : (linkedLeaf t item A x).root = t.root := rfl

@[simp]
theorem linkedLeaf_fresh (t : BinarySearchTree α) (item : α) (A : Nat)
    (x : BinaryTreeNode α) : (linkedLeaf t item A x).fresh = t.fresh + 1 := rfl

@[simp]
theorem linkedLeaf_nodeCount (t : BinarySearchTree α) (item : α) (A : Nat)
    (x : BinaryTreeNode α) : (linkedLeaf t item A x).nodeCount = t.nodeCount + 1 := rfl

theorem linkedLeaf_store_same (t : BinarySearchTree α) (item : α) (A : Nat)
    (x : BinaryTreeNode α) : (linkedLeaf t item A x).store A = some x := by
  simp [linkedLeaf]

theorem linkedLeaf_store_fresh (t : BinarySearchTree α) (item : α) {A : Nat}
    (x : BinaryTreeNode α) (h : A ≠ t.fresh) :
    (linkedLeaf t item A x).store t.fresh = some ⟨item, 1, none, none, some A⟩ := by
  simp [linkedLeaf, write_store_ne _ _ h.symm]

theorem linkedLeaf_store_ne (t : BinarySearchTree α) (item : α) {A b : Nat}
    (x : BinaryTreeNode α) (h1 : b ≠ A) (h2 : b ≠ t.fresh) :
    (linkedLeaf t item A x).store b = t.store b := by
  simp [linkedLeaf, write_store_ne _ _ h1, write_store_ne _ _ h2]

theorem repCtx_cons {s : Nat → Option (BinaryTreeNode α)} {rp c : Option Nat} (f : Frame α)
    (fs : List (Frame α)) :
    RepCtx s rp c (f :: fs) ↔
      s f.addr = some (f.record c (ctxPtr rp fs)) ∧ Rep s (some f.addr) f.sibling ∧
        RepCtx s rp (some f.addr) fs := by
  cases f <;> rfl

theorem Replaced.ascent {T2 : Shape α} {ctx : List (Frame α)} (h : Replaced T2 ctx) (a : Nat)
    (item : α) : Ascent (plug nil ctx) T2 a item := by
  obtain ⟨c1, f, c2, U2, e, eT, hp, hu⟩ := h
  refine Or.inr ⟨c2, f.fill (plug nil c1), U2, ?_, eT, ?_, ?_⟩
  · rw [e, plug_append]; rfl
  · rw [fill_ptr]; exact hp
  · rw [fill_ht]; exact hu

theorem insert_after_link {t : BinarySearchTree α} {f : Frame α} {fs : List (Frame α)}
    (item : α) (hL : Linked t (plug nil (f :: fs))) (hok : HeightOK (plug nil (f :: fs)))
    (hbal : Balanced (plug nil (f :: fs))) :
    ∃ t2 T2,
      insertLoop (linkedLeaf t item f.addr (f.record (some t.fresh) (ctxPtr none fs))).fuel
        (linkedLeaf t item f.addr (f.record (some t.fresh) (ctxPtr none fs)))
        (some t.fresh) none none = some t2 ∧
      Linked t2 T2 ∧ HeightOK T2 ∧ Balanced T2 ∧
      T2.values = ctxBefore (f :: fs) ++ item :: ctxAfter (f :: fs) ∧
      T2.addrs.Perm (t.fresh :: (plug nil (f :: fs)).addrs) ∧
      t2.fresh = t.fresh + 1 ∧ t2.nodeCount = t.nodeCount + 1 ∧
      Ascent (plug nil (f :: fs)) T2 t.fresh item := by
  obtain ⟨hrep, hroot, hnd, hlt⟩ := hL
  have hperm := addrs_plug nil (f :: fs)
  simp only [Shape.addrs, List.nil_append] at hperm
  have hnd1 : (ctxAddrs (f :: fs)).Nodup := hperm.nodup_iff.1 hnd
  have hlt1 : ∀ a ∈ ctxAddrs (f :: fs), a < t.fresh := fun a ha => hlt a (hperm.mem_iff.2 ha)
  have hN : t.fresh ∉ ctxAddrs (f :: fs) := fun hm => Nat.lt_irrefl _ (hlt1 _ hm)
  have hfa : f.addr ≠ t.fresh := by
    have := hlt1 f.addr (by simp [ctxAddrs])
    omega
  obtain ⟨_, hctx⟩ := (rep_plug _ _).1 hrep
  obtain ⟨hsf, hsib, hfs⟩ := (repCtx_cons f fs).1 hctx
  obtain ⟨_, _, hcx⟩ := avl_plug_split hok hbal
  simp only [ht_nil] at hcx
  have hfsib : f.addr ∉ f.sibling.addrs := by
    intro hm
    simp only [ctxAddrs, List.cons_append, List.nodup_cons, List.mem_append] at hnd1
    exact hnd1.1 (Or.inl hm)
  have hffs : f.addr ∉ ctxAddrs fs := by
    intro hm
    simp only [ctxAddrs, List.cons_append, List.nodup_cons, List.mem_append] at hnd1
    exact hnd1.1 (Or.inr hm)
  have hNsib : t.fresh ∉ f.sibling.addrs := fun hm => hN (by simp [ctxAddrs, hm])
  have hNfs : t.fresh ∉ ctxAddrs fs := fun hm => hN (by simp [ctxAddrs, hm])
  have hsib2 : Rep (linkedLeaf t item f.addr (f.record (some t.fresh) (ctxPtr none fs))).store
      (some f.addr) f.sibling :=
    hsib.congr (fun b hb => linkedLeaf_store_ne t item _
      (ne_of_mem_of_not_mem hb hfsib) (ne_of_mem_of_not_mem hb hNsib))
  have hfs2 : RepCtx (linkedLeaf t item f.addr (f.record (some t.fresh) (ctxPtr none fs))).store
      none (some f.addr) fs :=
    hfs.congrCtx (fun b hb => linkedLeaf_store_ne t item _
      (ne_of_mem_of_not_mem hb hffs) (ne_of_mem_of_not_mem hb hNfs))
  have hdepth := length_le_depth_plug nil (f :: fs)
  have hsize := (plug nil (f :: fs)).depth_le_size
  rw [Shape.size_eq_length] at hsize
  have hlen := length_le_of_nodup_lt hnd hlt
  obtain ⟨t2, T2, hrun, ⟨q1, q2, q3, q4, q5, q6⟩, q7, q8, q9⟩ :=
    insertLoop_spec (f :: fs)
      (linkedLeaf t item f.addr (f.record (some t.fresh) (ctxPtr none fs))).fuel
      (linkedLeaf t item f.addr (f.record (some t.fresh) (ctxPtr none fs))) t.fresh nil item 1 nil 0 none none
      ⟨linkedLeaf_store_fresh t item _ hfa, trivial, trivial⟩
      ((repCtx_cons f fs).2 ⟨linkedLeaf_store_same t item _ _, hsib2, hfs2⟩)
      (by
        have : (t.fresh :: ctxAddrs (f :: fs)).Nodup := List.nodup_cons.2 ⟨hN, hnd1⟩
        simpa [Shape.addrs] using this)
      (hroot.trans (plug_ptr_cons _ _ f fs))
      ⟨by simp, trivial, trivial⟩ ⟨by simp, trivial, trivial⟩ hcx (Or.inr rfl)
      (fun _ => Or.inl ⟨rfl, rfl, rfl⟩)
      (by simp only [BinarySearchTree.fuel, linkedLeaf_fresh]; omega)
  have hp2 : T2.addrs.Perm (t.fresh :: (plug nil (f :: fs)).addrs) := by
    refine q4.trans ((addrs_plug _ _).trans ?_)
    have e : (node t.fresh nil item 1 nil).addrs ++ ctxAddrs (f :: fs) =
        t.fresh :: ctxAddrs (f :: fs) := by simp [Shape.addrs]
    rw [e]
    exact List.Perm.cons _ hperm.symm
  refine ⟨t2, T2, hrun, ⟨q1, q2, hp2.nodup_iff.2 ?_, ?_⟩, q7, q8, ?_, hp2, ?_, ?_, ?hasc⟩
  case hasc =>
    rcases q9 with hr | ⟨ctx2, eT, em⟩
    · exact hr.ascent _ _
    · exact Or.inl ⟨_, ctx2, rfl, eT, em⟩
  · exact List.nodup_cons.2 ⟨fun hm => Nat.lt_irrefl _ (hlt _ hm), hnd⟩
  · intro a ha
    rw [q5, linkedLeaf_fresh]
    rcases List.mem_cons.1 (hp2.mem_iff.1 ha) with rfl | hm
    · omega
    · have := hlt a hm; omega
  · rw [q3, values_plug]; simp [Shape.values]
  · rw [q5, linkedLeaf_fresh]
  · rw [q6, linkedLeaf_nodeCount]

theorem Linked.root_ne_none {t : BinarySearchTree α} {sub : Shape α} {f : Frame α}
    {fs : List (Frame α)} (hL : Linked t (plug sub (f :: fs))) : t.root ≠ none := by
  obtain ⟨a, ha, _⟩ := plug_ptr_mem sub f fs
  rw [hL.2.1, ha]; simp

theorem Linked.addr_lt {t : BinarySearchTree α} {sub : Shape α} {ctx : List (Frame α)}
    (hL : Linked t (plug sub ctx)) {a : Nat} (ha : a ∈ sub.addrs ++ ctxAddrs ctx) :
    a < t.fresh :=
  hL.2.2.2 a ((addrs_plug sub ctx).mem_iff.2 ha)

/-- The two ways `insert` continues after the descent stopped below a node: the prefix of
`insert` up to its ascent, for either side. -/
theorem insert_eq_link {cmp : α → α → Int} {t : BinarySearchTree α} {item : α} {f : Frame α}
    {fs : List (Frame α)} (hL : Linked t (plug nil (f :: fs)))
    (hfind : findParentOrDuplicate cmp t item = some (some f.addr))
    (hf : HeadFits cmp item (f :: fs)) :
    insert cmp t item =
      (insertLoop (linkedLeaf t item f.addr (f.record (some t.fresh) (ctxPtr none fs))).fuel
        (linkedLeaf t item f.addr (f.record (some t.fresh) (ctxPtr none fs)))
        (some t.fresh) none none).bind (fun t2 => some (Outcome.returned (), t2)) := by
  have hroot := hL.root_ne_none
  have hne : f.addr ≠ t.fresh := by
    have := hL.addr_lt (a := f.addr) (by simp [ctxAddrs])
    omega
  obtain ⟨_, hctx⟩ := (rep_plug _ _).1 hL.1
  cases f with
  | inLeft A av ah ar =>
    exact insert_eq_left hroot hfind hctx.1 hf.1 hf.2 hne
  | inRight A al av ah =>
    exact insert_eq_right hroot hfind hctx.1 hf.1 hf.2 hne

theorem insert_duplicate {cmp : α → α → Int} (hc : StrictTotal cmp) {t : BinarySearchTree α}
    {T : Shape α} (hL : Linked t T) (hbst : BST cmp T) (item : α)
    (hs : ∃ v ∈ T.values, cmp v item = 0) :
    insert cmp t item = some (Outcome.duplicateItemException, t) := by
  obtain ⟨sub, ctx, hp, hres⟩ := findParentOrDuplicate_spec hc hL hbst item
  subst hp
  rcases hres with ⟨a, l, v, h, r, rfl, e0, hfind⟩ | ⟨rfl, _, hb, ha, _⟩
  · obtain ⟨hsub, _⟩ := (rep_plug _ _).1 hL.1
    have hroot : t.root ≠ none := by
      cases ctx with
      | nil => rw [hL.2.1]; simp [plug]
      | cons f fs => exact hL.root_ne_none
    exact insert_eq_dup hroot hfind hsub.1 e0
  · obtain ⟨v, hv, e0⟩ := hs
    rw [values_plug] at hv
    simp only [Shape.values, List.append_nil] at hv
    exact absurd e0 (not_stored_of_bounds hc hb ha v hv)

theorem insert_not_duplicate {cmp : α → α → Int} (hc : StrictTotal cmp)
    {t : BinarySearchTree α} {T : Shape α} (hL : Linked t T) (hbst : BST cmp T) (item : α)
    (hns : ∀ v ∈ T.values, cmp v item ≠ 0) (t2 : BinarySearchTree α) :
    insert cmp t item ≠ some (Outcome.duplicateItemException, t2) := by
  obtain ⟨sub, ctx, hp, hres⟩ := findParentOrDuplicate_spec hc hL hbst item
  subst hp
  rcases hres with ⟨a, l, v, h, r, rfl, e0, hfind⟩ | ⟨rfl, hfind, hb, ha, hf⟩
  · refine absurd e0 (hns v ?_)
    rw [values_plug]; simp [Shape.values]
  · cases ctx with
    | nil =>
      have hroot : t.root = none := by rw [hL.2.1]; rfl
      rw [insert_eq_empty hroot]; simp
    | cons f fs =>
      rw [insert_eq_link hL hfind hf]
      cases insertLoop _ _ (some t.fresh) none none <;> simp

/-- Insertion of a value that is not stored, into a tree that satisfies the invariants. -/
theorem insert_fresh {cmp : α → α → Int} (hc : StrictTotal cmp) {t : BinarySearchTree α}
    {T : Shape α} (hL : Linked t T) (hbst : BST cmp T) (hok : HeightOK T) (hbal : Balanced T)
    (item : α) (hns : ∀ v ∈ T.values, cmp v item ≠ 0) :
    ∃ t2 T2 l1 l2, insert cmp t item = some (Outcome.returned (), t2) ∧ Linked t2 T2 ∧
      HeightOK T2 ∧ Balanced T2 ∧ T.values = l1 ++ l2 ∧ T2.values = l1 ++ item :: l2 ∧
      (∀ x ∈ l1, cmp x item = -1) ∧ (∀ x ∈ l2, cmp item x = -1) ∧
      T2.addrs.Perm (t.fresh :: T.addrs) ∧ t2.fresh = t.fresh + 1 ∧
      t2.nodeCount = t.nodeCount + 1 ∧ Ascent T T2 t.fresh item := by
  obtain ⟨sub, ctx, hp, hres⟩ := findParentOrDuplicate_spec hc hL hbst item
  subst hp
  rcases hres with ⟨a, l, v, h, r, rfl, e0, hfind⟩ | ⟨rfl, hfind, hb, ha, hf⟩
  · refine absurd e0 (hns v ?_)
    rw [values_plug]; simp [Shape.values]
  · cases ctx with
    | nil =>
      have hroot : t.root = none := by rw [hL.2.1]; rfl
      refine ⟨_, node t.fresh nil item 1 nil, [], [], insert_eq_empty hroot,
        ⟨⟨by simp, trivial, trivial⟩, rfl, by simp [Shape.addrs], by simp [Shape.addrs]⟩,
        ⟨by simp, trivial, trivial⟩, ⟨by simp, trivial, trivial⟩, by simp [plug, Shape.values],
        by simp [Shape.values], by simp, by simp, by simp [plug, Shape.addrs], rfl, rfl,
        Or.inl ⟨[], [], rfl, rfl, rfl⟩⟩
    | cons f fs =>
      obtain ⟨t2, T2, hrun, q1, q2, q3, q4, q5, q6, q7, q8⟩ :=
        insert_after_link item hL hok hbal
      refine ⟨t2, T2, ctxBefore (f :: fs), ctxAfter (f :: fs), ?_, q1, q2, q3, ?_, q4, hb, ha,
        q5, q6, q7, q8⟩
      · rw [insert_eq_link hL hfind hf, hrun]; rfl
      · rw [values_plug]; simp [Shape.values]

/-! ## `remove`: the steps of its ascent -/

theorem removeLoop_done (k : Nat) (t : BinarySearchTree α) (pre pp : Option Nat) :
    removeLoop (k + 1) t none pre pp = some t := by
  simp [removeLoop]

theorem removeLoop_balanced {t : BinarySearchTree α} {A : Nat} {x : BinaryTreeNode α}
    {rh lh : Int} (k : Nat) (pre pp : Option Nat) (hA : t.store A = some x)
    (hr : hz t.store x.rightChild = some rh) (hl : hz t.store x.leftChild = some lh)
    (hra : x.rightChild ≠ some A) (hla : x.leftChild ≠ some A)
    (hb : ¬(rh - lh < -1 ∨ rh - lh > 1)) :
    removeLoop (k + 1) t (some A) pre pp =
      removeLoop k (t.write A { x with treeHeight := hgt lh rh }) x.parent (some A) pre := by
  simp [removeLoop, getHeight_some, hA, hr, hl, assign_some, deref_some, heightOrZero_eq,
    hz_write _ _ _ _ hra, hz_write _ _ _ _ hla, hb]

theorem removeLoop_unbalanced {t : BinarySearchTree α} {A : Nat} {x : BinaryTreeNode α}
    {rh lh : Int} (k : Nat) (pre pp : Option Nat) (hA : t.store A = some x)
    (hr : hz t.store x.rightChild = some rh) (hl : hz t.store x.leftChild = some lh)
    (hra : x.rightChild ≠ some A) (hla : x.leftChild ≠ some A)
    (hb : rh - lh < -1 ∨ rh - lh > 1) :
    removeLoop (k + 1) t (some A) pre pp =
      (removeRebalance (t.write A { x with treeHeight := hgt lh rh }) (some A) pre pp).bind
        (fun t2 => (t2.store A).bind (fun p => removeLoop k t2 p.parent (some A) pre)) := by
  simp [removeLoop, getHeight_some, hA, hr, hl, assign_some, deref_some, heightOrZero_eq,
    hz_write _ _ _ _ hra, hz_write _ _ _ _ hla, hb]

theorem removeRebalance_noop {t : BinarySearchTree α} {A : Nat} {x : BinaryTreeNode α}
    {pre pp : Option Nat} (hA : t.store A = some x) (hl : x.leftChild ≠ pre)
    (hr : x.rightChild ≠ pre) : removeRebalance t (some A) pre pp = some t := by
  simp [removeRebalance, deref_some, hA, hl, hr]

theorem removeRebalance_left_single {t : BinarySearchTree α} {A R : Nat}
    {x y : BinaryTreeNode α} {pre pp : Option Nat} {r l : Int} (hA : t.store A = some x)
    (hx : x.leftChild = pre) (hxr : x.rightChild = some R) (hR : t.store R = some y)
    (hr : hz t.store y.rightChild = some r) (hl : hz t.store y.leftChild = some l)
    (hb : r - l = 0 ∨ r - l = 1) :
    removeRebalance t (some A) pre pp = rotateLeft t (some R) := by
  simp [removeRebalance, deref_some, hA, hx, hxr, hR, heightOrZero_eq, hr, hl, hb]

theorem removeRebalance_left_double {t : BinarySearchTree α} {A R : Nat}
    {x y : BinaryTreeNode α} {pre pp : Option Nat} {r l : Int} (hA : t.store A = some x)
    (hx : x.leftChild = pre) (hxr : x.rightChild = some R) (hR : t.store R = some y)
    (hr : hz t.store y.rightChild = some r) (hl : hz t.store y.leftChild = some l)
    (hb : r - l = -1) :
    removeRebalance t (some A) pre pp =
      (rotateRight t y.leftChild).bind (fun t2 => rotateLeft t2 y.leftChild) := by
  have h1 : ¬(r - l = 0 ∨ r - l = 1) := by omega
  simp [removeRebalance, deref_some, hA, hx, hxr, hR, heightOrZero_eq, hr, hl, hb, h1]

theorem removeRebalance_right_single {t : BinarySearchTree α} {A L : Nat}
    {x y : BinaryTreeNode α} {pre pp : Option Nat} {r l : Int} (hA : t.store A = some x)
    (hx : x.leftChild ≠ pre) (hx2 : x.rightChild = pre) (hxl : x.leftChild = some L)
    (hL : t.store L = some y)
    (hr : hz t.store y.rightChild = some r) (hl : hz t.store y.leftChild = some l)
    (hb : r - l = 0 ∨ r - l = -1) :
    removeRebalance t (some A) pre pp = rotateRight t (some L) := by
  have hx3 : ¬(some L = pre) := fun e => hx (hxl.trans e)
  simp [removeRebalance, deref_some, hA, hx2, hxl, hx3, hL, heightOrZero_eq, hr, hl, hb]

theorem removeRebalance_right_double {t : BinarySearchTree α} {A L : Nat}
    {x y : BinaryTreeNode α} {pre pp : Option Nat} {r l : Int} (hA : t.store A = some x)
    (hx : x.leftChild ≠ pre) (hx2 : x.rightChild = pre) (hxl : x.leftChild = some L)
    (hL : t.store L = some y)
    (hr : hz t.store y.rightChild = some r) (hl : hz t.store y.leftChild = some l)
    (hb : r - l = 1) :
    removeRebalance t (some A) pre pp =
      (rotateLeft t y.rightChild).bind (fun t2 => rotateRight t2 y.rightChild) := by
  have hx3 : ¬(some L = pre) := fun e => hx (hxl.trans e)
  have h1 : ¬(r - l = 0 ∨ r - l = -1) := by omega
  simp [removeRebalance, deref_some, hA, hx2, hxl, hx3, hL, heightOrZero_eq, hr, hl, hb, h1]

theorem Ready.kept {t : BinarySearchTree α} {sub : Shape α} {ctx : List (Frame α)}
    (h : Ready t sub ctx) : Kept t (plug sub ctx) t (plug sub ctx) :=
  ⟨(rep_plug _ _).2 ⟨h.1, h.2.1⟩, h.2.2.2, rfl, List.Perm.refl _, rfl, rfl⟩

theorem ready_fill {t : BinarySearchTree α} (f : Frame α) (fs : List (Frame α))
    (s : Shape α) : Ready t (f.fill s) fs ↔ Ready t s (f :: fs) := by
  unfold Ready
  rw [(addrs_fill f s fs).nodup_iff, fill_ptr]
  have h := @rep_fill _ t.store none f fs s
  simp only [ctxPtr_cons, plug]
  tauto

theorem Kept.toReady {t2 t : BinarySearchTree α} {s2 s1 : Shape α} {fs : List (Frame α)}
    (h : Kept t2 (plug s2 fs) t (plug s1 fs)) (hnd : (s1.addrs ++ ctxAddrs fs).Nodup) :
    Ready t2 s2 fs := by
  obtain ⟨h1, h2, _, h4, _, _⟩ := h
  obtain ⟨r1, r2⟩ := (rep_plug _ _).1 h1
  refine ⟨r1, r2, ?_, h2⟩
  exact ((addrs_plug s2 fs).symm.trans (h4.trans (addrs_plug s1 fs))).nodup_iff.2 hnd

theorem Ready.not_mem_left {t : BinarySearchTree α} {sub ar : Shape α} {fs : List (Frame α)}
    {A : Nat} {av : α} {ah : Int} (hR : Ready t sub (Frame.inLeft A av ah ar :: fs)) :
    A ∉ sub.addrs ∧ A ∉ ar.addrs ∧ A ∉ ctxAddrs fs := by
  have hnd := hR.2.2.1
  simp [ctxAddrs, Frame.addr, Frame.sibling, List.nodup_append, List.nodup_cons] at hnd
  refine ⟨?_, ?_, ?_⟩ <;> simp only [hnd, not_false_eq_true]

theorem Ready.not_mem_right {t : BinarySearchTree α} {sub al : Shape α} {fs : List (Frame α)}
    {A : Nat} {av : α} {ah : Int} (hR : Ready t sub (Frame.inRight A al av ah :: fs)) :
    A ∉ sub.addrs ∧ A ∉ al.addrs ∧ A ∉ ctxAddrs fs := by
  have hnd := hR.2.2.1
  simp [ctxAddrs, Frame.addr, Frame.sibling, List.nodup_append, List.nodup_cons] at hnd
  refine ⟨?_, ?_, ?_⟩ <;> simp only [hnd, not_false_eq_true]

/-- Writing the height of the nearest ancestor (path on its left). -/
theorem ready_write_left {t : BinarySearchTree α} {sub ar : Shape α} {fs : List (Frame α)}
    {A : Nat} {av : α} {ah : Int} (h2 : Int)
    (hR : Ready t sub (Frame.inLeft A av ah ar :: fs)) :
    Ready (t.write A ⟨av, h2, sub.ptr, ar.ptr, ctxPtr none fs⟩) (node A sub av h2 ar) fs := by
  obtain ⟨m1, m2, m3⟩ := hR.not_mem_left
  obtain ⟨hrep, ⟨hsA, har, hfs⟩, hnd, hroot⟩ := hR
  refine ⟨⟨write_store_same _ _ _, (rep_write _ m1).2 hrep, (rep_write _ m2).2 har⟩,
    (repCtx_write _ m3).2 hfs, ?_, ?_⟩
  · exact (addrs_fill (Frame.inLeft A av ah ar) sub fs).nodup_iff.2 hnd
  · exact hroot.trans (plug_ptr_congr fs rfl)

/-- Writing the height of the nearest ancestor (path on its right). -/
theorem ready_write_right {t : BinarySearchTree α} {sub al : Shape α} {fs : List (Frame α)}
    {A : Nat} {av : α} {ah : Int} (h2 : Int)
    (hR : Ready t sub (Frame.inRight A al av ah :: fs)) :
    Ready (t.write A ⟨av, h2, al.ptr, sub.ptr, ctxPtr none fs⟩) (node A al av h2 sub) fs := by
  obtain ⟨m1, m2, m3⟩ := hR.not_mem_right
  obtain ⟨hrep, ⟨hsA, hal, hfs⟩, hnd, hroot⟩ := hR
  refine ⟨⟨write_store_same _ _ _, (rep_write _ m2).2 hal, (rep_write _ m1).2 hrep⟩,
    (repCtx_write _ m3).2 hfs, ?_, ?_⟩
  · exact (addrs_fill (Frame.inRight A al av ah) sub fs).nodup_iff.2 hnd
  · exact hroot.trans (plug_ptr_congr fs rfl)

theorem remove_step_left {t : BinarySearchTree α} {sub ar : Shape α} {fs : List (Frame α)}
    {A : Nat} {av : α} {ah : Int} (k : Nat) (pre pp : Option Nat)
    (hR : Ready t sub (Frame.inLeft A av ah ar :: fs))
    (hb : ¬(ar.ht - sub.ht < -1 ∨ ar.ht - sub.ht > 1)) :
    removeLoop (k + 1) t (some A) pre pp =
      removeLoop k (t.write A ⟨av, hgt sub.ht ar.ht, sub.ptr, ar.ptr, ctxPtr none fs⟩)
        (ctxPtr none fs) (some A) pre := by
  obtain ⟨m1, m2, m3⟩ := hR.not_mem_left
  obtain ⟨hrep, ⟨hsA, har, hfs⟩, hnd, hroot⟩ := hR
  exact removeLoop_balanced k pre pp hsA (hz_rep har) (hz_rep hrep) (ptr_ne m2) (ptr_ne m1) hb

theorem remove_step_right {t : BinarySearchTree α} {sub al : Shape α} {fs : List (Frame α)}
    {A : Nat} {av : α} {ah : Int} (k : Nat) (pre pp : Option Nat)
    (hR : Ready t sub (Frame.inRight A al av ah :: fs))
    (hb : ¬(sub.ht - al.ht < -1 ∨ sub.ht - al.ht > 1)) :
    removeLoop (k + 1) t (some A) pre pp =
      removeLoop k (t.write A ⟨av, hgt al.ht sub.ht, al.ptr, sub.ptr, ctxPtr none fs⟩)
        (ctxPtr none fs) (some A) pre := by
  obtain ⟨m1, m2, m3⟩ := hR.not_mem_right
  obtain ⟨hrep, ⟨hsA, hal, hfs⟩, hnd, hroot⟩ := hR
  exact removeLoop_balanced k pre pp hsA (hz_rep hrep) (hz_rep hal) (ptr_ne m1) (ptr_ne m2) hb

theorem remove_rebalance_left {t : BinarySearchTree α} {sub ar : Shape α}
    {fs : List (Frame α)} {A : Nat} {av : α} {ah : Int} (k : Nat) (pre pp : Option Nat)
    (hR : Ready t sub (Frame.inLeft A av ah ar :: fs))
    (hb : ar.ht - sub.ht < -1 ∨ ar.ht - sub.ht > 1) :
    removeLoop (k + 1) t (some A) pre pp =
      (removeRebalance (t.write A ⟨av, hgt sub.ht ar.ht, sub.ptr, ar.ptr, ctxPtr none fs⟩)
        (some A) pre pp).bind
        (fun t2 => (t2.store A).bind (fun p => removeLoop k t2 p.parent (some A) pre)) := by
  obtain ⟨m1, m2, m3⟩ := hR.not_mem_left
  obtain ⟨hrep, ⟨hsA, har, hfs⟩, hnd, hroot⟩ := hR
  exact removeLoop_unbalanced k pre pp hsA (hz_rep har) (hz_rep hrep) (ptr_ne m2) (ptr_ne m1)
    hb

theorem remove_rebalance_right {t : BinarySearchTree α} {sub al : Shape α}
    {fs : List (Frame α)} {A : Nat} {av : α} {ah : Int} (k : Nat) (pre pp : Option Nat)
    (hR : Ready t sub (Frame.inRight A al av ah :: fs))
    (hb : sub.ht - al.ht < -1 ∨ sub.ht - al.ht > 1) :
    removeLoop (k + 1) t (some A) pre pp =
      (removeRebalance (t.write A ⟨av, hgt al.ht sub.ht, al.ptr, sub.ptr, ctxPtr none fs⟩)
        (some A) pre pp).bind
        (fun t2 => (t2.store A).bind (fun p => removeLoop k t2 p.parent (some A) pre)) := by
  obtain ⟨m1, m2, m3⟩ := hR.not_mem_right
  obtain ⟨hrep, ⟨hsA, hal, hfs⟩, hnd, hroot⟩ := hR
  exact removeLoop_unbalanced k pre pp hsA (hz_rep hrep) (hz_rep hal) (ptr_ne m1) (ptr_ne m2)
    hb

theorem Ready.kept_of {t2 t : BinarySearchTree α} {s2 s1 : Shape α} {fs : List (Frame α)}
    (h : Ready t2 s2 fs) (hv : s2.values = s1.values) (ha : s2.addrs.Perm s1.addrs)
    (hf : t2.fresh = t.fresh) (hn : t2.nodeCount = t.nodeCount) :
    Kept t2 (plug s2 fs) t (plug s1 fs) :=
  ⟨(rep_plug _ _).2 ⟨h.1, h.2.1⟩, h.2.2.2, values_plug_congr fs hv, addrs_plug_congr fs ha,
    hf, hn⟩

/-- The values and nodes of a subtree do not depend on a stored height. -/
theorem kept_write_left {t : BinarySearchTree α} {sub ar : Shape α} {fs : List (Frame α)}
    {A : Nat} {av : α} {ah : Int} (h2 : Int)
    (hR : Ready t sub (Frame.inLeft A av ah ar :: fs)) :
    Kept (t.write A ⟨av, h2, sub.ptr, ar.ptr, ctxPtr none fs⟩) (plug (node A sub av h2 ar) fs) t
      (plug sub (Frame.inLeft A av ah ar :: fs)) :=
  @Ready.kept_of _ _ _ _ (node A sub av ah ar) _ (ready_write_left h2 hR) rfl (List.Perm.refl _) rfl rfl

theorem kept_write_right {t : BinarySearchTree α} {sub al : Shape α} {fs : List (Frame α)}
    {A : Nat} {av : α} {ah : Int} (h2 : Int)
    (hR : Ready t sub (Frame.inRight A al av ah :: fs)) :
    Kept (t.write A ⟨av, h2, al.ptr, sub.ptr, ctxPtr none fs⟩) (plug (node A al av h2 sub) fs) t
      (plug sub (Frame.inRight A al av ah :: fs)) :=
  @Ready.kept_of _ _ _ _ (node A al av ah sub) _ (ready_write_right h2 hR) rfl (List.Perm.refl _) rfl rfl

/-- The second visit of the ascent of `remove` after a rotation: the node `N` that took
the place of the rotated ancestor `A` is found balanced and passed. -/
theorem remove_revisit_left {t t2 : BinarySearchTree α} {T0 : Shape α} {fs : List (Frame α)}
    {A N : Nat} {al ar nr : Shape α} {av nv : α} {h1 h2 : Int} (k : Nat) (pre : Option Nat)
    (hK : Kept t2 (plug (node N (node A al av h1 ar) nv h2 nr) fs) t (plug T0 fs))
    (hnd : (T0.addrs ++ ctxAddrs fs).Nodup)
    (hb : ¬(nr.ht - h1 < -1 ∨ nr.ht - h1 > 1)) :
    ∃ t3, (t2.store A).bind (fun p => removeLoop (k + 1) t2 p.parent (some A) pre) =
        removeLoop k t3 (ctxPtr none fs) (some N) (some A) ∧
      Kept t3 (plug (node N (node A al av h1 ar) nv (hgt h1 nr.ht) nr) fs) t (plug T0 fs) ∧
      Ready t3 (node N (node A al av h1 ar) nv (hgt h1 nr.ht) nr) fs := by
  have hR2 : Ready t2 (node A al av h1 ar) (Frame.inLeft N nv h2 nr :: fs) :=
    (ready_fill (Frame.inLeft N nv h2 nr) fs _).1 (hK.toReady hnd)
  have hsA := hR2.1.1
  simp only [ctxPtr_cons, Frame.addr] at hsA
  refine ⟨_, ?_, (kept_write_left (hgt h1 nr.ht) hR2).trans hK, ready_write_left _ hR2⟩
  rw [hsA]
  exact remove_step_left k (some A) pre hR2 hb

theorem remove_revisit_right {t t2 : BinarySearchTree α} {T0 : Shape α} {fs : List (Frame α)}
    {A N : Nat} {al ar nl : Shape α} {av nv : α} {h1 h2 : Int} (k : Nat) (pre : Option Nat)
    (hK : Kept t2 (plug (node N nl nv h2 (node A al av h1 ar)) fs) t (plug T0 fs))
    (hnd : (T0.addrs ++ ctxAddrs fs).Nodup)
    (hb : ¬(h1 - nl.ht < -1 ∨ h1 - nl.ht > 1)) :
    ∃ t3, (t2.store A).bind (fun p => removeLoop (k + 1) t2 p.parent (some A) pre) =
        removeLoop k t3 (ctxPtr none fs) (some N) (some A) ∧
      Kept t3 (plug (node N nl nv (hgt nl.ht h1) (node A al av h1 ar)) fs) t (plug T0 fs) ∧
      Ready t3 (node N nl nv (hgt nl.ht h1) (node A al av h1 ar)) fs := by
  have hR2 : Ready t2 (node A al av h1 ar) (Frame.inRight N nl nv h2 :: fs) :=
    (ready_fill (Frame.inRight N nl nv h2) fs _).1 (hK.toReady hnd)
  have hsA := hR2.1.1
  simp only [ctxPtr_cons, Frame.addr] at hsA
  refine ⟨_, ?_, (kept_write_right (hgt nl.ht h1) hR2).trans hK, ready_write_right _ hR2⟩
  rw [hsA]
  exact remove_step_right k (some A) pre hR2 hb

set_option maxHeartbeats 1000000 in
theorem remove_frame_left {t : BinarySearchTree α} {sub ar : Shape α} {fs : List (Frame α)}
    {A : Nat} {av : α} {ah old : Int} (k : Nat) (pre pp : Option Nat)
    (hR : Ready t sub (Frame.inLeft A av ah ar :: fs)) (hok : HeightOK sub)
    (hcx : CtxAVL old (Frame.inLeft A av ah ar :: fs))
    (hh : sub.ht = old ∨ sub.ht = old - 1) (hpre : pre = sub.ptr ∨ pre = none) :
    Passed k t A pre pp sub (Frame.inLeft A av ah ar) fs := by
  obtain ⟨c1, c2, c3, c4, c5⟩ := hcx
  simp only [Frame.height, Frame.sibling] at c1 c2 c3 c4 c5
  rw [abs_le] at c2
  have hns := hok.ht_nonneg
  have hR1 := ready_write_left (hgt sub.ht ar.ht) hR
  have hK1 := kept_write_left (hgt sub.ht ar.ht) hR
  have hnd1 := hR1.2.2.1
  by_cases hb : ar.ht - sub.ht < -1 ∨ ar.ht - sub.ht > 1
  · rw [Passed, remove_rebalance_left (k + 1) pre pp hR hb]
    have hs1 : sub.ht = old - 1 := by omega
    have ha1 : ar.ht = old + 1 := by omega
    cases ar with
    | nil => simp only [ht_nil] at ha1; omega
    | node R rl rv rh rr =>
      simp only [ht_node] at ha1 hb c1 c2
      obtain ⟨okR, okrl, okrr⟩ := c3
      obtain ⟨balR, balrl, balrr⟩ := c4
      rw [abs_le] at balR
      have hnrl := okrl.ht_nonneg
      have hnrr := okrr.ht_nonneg
      have hsA1 := hR1.1.1
      have hsR1 := hR1.1.2.2.1
      have hzr : hz (t.write A ⟨av, hgt sub.ht (node R rl rv rh rr).ht, sub.ptr,
          (node R rl rv rh rr).ptr, ctxPtr none fs⟩).store rr.ptr = some rr.ht :=
        hz_rep hR1.1.2.2.2.2
      have hzl : hz (t.write A ⟨av, hgt sub.ht (node R rl rv rh rr).ht, sub.ptr,
          (node R rl rv rh rr).ptr, ctxPtr none fs⟩).store rl.ptr = some rl.ht :=
        hz_rep hR1.1.2.2.2.1
      by_cases hp : pre = sub.ptr
      · by_cases hd : rr.ht - rl.ht = -1
        · cases rl with
          | nil => simp only [ht_nil] at hd; omega
          | node C cl cv ch cr =>
            simp only [ht_node] at hd okR balR hnrl
            obtain ⟨okC, okcl, okcr⟩ := okrl
            obtain ⟨balC, balcl, balcr⟩ := balrl
            rw [abs_le] at balC
            have hncl := okcl.ht_nonneg
            have hncr := okcr.ht_nonneg
            rw [removeRebalance_left_double hsA1 hp.symm rfl hsR1 hzr hzl hd]
            obtain ⟨t2, hrot, hK2⟩ := rotateRightLeft_kept hR1.1 hR1.2.1 hnd1 hR1.2.2.2
            simp only [ptr_node] at hrot ⊢
            rw [hrot, Option.some_bind]
            have hb2 : ¬(hgt cr.ht rr.ht - hgt sub.ht cl.ht < -1 ∨
                hgt cr.ht rr.ht - hgt sub.ht cl.ht > 1) := by
              simp only [hgt_eq]; omega
            obtain ⟨t3, hrun, hK3, hR3⟩ :=
              remove_revisit_left k pre (hK2.trans hK1) hnd1 hb2
            refine ⟨k, t3, _, some A, le_refl _, ?_, hK3, hR3, ?_, ?_, ?_⟩
            · exact hrun
            · exact ⟨by simp only [ht_node, hgt_eq], ⟨hgt_eq _ _, hok, okcl⟩, hgt_eq _ _, okcr,
                okrr⟩
            · simp only [ht_node, hgt_eq, Frame.height]; omega
            · intro _ hbs
              refine ⟨?_, ⟨?_, hbs, balcl⟩, ?_, balcr, balrr⟩
              · simp only [ht_node, hgt_eq, abs_le]; omega
              · rw [abs_le]; omega
              · rw [abs_le]; omega
        · have hd2 : rr.ht - rl.ht = 0 ∨ rr.ht - rl.ht = 1 := by omega
          rw [removeRebalance_left_single hsA1 hp.symm rfl hsR1 hzr hzl hd2]
          obtain ⟨t2, hrot, hK2⟩ := rotateLeft_kept hR1.1 hR1.2.1 hnd1 hR1.2.2.2
          rw [hrot, Option.some_bind]
          have hb2 : ¬(rr.ht - hgt sub.ht rl.ht < -1 ∨ rr.ht - hgt sub.ht rl.ht > 1) := by
            simp only [hgt_eq]; omega
          obtain ⟨t3, hrun, hK3, hR3⟩ :=
            remove_revisit_left k pre (hK2.trans hK1) hnd1 hb2
          refine ⟨k, t3, _, some A, le_refl _, ?_, hK3, hR3, ?_, ?_, ?_⟩
          · exact hrun
          · exact ⟨by simp only [ht_node, hgt_eq], ⟨hgt_eq _ _, hok, okrl⟩, okrr⟩
          · simp only [ht_node, hgt_eq, Frame.height]; omega
          · intro _ hbs
            refine ⟨?_, ⟨?_, hbs, balrl⟩, balrr⟩
            · simp only [ht_node, hgt_eq, abs_le]; omega
            · rw [abs_le]; omega
      · have hp0 : pre = none := by tauto
        have hsp : sub.ptr ≠ pre := fun e => hp e.symm
        rw [removeRebalance_noop hsA1 hsp (by rw [hp0]; simp), Option.some_bind, hsA1,
          Option.some_bind]
        refine ⟨k + 1, _, node A sub av (hgt sub.ht (node R rl rv rh rr).ht)
          (node R rl rv rh rr), pre, Nat.le_succ _, rfl, hK1, hR1, ?_, ?_, ?_⟩
        · exact ⟨hgt_eq _ _, hok, okR, okrl, okrr⟩
        · simp only [ht_node, hgt_eq, Frame.height]; omega
        · intro e; exact absurd e hp
  · rw [Passed, remove_step_left (k + 1) pre pp hR hb]
    refine ⟨k + 1, _, node A sub av (hgt sub.ht ar.ht) ar, pre, Nat.le_succ _, rfl, hK1, hR1,
      ⟨hgt_eq _ _, hok, c3⟩, ?_, ?_⟩
    · simp only [ht_node, hgt_eq, Frame.height]; omega
    · intro _ hbs
      exact ⟨by rw [abs_le]; omega, hbs, c4⟩

set_option maxHeartbeats 1000000 in
theorem remove_frame_right {t : BinarySearchTree α} {sub al : Shape α} {fs : List (Frame α)}
    {A : Nat} {av : α} {ah old : Int} (k : Nat) (pre pp : Option Nat)
    (hR : Ready t sub (Frame.inRight A al av ah :: fs)) (hok : HeightOK sub)
    (hcx : CtxAVL old (Frame.inRight A al av ah :: fs))
    (hh : sub.ht = old ∨ sub.ht = old - 1) (hpre : pre = sub.ptr ∨ pre = none) :
    Passed k t A pre pp sub (Frame.inRight A al av ah) fs := by
  obtain ⟨c1, c2, c3, c4, c5⟩ := hcx
  simp only [Frame.height, Frame.sibling] at c1 c2 c3 c4 c5
  rw [abs_le] at c2
  have hns := hok.ht_nonneg
  have hR1 := ready_write_right (hgt al.ht sub.ht) hR
  have hK1 := kept_write_right (hgt al.ht sub.ht) hR
  have hnd1 := hR1.2.2.1
  by_cases hb : sub.ht - al.ht < -1 ∨ sub.ht - al.ht > 1
  · rw [Passed, remove_rebalance_right (k + 1) pre pp hR hb]
    have hs1 : sub.ht = old - 1 := by omega
    have ha1 : al.ht = old + 1 := by omega
    cases al with
    | nil => simp only [ht_nil] at ha1; omega
    | node L ll lv lh lr =>
      simp only [ht_node] at ha1 hb c1 c2
      obtain ⟨okL, okll, oklr⟩ := c3
      obtain ⟨balL, balll, ballr⟩ := c4
      rw [abs_le] at balL
      have hnll := okll.ht_nonneg
      have hnlr := oklr.ht_nonneg
      have hsA1 := hR1.1.1
      have hsL1 := hR1.1.2.1.1
      have hzr : hz (t.write A ⟨av, hgt (node L ll lv lh lr).ht sub.ht,
          (node L ll lv lh lr).ptr, sub.ptr, ctxPtr none fs⟩).store lr.ptr = some lr.ht :=
        hz_rep hR1.1.2.1.2.2
      have hzl : hz (t.write A ⟨av, hgt (node L ll lv lh lr).ht sub.ht,
          (node L ll lv lh lr).ptr, sub.ptr, ctxPtr none fs⟩).store ll.ptr = some ll.ht :=
        hz_rep hR1.1.2.1.2.1
      have hLsub : L ∉ sub.addrs := by
        have hy := hnd1
        simp [Shape.addrs, List.nodup_append, List.nodup_cons] at hy
        simp only [hy, not_false_eq_true]
      by_cases hp : pre = sub.ptr
      · have hlp : (some L : Option Nat) ≠ pre := by
          rw [hp]; exact fun e => ptr_ne hLsub e.symm
        by_cases hd : lr.ht - ll.ht = 1
        · cases lr with
          | nil => simp only [ht_nil] at hd; omega
          | node C cl cv ch cr =>
            simp only [ht_node] at hd okL balL hnlr
            obtain ⟨okC, okcl, okcr⟩ := oklr
            obtain ⟨balC, balcl, balcr⟩ := ballr
            rw [abs_le] at balC
            have hncl := okcl.ht_nonneg
            have hncr := okcr.ht_nonneg
            rw [removeRebalance_right_double hsA1 hlp hp.symm rfl hsL1 hzr hzl hd]
            obtain ⟨t2, hrot, hK2⟩ := rotateLeftRight_kept hR1.1 hR1.2.1 hnd1 hR1.2.2.2
            simp only [ptr_node] at hrot ⊢
            rw [hrot, Option.some_bind]
            have hb2 : ¬(hgt cr.ht sub.ht - hgt ll.ht cl.ht < -1 ∨
                hgt cr.ht sub.ht - hgt ll.ht cl.ht > 1) := by
              simp only [hgt_eq]; omega
            obtain ⟨t3, hrun, hK3, hR3⟩ :=
              remove_revisit_right k pre (hK2.trans hK1) hnd1 hb2
            refine ⟨k, t3, _, some A, le_refl _, ?_, hK3, hR3, ?_, ?_, ?_⟩
            · exact hrun
            · exact ⟨by simp only [ht_node, hgt_eq], ⟨hgt_eq _ _, okll, okcl⟩, hgt_eq _ _, okcr,
                hok⟩
            · simp only [ht_node, hgt_eq, Frame.height]; omega
            · intro _ hbs
              refine ⟨?_, ⟨?_, balll, balcl⟩, ?_, balcr, hbs⟩
              · simp only [ht_node, hgt_eq, abs_le]; omega
              · rw [abs_le]; omega
              · rw [abs_le]; omega
        · have hd2 : lr.ht - ll.ht = 0 ∨ lr.ht - ll.ht = -1 := by omega
          rw [removeRebalance_right_single hsA1 hlp hp.symm rfl hsL1 hzr hzl hd2]
          obtain ⟨t2, hrot, hK2⟩ := rotateRight_kept hR1.1 hR1.2.1 hnd1 hR1.2.2.2
          rw [hrot, Option.some_bind]
          have hb2 : ¬(hgt lr.ht sub.ht - ll.ht < -1 ∨ hgt lr.ht sub.ht - ll.ht > 1) := by
            simp only [hgt_eq]; omega
          obtain ⟨t3, hrun, hK3, hR3⟩ :=
            remove_revisit_right k pre (hK2.trans hK1) hnd1 hb2
          refine ⟨k, t3, _, some A, le_refl _, ?_, hK3, hR3, ?_, ?_, ?_⟩
          · exact hrun
          · exact ⟨by simp only [ht_node, hgt_eq], okll, ⟨hgt_eq _ _, oklr, hok⟩⟩
          · simp only [ht_node, hgt_eq, Frame.height]; omega
          · intro _ hbs
            refine ⟨?_, balll, ⟨?_, ballr, hbs⟩⟩
            · simp only [ht_node, hgt_eq, abs_le]; omega
            · rw [abs_le]; omega
      · have hp0 : pre = none := by tauto
        have hsp : sub.ptr ≠ pre := fun e => hp e.symm
        rw [removeRebalance_noop hsA1 (by rw [hp0]; simp) hsp, Option.some_bind, hsA1,
          Option.some_bind]
        refine ⟨k + 1, _, node A (node L ll lv lh lr) av (hgt (node L ll lv lh lr).ht sub.ht)
          sub, pre, Nat.le_succ _, rfl, hK1, hR1, ?_, ?_, ?_⟩
        · exact ⟨hgt_eq _ _, ⟨okL, okll, oklr⟩, hok⟩
        · simp only [ht_node, hgt_eq, Frame.height]; omega
        · intro e; exact absurd e hp
  · rw [Passed, remove_step_right (k + 1) pre pp hR hb]
    refine ⟨k + 1, _, node A al av (hgt al.ht sub.ht) sub, pre, Nat.le_succ _, rfl, hK1, hR1,
      ⟨hgt_eq _ _, c3, hok⟩, ?_, ?_⟩
    · simp only [ht_node, hgt_eq, Frame.height]; omega
    · intro _ hbs
      exact ⟨by rw [abs_le]; omega, c4, hbs⟩

/-- The ascent of `remove` over a path: it ends, the resulting tree has the values and the
nodes of the tree it started from, every stored height is consistent, and the tree is
balanced when the ascent started with `previousNode` pointing to a balanced subtree. -/
theorem removeLoop_spec :
    ∀ (ctx : List (Frame α)) (k : Nat) (t : BinarySearchTree α) (sub : Shape α) (old : Int)
      (pre pp : Option Nat),
      Ready t sub ctx → HeightOK sub → CtxAVL old ctx → (sub.ht = old ∨ sub.ht = old - 1) →
      (pre = sub.ptr ∨ pre = none) → 2 * ctx.length < k →
      ∃ t2 T2, removeLoop k t (ctxPtr none ctx) pre pp = some t2 ∧
        Kept t2 T2 t (plug sub ctx) ∧ HeightOK T2 ∧
        (pre = sub.ptr → Balanced sub → Balanced T2) := by
  intro ctx
  induction ctx with
  | nil =>
    intro k t sub old pre pp hR hok _ _ _ hk
    cases k with
    | zero => simp at hk
    | succ k => exact ⟨t, sub, removeLoop_done k t pre pp, hR.kept, hok, fun _ h => h⟩
  | cons f fs ih =>
    intro k t sub old pre pp hR hok hcx hh hpre hk
    obtain ⟨k1, rfl⟩ : ∃ k1, k = k1 + 2 := ⟨k - 2, by simp only [List.length_cons] at hk; omega⟩
    have hk1 : 2 * fs.length < k1 := by simp only [List.length_cons] at hk; omega
    have hP : Passed k1 t f.addr pre pp sub f fs := by
      cases f with
      | inLeft A av ah ar => exact remove_frame_left k1 pre pp hR hok hcx hh hpre
      | inRight A al av ah => exact remove_frame_right k1 pre pp hR hok hcx hh hpre
    obtain ⟨k2, t2, sub2, pp2, hk2, hrun, hK, hR2, hok2, hh2, hbal2⟩ := hP
    obtain ⟨t3, T3, hrun3, hK3, hok3, hbal3⟩ :=
      ih k2 t2 sub2 f.height sub2.ptr pp2 hR2 hok2 hcx.2.2.2.2 hh2 (Or.inl rfl) (by omega)
    exact ⟨t3, T3, hrun.trans hrun3, hK3.trans hK, hok3,
      fun e hb => hbal3 rfl (hbal2 e hb)⟩

/-! ## `remove`: splicing a node out -/

@[simp]
theorem release_store_same (t : BinarySearchTree α) (a : Nat) :
    (t.release a).store a = none := by
  simp [BinarySearchTree.release]

theorem release_store_ne (t : BinarySearchTree α) {a b : Nat} (h : b ≠ a) :
    (t.release a).store b = t.store b := by
  simp [BinarySearchTree.release, Function.update_apply, h]

@[simp]
theorem release_root (t : BinarySearchTree α) (a : Nat) :
    (t.release a).root = t.root := rfl

@[simp]
theorem release_fresh (t : BinarySearchTree α) (a : Nat) :
    (t.release a).fresh = t.fresh := rfl

@[simp]
theorem release_nodeCount (t : BinarySearchTree α) (a : Nat) :
    (t.release a).nodeCount = t.nodeCount := rfl

theorem spliceRecord_frame (f : Frame α) (s : Nat) (c p : Option Nat)
    (h : s ∉ f.sibling.addrs) : spliceRecord (f.record (some s) p) s c = f.record c p := by
  cases f with
  | inLeft a v ht r =>
    have : r.ptr ≠ some s := ptr_ne h
    simp [spliceRecord, Frame.record, this]
  | inRight a l v ht => simp [spliceRecord, Frame.record]

theorem removeLoop_none (t : BinarySearchTree α) (pre pp : Option Nat) :
    removeLoop t.fuel t none pre pp = some t :=
  removeLoop_done (2 * t.fresh + 1) t pre pp

theorem removeNode_root {t : BinarySearchTree α} {s : Nat} {n : BinaryTreeNode α}
    (hs : t.store s = some n) (hp : n.parent = none) :
    removeNode t (some s) = some (Outcome.returned (),
      { ({ t with root := if n.rightChild ≠ none then n.rightChild else n.leftChild } :
          BinarySearchTree α).release s with nodeCount := t.nodeCount - 1 }) := by
  simp only [removeNode, deref_some, hs, hp, Option.bind_eq_bind, Option.some_bind,
    ne_eq, not_true_eq_false, if_false, Option.pure_def, BinarySearchTree.delete,
    removeLoop_none]
  rfl

theorem removeNode_inner_nil {t : BinarySearchTree α} {s F : Nat} {n x : BinaryTreeNode α}
    (hs : t.store s = some n) (hp : n.parent = some F) (hF : t.store F = some x)
    (hch : (if n.rightChild ≠ none then n.rightChild else n.leftChild) = none) :
    removeNode t (some s) =
      (removeLoop ({ (t.write F (spliceRecord x s none)).release s with
          nodeCount := t.nodeCount - 1 } : BinarySearchTree α).fuel
        { (t.write F (spliceRecord x s none)).release s with nodeCount := t.nodeCount - 1 }
        (some F) none none).bind (fun t2 => some (Outcome.returned (), t2)) := by
  simp only [removeNode, deref_some, hs, hp, hF, hch, Option.bind_eq_bind, Option.some_bind,
    ne_eq, not_true_eq_false, not_false_eq_true, if_true, if_false, reduceCtorEq, assign_some,
    Option.map_some', Option.pure_def, BinarySearchTree.delete, spliceRecord]
  split_ifs <;> rfl

theorem removeNode_inner_node {t : BinarySearchTree α} {s F ca : Nat}
    {n x y : BinaryTreeNode α}
    (hs : t.store s = some n) (hp : n.parent = some F) (hF : t.store F = some x)
    (hch : (if n.rightChild ≠ none then n.rightChild else n.leftChild) = some ca)
    (hca : t.store ca = some y) (hne : ca ≠ F) :
    removeNode t (some s) =
      (removeLoop ({ ((t.write F (spliceRecord x s (some ca))).write ca
          { y with parent := some F }).release s with
          nodeCount := t.nodeCount - 1 } : BinarySearchTree α).fuel
        { ((t.write F (spliceRecord x s (some ca))).write ca
          { y with parent := some F }).release s with nodeCount := t.nodeCount - 1 }
        (some F) none none).bind (fun t2 => some (Outcome.returned (), t2)) := by
  simp only [removeNode, deref_some, hs, hp, hF, hch, Option.bind_eq_bind, Option.some_bind,
    ne_eq, not_true_eq_false, not_false_eq_true, if_true, if_false, reduceCtorEq, assign_some,
    Option.map_some', Option.pure_def, BinarySearchTree.delete, spliceRecord]
  split_ifs <;>
    simp only [Option.some_bind, write_store_ne _ _ hne, hca, Option.map_some'] <;> rfl

set_option maxHeartbeats 1000000 in
theorem splice_inner {t : BinarySearchTree α} {s : Nat} {n : BinaryTreeNode α} {c : Shape α}
    {f : Frame α} {fs : List (Frame α)}
    (hs : t.store s = some n) (hnp : n.parent = some f.addr)
    (hch : (if n.rightChild ≠ none then n.rightChild else n.leftChild) = c.ptr)
    (hc : Rep t.store (some s) c) (hctx : RepCtx t.store none (some s) (f :: fs))
    (hnd : (s :: (c.addrs ++ ctxAddrs (f :: fs))).Nodup)
    (hroot : t.root = (plug c (f :: fs)).ptr) :
    ∃ t3, removeNode t (some s) =
        (removeLoop t3.fuel t3 (some f.addr) none none).bind
          (fun t2 => some (Outcome.returned (), t2)) ∧
      Ready t3 c (f :: fs) ∧ t3.fresh = t.fresh ∧ t3.nodeCount = t.nodeCount - 1 := by
  obtain ⟨hsf, hsib, hfs⟩ := (repCtx_cons f fs).1 hctx
  have hnd2 : (c.addrs ++ ctxAddrs (f :: fs)).Nodup := (List.nodup_cons.1 hnd).2
  simp [ctxAddrs, List.nodup_append, List.nodup_cons] at hnd
  have hsF : s ≠ f.addr := by simp only [ne_eq, hnd, not_false_eq_true]
  have hFs : f.addr ≠ s := hsF.symm
  have hssib : s ∉ f.sibling.addrs := by simp only [hnd, not_false_eq_true]
  have hsfs : s ∉ ctxAddrs fs := by simp only [hnd, not_false_eq_true]
  have hFsib : f.addr ∉ f.sibling.addrs := by simp only [hnd, not_false_eq_true]
  have hFfs : f.addr ∉ ctxAddrs fs := by simp only [hnd, not_false_eq_true]
  cases c with
  | nil =>
    simp only [ptr_nil] at hch
    refine ⟨_, removeNode_inner_nil hs hnp hsf hch, ⟨trivial, ?_, hnd2, hroot⟩, rfl, rfl⟩
    have hout : ∀ b, b ≠ f.addr → b ≠ s →
        ({ (t.write f.addr (spliceRecord (f.record (some s) (ctxPtr none fs)) s none)).release s
          with nodeCount := t.nodeCount - 1 } : BinarySearchTree α).store b = t.store b := by
      intro b h1 h2
      simp only [release_store_ne _ h2, write_store_ne _ _ h1]
    refine (repCtx_cons f fs).2 ⟨?_, ?_, ?_⟩
    · simp only [release_store_ne _ hFs, write_store_same, spliceRecord_frame _ _ _ _ hssib,
        ptr_nil]
    · exact hsib.congr (fun b hb => hout b (ne_of_mem_of_not_mem hb hFsib)
        (ne_of_mem_of_not_mem hb hssib))
    · exact hfs.congrCtx (fun b hb => hout b (ne_of_mem_of_not_mem hb hFfs)
        (ne_of_mem_of_not_mem hb hsfs))
  | node ca cl cv ch cr =>
    obtain ⟨hca, hcl, hcr⟩ := hc
    simp [Shape.addrs, List.nodup_append, List.nodup_cons] at hnd
    simp only [ptr_node] at hch
    have hFca : f.addr ≠ ca := by simp only [ne_eq, hnd, not_false_eq_true]
    have hcaF : ca ≠ f.addr := hFca.symm
    have hsca : s ≠ ca := by simp only [ne_eq, hnd, not_false_eq_true]
    have hcas : ca ≠ s := hsca.symm
    have hcasib : ca ∉ f.sibling.addrs := by simp only [hnd, not_false_eq_true]
    have hcafs : ca ∉ ctxAddrs fs := by simp only [hnd, not_false_eq_true]
    have hscl : s ∉ cl.addrs := by simp only [hnd, not_false_eq_true]
    have hscr : s ∉ cr.addrs := by simp only [hnd, not_false_eq_true]
    have hFcl : f.addr ∉ cl.addrs := by simp only [hnd, not_false_eq_true]
    have hFcr : f.addr ∉ cr.addrs := by simp only [hnd, not_false_eq_true]
    have hcacl : ca ∉ cl.addrs := by simp only [hnd, not_false_eq_true]
    have hcacr : ca ∉ cr.addrs := by simp only [hnd, not_false_eq_true]
    refine ⟨_, removeNode_inner_node hs hnp hsf hch hca hcaF, ⟨?_, ?_, hnd2, hroot⟩, rfl, rfl⟩
    · have hout : ∀ b, b ≠ f.addr → b ≠ s → b ≠ ca →
          ({ ((t.write f.addr (spliceRecord (f.record (some s) (ctxPtr none fs)) s
            (some ca))).write ca ⟨cv, ch, cl.ptr, cr.ptr, some f.addr⟩).release s
            with nodeCount := t.nodeCount - 1 } : BinarySearchTree α).store b = t.store b := by
        intro b h1 h2 h3
        simp only [release_store_ne _ h2, write_store_ne _ _ h1, write_store_ne _ _ h3]
      refine ⟨?_, ?_, ?_⟩
      · simp only [release_store_ne _ hcas, write_store_same, ctxPtr_cons]
      · exact hcl.congr (fun b hb => hout b (ne_of_mem_of_not_mem hb hFcl)
          (ne_of_mem_of_not_mem hb hscl) (ne_of_mem_of_not_mem hb hcacl))
      · exact hcr.congr (fun b hb => hout b (ne_of_mem_of_not_mem hb hFcr)
          (ne_of_mem_of_not_mem hb hscr) (ne_of_mem_of_not_mem hb hcacr))
    · have hout : ∀ b, b ≠ f.addr → b ≠ s → b ≠ ca →
          ({ ((t.write f.addr (spliceRecord (f.record (some s) (ctxPtr none fs)) s
            (some ca))).write ca ⟨cv, ch, cl.ptr, cr.ptr, some f.addr⟩).release s
            with nodeCount := t.nodeCount - 1 } : BinarySearchTree α).store b = t.store b := by
        intro b h1 h2 h3
        simp only [release_store_ne _ h2, write_store_ne _ _ h1, write_store_ne _ _ h3]
      refine (repCtx_cons f fs).2 ⟨?_, ?_, ?_⟩
      · simp only [release_store_ne _ hFs, write_store_ne _ _ hFca, write_store_same,
          spliceRecord_frame _ _ _ _ hssib, ptr_node]
      · exact hsib.congr (fun b hb => hout b (ne_of_mem_of_not_mem hb hFsib)
          (ne_of_mem_of_not_mem hb hssib) (ne_of_mem_of_not_mem hb hcasib))
      · exact hfs.congrCtx (fun b hb => hout b (ne_of_mem_of_not_mem hb hFfs)
          (ne_of_mem_of_not_mem hb hsfs) (ne_of_mem_of_not_mem hb hcafs))

theorem onlyChild_ptr (sl sr : Shape α) :
    (if sr.ptr ≠ none then sr.ptr else sl.ptr) = (onlyChild sl sr).ptr := by
  cases sr <;> simp [onlyChild]

theorem onlyChild_cases {sl sr : Shape α} (h : sl = nil ∨ sr = nil) :
    (sr = nil ∧ onlyChild sl sr = sl) ∨ (sl = nil ∧ onlyChild sl sr = sr) := by
  cases sr with
  | nil => exact Or.inl ⟨rfl, rfl⟩
  | node a l v h r =>
    rcases h with h | h
    · exact Or.inr ⟨h, rfl⟩
    · simp at h

theorem splice_root {t : BinarySearchTree α} {s : Nat} {n : BinaryTreeNode α} {c : Shape α}
    (hs : t.store s = some n) (hnp : n.parent = none)
    (hch : (if n.rightChild ≠ none then n.rightChild else n.leftChild) = c.ptr)
    (hc : Rep t.store (some s) c) (hsc : s ∉ c.addrs) :
    ∃ t3, removeNode t (some s) = some (Outcome.returned (), t3) ∧ Rep t3.store (some s) c ∧
      t3.root = c.ptr ∧ t3.fresh = t.fresh ∧ t3.nodeCount = t.nodeCount - 1 := by
  refine ⟨_, removeNode_root hs hnp, ?_, hch, rfl, rfl⟩
  exact hc.congr (fun b hb => release_store_ne _ (ne_of_mem_of_not_mem hb hsc))

/-- The second half of `remove` on a node with at most one child, in a tree that satisfies
the invariants: the node is gone, the other values stay in order, the stored heights are
consistent, and the tree is balanced when the node was a leaf. -/
theorem removeNode_spec {t : BinarySearchTree α} {s : Nat} {sl sr : Shape α} {sv : α}
    {sh : Int} {ctx : List (Frame α)} (hR : Ready t (node s sl sv sh sr) ctx)
    (hlt : ∀ a ∈ (plug (node s sl sv sh sr) ctx).addrs, a < t.fresh)
    (hok : HeightOK (plug (node s sl sv sh sr) ctx))
    (hbal : Balanced (plug (node s sl sv sh sr) ctx)) (h1 : sl = nil ∨ sr = nil) :
    ∃ t2 T2 rp, removeNode t (some s) = some (Outcome.returned (), t2) ∧
      Rep t2.store rp T2 ∧ t2.root = T2.ptr ∧ (ctx ≠ [] ∨ onlyChild sl sr = nil → rp = none) ∧
      (plug (node s sl sv sh sr) ctx).values =
        (ctxBefore ctx ++ sl.values) ++ sv :: (sr.values ++ ctxAfter ctx) ∧
      T2.values = (ctxBefore ctx ++ sl.values) ++ (sr.values ++ ctxAfter ctx) ∧
      (s :: T2.addrs).Perm (plug (node s sl sv sh sr) ctx).addrs ∧
      t2.fresh = t.fresh ∧ t2.nodeCount = t.nodeCount - 1 ∧ HeightOK T2 ∧
      (onlyChild sl sr = nil → Balanced T2) := by
  obtain ⟨⟨hs, hsl, hsr⟩, hctx, hnd, hroot⟩ := hR
  obtain ⟨⟨oks, oksl, oksr⟩, ⟨bals, balsl, balsr⟩, hcx⟩ := avl_plug_split hok hbal
  simp only [ht_node] at hcx
  have hc : Rep t.store (some s) (onlyChild sl sr) := by
    rcases onlyChild_cases h1 with ⟨_, e⟩ | ⟨_, e⟩ <;> rw [e] <;> assumption
  have hokc : HeightOK (onlyChild sl sr) := by
    rcases onlyChild_cases h1 with ⟨_, e⟩ | ⟨_, e⟩ <;> rw [e] <;> assumption
  have hbalc : Balanced (onlyChild sl sr) := by
    rcases onlyChild_cases h1 with ⟨_, e⟩ | ⟨_, e⟩ <;> rw [e] <;> assumption
  have hnsl := oksl.ht_nonneg
  have hnsr := oksr.ht_nonneg
  have hht : (onlyChild sl sr).ht = sh - 1 := by
    rcases onlyChild_cases h1 with ⟨e0, e⟩ | ⟨e0, e⟩ <;> rw [e] <;> subst e0 <;>
      simp only [ht_nil] at oks <;> omega
  have hval : (onlyChild sl sr).values = sl.values ++ sr.values := by
    rcases onlyChild_cases h1 with ⟨e0, e⟩ | ⟨e0, e⟩ <;> rw [e] <;> subst e0 <;>
      simp [Shape.values]
  have hadd : (s :: (onlyChild sl sr).addrs).Perm (node s sl sv sh sr).addrs := by
    rcases onlyChild_cases h1 with ⟨e0, e⟩ | ⟨e0, e⟩ <;> rw [e] <;> subst e0
    · simp only [Shape.addrs, List.append_nil]
      exact (List.perm_append_singleton s sl.addrs).symm.trans (by simp)
    · simp [Shape.addrs]
  have hnd3 : (s :: ((onlyChild sl sr).addrs ++ ctxAddrs ctx)).Nodup := by
    refine (List.Perm.nodup_iff ?_).2 hnd
    exact (List.Perm.append_right (ctxAddrs ctx) hadd)
  have hperm : (s :: (plug (onlyChild sl sr) ctx).addrs).Perm
      (plug (node s sl sv sh sr) ctx).addrs :=
    ((List.Perm.cons s (addrs_plug _ ctx)).trans
      (List.Perm.append_right (ctxAddrs ctx) hadd)).trans (addrs_plug _ ctx).symm
  have hvals : (plug (node s sl sv sh sr) ctx).values =
      (ctxBefore ctx ++ sl.values) ++ sv :: (sr.values ++ ctxAfter ctx) := by
    rw [values_plug]; simp [Shape.values]
  have hvalc : (plug (onlyChild sl sr) ctx).values =
      (ctxBefore ctx ++ sl.values) ++ (sr.values ++ ctxAfter ctx) := by
    rw [values_plug, hval]; simp
  cases ctx with
  | nil =>
    have hsc : s ∉ (onlyChild sl sr).addrs := by
      intro hm
      exact (List.nodup_cons.1 hnd3).1 (List.mem_append_left _ hm)
    obtain ⟨t3, hrun, hrep3, hroot3, hf3, hn3⟩ :=
      splice_root hs rfl (onlyChild_ptr sl sr) hc hsc
    by_cases hcn : onlyChild sl sr = nil
    · refine ⟨t3, onlyChild sl sr, none, hrun, ?_, hroot3, fun _ => rfl, hvals, hvalc,
        hperm, hf3, hn3, hokc, fun _ => hbalc⟩
      rw [hcn]; trivial
    · refine ⟨t3, onlyChild sl sr, some s, hrun, hrep3, hroot3, ?_, hvals, hvalc,
        hperm, hf3, hn3, hokc, fun e => absurd e hcn⟩
      rintro (h | h)
      · exact absurd rfl h
      · exact absurd h hcn
  | cons f fs =>
    obtain ⟨t3, hrun, hR3, hf3, hn3⟩ :=
      splice_inner hs rfl (onlyChild_ptr sl sr) hc hctx hnd3
        (hroot.trans (plug_ptr_cons _ _ f fs))
    have hlen : (f :: fs).length ≤ t.fresh := by
      have h1 := length_le_depth_plug (node s sl sv sh sr) (f :: fs)
      have h2 := (plug (node s sl sv sh sr) (f :: fs)).depth_le_size
      rw [Shape.size_eq_length] at h2
      have h3 := length_le_of_nodup_lt
        ((addrs_plug (node s sl sv sh sr) (f :: fs)).nodup_iff.2 hnd) hlt
      omega
    obtain ⟨t4, T4, hrun4, ⟨q1, q2, q3, q4, q5, q6⟩, hok4, hbal4⟩ :=
      removeLoop_spec (f :: fs) t3.fuel t3 (onlyChild sl sr) sh none none hR3 hokc hcx
        (Or.inr hht) (Or.inr rfl) (by simp only [BinarySearchTree.fuel, hf3]; omega)
    refine ⟨t4, T4, none, ?_, q1, q2, fun _ => rfl, hvals, q3.trans hvalc,
      (List.Perm.cons s q4).trans hperm, q5.trans hf3, q6.trans hn3, hok4, ?_⟩
    · rw [hrun]
      simp only [ctxPtr_cons] at hrun4
      rw [hrun4]; rfl
    · intro e
      exact hbal4 (by rw [e]; rfl) hbalc

theorem ctxAfter_append (c1 c2 : List (Frame α)) :
    ctxAfter (c1 ++ c2) = ctxAfter c1 ++ ctxAfter c2 := by
  induction c1 with
  | nil => rfl
  | cons f fs ih => cases f <;> simp [ctxAfter, ih]

theorem ctxBefore_append (c1 c2 : List (Frame α)) :
    ctxBefore (c1 ++ c2) = ctxBefore c2 ++ ctxBefore c1 := by
  induction c1 with
  | nil => simp [ctxBefore]
  | cons f fs ih => cases f <;> simp [ctxBefore, ih]

theorem AllRight.ctxAfter {ctx : List (Frame α)} (h : AllRight ctx) : ctxAfter ctx = [] := by
  induction ctx with
  | nil => rfl
  | cons f fs ih =>
    obtain ⟨a, l, v, ht, rfl⟩ := h f (List.mem_cons_self _ _)
    simp only [AVL.ctxAfter]
    exact ih (fun g hg => h g (List.mem_cons_of_mem _ hg))

/-- The loop that looks for the in-order predecessor ends at the rightmost node. -/
theorem rightmostLoop_spec {t : BinarySearchTree α} (sub : Shape α) :
    ∀ (par : Option Nat) (k : Nat), sub ≠ nil → Rep t.store par sub → sub.depth ≤ k →
      ∃ p pl pv ph inner, plug (node p pl pv ph nil) inner = sub ∧ AllRight inner ∧
        rightmostLoop t k sub.ptr = some (some p) := by
  induction sub with
  | nil => intro _ _ h; exact absurd rfl h
  | node a l v h r _ ihr =>
    intro par k _ hrep hk
    obtain ⟨h1, h2, h3⟩ := hrep
    cases k with
    | zero => simp [Shape.depth] at hk
    | succ k =>
      simp only [Shape.depth] at hk
      cases r with
      | nil =>
        refine ⟨a, l, v, h, [], rfl, fun f hf => by simp at hf, ?_⟩
        simp [rightmostLoop, deref_some, h1]
      | node b bl bv bh br =>
        obtain ⟨p, pl, pv, ph, inner, hp, hall, hrun⟩ :=
          ihr (some a) k (by simp) h3 (by omega)
        refine ⟨p, pl, pv, ph, inner ++ [Frame.inRight a l v h], ?_, ?_, ?_⟩
        · rw [plug_append, hp]; rfl
        · intro f hf
          rcases List.mem_append.1 hf with hf | hf
          · exact hall f hf
          · simp only [List.mem_singleton] at hf
            exact ⟨a, l, v, h, hf⟩
        · simp only [ptr_node] at hrun
          simp [rightmostLoop, deref_some, h1, hrun]

theorem ready_iff {t : BinarySearchTree α} (s : Shape α) (ctx : List (Frame α)) :
    Ready t s ctx ↔
      Rep t.store none (plug s ctx) ∧ (plug s ctx).addrs.Nodup ∧ t.root = (plug s ctx).ptr := by
  unfold Ready
  rw [rep_plug, (addrs_plug s ctx).nodup_iff]
  tauto

theorem Linked.ready {t : BinarySearchTree α} {s : Shape α} {ctx : List (Frame α)}
    (h : Linked t (plug s ctx)) : Ready t s ctx :=
  (ready_iff s ctx).2 ⟨h.1, h.2.2.1, h.2.1⟩

theorem bind_outcome {β γ : Type} (P : γ → Prop) (x : Option β) (f : β → Option γ)
    (hf : ∀ b r, f b = some r → P r) : ∀ r, x.bind f = some r → P r := by
  intro r h
  cases x with
  | none => simp at h
  | some b => exact hf b r h

theorem removeNode_outcome {t : BinarySearchTree α} {p : Option Nat} :
    ∀ r, removeNode t p = some r → r.1 = Outcome.returned () := by
  simp only [removeNode, Option.bind_eq_bind, Option.pure_def]
  repeat' first
    | exact fun r h => by rw [← Option.some.inj h]
    | (refine bind_outcome _ _ _ ?_; intro _)
    | split_ifs

theorem remove_eq_none {cmp : α → α → Int} {t : BinarySearchTree α} {item : α}
    (hfind : findParentOrDuplicate cmp t item = some none) :
    remove cmp t item = some (Outcome.itemNotFoundException, t) := by
  simp [remove, hfind]

theorem remove_eq_miss {cmp : α → α → Int} {t : BinarySearchTree α} {item : α} {a : Nat}
    {n : BinaryTreeNode α} (hfind : findParentOrDuplicate cmp t item = some (some a))
    (ha : t.store a = some n) (h0 : cmp n.nodeValue item ≠ 0) :
    remove cmp t item = some (Outcome.itemNotFoundException, t) := by
  simp [remove, hfind, deref_some, ha, h0]

theorem remove_eq_simple {cmp : α → α → Int} {t : BinarySearchTree α} {item : α} {a : Nat}
    {n : BinaryTreeNode α} (hfind : findParentOrDuplicate cmp t item = some (some a))
    (ha : t.store a = some n) (h0 : cmp n.nodeValue item = 0)
    (h2 : ¬(n.leftChild ≠ none ∧ n.rightChild ≠ none)) :
    remove cmp t item = removeNode t (some a) := by
  simp only [remove, hfind, Option.bind_eq_bind, Option.some_bind, reduceCtorEq, if_false,
    deref_some, ha, h0, ne_eq, not_true_eq_false, h2]

theorem remove_eq_swap {cmp : α → α → Int} {t : BinarySearchTree α} {item : α} {a p : Nat}
    {n np : BinaryTreeNode α} (hfind : findParentOrDuplicate cmp t item = some (some a))
    (ha : t.store a = some n) (h0 : cmp n.nodeValue item = 0)
    (h2 : n.leftChild ≠ none ∧ n.rightChild ≠ none)
    (hr : rightmostLoop t t.fuel n.leftChild = some (some p)) (hp : t.store p = some np)
    (hne : p ≠ a) :
    remove cmp t item =
      removeNode ((t.write a { n with nodeValue := np.nodeValue }).write p
        { np with nodeValue := n.nodeValue }) (some p) := by
  simp only [remove, hfind, Option.bind_eq_bind, Option.some_bind, reduceCtorEq, if_false,
    deref_some, ha, h0, ne_eq, not_true_eq_false, h2, not_false_eq_true, and_self, if_true, hr,
    hp, assign_some, Option.map_some', write_store_ne _ _ hne]

/-- Writing a value into the node the path leads to. -/
theorem ready_setValue {t : BinarySearchTree α} {a : Nat} {l r : Shape α} {v : α} {h : Int}
    {ctx : List (Frame α)} (w : α) (hR : Ready t (node a l v h r) ctx) :
    Ready (t.write a ⟨w, h, l.ptr, r.ptr, ctxPtr none ctx⟩) (node a l w h r) ctx := by
  obtain ⟨⟨hs, hl, hr⟩, hctx, hnd, hroot⟩ := hR
  have hx := hnd
  simp [Shape.addrs, List.nodup_append, List.nodup_cons] at hx
  have m1 : a ∉ l.addrs := by simp only [hx, not_false_eq_true]
  have m2 : a ∉ r.addrs := by simp only [hx, not_false_eq_true]
  have m3 : a ∉ ctxAddrs ctx := by simp only [hx, not_false_eq_true]
  exact ⟨⟨write_store_same _ _ _, (rep_write _ m1).2 hl, (rep_write _ m2).2 hr⟩,
    (repCtx_write _ m3).2 hctx, hnd, hroot.trans (plug_ptr_congr ctx rfl)⟩

theorem avl_setValue {a : Nat} {l r : Shape α} {v : α} {h : Int} {ctx : List (Frame α)}
    (w : α) (hok : HeightOK (plug (node a l v h r) ctx))
    (hbal : Balanced (plug (node a l v h r) ctx)) :
    HeightOK (plug (node a l w h r) ctx) ∧ Balanced (plug (node a l w h r) ctx) := by
  obtain ⟨h1, h2, h3⟩ := avl_plug_split hok hbal
  exact ⟨heightOK_plug (t := node a l w h r) h1 h3, balanced_plug (t := node a l w h r) h2 h3⟩

theorem mem_addrs_setValue {a : Nat} {l r : Shape α} {v : α} {h : Int}
    {ctx : List (Frame α)} (w : α) (b : Nat) :
    b ∈ (plug (node a l w h r) ctx).addrs ↔ b ∈ (plug (node a l v h r) ctx).addrs :=
  (@addrs_plug_congr _ (node a l w h r) (node a l v h r) ctx
    (List.Perm.refl _)).mem_iff

theorem Ready.lt_fuel {t : BinarySearchTree α} {s : Shape α} {ctx : List (Frame α)}
    (hR : Ready t s ctx) (hlt : ∀ a ∈ (plug s ctx).addrs, a < t.fresh) : s.depth < t.fuel := by
  have h1 := length_le_depth_plug s ctx
  have h2 := (plug s ctx).depth_le_size
  rw [Shape.size_eq_length] at h2
  have h3 := length_le_of_nodup_lt ((ready_iff s ctx).1 hR).2.1 hlt
  simp only [BinarySearchTree.fuel]
  omega

theorem remove_absent {cmp : α → α → Int} (hc : StrictTotal cmp) {t : BinarySearchTree α}
    {T : Shape α} (hL : Linked t T) (hbst : BST cmp T) (item : α)
    (hns : ∀ v ∈ T.values, cmp v item ≠ 0) :
    remove cmp t item = some (Outcome.itemNotFoundException, t) := by
  obtain ⟨sub, ctx, hp, hres⟩ := findParentOrDuplicate_spec hc hL hbst item
  subst hp
  rcases hres with ⟨a, l, v, h, r, rfl, e0, hfind⟩ | ⟨rfl, hfind, hb, ha, hf⟩
  · refine absurd e0 (hns v ?_)
    rw [values_plug]; simp [Shape.values]
  · cases ctx with
    | nil => exact remove_eq_none hfind
    | cons f fs =>
      obtain ⟨_, hctx⟩ := (rep_plug _ _).1 hL.1
      cases f with
      | inLeft A av ah ar => exact remove_eq_miss hfind hctx.1 hf.1
      | inRight A al av ah => exact remove_eq_miss hfind hctx.1 hf.1

theorem remove_found_outcome {cmp : α → α → Int} {t : BinarySearchTree α} {item : α} {a : Nat}
    {n : BinaryTreeNode α} (hfind : findParentOrDuplicate cmp t item = some (some a))
    (ha : t.store a = some n) (h0 : cmp n.nodeValue item = 0) :
    ∀ r, remove cmp t item = some r → r.1 = Outcome.returned () := by
  simp only [remove, hfind, Option.bind_eq_bind, Option.some_bind, reduceCtorEq, if_false,
    deref_some, ha, h0, ne_eq, not_true_eq_false]
  split_ifs
  · refine bind_outcome _ _ _ ?_; intro _
    refine bind_outcome _ _ _ ?_; intro _
    refine bind_outcome _ _ _ ?_; intro _
    refine bind_outcome _ _ _ ?_; intro _
    exact removeNode_outcome
  · exact removeNode_outcome

theorem remove_not_absent {cmp : α → α → Int} (hc : StrictTotal cmp) {t : BinarySearchTree α}
    {T : Shape α} (hL : Linked t T) (hbst : BST cmp T) (item : α)
    (hs : ∃ v ∈ T.values, cmp v item = 0) (t2 : BinarySearchTree α) :
    remove cmp t item ≠ some (Outcome.itemNotFoundException, t2) := by
  obtain ⟨sub, ctx, hp, hres⟩ := findParentOrDuplicate_spec hc hL hbst item
  subst hp
  rcases hres with ⟨a, l, v, h, r, rfl, e0, hfind⟩ | ⟨rfl, _, hb, ha, _⟩
  · obtain ⟨hsub, _⟩ := (rep_plug _ _).1 hL.1
    intro e
    have := remove_found_outcome hfind hsub.1 e0 _ e
    simp at this
  · obtain ⟨v, hv, e0⟩ := hs
    rw [values_plug] at hv
    simp only [Shape.values, List.append_nil] at hv
    exact absurd e0 (not_stored_of_bounds hc hb ha v hv)

/-- Removal of a stored value whose node has at most one child. -/
theorem remove_simple {cmp : α → α → Int} {t : BinarySearchTree α} {item : α} {x : Nat}
    {xl xr : Shape α} {xv : α} {xh : Int} {ctx : List (Frame α)}
    (hL : Linked t (plug (node x xl xv xh xr) ctx))
    (hok : HeightOK (plug (node x xl xv xh xr) ctx))
    (hbal : Balanced (plug (node x xl xv xh xr) ctx))
    (hfind : findParentOrDuplicate cmp t item = some (some x)) (e0 : cmp xv item = 0)
    (h2 : xl = nil ∨ xr = nil) :
    ∃ t2 T2 rp l1 l2, remove cmp t item = some (Outcome.returned (), t2) ∧
      Removed t2 T2 rp t (plug (node x xl xv xh xr) ctx) l1 l2 xv := by
  have hR := hL.ready
  have hne : ¬((⟨xv, xh, xl.ptr, xr.ptr, ctxPtr none ctx⟩ : BinaryTreeNode α).leftChild ≠ none ∧
      (⟨xv, xh, xl.ptr, xr.ptr, ctxPtr none ctx⟩ : BinaryTreeNode α).rightChild ≠ none) := by
    rcases h2 with rfl | rfl <;> simp
  obtain ⟨t2, T2, rp, hrun, q1, q2, _, q4, q5, q6, q7, q8, q9, _⟩ :=
    removeNode_spec hR hL.2.2.2 hok hbal h2
  exact ⟨t2, T2, rp, _, _, (remove_eq_simple hfind hR.1.1 e0 hne).trans hrun, q1, q2, q4, q5,
    ⟨x, q6⟩, q7, q8, q9⟩

set_option maxHeartbeats 1000000 in
/-- Removal of a stored value whose node has two children: the value of the in-order
predecessor moves into the node, and the predecessor node is spliced out. -/
theorem remove_swap {cmp : α → α → Int} {t : BinarySearchTree α} {item : α} {x : Nat}
    {xl xr : Shape α} {xv : α} {xh : Int} {ctx : List (Frame α)}
    (hL : Linked t (plug (node x xl xv xh xr) ctx))
    (hok : HeightOK (plug (node x xl xv xh xr) ctx))
    (hbal : Balanced (plug (node x xl xv xh xr) ctx))
    (hfind : findParentOrDuplicate cmp t item = some (some x)) (e0 : cmp xv item = 0)
    (hl : xl ≠ nil) (hr : xr ≠ nil) :
    ∃ t2 T2 rp l1 l2, remove cmp t item = some (Outcome.returned (), t2) ∧
      Removed t2 T2 rp t (plug (node x xl xv xh xr) ctx) l1 l2 xv := by
  have hR := hL.ready
  have hfuel : xl.depth ≤ t.fuel := by
    have := hR.lt_fuel hL.2.2.2
    simp only [Shape.depth] at this
    omega
  obtain ⟨p, pl, pv, ph, inner, hp, hall, hrun⟩ :=
    rightmostLoop_spec xl (some x) t.fuel hl hR.1.2.1 hfuel
  subst hp
  -- the tree seen from the predecessor node
  have e1 : ∀ w : α, plug (node x (plug (node p pl pv ph nil) inner) w xh xr) ctx =
      plug (node p pl pv ph nil) (inner ++ Frame.inLeft x w xh xr :: ctx) := by
    intro w; rw [plug_append]; rfl
  have hR1 := ready_setValue pv hR
  have hRp : Ready (t.write x ⟨pv, xh, (plug (node p pl pv ph nil) inner).ptr, xr.ptr,
      ctxPtr none ctx⟩) (node p pl pv ph nil) (inner ++ Frame.inLeft x pv xh xr :: ctx) := by
    rw [ready_iff, ← e1]; exact (ready_iff _ _).1 hR1
  have hR2 := ready_setValue xv hRp
  have hpx : p ≠ x := by
    have hx := hR.2.2.1
    have hm : p ∈ (plug (node p pl pv ph nil) inner).addrs :=
      (addrs_plug _ inner).mem_iff.2 (by simp [Shape.addrs])
    intro e
    simp only [Shape.addrs, List.append_assoc] at hx
    exact (List.nodup_append.1 hx).2.2 hm (by rw [e]; simp)
  have hsp : t.store p = some ⟨pv, ph, pl.ptr, (nil : Shape α).ptr,
      ctxPtr none (inner ++ Frame.inLeft x pv xh xr :: ctx)⟩ := by
    rw [← write_store_ne t _ hpx]; exact hRp.1.1
  have h2 : (⟨xv, xh, (plug (node p pl pv ph nil) inner).ptr, xr.ptr,
      ctxPtr none ctx⟩ : BinaryTreeNode α).leftChild ≠ none ∧
      (⟨xv, xh, (plug (node p pl pv ph nil) inner).ptr, xr.ptr,
      ctxPtr none ctx⟩ : BinaryTreeNode α).rightChild ≠ none := by
    constructor
    · intro e
      cases hq : plug (node p pl pv ph nil) inner with
      | nil => exact hl hq
      | node _ _ _ _ _ => simp [hq] at e
    · intro e
      cases xr with
      | nil => exact hr rfl
      | node _ _ _ _ _ => simp at e
  have hrem := remove_eq_swap hfind hR.1.1 e0 h2 hrun hsp hpx
  obtain ⟨hok1, hbal1⟩ := avl_setValue pv hok hbal
  rw [e1] at hok1 hbal1
  obtain ⟨hok2, hbal2⟩ := avl_setValue xv hok1 hbal1
  have hlt2 : ∀ a ∈ (plug (node p pl xv ph nil)
      (inner ++ Frame.inLeft x pv xh xr :: ctx)).addrs,
      a < ((t.write x ⟨pv, xh, (plug (node p pl pv ph nil) inner).ptr, xr.ptr,
        ctxPtr none ctx⟩).write p ⟨xv, ph, pl.ptr, (nil : Shape α).ptr,
        ctxPtr none (inner ++ Frame.inLeft x pv xh xr :: ctx)⟩).fresh := by
    intro a ha
    rw [mem_addrs_setValue, ← e1, mem_addrs_setValue] at ha
    exact hL.2.2.2 a ha
  obtain ⟨t2, T2, rp, hrun2, q1, q2, _, q4, q5, q6, q7, q8, q9, _⟩ :=
    removeNode_spec hR2 hlt2 hok2 hbal2 (Or.inr rfl)
  refine ⟨t2, T2, rp,
    ctxBefore ctx ++ (ctxBefore inner ++ pl.values ++ [pv]), xr.values ++ ctxAfter ctx,
    hrem.trans hrun2, q1, q2, ?_, ?_, ⟨p, ?_⟩, q7, q8, q9⟩
  · rw [values_plug, Shape.values, values_plug, hall.ctxAfter]
    simp [Shape.values]
  · rw [q5, ctxBefore_append, ctxAfter_append, hall.ctxAfter]
    simp [Shape.values, ctxBefore, ctxAfter]
  · have k1 : (plug (node p pl xv ph nil) (inner ++ Frame.inLeft x pv xh xr :: ctx)).addrs.Perm
        (plug (node p pl pv ph nil) (inner ++ Frame.inLeft x pv xh xr :: ctx)).addrs :=
      addrs_plug_congr _ (List.Perm.refl _)
    have k2 : (plug (node x (plug (node p pl pv ph nil) inner) pv xh xr) ctx).addrs.Perm
        (plug (node x (plug (node p pl pv ph nil) inner) xv xh xr) ctx).addrs :=
      addrs_plug_congr _ (List.Perm.refl _)
    rw [← e1 pv] at k1
    exact q6.trans (k1.trans k2)

/-- Removal of a stored value from a tree that satisfies the invariants. -/
theorem remove_present {cmp : α → α → Int} (hc : StrictTotal cmp) {t : BinarySearchTree α}
    {T : Shape α} (hL : Linked t T) (hbst : BST cmp T) (hok : HeightOK T) (hbal : Balanced T)
    (item : α) (hs : ∃ v ∈ T.values, cmp v item = 0) :
    ∃ t2 T2 rp l1 l2 v, remove cmp t item = some (Outcome.returned (), t2) ∧
      cmp v item = 0 ∧ Removed t2 T2 rp t T l1 l2 v := by
  obtain ⟨sub, ctx, hp, hres⟩ := findParentOrDuplicate_spec hc hL hbst item
  subst hp
  rcases hres with ⟨x, xl, xv, xh, xr, rfl, e0, hfind⟩ | ⟨rfl, _, hb, ha, _⟩
  · by_cases h2 : xl = nil ∨ xr = nil
    · obtain ⟨t2, T2, rp, l1, l2, h⟩ := remove_simple hL hok hbal hfind e0 h2
      exact ⟨t2, T2, rp, l1, l2, xv, h.1, e0, h.2⟩
    · obtain ⟨t2, T2, rp, l1, l2, h⟩ := remove_swap hL hok hbal hfind e0
        (fun e => h2 (Or.inl e)) (fun e => h2 (Or.inr e))
      exact ⟨t2, T2, rp, l1, l2, xv, h.1, e0, h.2⟩
  · obtain ⟨v, hv, e0⟩ := hs
    rw [values_plug] at hv
    simp only [Shape.values, List.append_nil] at hv
    exact absurd e0 (not_stored_of_bounds hc hb ha v hv)

/-- The comparison function of the test driver meets the comparator contract. -/
theorem strictTotal_compare : StrictTotal compare := by
  refine ⟨?_, ?_, ?_, ?_⟩
  · intro a b; unfold compare; split_ifs <;> simp
  · intro a b; unfold compare; split_ifs <;> simp <;> omega
  · intro a b; unfold compare; split_ifs <;> simp <;> omega
  · intro a b c; unfold compare; split_ifs <;> simp <;> omega

theorem inOrderValues_rep {t : BinarySearchTree α} {T : Shape α} {rp : Option Nat}
    (hrep : Rep t.store rp T) (hroot : t.root = T.ptr) (hnd : T.addrs.Nodup)
    (hlt : ∀ a ∈ T.addrs, a < t.fresh) : inOrderValues t = some T.values := by
  have h1 := length_le_of_nodup_lt hnd hlt
  have h2 := T.depth_le_size
  rw [T.size_eq_length] at h2
  unfold inOrderValues
  rw [hroot]
  exact valuesBelow_rep _ rp hrep (by simp only [BinarySearchTree.fuel]; omega)

theorem inOrderValues_linked {t : BinarySearchTree α} {T : Shape α} (hL : Linked t T) :
    inOrderValues t = some T.values :=
  inOrderValues_rep hL.1 hL.2.1 hL.2.2.1 hL.2.2.2

theorem Removed.inOrderValues {t2 t : BinarySearchTree α} {T2 T : Shape α} {rp : Option Nat}
    {l1 l2 : List α} {v : α} (h : Removed t2 T2 rp t T l1 l2 v) (hL : Linked t T) :
    inOrderValues t2 = some (l1 ++ l2) := by
  obtain ⟨h1, h2, _, h4, ⟨s, h5⟩, h6, _, _⟩ := h
  rw [← h4]
  have hnd : (s :: T2.addrs).Nodup := h5.nodup_iff.2 hL.2.2.1
  refine inOrderValues_rep h1 h2 (List.nodup_cons.1 hnd).2 ?_
  intro a ha
  rw [h6]
  exact hL.2.2.2 a (h5.mem_iff.1 (List.mem_cons_of_mem _ ha))

theorem Sorted.remove_middle {cmp : α → α → Int} {l1 l2 : List α} {v : α}
    (h : Sorted cmp (l1 ++ v :: l2)) : Sorted cmp (l1 ++ l2) :=
  List.Pairwise.sublist (List.Sublist.append_left (List.sublist_cons_self v l2) l1) h

theorem Sorted.insert_middle {cmp : α → α → Int} {l1 l2 : List α} {v : α}
    (h : Sorted cmp (l1 ++ l2)) (h1 : ∀ x ∈ l1, cmp x v = -1)
    (h2 : ∀ x ∈ l2, cmp v x = -1) : Sorted cmp (l1 ++ v :: l2) := by
  unfold Sorted at h ⊢
  rw [List.pairwise_append] at h ⊢
  obtain ⟨a, b, c⟩ := h
  refine ⟨a, List.pairwise_cons.2 ⟨h2, b⟩, ?_⟩
  intro x hx y hy
  rcases List.mem_cons.1 hy with rfl | hy
  · exact h1 x hx
  · exact c x hx y hy

theorem search_eq_none {cmp : α → α → Int} {t : BinarySearchTree α} {item : α}
    (hfind : findParentOrDuplicate cmp t item = some none) :
    search cmp t item = some (Outcome.itemNotFoundException, t) := by
  simp [search, hfind]

theorem search_eq_miss {cmp : α → α → Int} {t : BinarySearchTree α} {item : α} {a : Nat}
    {n : BinaryTreeNode α} (hfind : findParentOrDuplicate cmp t item = some (some a))
    (ha : t.store a = some n) (h0 : cmp n.nodeValue item ≠ 0) :
    search cmp t item = some (Outcome.itemNotFoundException, t) := by
  simp [search, hfind, deref_some, ha, h0]

theorem search_eq_found {cmp : α → α → Int} {t : BinarySearchTree α} {item : α} {a : Nat}
    {n : BinaryTreeNode α} (hfind : findParentOrDuplicate cmp t item = some (some a))
    (ha : t.store a = some n) (h0 : cmp n.nodeValue item = 0) :
    search cmp t item = some (Outcome.returned n.nodeValue, t) := by
  simp [search, hfind, deref_some, ha, h0]

theorem search_absent {cmp : α → α → Int} (hc : StrictTotal cmp) {t : BinarySearchTree α}
    {T : Shape α} (hL : Linked t T) (hbst : BST cmp T) (item : α)
    (hns : ∀ v ∈ T.values, cmp v item ≠ 0) :
    search cmp t item = some (Outcome.itemNotFoundException, t) := by
  obtain ⟨sub, ctx, hp, hres⟩ := findParentOrDuplicate_spec hc hL hbst item
  subst hp
  rcases hres with ⟨a, l, v, h, r, rfl, e0, hfind⟩ | ⟨rfl, hfind, hb, ha, hf⟩
  · refine absurd e0 (hns v ?_)
    rw [values_plug]; simp [Shape.values]
  · cases ctx with
    | nil => exact search_eq_none hfind
    | cons f fs =>
      obtain ⟨_, hctx⟩ := (rep_plug _ _).1 hL.1
      cases f with
      | inLeft A av ah ar => exact search_eq_miss hfind hctx.1 hf.1
      | inRight A al av ah => exact search_eq_miss hfind hctx.1 hf.1

theorem search_present {cmp : α → α → Int} (hc : StrictTotal cmp) {t : BinarySearchTree α}
    {T : Shape α} (hL : Linked t T) (hbst : BST cmp T) (item : α)
    (hs : ∃ v ∈ T.values, cmp v item = 0) :
    ∃ v ∈ T.values, cmp v item = 0 ∧ search cmp t item = some (Outcome.returned v, t) := by
  obtain ⟨sub, ctx, hp, hres⟩ := findParentOrDuplicate_spec hc hL hbst item
  subst hp
  rcases hres with ⟨a, l, v, h, r, rfl, e0, hfind⟩ | ⟨rfl, _, hb, ha, _⟩
  · obtain ⟨hsub, _⟩ := (rep_plug _ _).1 hL.1
    refine ⟨v, ?_, e0, search_eq_found hfind hsub.1 e0⟩
    rw [values_plug]; simp [Shape.values]
  · obtain ⟨v, hv, e0⟩ := hs
    rw [values_plug] at hv
    simp only [Shape.values, List.append_nil] at hv
    exact absurd e0 (not_stored_of_bounds hc hb ha v hv)

/-- For a stored key `returnHeight` yields the height field of the node that holds it. -/
theorem returnHeight_present {cmp : α → α → Int} (hc : StrictTotal cmp)
    {t : BinarySearchTree α} {T : Shape α} (hL : Linked t T) (hbst : BST cmp T) (item : α)
    (hs : ∃ v ∈ T.values, cmp v item = 0) :
    ∃ a n, a ∈ T.addrs ∧ t.store a = some n ∧ cmp n.nodeValue item = 0 ∧
      returnHeight cmp t item = some n.treeHeight := by
  obtain ⟨sub, ctx, hp, hres⟩ := findParentOrDuplicate_spec hc hL hbst item
  subst hp
  rcases hres with ⟨a, l, v, h, r, rfl, e0, hfind⟩ | ⟨rfl, _, hb, ha, _⟩
  · obtain ⟨hsub, _⟩ := (rep_plug _ _).1 hL.1
    refine ⟨a, _, ?_, hsub.1, e0, ?_⟩
    · exact (addrs_plug _ _).mem_iff.2 (by simp [Shape.addrs])
    · simp [returnHeight, hfind, deref_some, hsub.1]
  · obtain ⟨v, hv, e0⟩ := hs
    rw [values_plug] at hv
    simp only [Shape.values, List.append_nil] at hv
    exact absurd e0 (not_stored_of_bounds hc hb ha v hv)

/-- For a key that is not stored, in a tree that is not empty, `returnHeight` yields the
height field of the node the descent stopped at; no exception is thrown. -/
theorem returnHeight_absent {cmp : α → α → Int} (hc : StrictTotal cmp)
    {t : BinarySearchTree α} {T : Shape α} (hL : Linked t T) (hbst : BST cmp T) (item : α)
    (hns : ∀ v ∈ T.values, cmp v item ≠ 0) :
    (T = nil ∧ returnHeight cmp t item = none) ∨
      ∃ a n, a ∈ T.addrs ∧ t.store a = some n ∧ returnHeight cmp t item = some n.treeHeight := by
  obtain ⟨sub, ctx, hp, hres⟩ := findParentOrDuplicate_spec hc hL hbst item
  subst hp
  rcases hres with ⟨a, l, v, h, r, rfl, e0, hfind⟩ | ⟨rfl, hfind, hb, ha, hf⟩
  · refine absurd e0 (hns v ?_)
    rw [values_plug]; simp [Shape.values]
  · cases ctx with
    | nil =>
      refine Or.inl ⟨rfl, ?_⟩
      simp [returnHeight, hfind, BinarySearchTree.deref]
    | cons f fs =>
      obtain ⟨_, hctx⟩ := (rep_plug _ _).1 hL.1
      obtain ⟨hsf, _, _⟩ := (repCtx_cons f fs).1 hctx
      refine Or.inr ⟨f.addr, _, ?_, hsf, ?_⟩
      · exact (addrs_plug _ _).mem_iff.2 (by simp [Shape.addrs, ctxAddrs])
      · simp [returnHeight, hfind, deref_some, hsf]

/-! ## The concrete trees of the driver -/

set_option maxRecDepth 100000 in
theorem testTree5_linked : Linked testTree5 testShape5 := by
  refine ⟨?_, rfl, by decide, by decide⟩
  simp only [testShape5, Rep, ptr_node, ptr_nil, and_true, true_and]
  repeat' apply And.intro
  all_goals rfl

theorem testShape5_invariants :
    BST compare testShape5 ∧ HeightOK testShape5 ∧ Balanced testShape5 := by
  simp [testShape5, BST, HeightOK, Balanced, Shape.values, compare]

set_option maxRecDepth 100000 in
theorem testTree8_linked : Linked testTree8 testShape8 := by
  refine ⟨?_, rfl, by decide, by decide⟩
  simp only [testShape8, Rep, ptr_node, ptr_nil, and_true, true_and]
  repeat' apply And.intro
  all_goals rfl

theorem testShape8_bst : BST compare testShape8 := by
  simp [testShape8, BST, Shape.values, compare]

set_option maxRecDepth 100000 in
theorem lowLeftTree_linked : Linked lowLeftTree lowLeftShape := by
  refine ⟨?_, rfl, by decide, by decide⟩
  simp only [lowLeftShape, Rep, ptr_node, ptr_nil, and_true, true_and]
  repeat' apply And.intro
  all_goals rfl

theorem lowLeftShape_invariants :
    BST compare lowLeftShape ∧ HeightOK lowLeftShape ∧ Balanced lowLeftShape := by
  simp [lowLeftShape, BST, HeightOK, Balanced, Shape.values, compare]

theorem empty_linked : Linked (empty : BinarySearchTree α) nil :=
  ⟨trivial, rfl, List.nodup_nil, by simp [Shape.addrs]⟩

/-! ## Sizes and the values a removal leaves -/

theorem Sorted.not_mem_before {cmp : α → α → Int} (hc : StrictTotal cmp) {l1 l2 : List α}
    {v : α} (h : Sorted cmp (l1 ++ v :: l2)) : v ∉ l1 := by
  intro hm
  have h1 := (List.pairwise_append.1 h).2.2 v hm v (List.mem_cons_self v l2)
  rw [(hc.eq_iff v v).2 rfl] at h1
  exact absurd h1 (by decide)

theorem split_unique {a : α} :
    ∀ {l1 m1 : List α} {l2 m2 : List α}, l1 ++ a :: l2 = m1 ++ a :: m2 → a ∉ l1 → a ∉ m1 →
      l1 = m1 ∧ l2 = m2 := by
  intro l1
  induction l1 with
  | nil =>
    intro m1 l2 m2 h _ h2
    cases m1 with
    | nil => exact ⟨rfl, List.tail_eq_of_cons_eq h⟩
    | cons b m1 =>
      simp only [List.nil_append, List.cons_append, List.cons.injEq] at h
      exact absurd (List.mem_cons.2 (Or.inl h.1)) h2
  | cons c l1 ih =>
    intro m1 l2 m2 h h1 h2
    cases m1 with
    | nil =>
      simp only [List.nil_append, List.cons_append, List.cons.injEq] at h
      exact absurd (List.mem_cons.2 (Or.inl h.1.symm)) h1
    | cons b m1 =>
      simp only [List.cons_append, List.cons.injEq] at h
      obtain ⟨e1, e2⟩ := ih h.2 (fun hm => h1 (List.mem_cons_of_mem _ hm))
        (fun hm => h2 (List.mem_cons_of_mem _ hm))
      exact ⟨by rw [h.1, e1], e2⟩

theorem Removed.size {t2 t : BinarySearchTree α} {T2 T : Shape α} {rp : Option Nat}
    {l1 l2 : List α} {v : α} (h : Removed t2 T2 rp t T l1 l2 v) : T2.size + 1 = T.size := by
  obtain ⟨_, _, _, _, ⟨s, h5⟩, _⟩ := h
  rw [T2.size_eq_length, T.size_eq_length, ← h5.length_eq]
  rfl

theorem Shape.length_values (T : Shape α) : T.values.length = T.size := by
  induction T with
  | nil => rfl
  | node a l v h r ihl ihr => simp [Shape.values, Shape.size, ihl, ihr]; omega

/-! ## The height of a tree and the number of its nodes -/

theorem findLoop_eq_visits (cmp : α → α → Int) (t : BinarySearchTree α) (item : α) :
    ∀ (k : Nat) (c parent : Option Nat),
      findLoop cmp t item k c parent =
        (findVisits cmp t item k c).map (lastVisit parent) := by
  intro k
  induction k with
  | zero => intro c parent; rfl
  | succ k ih =>
    intro c parent
    cases c with
    | none => rfl
    | some a =>
      simp only [findLoop, findVisits, Option.bind_eq_bind, Option.pure_def]
      cases t.store a with
      | none => rfl
      | some n =>
        simp only [Option.some_bind]
        split_ifs
        · rfl
        · rw [ih, Option.map_map]; rfl
        · rw [ih, Option.map_map]; rfl

theorem findVisits_rep {cmp : α → α → Int} {t : BinarySearchTree α} (item : α)
    {T : Shape α} :
    ∀ (k : Nat) (par : Option Nat), Rep t.store par T → T.depth < k →
      ∃ vs, findVisits cmp t item k T.ptr = some vs ∧ vs.length ≤ T.depth := by
  induction T with
  | nil =>
    intro k par _ hk
    cases k with
    | zero => simp at hk
    | succ k => exact ⟨[], rfl, le_refl _⟩
  | node a l v h r ihl ihr =>
    intro k par hrep hk
    cases k with
    | zero => simp at hk
    | succ k =>
      obtain ⟨hs, hl, hr⟩ := hrep
      simp only [Shape.depth] at hk ⊢
      obtain ⟨vl, el, hvl⟩ := ihl k (some a) hl (by omega)
      obtain ⟨vr, er, hvr⟩ := ihr k (some a) hr (by omega)
      simp only [ptr_node, findVisits, hs, Option.bind_eq_bind, Option.some_bind,
        Option.pure_def, el, er, Option.map_some']
      split_ifs
      · exact ⟨_, rfl, by simp⟩
      · exact ⟨_, rfl, by simp only [List.length_cons]; omega⟩
      · exact ⟨_, rfl, by simp only [List.length_cons]; omega⟩

theorem HeightOK.depth_eq {T : Shape α} (h : HeightOK T) : (T.depth : Int) = T.ht := by
  induction T with
  | nil => rfl
  | node a l v ht r ihl ihr =>
    obtain ⟨e, hl, hr⟩ := h
    simp only [Shape.depth, ht_node, e, ← ihl hl, ← ihr hr]
    push_cast
    omega

/-- An AVL tree of height `h` has at least `fib (h + 2) - 1` nodes. -/
theorem fib_le_size {T : Shape α} (hok : HeightOK T) (hbal : Balanced T) :
    Nat.fib (T.depth + 2) ≤ T.size + 1 := by
  induction T with
  | nil => simp [Shape.depth, Shape.size]
  | node a l v h r ihl ihr =>
    obtain ⟨_, okl, okr⟩ := hok
    obtain ⟨b1, bl, br⟩ := hbal
    have h1 := ihl okl bl
    have h2 := ihr okr br
    rw [← okl.depth_eq, ← okr.depth_eq, abs_le] at b1
    simp only [Shape.depth, Shape.size]
    rcases le_total l.depth r.depth with hle | hle
    · have e : Nat.fib (r.depth + 1 + 2) = Nat.fib (r.depth + 1) + Nat.fib (r.depth + 2) :=
        Nat.fib_add_two
      rw [max_eq_right hle, e]
      have hm : Nat.fib (r.depth + 1) ≤ Nat.fib (l.depth + 2) :=
        Nat.fib_mono (by omega)
      omega
    · have e : Nat.fib (l.depth + 1 + 2) = Nat.fib (l.depth + 1) + Nat.fib (l.depth + 2) :=
        Nat.fib_add_two
      rw [max_eq_left hle, e]
      have hm : Nat.fib (l.depth + 1) ≤ Nat.fib (r.depth + 2) :=
        Nat.fib_mono (by omega)
      omega

/-- One call of `insert` on a tree that satisfies the invariants: it ends, the invariants
hold again, and the values are the former ones, with `item` put in when it was not stored. -/
theorem insert_invariants {cmp : α → α → Int} (hc : StrictTotal cmp)
    {t : BinarySearchTree α} {T : Shape α} (hL : Linked t T) (hbst : BST cmp T)
    (hok : HeightOK T) (hbal : Balanced T) (hn : t.nodeCount = T.size) (item : α) :
    ∃ o t2 T2, insert cmp t item = some (o, t2) ∧ Linked t2 T2 ∧ BST cmp T2 ∧ HeightOK T2 ∧
      Balanced T2 ∧ t2.nodeCount = T2.size ∧
      ((o = Outcome.duplicateItemException ∧ (∃ v ∈ T.values, cmp v item = 0) ∧
          T2.values = T.values) ∨
        (o = Outcome.returned () ∧ (∀ v ∈ T.values, cmp v item ≠ 0) ∧
          ∃ l1 l2, T.values = l1 ++ l2 ∧ T2.values = l1 ++ item :: l2)) := by
  by_cases hs : ∃ v ∈ T.values, cmp v item = 0
  · exact ⟨_, t, T, insert_duplicate hc hL hbst item hs, hL, hbst, hok, hbal, hn,
      Or.inl ⟨rfl, hs, rfl⟩⟩
  · push_neg at hs
    obtain ⟨t2, T2, l1, l2, h1, h2, h3, h4, h5, h6, h7, h8, h9, _, h11, _⟩ :=
      insert_fresh hc hL hbst hok hbal item hs
    have hT : Sorted cmp T.values := (bst_iff_sorted hc T).1 hbst
    have hT2 : Sorted cmp T2.values := by
      rw [h6]; rw [h5] at hT; exact hT.insert_middle h7 h8
    refine ⟨_, t2, T2, h1, h2, (bst_iff_sorted hc T2).2 hT2, h3, h4, ?_,
      Or.inr ⟨rfl, hs, l1, l2, h5, h6⟩⟩
    have hlen : T2.addrs.length = T.addrs.length + 1 := h9.length_eq
    rw [h11, T2.size_eq_length, hlen, hn, T.size_eq_length]
    push_cast
    rfl

/-- A row of calls of `insert` keeps the invariants. -/
theorem insertEach_invariants {cmp : α → α → Int} (hc : StrictTotal cmp) (vs : List α) :
    ∀ {t : BinarySearchTree α} {T : Shape α}, Linked t T → BST cmp T → HeightOK T →
      Balanced T → t.nodeCount = T.size →
      ∃ t2 T2, insertEach cmp t vs = some t2 ∧ Linked t2 T2 ∧ BST cmp T2 ∧ HeightOK T2 ∧
        Balanced T2 ∧ t2.nodeCount = T2.size := by
  induction vs with
  | nil => intro t T hL hbst hok hbal hn; exact ⟨t, T, rfl, hL, hbst, hok, hbal, hn⟩
  | cons v vs ih =>
    intro t T hL hbst hok hbal hn
    obtain ⟨o, t1, T1, h1, h2, h3, h4, h5, h6, _⟩ :=
      insert_invariants hc hL hbst hok hbal hn v
    obtain ⟨t2, T2, k1, k⟩ := ih h2 h3 h4 h5 h6
    exact ⟨t2, T2, by simp only [insertEach, h1, Option.some_bind]; exact k1, k⟩

/-! ## `insert`: the ascent along the path of the descent -/

theorem Descends.headFits {cmp : α → α → Int} {item : α} {ctx : List (Frame α)}
    (h : Descends cmp item ctx) : HeadFits cmp item ctx := by
  cases ctx with
  | nil => trivial
  | cons f fs => cases f <;> exact h.1

theorem Descends.tail {cmp : α → α → Int} {item : α} {f : Frame α} {fs : List (Frame α)}
    (h : Descends cmp item (f :: fs)) : Descends cmp item fs := by
  cases f <;> exact h.2

theorem lift_ptr (h0 : Int) (ctx : List (Frame α)) (rp : Option Nat) :
    ctxPtr rp (lift h0 ctx) = ctxPtr rp ctx := by
  cases ctx with
  | nil => rfl
  | cons f fs => cases f <;> rfl

theorem plug_lift_ht (s : Shape α) (ctx : List (Frame α)) :
    (plug s (lift s.ht ctx)).ht = topHeight s.ht ctx := by
  induction ctx generalizing s with
  | nil => rfl
  | cons f fs ih =>
    cases f with
    | inLeft A v h r => exact ih (node A s v (hgt s.ht r.ht) r)
    | inRight A l v h => exact ih (node A l v (hgt l.ht s.ht) s)

theorem plug_node (a : Nat) (l : Shape α) (v : α) (h : Int) (r : Shape α)
    (ctx : List (Frame α)) :
    ∃ b bl bv bh br, plug (node a l v h r) ctx = node b bl bv bh br := by
  induction ctx generalizing a l v h r with
  | nil => exact ⟨a, l, v, h, r, rfl⟩
  | cons f fs ih =>
    cases f with
    | inLeft A av ah ar => exact ih A (node a l v h r) av ah ar
    | inRight A al av ah => exact ih A al av ah (node a l v h r)

theorem plug_stored_ht (s : Shape α) (ctx : List (Frame α)) :
    (plug s ctx).ht = topStored s.ht ctx := by
  induction ctx generalizing s with
  | nil => rfl
  | cons f fs ih => rw [plug, ih, fill_ht]; rfl

theorem ctxAVL_append {h0 : Int} {c1 c2 : List (Frame α)} :
    CtxAVL h0 (c1 ++ c2) → CtxAVL h0 c1 ∧ CtxAVL (topStored h0 c1) c2 := by
  induction c1 generalizing h0 with
  | nil => intro h; exact ⟨trivial, h⟩
  | cons f fs ih =>
    intro h
    obtain ⟨e1, e2, e3, e4, e5⟩ := h
    obtain ⟨k1, k2⟩ := ih e5
    exact ⟨⟨e1, e2, e3, e4, k1⟩, k2⟩

/-- One insertion raises the height at the top of a path by one at most. -/
theorem topHeight_grow {old h : Int} {ctx : List (Frame α)} (hcx : CtxAVL old ctx)
    (hh : h = old ∨ h = old + 1) :
    topHeight h ctx = topStored old ctx ∨ topHeight h ctx = topStored old ctx + 1 := by
  induction ctx generalizing old h with
  | nil => exact hh
  | cons f fs ih =>
    obtain ⟨e1, _, _, _, e5⟩ := hcx
    cases f with
    | inLeft A v fh r =>
      simp only [Frame.height, Frame.sibling] at e1 e5
      exact ih e5 (by simp only [Frame.height]; rw [hgt_eq]; omega)
    | inRight A l v fh =>
      simp only [Frame.height, Frame.sibling] at e1 e5
      exact ih e5 (by simp only [Frame.height]; rw [hgt_eq]; omega)

theorem Kept.linked {t2 t : BinarySearchTree α} {T2 T : Shape α} (h : Kept t2 T2 t T)
    (hL : Linked t T) : Linked t2 T2 := by
  obtain ⟨h1, h2, _, h4, h5, _⟩ := h
  refine ⟨h1, h2, h4.nodup_iff.2 hL.2.2.1, ?_⟩
  intro a ha
  rw [h5]
  exact hL.2.2.2 a (h4.mem_iff.1 ha)

/-- The descent of `findParentOrDuplicate` along a path it fits. -/
theorem findLoop_along {cmp : α → α → Int} {t : BinarySearchTree α} {item : α} :
    ∀ (ctx : List (Frame α)) (sub : Shape α) (k : Nat) (par : Option Nat),
      Rep t.store none (plug sub ctx) → Descends cmp item ctx →
      findLoop cmp t item (k + ctx.length) (plug sub ctx).ptr par =
        findLoop cmp t item k sub.ptr (ctxPtr par ctx) := by
  intro ctx
  induction ctx with
  | nil => intro sub k par _ _; rfl
  | cons f fs ih =>
    intro sub k par hrep hd
    have h1 := ih (f.fill sub) (k + 1) par hrep hd.tail
    have e : k + (f :: fs).length = k + 1 + fs.length := by
      simp only [List.length_cons]; omega
    rw [e]
    simp only [plug]
    rw [h1]
    obtain ⟨_, hctx⟩ := (rep_plug _ _).1 hrep
    cases f with
    | inLeft A v fh r =>
      obtain ⟨hs, _, _⟩ := hctx
      obtain ⟨⟨d0, d1⟩, _⟩ := hd
      simp [Frame.fill, findLoop, hs, d0, d1, Frame.addr]
    | inRight A l v fh =>
      obtain ⟨hs, _, _⟩ := hctx
      obtain ⟨⟨d0, d1⟩, _⟩ := hd
      simp [Frame.fill, findLoop, hs, d0, d1, Frame.addr]

theorem findParentOrDuplicate_along {cmp : α → α → Int} {t : BinarySearchTree α} {item : α}
    {ctx : List (Frame α)} (hL : Linked t (plug nil ctx)) (hd : Descends cmp item ctx) :
    findParentOrDuplicate cmp t item = some (ctxPtr none ctx) := by
  have hlen := length_le_depth_plug nil ctx
  have hfuel := hL.depth_lt_fuel
  obtain ⟨k, hk⟩ : ∃ k, t.fuel = k + 1 + ctx.length := ⟨t.fuel - 1 - ctx.length, by omega⟩
  unfold findParentOrDuplicate
  rw [hk, hL.2.1, findLoop_along ctx nil (k + 1) _ hL.1 hd]
  cases ctx with
  | nil => rfl
  | cons f fs => rfl

/-- One round of the loop of `insert` at an ancestor that passes the balance test. -/
theorem insertLoop_step {t : BinarySearchTree α} {a : Nat} {l r : Shape α} {v : α} {h : Int}
    {g : Frame α} {fs : List (Frame α)} (k : Nat) (pre pp : Option Nat)
    (hR : Ready t (node a l v h r) (g :: fs)) (hb : PathBalanced h [g]) :
    ∃ t1, insertLoop (k + 1) t (some a) pre pp = insertLoop k t1 (some g.addr) (some a) pre ∧
      Ready t1 (plug (node a l v h r) (lift h [g])) fs ∧ t1.fresh = t.fresh ∧
      t1.nodeCount = t.nodeCount := by
  obtain ⟨hrep, hctx, hnd, hroot⟩ := hR
  have hnd2 := (addrs_fill g (node a l v h r) fs).nodup_iff.2 hnd
  cases g with
  | inLeft A av ah ar =>
    have hb1 : ¬(ar.ht - h < -1 ∨ ar.ht - h > 1) := by
      have := hb.1
      rw [abs_le] at this
      omega
    obtain ⟨t1, hstep, hrep1, hctx1, hroot1, hf1, hn1⟩ :=
      insert_step_left k pre pp hrep hctx hnd2 hb1
    exact ⟨t1, hstep, ⟨hrep1, hctx1, hnd2,
      hroot1.trans (hroot.trans (plug_ptr_congr fs rfl))⟩, hf1, hn1⟩
  | inRight A al av ah =>
    have hb1 : ¬(h - al.ht < -1 ∨ h - al.ht > 1) := by
      have := hb.1
      rw [abs_le] at this
      omega
    obtain ⟨t1, hstep, hrep1, hctx1, hroot1, hf1, hn1⟩ :=
      insert_step_right k pre pp hrep hctx hnd2 hb1
    exact ⟨t1, hstep, ⟨hrep1, hctx1, hnd2,
      hroot1.trans (hroot.trans (plug_ptr_congr fs rfl))⟩, hf1, hn1⟩

/-- The round of the loop of `insert` at an ancestor that fails the balance test. -/
theorem insertLoop_stop {t : BinarySearchTree α} {a : Nat} {l r : Shape α} {v : α} {h : Int}
    {g : Frame α} {fs : List (Frame α)} (k : Nat) (pre pp : Option Nat)
    (hR : Ready t (node a l v h r) (g :: fs)) (hu : ¬PathBalanced h [g]) :
    insertLoop (k + 1) t (some a) pre pp = insertRebalance t (some g.addr) (some a) pre := by
  obtain ⟨hrep, hctx, hnd, hroot⟩ := hR
  have hza : hz t.store (some a) = some h := by simp [hrep.1]
  cases g with
  | inLeft A av ah ar =>
    obtain ⟨hsA, har, _⟩ := hctx
    have hb1 : ar.ht - h < -1 ∨ ar.ht - h > 1 := by
      by_contra hc
      exact hu ⟨by rw [abs_le]; omega, trivial⟩
    exact insertLoop_unbalanced k pre pp hrep.1 rfl hsA (hz_rep har) hza hb1
  | inRight A al av ah =>
    obtain ⟨hsA, hal, _⟩ := hctx
    have hb1 : h - al.ht < -1 ∨ h - al.ht > 1 := by
      by_contra hc
      exact hu ⟨by rw [abs_le]; omega, trivial⟩
    exact insertLoop_unbalanced k pre pp hrep.1 rfl hsA hza (hz_rep hal) hb1

theorem lift_cons (h : Int) (g : Frame α) (gs : List (Frame α)) :
    lift h (g :: gs) = lift h [g] ++ lift (topHeight h [g]) gs := by
  cases g <;> rfl

theorem pathBalanced_cons {h : Int} {g : Frame α} {gs : List (Frame α)} :
    PathBalanced h (g :: gs) ↔ PathBalanced h [g] ∧ PathBalanced (topHeight h [g]) gs := by
  cases g <;> simp [PathBalanced, topHeight]

theorem topHeight_cons (h : Int) (g : Frame α) (gs : List (Frame α)) :
    topHeight h (g :: gs) = topHeight (topHeight h [g]) gs := by
  cases g <;> rfl

/-- The loop of `insert` goes up a path all of whose ancestors pass the balance test. -/
theorem insertLoop_climb :
    ∀ (cP : List (Frame α)) (t : BinarySearchTree α) (a : Nat) (l : Shape α) (v : α) (h : Int)
      (r : Shape α) (pre pp : Option Nat) (k : Nat) (rest : List (Frame α)),
      Ready t (node a l v h r) (cP ++ rest) → PathBalanced h cP →
      ∃ t1 pre1 pp1,
        insertLoop (k + cP.length) t (some a) pre pp =
          insertLoop k t1 (plug (node a l v h r) (lift h cP)).ptr pre1 pp1 ∧
        Ready t1 (plug (node a l v h r) (lift h cP)) rest ∧ t1.fresh = t.fresh ∧
        t1.nodeCount = t.nodeCount := by
  intro cP
  induction cP with
  | nil =>
    intro t a l v h r pre pp k rest hR _
    exact ⟨t, pre, pp, rfl, hR, rfl, rfl⟩
  | cons g gs ih =>
    intro t a l v h r pre pp k rest hR hb
    obtain ⟨hb1, hb2⟩ := pathBalanced_cons.1 hb
    obtain ⟨t1, hstep, hR1, hf1, hn1⟩ := insertLoop_step (k + gs.length) pre pp hR hb1
    have hnode : ∃ A sl sv sr, plug (node a l v h r) (lift h [g]) =
        node A sl sv (topHeight h [g]) sr ∧ g.addr = A := by
      cases g with
      | inLeft A av ah ar => exact ⟨A, _, _, _, rfl, rfl⟩
      | inRight A al av ah => exact ⟨A, _, _, _, rfl, rfl⟩
    obtain ⟨A, sl, sv, sr, e, eA⟩ := hnode
    rw [e] at hR1
    obtain ⟨t2, pre2, pp2, hrun, hR2, hf2, hn2⟩ :=
      ih t1 A sl sv (topHeight h [g]) sr (some a) pre k rest hR1 hb2
    refine ⟨t2, pre2, pp2, ?_, ?_, hf2.trans hf1, hn2.trans hn1⟩
    · have e2 : k + (g :: gs).length = k + gs.length + 1 := by
        simp only [List.length_cons]; omega
      rw [e2, hstep, eA, hrun, lift_cons, plug_append, e]
    · rw [lift_cons, plug_append, e]; exact hR2

/-- The state `insert` hands to its ascent holds the new leaf below the path. -/
theorem linkedLeaf_ready {t : BinarySearchTree α} {f : Frame α} {fs : List (Frame α)}
    (item : α) (hL : Linked t (plug nil (f :: fs))) :
    Ready (linkedLeaf t item f.addr (f.record (some t.fresh) (ctxPtr none fs)))
      (node t.fresh nil item 1 nil) (f :: fs) := by
  obtain ⟨hrep, hroot, hnd, hlt⟩ := hL
  have hperm := addrs_plug nil (f :: fs)
  simp only [Shape.addrs, List.nil_append] at hperm
  have hnd1 : (ctxAddrs (f :: fs)).Nodup := hperm.nodup_iff.1 hnd
  have hlt1 : ∀ a ∈ ctxAddrs (f :: fs), a < t.fresh := fun a ha => hlt a (hperm.mem_iff.2 ha)
  have hN : t.fresh ∉ ctxAddrs (f :: fs) := fun hm => Nat.lt_irrefl _ (hlt1 _ hm)
  have hfa : f.addr ≠ t.fresh := by
    have := hlt1 f.addr (by simp [ctxAddrs])
    omega
  obtain ⟨_, hctx⟩ := (rep_plug _ _).1 hrep
  obtain ⟨hsf, hsib, hfs⟩ := (repCtx_cons f fs).1 hctx
  have hfsib : f.addr ∉ f.sibling.addrs := by
    intro hm
    simp only [ctxAddrs, List.cons_append, List.nodup_cons, List.mem_append] at hnd1
    exact hnd1.1 (Or.inl hm)
  have hffs : f.addr ∉ ctxAddrs fs := by
    intro hm
    simp only [ctxAddrs, List.cons_append, List.nodup_cons, List.mem_append] at hnd1
    exact hnd1.1 (Or.inr hm)
  have hNsib : t.fresh ∉ f.sibling.addrs := fun hm => hN (by simp [ctxAddrs, hm])
  have hNfs : t.fresh ∉ ctxAddrs fs := fun hm => hN (by simp [ctxAddrs, hm])
  refine ⟨⟨linkedLeaf_store_fresh t item _ hfa, trivial, trivial⟩,
    (repCtx_cons f fs).2 ⟨linkedLeaf_store_same t item _ _, ?_, ?_⟩, ?_,
    hroot.trans (plug_ptr_cons _ _ f fs)⟩
  · exact hsib.congr (fun b hb => linkedLeaf_store_ne t item _
      (ne_of_mem_of_not_mem hb hfsib) (ne_of_mem_of_not_mem hb hNsib))
  · exact hfs.congrCtx (fun b hb => linkedLeaf_store_ne t item _
      (ne_of_mem_of_not_mem hb hffs) (ne_of_mem_of_not_mem hb hNfs))
  · have : (t.fresh :: ctxAddrs (f :: fs)).Nodup := List.nodup_cons.2 ⟨hN, hnd1⟩
    simpa [Shape.addrs] using this

theorem topHeight_append (h : Int) (c1 c2 : List (Frame α)) :
    topHeight h (c1 ++ c2) = topHeight (topHeight h c1) c2 := by
  induction c1 generalizing h with
  | nil => rfl
  | cons g gs ih =>
    rw [List.cons_append, topHeight_cons h g (gs ++ c2), ih, topHeight_cons h g gs]

theorem pathBalanced_append {h : Int} {c1 c2 : List (Frame α)} :
    PathBalanced h (c1 ++ c2) ↔ PathBalanced h c1 ∧ PathBalanced (topHeight h c1) c2 := by
  induction c1 generalizing h with
  | nil => simp [PathBalanced, topHeight]
  | cons g gs ih =>
    rw [List.cons_append, pathBalanced_cons, ih, @pathBalanced_cons _ h g gs,
      topHeight_cons h g gs, and_assoc]

/-- The ascent of `insert` up to the lowest ancestor that fails the balance test: the state
in which `insertRebalance` is called, and its three arguments. -/
theorem insert_reaches {cmp : α → α → Int} {t : BinarySearchTree α} {item : α}
    {cP : List (Frame α)} {gB gA : Frame α} {fs : List (Frame α)}
    (hL : Linked t (plug nil (cP ++ gB :: gA :: fs)))
    (hd : Descends cmp item (cP ++ gB :: gA :: fs))
    (hp : PathBalanced 1 (cP ++ [gB]))
    (hu : ¬PathBalanced (topHeight 1 (cP ++ [gB])) [gA]) :
    ∃ t1 c cl cv cr,
      plug (node t.fresh nil item 1 nil) (lift 1 cP) = node c cl cv (topHeight 1 cP) cr ∧
      insert cmp t item =
        (insertRebalance t1 (some gA.addr) (some gB.addr) (some c)).bind
          (fun t2 => some (Outcome.returned (), t2)) ∧
      Ready t1 (plug (node c cl cv (topHeight 1 cP) cr) (lift (topHeight 1 cP) [gB]))
        (gA :: fs) ∧
      t1.fresh = t.fresh + 1 ∧ t1.nodeCount = t.nodeCount + 1 := by
  obtain ⟨hpP, hpB⟩ := pathBalanced_append.1 hp
  rw [topHeight_append] at hu
  have hlen := length_le_depth_plug nil (cP ++ gB :: gA :: fs)
  have hfuel := hL.depth_lt_fuel
  simp only [List.length_append, List.length_cons, BinarySearchTree.fuel] at hlen hfuel
  obtain ⟨f0, r0, e0⟩ : ∃ f0 r0, cP ++ gB :: gA :: fs = f0 :: r0 := by
    cases cP with
    | nil => exact ⟨gB, gA :: fs, rfl⟩
    | cons g gs => exact ⟨g, gs ++ gB :: gA :: fs, rfl⟩
  rw [e0] at hL hd
  have hfind := findParentOrDuplicate_along hL hd
  have hrun := insert_eq_link hL hfind hd.headFits
  have hR0 := linkedLeaf_ready item hL
  rw [← e0] at hR0
  obtain ⟨K, hK⟩ : ∃ K, (linkedLeaf t item f0.addr
      (f0.record (some t.fresh) (ctxPtr none r0))).fuel = K + 2 + cP.length :=
    ⟨2 * (t.fresh + 1) + 2 - 2 - cP.length, by
      simp only [BinarySearchTree.fuel, linkedLeaf_fresh]; omega⟩
  obtain ⟨t1, pre1, pp1, hclimb, hR1, hf1, hn1⟩ :=
    insertLoop_climb cP _ t.fresh nil item 1 nil none none (K + 2) (gB :: gA :: fs) hR0 hpP
  obtain ⟨c, cl, cv, ch, cr, e⟩ := plug_node t.fresh nil item 1 nil (lift 1 cP)
  have hch : ch = topHeight 1 cP := by
    have := plug_lift_ht (node t.fresh nil item 1 nil) cP
    rw [ht_node, e, ht_node] at this
    exact this
  subst hch
  rw [e] at hclimb hR1
  obtain ⟨t2, hstep, hR2, hf2, hn2⟩ := insertLoop_step (K + 1) pre1 pp1 hR1 hpB
  have hnode : ∃ B sl sv sr, plug (node c cl cv (topHeight 1 cP) cr)
      (lift (topHeight 1 cP) [gB]) = node B sl sv (topHeight (topHeight 1 cP) [gB]) sr ∧
      gB.addr = B := by
    cases gB with
    | inLeft B bv bh br => exact ⟨B, _, _, _, rfl, rfl⟩
    | inRight B bl bv bh => exact ⟨B, _, _, _, rfl, rfl⟩
  obtain ⟨B, sl, sv, sr, eS, eB⟩ := hnode
  have hR3 := hR2
  rw [eS] at hR3
  have hstop := insertLoop_stop K (some c) pre1 hR3 hu
  refine ⟨t2, c, cl, cv, cr, e, ?_, hR2, ?_, ?_⟩
  · rw [hrun, hK, hclimb]
    simp only [ptr_node]
    rw [hstep, eB, hstop]
  · rw [hf2, hf1, linkedLeaf_fresh]
  · rw [hn2, hn1, linkedLeaf_nodeCount]

theorem ctxAddrs_append (c1 c2 : List (Frame α)) :
    ctxAddrs (c1 ++ c2) = ctxAddrs c1 ++ ctxAddrs c2 := by
  induction c1 with
  | nil => rfl
  | cons g gs ih => simp [ctxAddrs, ih]

theorem ctxAddrs_lift (h : Int) (c : List (Frame α)) : ctxAddrs (lift h c) = ctxAddrs c := by
  induction c generalizing h with
  | nil => rfl
  | cons g gs ih => cases g <;> simp [lift, ctxAddrs, ih, Frame.addr, Frame.sibling]

/-- The nodes of the tree in which the ascent of `insert` met the ancestor that fails the
balance test lie below the next free address. -/
theorem reach_bound {t : BinarySearchTree α} (item : α) {cP : List (Frame α)} {gB gA : Frame α}
    {fs : List (Frame α)} (h2 : Int) (hL : Linked t (plug nil (cP ++ gB :: gA :: fs))) :
    ∀ a ∈ (plug (plug (plug (node t.fresh nil item 1 nil) (lift 1 cP)) (lift h2 [gB]))
      (gA :: fs)).addrs, a < t.fresh + 1 := by
  intro a ha
  rw [← plug_append, ← plug_append, (addrs_plug _ _).mem_iff, ctxAddrs_append, ctxAddrs_append,
    ctxAddrs_lift, ctxAddrs_lift, ← ctxAddrs_append, ← ctxAddrs_append] at ha
  simp only [Shape.addrs, List.nil_append, List.singleton_append, List.mem_cons,
    List.append_assoc] at ha
  rcases ha with rfl | ha
  · omega
  · have := hL.2.2.2 a ((addrs_plug _ _).mem_iff.2 (by
      simp only [Shape.addrs, List.nil_append]
      simpa using ha))
    omega

theorem Ready.toLinked {t : BinarySearchTree α} {s : Shape α} {ctx : List (Frame α)}
    (h : Ready t s ctx) (hlt : ∀ a ∈ (plug s ctx).addrs, a < t.fresh) :
    Linked t (plug s ctx) := by
  obtain ⟨h1, h2, h3⟩ := (ready_iff s ctx).1 h
  exact ⟨h1, h3, h2, hlt⟩

/-- Heights and balance of the ancestors of a path before an insertion below it, read off
the invariants of the whole tree. -/
theorem path_facts {cP : List (Frame α)} {gB gA : Frame α} {fs : List (Frame α)}
    (hok : HeightOK (plug nil (cP ++ gB :: gA :: fs)))
    (hbal : Balanced (plug nil (cP ++ gB :: gA :: fs))) :
    (topHeight 1 cP = topStored 0 cP ∨ topHeight 1 cP = topStored 0 cP + 1) ∧
      gB.height = 1 + max (topStored 0 cP) gB.sibling.ht ∧
      gA.height = 1 + max gB.height gA.sibling.ht ∧
      |gB.height - gA.sibling.ht| ≤ 1 := by
  obtain ⟨_, _, hcx⟩ := avl_plug_split hok hbal
  simp only [ht_nil] at hcx
  obtain ⟨h1, h2⟩ := ctxAVL_append hcx
  obtain ⟨b1, _, _, _, a1, a2, _⟩ := h2
  exact ⟨topHeight_grow h1 (Or.inr rfl), b1, a1, a2⟩

/-! Arithmetic of the four rotation cases of `insert`: `x` is the new height below `B`, `xo`
the former one, `sB` and `sA` the heights of the subtrees of `B` and `A` off the path. -/

theorem left_left_heights {x xo sB sA bh ah : Int} (g1 : x = xo ∨ x = xo + 1)
    (g2 : bh = 1 + max xo sB) (g3 : ah = 1 + max bh sA) (g4 : |bh - sA| ≤ 1)
    (hB : |x - sB| ≤ 1) (hu : ¬|hgt x sB - sA| ≤ 1) :
    hgt sB sA = ah - 1 ∧ hgt x (ah - 1) = ah := by
  rw [abs_le] at g4 hB hu
  simp only [hgt_eq] at hu ⊢
  omega

theorem right_right_heights {x xo sB sA bh ah : Int} (g1 : x = xo ∨ x = xo + 1)
    (g2 : bh = 1 + max xo sB) (g3 : ah = 1 + max bh sA) (g4 : |bh - sA| ≤ 1)
    (hB : |sB - x| ≤ 1) (hu : ¬|sA - hgt sB x| ≤ 1) :
    hgt sA sB = ah - 1 ∧ hgt (ah - 1) x = ah := by
  rw [abs_le] at g4 hB hu
  simp only [hgt_eq] at hu ⊢
  omega

theorem left_right_heights {x xo sB sA bh ah cl cr : Int} (g1 : x = xo ∨ x = xo + 1)
    (g2 : bh = 1 + max xo sB) (g3 : ah = 1 + max bh sA) (g4 : |bh - sA| ≤ 1)
    (hB : |sB - x| ≤ 1) (hu : ¬|hgt sB x - sA| ≤ 1) (hx : x = 1 + max cl cr) :
    hgt sB cl = ah - 1 ∧ hgt cr sA = ah - 1 ∧ hgt (ah - 1) (ah - 1) = ah := by
  rw [abs_le] at g4 hB hu
  simp only [hgt_eq] at hu ⊢
  omega

theorem right_left_heights {x xo sB sA bh ah cl cr : Int} (g1 : x = xo ∨ x = xo + 1)
    (g2 : bh = 1 + max xo sB) (g3 : ah = 1 + max bh sA) (g4 : |bh - sA| ≤ 1)
    (hB : |x - sB| ≤ 1) (hu : ¬|sA - hgt x sB| ≤ 1) (hx : x = 1 + max cl cr) :
    hgt sA cl = ah - 1 ∧ hgt cr sB = ah - 1 ∧ hgt (ah - 1) (ah - 1) = ah := by
  rw [abs_le] at g4 hB hu
  simp only [hgt_eq] at hu ⊢
  omega

set_option maxHeartbeats 1000000 in
/-- Left-left case of `insert`: the path enters `A` and `B` from the left. -/
theorem insert_left_left {cmp : α → α → Int} {t : BinarySearchTree α} {item : α}
    {cP : List (Frame α)} {A B : Nat} {av bv : α} {ah bh : Int} {ar br : Shape α}
    {fs : List (Frame α)}
    (hL : Linked t (plug nil (cP ++ Frame.inLeft B bv bh br :: Frame.inLeft A av ah ar :: fs)))
    (hok : HeightOK (plug nil (cP ++ Frame.inLeft B bv bh br :: Frame.inLeft A av ah ar :: fs)))
    (hbal : Balanced
      (plug nil (cP ++ Frame.inLeft B bv bh br :: Frame.inLeft A av ah ar :: fs)))
    (hd : Descends cmp item (cP ++ Frame.inLeft B bv bh br :: Frame.inLeft A av ah ar :: fs))
    (hp : PathBalanced 1 (cP ++ [Frame.inLeft B bv bh br]))
    (hu : ¬PathBalanced (topHeight 1 (cP ++ [Frame.inLeft B bv bh br]))
      [Frame.inLeft A av ah ar]) :
    ∃ t1 t2, insert cmp t item = some (Outcome.returned (), t2) ∧
      rotateRight t1 (some B) = some t2 ∧
      Linked t2 (plug (node B (plug (node t.fresh nil item 1 nil) (lift 1 cP)) bv ah
        (node A br av (ah - 1) ar)) fs) := by
  obtain ⟨g1, g2, g3, g4⟩ := path_facts hok hbal
  obtain ⟨t1, c, cl, cv, cr, e, hrun, hR, hf, hn⟩ := insert_reaches hL hd hp hu
  have hlt := reach_bound item (topHeight 1 cP) hL
  rw [e, ← hf] at hlt
  have hL1 := hR.toLinked hlt
  have hR2 := (ready_fill (Frame.inLeft A av ah ar) fs _).2 hR
  obtain ⟨hrep, hctx, hnd, hroot⟩ := hR2
  obtain ⟨t2, hrot, hK⟩ := rotateRight_kept hrep hctx hnd hroot
  have hreb := insertRebalance_LL hrep.1 rfl hrep.2.1.1 rfl
  simp only [ptr_node] at hreb
  have hpB := (pathBalanced_append.1 hp).2.1
  have hu1 : ¬|hgt (topHeight 1 cP) br.ht - ar.ht| ≤ 1 := by
    intro hc
    rw [topHeight_append] at hu
    exact hu ⟨hc, trivial⟩
  simp only [Frame.height, Frame.sibling] at g2 g3 g4
  obtain ⟨e1, e2⟩ := left_left_heights g1 g2 g3 g4 hpB hu1
  have hL2 := hK.linked hL1
  simp only [ht_node] at hL2
  rw [e1, e2, ← e] at hL2
  refine ⟨t1, t2, ?_, hrot, hL2⟩
  rw [hrun]
  simp only [Frame.addr]
  rw [hreb, hrot]
  rfl

/-- The node at the top of a path the ascent of `insert` went up stores one more than the
larger stored height of its children. -/
theorem lift_root_height :
    ∀ (c : List (Frame α)) (a : Nat) (l : Shape α) (v : α) (h : Int) (r : Shape α) (b : Nat)
      (bl : Shape α) (bv : α) (bh : Int) (br : Shape α),
      plug (node a l v h r) (lift h c) = node b bl bv bh br → h = 1 + max l.ht r.ht →
      bh = 1 + max bl.ht br.ht := by
  intro c
  induction c with
  | nil =>
    intro a l v h r b bl bv bh br e hh
    simp only [lift, plug, node.injEq] at e
    obtain ⟨_, rfl, _, rfl, rfl⟩ := e
    exact hh
  | cons g gs ih =>
    intro a l v h r b bl bv bh br e hh
    cases g with
    | inLeft A av ah ar => exact ih A (node a l v h r) av _ ar b bl bv bh br e (hgt_eq _ _)
    | inRight A al av ah => exact ih A al av _ (node a l v h r) b bl bv bh br e (hgt_eq _ _)

set_option maxHeartbeats 1000000 in
/-- Right-right case of `insert`: the path enters `A` and `B` from the right. -/
theorem insert_right_right {cmp : α → α → Int} {t : BinarySearchTree α} {item : α}
    {cP : List (Frame α)} {A B : Nat} {av bv : α} {ah bh : Int} {al bl : Shape α}
    {fs : List (Frame α)}
    (hL : Linked t
      (plug nil (cP ++ Frame.inRight B bl bv bh :: Frame.inRight A al av ah :: fs)))
    (hok : HeightOK
      (plug nil (cP ++ Frame.inRight B bl bv bh :: Frame.inRight A al av ah :: fs)))
    (hbal : Balanced
      (plug nil (cP ++ Frame.inRight B bl bv bh :: Frame.inRight A al av ah :: fs)))
    (hd : Descends cmp item (cP ++ Frame.inRight B bl bv bh :: Frame.inRight A al av ah :: fs))
    (hp : PathBalanced 1 (cP ++ [Frame.inRight B bl bv bh]))
    (hu : ¬PathBalanced (topHeight 1 (cP ++ [Frame.inRight B bl bv bh]))
      [Frame.inRight A al av ah]) :
    ∃ t1 t2, insert cmp t item = some (Outcome.returned (), t2) ∧
      rotateLeft t1 (some B) = some t2 ∧
      Linked t2 (plug (node B (node A al av (ah - 1) bl) bv ah
        (plug (node t.fresh nil item 1 nil) (lift 1 cP))) fs) := by
  obtain ⟨g1, g2, g3, g4⟩ := path_facts hok hbal
  obtain ⟨t1, c, cl, cv, cr, e, hrun, hR, hf, hn⟩ := insert_reaches hL hd hp hu
  have hlt := reach_bound item (topHeight 1 cP) hL
  rw [e, ← hf] at hlt
  have hL1 := hR.toLinked hlt
  have hR2 := (ready_fill (Frame.inRight A al av ah) fs _).2 hR
  obtain ⟨hrep, hctx, hnd, hroot⟩ := hR2
  obtain ⟨t2, hrot, hK⟩ := rotateLeft_kept hrep hctx hnd hroot
  have hy := hnd
  simp [Frame.fill, lift, plug, Shape.addrs, List.nodup_append, List.nodup_cons] at hy
  have hBal : B ∉ al.addrs := by simp only [hy, not_false_eq_true]
  have hcbl : c ∉ bl.addrs := by simp only [hy, not_false_eq_true]
  have hreb := insertRebalance_RR hrep.1 (ptr_ne hBal) rfl hrep.2.2.1 (ptr_ne hcbl) rfl
  simp only [ptr_node] at hreb
  have hpB := (pathBalanced_append.1 hp).2.1
  have hu1 : ¬|al.ht - hgt bl.ht (topHeight 1 cP)| ≤ 1 := by
    intro hc
    rw [topHeight_append] at hu
    exact hu ⟨hc, trivial⟩
  simp only [Frame.height, Frame.sibling] at g2 g3 g4
  obtain ⟨e1, e2⟩ := right_right_heights g1 g2 g3 g4 hpB hu1
  have hL2 := hK.linked hL1
  simp only [ht_node] at hL2
  rw [e1, e2, ← e] at hL2
  refine ⟨t1, t2, ?_, hrot, hL2⟩
  rw [hrun]
  simp only [Frame.addr]
  rw [hreb, hrot]
  rfl

set_option maxHeartbeats 1000000 in
/-- Left-right case of `insert`: the path enters `A` from the left and `B` from the right. -/
theorem insert_left_right {cmp : α → α → Int} {t : BinarySearchTree α} {item : α}
    {cP : List (Frame α)} {A B : Nat} {av bv : α} {ah bh : Int} {ar bl : Shape α}
    {fs : List (Frame α)}
    (hL : Linked t
      (plug nil (cP ++ Frame.inRight B bl bv bh :: Frame.inLeft A av ah ar :: fs)))
    (hok : HeightOK
      (plug nil (cP ++ Frame.inRight B bl bv bh :: Frame.inLeft A av ah ar :: fs)))
    (hbal : Balanced
      (plug nil (cP ++ Frame.inRight B bl bv bh :: Frame.inLeft A av ah ar :: fs)))
    (hd : Descends cmp item (cP ++ Frame.inRight B bl bv bh :: Frame.inLeft A av ah ar :: fs))
    (hp : PathBalanced 1 (cP ++ [Frame.inRight B bl bv bh]))
    (hu : ¬PathBalanced (topHeight 1 (cP ++ [Frame.inRight B bl bv bh]))
      [Frame.inLeft A av ah ar]) :
    ∃ t1 t2 c cl cv ch cr,
      plug (node t.fresh nil item 1 nil) (lift 1 cP) = node c cl cv ch cr ∧
      insert cmp t item = some (Outcome.returned (), t2) ∧
      (rotateLeft t1 (some c)).bind (fun t3 => rotateRight t3 (some c)) = some t2 ∧
      Linked t2 (plug (node c (node B bl bv (ah - 1) cl) cv ah (node A cr av (ah - 1) ar))
        fs) := by
  obtain ⟨g1, g2, g3, g4⟩ := path_facts hok hbal
  obtain ⟨t1, c, cl, cv, cr, e, hrun, hR, hf, hn⟩ := insert_reaches hL hd hp hu
  have hch := lift_root_height cP t.fresh nil item 1 nil c cl cv _ cr e (by simp)
  have hlt := reach_bound item (topHeight 1 cP) hL
  rw [e, ← hf] at hlt
  have hL1 := hR.toLinked hlt
  have hR2 := (ready_fill (Frame.inLeft A av ah ar) fs _).2 hR
  obtain ⟨hrep, hctx, hnd, hroot⟩ := hR2
  obtain ⟨t2, hrot, hK⟩ := rotateLeftRight_kept hrep hctx hnd hroot
  have hy := hnd
  simp [Frame.fill, lift, plug, Shape.addrs, List.nodup_append, List.nodup_cons] at hy
  have hcbl : c ∉ bl.addrs := by simp only [hy, not_false_eq_true]
  have hreb := insertRebalance_LR hrep.1 rfl hrep.2.1.1 (ptr_ne hcbl) rfl
  simp only [ptr_node] at hreb
  have hpB := (pathBalanced_append.1 hp).2.1
  have hu1 : ¬|hgt bl.ht (topHeight 1 cP) - ar.ht| ≤ 1 := by
    intro hc
    rw [topHeight_append] at hu
    exact hu ⟨hc, trivial⟩
  simp only [Frame.height, Frame.sibling] at g2 g3 g4
  obtain ⟨e1, e2, e3⟩ := left_right_heights g1 g2 g3 g4 hpB hu1 hch
  have hL2 := hK.linked hL1
  rw [e1, e2, e3] at hL2
  refine ⟨t1, t2, c, cl, cv, _, cr, e, ?_, hrot, hL2⟩
  rw [hrun]
  simp only [Frame.addr]
  rw [hreb, hrot]
  rfl

set_option maxHeartbeats 1000000 in
/-- Right-left case of `insert`: the path enters `A` from the right and `B` from the left. -/
theorem insert_right_left {cmp : α → α → Int} {t : BinarySearchTree α} {item : α}
    {cP : List (Frame α)} {A B : Nat} {av bv : α} {ah bh : Int} {al br : Shape α}
    {fs : List (Frame α)}
    (hL : Linked t
      (plug nil (cP ++ Frame.inLeft B bv bh br :: Frame.inRight A al av ah :: fs)))
    (hok : HeightOK
      (plug nil (cP ++ Frame.inLeft B bv bh br :: Frame.inRight A al av ah :: fs)))
    (hbal : Balanced
      (plug nil (cP ++ Frame.inLeft B bv bh br :: Frame.inRight A al av ah :: fs)))
    (hd : Descends cmp item (cP ++ Frame.inLeft B bv bh br :: Frame.inRight A al av ah :: fs))
    (hp : PathBalanced 1 (cP ++ [Frame.inLeft B bv bh br]))
    (hu : ¬PathBalanced (topHeight 1 (cP ++ [Frame.inLeft B bv bh br]))
      [Frame.inRight A al av ah]) :
    ∃ t1 t2 c cl cv ch cr,
      plug (node t.fresh nil item 1 nil) (lift 1 cP) = node c cl cv ch cr ∧
      insert cmp t item = some (Outcome.returned (), t2) ∧
      (rotateRight t1 (some c)).bind (fun t3 => rotateLeft t3 (some c)) = some t2 ∧
      Linked t2 (plug (node c (node A al av (ah - 1) cl) cv ah (node B cr bv (ah - 1) br))
        fs) := by
  obtain ⟨g1, g2, g3, g4⟩ := path_facts hok hbal
  obtain ⟨t1, c, cl, cv, cr, e, hrun, hR, hf, hn⟩ := insert_reaches hL hd hp hu
  have hch := lift_root_height cP t.fresh nil item 1 nil c cl cv _ cr e (by simp)
  have hlt := reach_bound item (topHeight 1 cP) hL
  rw [e, ← hf] at hlt
  have hL1 := hR.toLinked hlt
  have hR2 := (ready_fill (Frame.inRight A al av ah) fs _).2 hR
  obtain ⟨hrep, hctx, hnd, hroot⟩ := hR2
  obtain ⟨t2, hrot, hK⟩ := rotateRightLeft_kept hrep hctx hnd hroot
  have hy := hnd
  simp [Frame.fill, lift, plug, Shape.addrs, List.nodup_append, List.nodup_cons] at hy
  have hBal : B ∉ al.addrs := by simp only [hy, not_false_eq_true]
  have hreb := insertRebalance_RL hrep.1 (ptr_ne hBal) rfl hrep.2.2.1 rfl
  simp only [ptr_node] at hreb
  have hpB := (pathBalanced_append.1 hp).2.1
  have hu1 : ¬|al.ht - hgt (topHeight 1 cP) br.ht| ≤ 1 := by
    intro hc
    rw [topHeight_append] at hu
    exact hu ⟨hc, trivial⟩
  simp only [Frame.height, Frame.sibling] at g2 g3 g4
  obtain ⟨e1, e2, e3⟩ := right_left_heights g1 g2 g3 g4 hpB hu1 hch
  have hL2 := hK.linked hL1
  rw [e1, e2, e3] at hL2
  refine ⟨t1, t2, c, cl, cv, _, cr, e, ?_, hrot, hL2⟩
  rw [hrun]
  simp only [Frame.addr]
  rw [hreb, hrot]
  rfl

/-! ## `remove`: the rotation cases of `removeRebalance` -/

/-! Arithmetic of the rotation cases of `remove`: `s` is the height of the lower subtree of
`A`, `h` the stored height of its higher child, `i` and `o` the heights of the inner and the
outer subtree of that child. -/

theorem single_left_heights {s h i o : Int} (h1 : h = 1 + max i o) (h2 : h = s + 2)
    (hb : o - i = 0 ∨ o - i = 1) :
    |s - i| ≤ 1 ∧ |hgt s i - o| ≤ 1 ∧ (o - i = 0 → hgt (hgt s i) o = hgt s h) ∧
      (o - i = 1 → hgt (hgt s i) o = hgt s h - 1) := by
  simp only [hgt_eq, abs_le]
  omega

theorem single_right_heights {s h i o : Int} (h1 : h = 1 + max o i) (h2 : h = s + 2)
    (hb : i - o = 0 ∨ i - o = -1) :
    |i - s| ≤ 1 ∧ |o - hgt i s| ≤ 1 ∧ (i - o = 0 → hgt o (hgt i s) = hgt h s) ∧
      (i - o = -1 → hgt o (hgt i s) = hgt h s - 1) := by
  simp only [hgt_eq, abs_le]
  omega

theorem double_left_heights {s h c cl cr o : Int} (h1 : h = 1 + max c o) (h2 : h = s + 2)
    (h3 : c = 1 + max cl cr) (h4 : |cl - cr| ≤ 1) (hb : o - c = -1) :
    |s - cl| ≤ 1 ∧ |cr - o| ≤ 1 ∧ |hgt s cl - hgt cr o| ≤ 1 ∧
      hgt (hgt s cl) (hgt cr o) = hgt s h - 1 := by
  rw [abs_le] at h4
  simp only [hgt_eq, abs_le]
  omega

theorem double_right_heights {s h c cl cr o : Int} (h1 : h = 1 + max o c) (h2 : h = s + 2)
    (h3 : c = 1 + max cl cr) (h4 : |cl - cr| ≤ 1) (hb : c - o = 1) :
    |o - cl| ≤ 1 ∧ |cr - s| ≤ 1 ∧ |hgt o cl - hgt cr s| ≤ 1 ∧
      hgt (hgt o cl) (hgt cr s) = hgt h s - 1 := by
  rw [abs_le] at h4
  simp only [hgt_eq, abs_le]
  omega

theorem Kept.inOrderValues_eq {t2 t : BinarySearchTree α} {T2 T : Shape α} (h : Kept t2 T2 t T)
    (hL : Linked t T) : inOrderValues t2 = inOrderValues t := by
  rw [inOrderValues_linked (h.linked hL), inOrderValues_linked hL, h.2.2.1]

/-- `removeRebalance` at a node whose right subtree is the higher one by two, when the right
child does not lean to the left: one `rotateLeft`. -/
theorem removeRebalance_single_left {t : BinarySearchTree α} {fs : List (Frame α)}
    {A R : Nat} {al rl rr : Shape α} {av rv : α} {ah rh : Int} (pp : Option Nat)
    (hL : Linked t (plug (node A al av ah (node R rl rv rh rr)) fs))
    (hokl : HeightOK al) (hball : Balanced al) (hokr : HeightOK (node R rl rv rh rr))
    (hbalr : Balanced (node R rl rv rh rr)) (h2 : rh = al.ht + 2)
    (hb : rr.ht - rl.ht = 0 ∨ rr.ht - rl.ht = 1) :
    ∃ t2, removeRebalance t (some A) al.ptr pp = some t2 ∧ rotateLeft t (some R) = some t2 ∧
      Linked t2 (plug (node R (node A al av (hgt al.ht rl.ht) rl) rv
        (hgt (hgt al.ht rl.ht) rr.ht) rr) fs) ∧
      inOrderValues t2 = inOrderValues t ∧
      HeightOK (node R (node A al av (hgt al.ht rl.ht) rl) rv
        (hgt (hgt al.ht rl.ht) rr.ht) rr) ∧
      Balanced (node R (node A al av (hgt al.ht rl.ht) rl) rv
        (hgt (hgt al.ht rl.ht) rr.ht) rr) ∧
      (rr.ht - rl.ht = 0 → hgt (hgt al.ht rl.ht) rr.ht = hgt al.ht rh) ∧
      (rr.ht - rl.ht = 1 → hgt (hgt al.ht rl.ht) rr.ht = hgt al.ht rh - 1) := by
  obtain ⟨hrep, hctx, hnd, hroot⟩ := hL.ready
  obtain ⟨okR, okrl, okrr⟩ := hokr
  obtain ⟨_, balrl, balrr⟩ := hbalr
  obtain ⟨a1, a2, a3, a4⟩ := single_left_heights okR h2 hb
  obtain ⟨t2, hrot, hK⟩ := rotateLeft_kept hrep hctx hnd hroot
  have hreb : removeRebalance t (some A) al.ptr pp = rotateLeft t (some R) :=
    removeRebalance_left_single hrep.1 rfl rfl hrep.2.2.1 (hz_rep hrep.2.2.2.2)
      (hz_rep hrep.2.2.2.1) hb
  exact ⟨t2, hreb.trans hrot, hrot, hK.linked hL, hK.inOrderValues_eq hL,
    ⟨hgt_eq _ _, ⟨hgt_eq _ _, hokl, okrl⟩, okrr⟩, ⟨a2, ⟨a1, hball, balrl⟩, balrr⟩, a3, a4⟩

/-- `removeRebalance` at a node whose left subtree is the higher one by two, when the left
child does not lean to the right: one `rotateRight`. -/
theorem removeRebalance_single_right {t : BinarySearchTree α} {fs : List (Frame α)}
    {A L : Nat} {ll lr ar : Shape α} {av lv : α} {ah lh : Int} (pp : Option Nat)
    (hL : Linked t (plug (node A (node L ll lv lh lr) av ah ar) fs))
    (hokr : HeightOK ar) (hbalr : Balanced ar) (hokl : HeightOK (node L ll lv lh lr))
    (hball : Balanced (node L ll lv lh lr)) (h2 : lh = ar.ht + 2)
    (hb : lr.ht - ll.ht = 0 ∨ lr.ht - ll.ht = -1) :
    ∃ t2, removeRebalance t (some A) ar.ptr pp = some t2 ∧ rotateRight t (some L) = some t2 ∧
      Linked t2 (plug (node L ll lv (hgt ll.ht (hgt lr.ht ar.ht))
        (node A lr av (hgt lr.ht ar.ht) ar)) fs) ∧
      inOrderValues t2 = inOrderValues t ∧
      HeightOK (node L ll lv (hgt ll.ht (hgt lr.ht ar.ht))
        (node A lr av (hgt lr.ht ar.ht) ar)) ∧
      Balanced (node L ll lv (hgt ll.ht (hgt lr.ht ar.ht))
        (node A lr av (hgt lr.ht ar.ht) ar)) ∧
      (lr.ht - ll.ht = 0 → hgt ll.ht (hgt lr.ht ar.ht) = hgt lh ar.ht) ∧
      (lr.ht - ll.ht = -1 → hgt ll.ht (hgt lr.ht ar.ht) = hgt lh ar.ht - 1) := by
  obtain ⟨hrep, hctx, hnd, hroot⟩ := hL.ready
  obtain ⟨okL, okll, oklr⟩ := hokl
  obtain ⟨_, balll, ballr⟩ := hball
  obtain ⟨a1, a2, a3, a4⟩ := single_right_heights okL h2 hb
  obtain ⟨t2, hrot, hK⟩ := rotateRight_kept hrep hctx hnd hroot
  have hLar : L ∉ ar.addrs := by
    have hy := hnd
    simp only [Shape.addrs, List.append_assoc, List.cons_append] at hy
    intro hm
    exact (List.nodup_cons.1 (List.nodup_append.1 hy).2.1).1 (by simp [hm])
  have hreb : removeRebalance t (some A) ar.ptr pp = rotateRight t (some L) :=
    removeRebalance_right_single hrep.1 (ptr_ne hLar).symm rfl rfl hrep.2.1.1
      (hz_rep hrep.2.1.2.2) (hz_rep hrep.2.1.2.1) hb
  exact ⟨t2, hreb.trans hrot, hrot, hK.linked hL, hK.inOrderValues_eq hL,
    ⟨hgt_eq _ _, okll, hgt_eq _ _, oklr, hokr⟩, ⟨a2, balll, a1, ballr, hbalr⟩, a3, a4⟩

/-- `removeRebalance` at a node whose right subtree is the higher one by two, when the right
child leans to the left: `rotateRight` and `rotateLeft` of the left child of the right
child. -/
theorem removeRebalance_double_left {t : BinarySearchTree α} {fs : List (Frame α)}
    {A R C : Nat} {al cl cr rr : Shape α} {av rv cv : α} {ah rh ch : Int} (pp : Option Nat)
    (hL : Linked t (plug (node A al av ah (node R (node C cl cv ch cr) rv rh rr)) fs))
    (hokl : HeightOK al) (hball : Balanced al)
    (hokr : HeightOK (node R (node C cl cv ch cr) rv rh rr))
    (hbalr : Balanced (node R (node C cl cv ch cr) rv rh rr)) (h2 : rh = al.ht + 2)
    (hb : rr.ht - ch = -1) :
    ∃ t2, removeRebalance t (some A) al.ptr pp = some t2 ∧
      (rotateRight t (some C)).bind (fun t1 => rotateLeft t1 (some C)) = some t2 ∧
      Linked t2 (plug (node C (node A al av (hgt al.ht cl.ht) cl) cv
        (hgt (hgt al.ht cl.ht) (hgt cr.ht rr.ht)) (node R cr rv (hgt cr.ht rr.ht) rr)) fs) ∧
      inOrderValues t2 = inOrderValues t ∧
      HeightOK (node C (node A al av (hgt al.ht cl.ht) cl) cv
        (hgt (hgt al.ht cl.ht) (hgt cr.ht rr.ht)) (node R cr rv (hgt cr.ht rr.ht) rr)) ∧
      Balanced (node C (node A al av (hgt al.ht cl.ht) cl) cv
        (hgt (hgt al.ht cl.ht) (hgt cr.ht rr.ht)) (node R cr rv (hgt cr.ht rr.ht) rr)) ∧
      hgt (hgt al.ht cl.ht) (hgt cr.ht rr.ht) = hgt al.ht rh - 1 := by
  obtain ⟨hrep, hctx, hnd, hroot⟩ := hL.ready
  obtain ⟨okR, ⟨okC, okcl, okcr⟩, okrr⟩ := hokr
  obtain ⟨_, ⟨balC, balcl, balcr⟩, balrr⟩ := hbalr
  obtain ⟨a1, a2, a3, a4⟩ := double_left_heights okR h2 okC balC hb
  obtain ⟨t2, hrot, hK⟩ := rotateRightLeft_kept hrep hctx hnd hroot
  have hreb : removeRebalance t (some A) al.ptr pp =
      (rotateRight t (some C)).bind (fun t1 => rotateLeft t1 (some C)) :=
    removeRebalance_left_double hrep.1 rfl rfl hrep.2.2.1 (hz_rep hrep.2.2.2.2)
      (hz_rep hrep.2.2.2.1) hb
  exact ⟨t2, hreb.trans hrot, hrot, hK.linked hL, hK.inOrderValues_eq hL,
    ⟨hgt_eq _ _, ⟨hgt_eq _ _, hokl, okcl⟩, hgt_eq _ _, okcr, okrr⟩,
    ⟨a3, ⟨a1, hball, balcl⟩, a2, balcr, balrr⟩, a4⟩

/-- `removeRebalance` at a node whose left subtree is the higher one by two, when the left
child leans to the right: `rotateLeft` and `rotateRight` of the right child of the left
child. -/
theorem removeRebalance_double_right {t : BinarySearchTree α} {fs : List (Frame α)}
    {A L C : Nat} {ll cl cr ar : Shape α} {av lv cv : α} {ah lh ch : Int} (pp : Option Nat)
    (hL : Linked t (plug (node A (node L ll lv lh (node C cl cv ch cr)) av ah ar) fs))
    (hokr : HeightOK ar) (hbalr : Balanced ar)
    (hokl : HeightOK (node L ll lv lh (node C cl cv ch cr)))
    (hball : Balanced (node L ll lv lh (node C cl cv ch cr))) (h2 : lh = ar.ht + 2)
    (hb : ch - ll.ht = 1) :
    ∃ t2, removeRebalance t (some A) ar.ptr pp = some t2 ∧
      (rotateLeft t (some C)).bind (fun t1 => rotateRight t1 (some C)) = some t2 ∧
      Linked t2 (plug (node C (node L ll lv (hgt ll.ht cl.ht) cl) cv
        (hgt (hgt ll.ht cl.ht) (hgt cr.ht ar.ht)) (node A cr av (hgt cr.ht ar.ht) ar)) fs) ∧
      inOrderValues t2 = inOrderValues t ∧
      HeightOK (node C (node L ll lv (hgt ll.ht cl.ht) cl) cv
        (hgt (hgt ll.ht cl.ht) (hgt cr.ht ar.ht)) (node A cr av (hgt cr.ht ar.ht) ar)) ∧
      Balanced (node C (node L ll lv (hgt ll.ht cl.ht) cl) cv
        (hgt (hgt ll.ht cl.ht) (hgt cr.ht ar.ht)) (node A cr av (hgt cr.ht ar.ht) ar)) ∧
      hgt (hgt ll.ht cl.ht) (hgt cr.ht ar.ht) = hgt lh ar.ht - 1 := by
  obtain ⟨hrep, hctx, hnd, hroot⟩ := hL.ready
  obtain ⟨okL, okll, okC, okcl, okcr⟩ := hokl
  obtain ⟨_, balll, balC, balcl, balcr⟩ := hball
  obtain ⟨a1, a2, a3, a4⟩ := double_right_heights okL h2 okC balC hb
  obtain ⟨t2, hrot, hK⟩ := rotateLeftRight_kept hrep hctx hnd hroot
  have hLar : L ∉ ar.addrs := by
    have hy := hnd
    simp only [Shape.addrs, List.append_assoc, List.cons_append] at hy
    intro hm
    exact (List.nodup_cons.1 (List.nodup_append.1 hy).2.1).1 (by simp [hm])
  have hreb : removeRebalance t (some A) ar.ptr pp =
      (rotateLeft t (some C)).bind (fun t1 => rotateRight t1 (some C)) :=
    removeRebalance_right_double hrep.1 (ptr_ne hLar).symm rfl rfl hrep.2.1.1
      (hz_rep hrep.2.1.2.2) (hz_rep hrep.2.1.2.1) hb
  exact ⟨t2, hreb.trans hrot, hrot, hK.linked hL, hK.inOrderValues_eq hL,
    ⟨hgt_eq _ _, ⟨hgt_eq _ _, okll, okcl⟩, hgt_eq _ _, okcr, hokr⟩,
    ⟨a3, ⟨a1, balll, balcl⟩, a2, balcr, hbalr⟩, a4⟩

/-! ## Further concrete trees of the driver -/

theorem rootWithChild_linked : Linked rootWithChild rootWithChildShape := by
  refine ⟨?_, rfl, by decide, by decide⟩
  simp only [rootWithChildShape, Rep, ptr_node, ptr_nil, and_true, true_and]
  repeat' apply And.intro
  all_goals rfl

theorem rootWithChildShape_invariants :
    BST compare rootWithChildShape ∧ HeightOK rootWithChildShape ∧
      Balanced rootWithChildShape := by
  simp [rootWithChildShape, BST, HeightOK, Balanced, Shape.values, compare]

theorem testTree1_linked : Linked testTree1 testShape1 := by
  refine ⟨?_, rfl, by decide, by decide⟩
  simp only [testShape1, Rep, ptr_node, ptr_nil, and_true, true_and]
  repeat' apply And.intro
  all_goals rfl

theorem testTree2_linked : Linked testTree2 testShape2 := by
  refine ⟨?_, rfl, by decide, by decide⟩
  simp only [testShape2, Rep, ptr_node, ptr_nil, and_true, true_and]
  repeat' apply And.intro
  all_goals rfl

theorem testTree3_linked : Linked testTree3 testShape3 := by
  refine ⟨?_, rfl, by decide, by decide⟩
  simp only [testShape3, Rep, ptr_node, ptr_nil, and_true, true_and]
  repeat' apply And.intro
  all_goals rfl

theorem testTree4_linked : Linked testTree4 testShape4 := by
  refine ⟨?_, rfl, by decide, by decide⟩
  simp only [testShape4, Rep, ptr_node, ptr_nil, and_true, true_and]
  repeat' apply And.intro
  all_goals rfl

theorem testShape1_invariants : HeightOK testShape1 ∧ Balanced testShape1 := by
  simp [testShape1, HeightOK, Balanced]

theorem testShape2_invariants : HeightOK testShape2 ∧ Balanced testShape2 := by
  simp [testShape2, HeightOK, Balanced]

theorem testShape3_invariants : HeightOK testShape3 ∧ Balanced testShape3 := by
  simp [testShape3, HeightOK, Balanced]

theorem testShape4_invariants : HeightOK testShape4 ∧ Balanced testShape4 := by
  simp [testShape4, HeightOK, Balanced]

set_option maxRecDepth 100000 in
theorem lowLeftRemoved_linked :
    Linked (removedFrom [5, 2, 8, 1, 7, 9, 10] 2) lowLeftRemoved := by
  refine ⟨?_, rfl, by decide, by decide⟩
  simp only [lowLeftRemoved, Rep, ptr_node, ptr_nil, and_true, true_and]
  repeat' apply And.intro
  all_goals rfl

set_option maxRecDepth 100000 in
theorem lowRightRemoved_linked :
    Linked (removedFrom [5, 2, 8, 1, 3, 9, 0] 8) lowRightRemoved := by
  refine ⟨?_, rfl, by decide, by decide⟩
  simp only [lowRightRemoved, Rep, ptr_node, ptr_nil, and_true, true_and]
  repeat' apply And.intro
  all_goals rfl

set_option maxRecDepth 100000 in
theorem lowLeftInnerRemoved_linked :
    Linked (removedFrom [5, 2, 8, 1, 7, 9, 6] 2) lowLeftInnerRemoved := by
  refine ⟨?_, rfl, by decide, by decide⟩
  simp only [lowLeftInnerRemoved, Rep, ptr_node, ptr_nil, and_true, true_and]
  repeat' apply And.intro
  all_goals rfl

set_option maxRecDepth 100000 in
theorem lowRightInnerRemoved_linked :
    Linked (removedFrom [5, 2, 8, 1, 3, 9, 4] 8) lowRightInnerRemoved := by
  refine ⟨?_, rfl, by decide, by decide⟩
  simp only [lowRightInnerRemoved, Rep, ptr_node, ptr_nil, and_true, true_and]
  repeat' apply And.intro
  all_goals rfl

/-! ## The locator and rows of insertions -/

theorem plug_ne_nil (s : Shape α) (f : Frame α) (fs : List (Frame α)) :
    plug s (f :: fs) ≠ nil := by
  cases f with
  | inLeft a v h r =>
    obtain ⟨b, bl, bv, bh, br, e⟩ := plug_node a s v h r fs
    simp only [plug, Frame.fill]; rw [e]; exact fun h => Shape.noConfusion h
  | inRight a l v h =>
    obtain ⟨b, bl, bv, bh, br, e⟩ := plug_node a l v h s fs
    simp only [plug, Frame.fill]; rw [e]; exact fun h => Shape.noConfusion h

theorem plug_ptr_ne_none (s : Shape α) (f : Frame α) (fs : List (Frame α)) :
    (plug s (f :: fs)).ptr ≠ none := by
  cases h : plug s (f :: fs) with
  | nil => exact absurd h (plug_ne_nil s f fs)
  | node a l v hh r => simp

/-- A value that fits between the values before and after an empty place of a search tree
can be put there. -/
theorem bst_plug_leaf {cmp : α → α → Int} (hc : StrictTotal cmp) {ctx : List (Frame α)}
    {item : α} (hbst : BST cmp (plug nil ctx)) (hb : ∀ x ∈ ctxBefore ctx, cmp x item = -1)
    (ha : ∀ x ∈ ctxAfter ctx, cmp item x = -1) (b : Nat) (h : Int) :
    BST cmp (plug (node b nil item h nil) ctx) := by
  rw [bst_iff_sorted hc, values_plug] at hbst ⊢
  simp only [Shape.values, List.append_nil, List.nil_append, List.append_assoc,
    List.singleton_append] at hbst ⊢
  exact Sorted.insert_middle hbst hb ha

/-- A row of calls of `insert` on a tree that satisfies the invariants: the values of the
resulting tree are the former ones and the values handed in. -/
theorem insertEach_values {cmp : α → α → Int} (hc : StrictTotal cmp) (vs : List α) :
    ∀ {t : BinarySearchTree α} {T : Shape α}, Linked t T → BST cmp T → HeightOK T →
      Balanced T → t.nodeCount = T.size →
      ∃ t2 T2, insertEach cmp t vs = some t2 ∧ Linked t2 T2 ∧ BST cmp T2 ∧
        t2.nodeCount = T2.size ∧ ∀ v, v ∈ T2.values ↔ v ∈ T.values ∨ v ∈ vs := by
  induction vs with
  | nil =>
    intro t T hL hbst _ _ hn
    exact ⟨t, T, rfl, hL, hbst, hn, fun v => by simp⟩
  | cons w vs ih =>
    intro t T hL hbst hok hbal hn
    obtain ⟨o, t1, T1, h1, h2, h3, h4, h5, h6, h7⟩ :=
      insert_invariants hc hL hbst hok hbal hn w
    obtain ⟨t2, T2, k1, k2, k3, k4, k5⟩ := ih h2 h3 h4 h5 h6
    refine ⟨t2, T2, by simp only [insertEach, h1, Option.some_bind]; exact k1, k2, k3, k4, ?_⟩
    intro v
    rw [k5 v]
    rcases h7 with ⟨_, ⟨u, hu, e0⟩, e⟩ | ⟨_, _, l1, l2, e1, e2⟩
    · rw [e]
      have : u = w := (hc.eq_iff _ _).1 e0
      subst this
      simp only [List.mem_cons]
      constructor
      · rintro (h | h)
        · exact Or.inl h
        · exact Or.inr (Or.inr h)
      · rintro (h | rfl | h)
        · exact Or.inl h
        · exact Or.inl hu
        · exact Or.inr h
    · rw [e1, e2]
      simp only [List.mem_append, List.mem_cons]
      tauto

theorem Sorted.nodup {cmp : α → α → Int} (hc : StrictTotal cmp) {xs : List α}
    (h : Sorted cmp xs) : xs.Nodup := by
  refine List.Pairwise.imp ?_ h
  intro a b hab e
  subst e
  rw [(hc.eq_iff a a).2 rfl] at hab
  omega

theorem Sorted.unique {cmp : α → α → Int} (hc : StrictTotal cmp) {xs ys : List α}
    (hx : Sorted cmp xs) (hy : Sorted cmp ys) (hp : ys.Perm xs) : ys = xs := by
  haveI : IsAntisymm α (fun a b => cmp a b = -1) := ⟨fun a b h1 h2 => by
    have h3 := hc.trans a b a h1 h2
    rw [(hc.eq_iff a a).2 rfl] at h3
    omega⟩
  exact List.eq_of_perm_of_sorted hp hy hx

/-! ## Rotations: heights, reads and writes -/

/-- What `getHeight` computes at a node of a tree the store holds. -/
theorem getHeight_rep {t : BinarySearchTree α} {par : Option Nat} {a : Nat} {l r : Shape α}
    {v : α} {h : Int} (hrep : Rep t.store par (node a l v h r)) :
    getHeight t (some a) = some (hgt l.ht r.ht) := by
  rw [getHeight_some, hrep.1]
  simp only [Option.some_bind, hz_rep hrep.2.1, hz_rep hrep.2.2]

theorem deref_of_assign {s s1 : BinarySearchTree α} {p q : Option Nat}
    {f : BinaryTreeNode α → BinaryTreeNode α} {g : BinaryTreeNode α}
    (ha : s.assign p f = some s1) (hg : s1.deref q = some g) : ∃ g2, s.deref q = some g2 := by
  cases p with
  | none => simp [BinarySearchTree.assign] at ha
  | some a =>
    cases q with
    | none => simp [BinarySearchTree.deref] at hg
    | some b =>
      simp only [assign_some, Option.map_eq_some'] at ha
      obtain ⟨n, hn, rfl⟩ := ha
      by_cases e : b = a
      · subst e; exact ⟨n, hn⟩
      · rw [deref_some, write_store_ne _ _ e] at hg
        exact ⟨g, hg⟩

theorem rotateRight_reads {s s2 : BinarySearchTree α} {node : Option Nat}
    (h : rotateRight s node = some s2) : RotationReads s node := by
  unfold rotateRight at h
  cases hn : s.deref node with
  | none => simp only [hn, Option.map_none', Option.bind_eq_bind, Option.none_bind, reduceCtorEq] at h
  | some n =>
    simp only [hn, Option.bind_eq_bind, Option.some_bind] at h
    by_cases hp : n.parent ≠ s.root
    · rw [if_pos hp] at h
      cases hpd : s.deref n.parent with
      | none => simp only [hpd, Option.map_none', Option.bind_eq_bind, Option.none_bind, reduceCtorEq] at h
      | some p =>
        simp only [hpd, Option.some_bind] at h
        cases ha : s.assign node (fun x => { x with parent := p.parent }) with
        | none => simp only [ha, Option.map_none', Option.bind_eq_bind, Option.none_bind, reduceCtorEq] at h
        | some s1 =>
          simp only [ha, Option.some_bind] at h
          cases hg : s1.deref p.parent with
          | none => simp only [hg, Option.map_none', Option.bind_eq_bind, Option.none_bind, reduceCtorEq] at h
          | some g => exact ⟨n, p, hn, hpd, fun _ => deref_of_assign ha hg⟩
    · rw [if_neg hp] at h
      cases hpd : s.deref n.parent with
      | none =>
        exfalso
        cases hq : n.parent with
        | none => simp only [hq, BinarySearchTree.assign, Option.map_none', Option.bind_eq_bind, Option.none_bind, reduceCtorEq] at h
        | some b =>
          rw [hq, deref_some] at hpd
          simp only [hq, assign_some, hpd, Option.map_none', Option.bind_eq_bind, Option.none_bind, reduceCtorEq] at h
      | some p => exact ⟨n, p, hn, hpd, fun e => absurd e hp⟩

theorem rotateLeft_reads {s s2 : BinarySearchTree α} {node : Option Nat}
    (h : rotateLeft s node = some s2) : RotationReads s node := by
  unfold rotateLeft at h
  cases hn : s.deref node with
  | none => simp only [hn, Option.map_none', Option.bind_eq_bind, Option.none_bind, reduceCtorEq] at h
  | some n =>
    simp only [hn, Option.bind_eq_bind, Option.some_bind] at h
    by_cases hp : n.parent ≠ s.root
    · rw [if_pos hp] at h
      cases hpd : s.deref n.parent with
      | none => simp only [hpd, Option.map_none', Option.bind_eq_bind, Option.none_bind, reduceCtorEq] at h
      | some p =>
        simp only [hpd, Option.some_bind] at h
        cases ha : s.assign node (fun x => { x with parent := p.parent }) with
        | none => simp only [ha, Option.map_none', Option.bind_eq_bind, Option.none_bind, reduceCtorEq] at h
        | some s1 =>
          simp only [ha, Option.some_bind] at h
          cases hg : s1.deref p.parent with
          | none => simp only [hg, Option.map_none', Option.bind_eq_bind, Option.none_bind, reduceCtorEq] at h
          | some g => exact ⟨n, p, hn, hpd, fun _ => deref_of_assign ha hg⟩
    · rw [if_neg hp] at h
      cases hpd : s.deref n.parent with
      | none =>
        exfalso
        cases hq : n.parent with
        | none => simp only [hq, BinarySearchTree.assign, Option.map_none', Option.bind_eq_bind, Option.none_bind, reduceCtorEq] at h
        | some b =>
          rw [hq, deref_some] at hpd
          simp only [hq, assign_some, hpd, Option.map_none', Option.bind_eq_bind, Option.none_bind, reduceCtorEq] at h
      | some p => exact ⟨n, p, hn, hpd, fun e => absurd e hp⟩

theorem assign_store_ne {s s1 : BinarySearchTree α} {p : Option Nat}
    {f : BinaryTreeNode α → BinaryTreeNode α} (h : s.assign p f = some s1) {b : Nat}
    (hb : some b ≠ p) : s1.store b = s.store b := by
  cases p with
  | none => simp [BinarySearchTree.assign] at h
  | some a =>
    simp only [assign_some, Option.map_eq_some'] at h
    obtain ⟨n, _, rfl⟩ := h
    exact write_store_ne _ _ (fun e => hb (by rw [e]))

theorem ite_eq_some_cases {β : Type} {c : Prop} [Decidable c] {x y : Option β} {r : β}
    (h : (if c then x else y) = some r) : x = some r ∨ y = some r := by
  split_ifs at h
  · exact Or.inl h
  · exact Or.inr h

/-- The rotation `rotateRight(node)` writes to `node`, to its parent, to its grandparent and
to its right child only. -/
theorem rotateRight_frame {s s2 : BinarySearchTree α} {node : Option Nat}
    {n p : BinaryTreeNode α} (h : rotateRight s node = some s2) (hn : s.deref node = some n)
    (hp : s.deref n.parent = some p) (b : Nat)
    (hb : ∀ q, q = node ∨ q = n.parent ∨ q = p.parent ∨ q = n.rightChild → some b ≠ q) :
    s2.store b = s.store b := by
  have e : s.store b = s.store b := rfl
  unfold rotateRight at h
  simp only [hn, hp, Option.bind_eq_bind, Option.some_bind, Option.pure_def] at h
  repeat' first
    | (have hy := Option.bind_eq_some.1 h
       clear h
       obtain ⟨_, hx, h⟩ := hy
       first
       | (have e := (assign_store_ne hx (hb _ (by simp))).trans e
          clear hx)
       | clear hx)
    | (have hy := ite_eq_some_cases h
       clear h
       rcases hy with h | h)
  all_goals exact (assign_store_ne h (hb _ (by simp))).trans e

/-- The rotation `rotateLeft(node)` writes to `node`, to its parent, to its grandparent and
to its left child only. -/
theorem rotateLeft_frame {s s2 : BinarySearchTree α} {node : Option Nat}
    {n p : BinaryTreeNode α} (h : rotateLeft s node = some s2) (hn : s.deref node = some n)
    (hp : s.deref n.parent = some p) (b : Nat)
    (hb : ∀ q, q = node ∨ q = n.parent ∨ q = p.parent ∨ q = n.leftChild → some b ≠ q) :
    s2.store b = s.store b := by
  have e : s.store b = s.store b := rfl
  unfold rotateLeft at h
  simp only [hn, hp, Option.bind_eq_bind, Option.some_bind, Option.pure_def] at h
  repeat' first
    | (have hy := Option.bind_eq_some.1 h
       clear h
       obtain ⟨_, hx, h⟩ := hy
       first
       | (have e := (assign_store_ne hx (hb _ (by simp))).trans e
          clear hx)
       | clear hx)
    | (have hy := ite_eq_some_cases h
       clear h
       rcases hy with h | h)
  all_goals exact (assign_store_ne h (hb _ (by simp))).trans e

theorem rep_store_eq {s s2 : Nat → Option (BinaryTreeNode α)} {T : Shape α} :
    ∀ {par : Option Nat}, Rep s par T → Rep s2 par T → ∀ a ∈ T.addrs, s a = s2 a := by
  induction T with
  | nil => intro _ _ _ a ha; simp [Shape.addrs] at ha
  | node c l v h r ihl ihr =>
    intro par h1 h2 a ha
    simp only [Shape.addrs, List.mem_append, List.mem_cons] at ha
    rcases ha with ha | rfl | ha
    · exact ihl h1.2.1 h2.2.1 a ha
    · rw [h1.1, h2.1]
    · exact ihr h1.2.2 h2.2.2 a ha

theorem ctxPtr_mem {fs : List (Frame α)} {a : Nat} (h : ctxPtr none fs = some a) :
    a ∈ ctxAddrs fs := by
  cases fs with
  | nil => simp [ctxPtr] at h
  | cons f gs =>
    simp only [ctxPtr, Option.some.injEq] at h
    simp [ctxAddrs, h]

theorem tree_ext {a b : BinarySearchTree α} (h1 : a.root = b.root)
    (h2 : a.nodeCount = b.nodeCount) (h3 : a.store = b.store) (h4 : a.fresh = b.fresh) :
    a = b := by
  cases a; cases b; simp_all

/-- The addresses a rotation at the top of the subtree `S` below the path `fs` writes to are
addresses of the tree. -/
theorem outside_ne {S : Shape α} {fs : List (Frame α)} {b : Nat}
    (hb : b ∉ (plug S fs).addrs) (q : Option Nat)
    (hq : (∃ a ∈ S.addrs, q = some a) ∨ q = ctxPtr none fs ∨ q = none) : some b ≠ q := by
  have hb2 : b ∉ S.addrs ++ ctxAddrs fs := fun h => hb ((addrs_plug S fs).mem_iff.2 h)
  rw [List.mem_append, not_or] at hb2
  intro e
  rcases hq with ⟨a, ha, rfl⟩ | rfl | rfl
  · rw [Option.some.injEq] at e; subst e; exact hb2.1 ha
  · exact hb2.2 (ctxPtr_mem e.symm)
  · simp at e

theorem ptr_cases (S : Shape α) : (∃ a ∈ S.addrs, S.ptr = some a) ∨ S.ptr = none := by
  cases S with
  | nil => exact Or.inr rfl
  | node a l v h r => exact Or.inl ⟨a, by simp [Shape.addrs], rfl⟩

/-! ## `remove`: splicing a leaf out -/

theorem rightmostLeaf_plug {inner : List (Frame α)} (hall : AllRight inner) :
    ∀ (b : Nat) (bl : Shape α) (bv : α) (bh : Int) (br : Shape α),
      RightmostLeaf (plug (node b bl bv bh br) inner) ↔ RightmostLeaf (node b bl bv bh br) := by
  induction inner with
  | nil => intro b bl bv bh br; rfl
  | cons f fs ih =>
    intro b bl bv bh br
    obtain ⟨a, l, v, h, rfl⟩ := hall f (List.mem_cons_self _ _)
    simp only [plug, Frame.fill]
    rw [ih (fun g hg => hall g (List.mem_cons_of_mem _ hg))]
    simp only [RightmostLeaf]

theorem bst_of_plug {cmp : α → α → Int} {ctx : List (Frame α)} :
    ∀ {s : Shape α}, BST cmp (plug s ctx) → BST cmp s := by
  induction ctx with
  | nil => intro s h; exact h
  | cons f fs ih =>
    intro s h
    have h1 := ih (s := f.fill s) h
    cases f with
    | inLeft a v ht r => exact h1.2.2.1
    | inRight a l v ht => exact h1.2.2.2

/-- In a search tree the descent for a stored value runs down the path to its node. -/
theorem bst_descends {cmp : α → α → Int} (hc : StrictTotal cmp) {item : α}
    {ctx : List (Frame α)} :
    ∀ {s : Shape α}, BST cmp (plug s ctx) → item ∈ s.values → Descends cmp item ctx := by
  induction ctx with
  | nil => intro s _ _; trivial
  | cons f fs ih =>
    intro s h hv
    have h1 : BST cmp (f.fill s) := @bst_of_plug _ cmp fs _ h
    cases f with
    | inLeft a v ht r =>
      have h2 := ih (s := Frame.fill (Frame.inLeft a v ht r) s) h
        (by simp [Frame.fill, Shape.values, hv])
      have e : cmp v item = 1 := (hc.flip v item).2 (h1.1 item hv)
      exact ⟨⟨by rw [e]; decide, e⟩, h2⟩
    | inRight a l v ht =>
      have h2 := ih (s := Frame.fill (Frame.inRight a l v ht) s) h
        (by simp [Frame.fill, Shape.values, hv])
      have e : cmp v item = -1 := h1.2.1 item hv
      exact ⟨⟨by rw [e]; decide, by rw [e]; decide⟩, h2⟩

/-- The descent finds the node at the end of a path it runs down, when the value there
compares equal. -/
theorem find_stored {cmp : α → α → Int} {t : BinarySearchTree α} {item : α} {x : Nat}
    {xl xr : Shape α} {xv : α} {xh : Int} {ctx : List (Frame α)}
    (hL : Linked t (plug (node x xl xv xh xr) ctx)) (hd : Descends cmp item ctx)
    (e0 : cmp xv item = 0) : findParentOrDuplicate cmp t item = some (some x) := by
  have h1 := hL.depth_lt_fuel
  have h2 := length_le_depth_plug (node x xl xv xh xr) ctx
  simp only [Shape.depth] at h2
  obtain ⟨k, hk⟩ : ∃ k, t.fuel = (k + 1) + ctx.length := ⟨t.fuel - ctx.length - 1, by omega⟩
  obtain ⟨hsub, _⟩ := (rep_plug _ _).1 hL.1
  unfold findParentOrDuplicate
  rw [hk, hL.2.1, findLoop_along ctx _ (k + 1) _ hL.1 hd]
  simp [findLoop, hsub.1, e0]

/-- The tree object after a removal, from what the removal leaves in the store. -/
theorem linked_of_spliced {t t2 : BinarySearchTree α} {T T2 : Shape α} {s : Nat}
    (hL : Linked t T) (h1 : Rep t2.store none T2) (h2 : t2.root = T2.ptr)
    (h3 : (s :: T2.addrs).Perm T.addrs) (h4 : t2.fresh = t.fresh) : Linked t2 T2 := by
  have hnd : (s :: T2.addrs).Nodup := h3.nodup_iff.2 hL.2.2.1
  refine ⟨h1, h2, (List.nodup_cons.1 hnd).2, ?_⟩
  intro a ha
  rw [h4]
  exact hL.2.2.2 a (h3.mem_iff.1 (List.mem_cons_of_mem _ ha))

/-- Removal of a stored value whose node is a leaf. -/
theorem remove_simple_leaf {cmp : α → α → Int} {t : BinarySearchTree α} {item : α} {x : Nat}
    {xv : α} {xh : Int} {ctx : List (Frame α)}
    (hL : Linked t (plug (node x nil xv xh nil) ctx))
    (hok : HeightOK (plug (node x nil xv xh nil) ctx))
    (hbal : Balanced (plug (node x nil xv xh nil) ctx))
    (hfind : findParentOrDuplicate cmp t item = some (some x)) (e0 : cmp xv item = 0) :
    ∃ t2 T2, remove cmp t item = some (Outcome.returned (), t2) ∧ Linked t2 T2 ∧
      HeightOK T2 ∧ Balanced T2 := by
  have hR := hL.ready
  have hne : ¬((⟨xv, xh, (nil : Shape α).ptr, (nil : Shape α).ptr,
      ctxPtr none ctx⟩ : BinaryTreeNode α).leftChild ≠ none ∧
      (⟨xv, xh, (nil : Shape α).ptr, (nil : Shape α).ptr,
      ctxPtr none ctx⟩ : BinaryTreeNode α).rightChild ≠ none) := by simp
  obtain ⟨t2, T2, rp, hrun, q1, q2, q3, _, _, q6, q7, _, q9, q10⟩ :=
    removeNode_spec hR hL.2.2.2 hok hbal (Or.inl rfl)
  have hrp : rp = none := q3 (Or.inr rfl)
  subst hrp
  exact ⟨t2, T2, (remove_eq_simple hfind hR.1.1 e0 hne).trans hrun,
    linked_of_spliced hL q1 q2 q6 q7, q9, q10 rfl⟩

set_option maxHeartbeats 1000000 in
/-- Removal of a stored value whose node has two children, when the in-order predecessor is
a leaf. -/
theorem remove_swap_leaf {cmp : α → α → Int} {t : BinarySearchTree α} {item : α} {x : Nat}
    {xl xr : Shape α} {xv : α} {xh : Int} {ctx : List (Frame α)}
    (hL : Linked t (plug (node x xl xv xh xr) ctx))
    (hok : HeightOK (plug (node x xl xv xh xr) ctx))
    (hbal : Balanced (plug (node x xl xv xh xr) ctx))
    (hfind : findParentOrDuplicate cmp t item = some (some x)) (e0 : cmp xv item = 0)
    (hl : RightmostLeaf xl) (hr : xr ≠ nil) :
    ∃ t2 T2, remove cmp t item = some (Outcome.returned (), t2) ∧ Linked t2 T2 ∧
      HeightOK T2 ∧ Balanced T2 := by
  have hR := hL.ready
  have hxl : xl ≠ nil := by
    intro e; rw [e] at hl; exact hl
  have hfuel : xl.depth < t.fuel := by
    have := hR.lt_fuel hL.2.2.2
    simp only [Shape.depth] at this
    omega
  obtain ⟨p, pl, pv, ph, inner, hp, hall, hrun⟩ :=
    rightmostLoop_spec xl (some x) t.fuel hxl hR.1.2.1 (le_of_lt hfuel)
  subst hp
  have hpl : pl = nil := by
    rw [rightmostLeaf_plug hall] at hl
    exact hl
  subst hpl
  have e1 : ∀ w : α, plug (node x (plug (node p nil pv ph nil) inner) w xh xr) ctx =
      plug (node p nil pv ph nil) (inner ++ Frame.inLeft x w xh xr :: ctx) := by
    intro w; rw [plug_append]; rfl
  have hR1 := ready_setValue pv hR
  have hRp : Ready (t.write x ⟨pv, xh, (plug (node p nil pv ph nil) inner).ptr, xr.ptr,
      ctxPtr none ctx⟩) (node p nil pv ph nil) (inner ++ Frame.inLeft x pv xh xr :: ctx) := by
    rw [ready_iff, ← e1]; exact (ready_iff _ _).1 hR1
  have hR2 := ready_setValue xv hRp
  have hpx : p ≠ x := by
    have hx := hR.2.2.1
    have hm : p ∈ (plug (node p nil pv ph nil) inner).addrs :=
      (addrs_plug _ inner).mem_iff.2 (by simp [Shape.addrs])
    intro e
    simp only [Shape.addrs, List.append_assoc] at hx
    exact (List.nodup_append.1 hx).2.2 hm (by rw [e]; simp)
  have hsp : t.store p = some ⟨pv, ph, (nil : Shape α).ptr, (nil : Shape α).ptr,
      ctxPtr none (inner ++ Frame.inLeft x pv xh xr :: ctx)⟩ := by
    rw [← write_store_ne t _ hpx]; exact hRp.1.1
  have h2 : (⟨xv, xh, (plug (node p nil pv ph nil) inner).ptr, xr.ptr,
      ctxPtr none ctx⟩ : BinaryTreeNode α).leftChild ≠ none ∧
      (⟨xv, xh, (plug (node p nil pv ph nil) inner).ptr, xr.ptr,
      ctxPtr none ctx⟩ : BinaryTreeNode α).rightChild ≠ none := by
    constructor
    · intro e
      cases hq : plug (node p nil pv ph nil) inner with
      | nil => exact hxl hq
      | node _ _ _ _ _ => simp [hq] at e
    · intro e
      cases xr with
      | nil => exact hr rfl
      | node _ _ _ _ _ => simp at e
  have hrem := remove_eq_swap hfind hR.1.1 e0 h2 hrun hsp hpx
  obtain ⟨hok1, hbal1⟩ := avl_setValue pv hok hbal
  rw [e1] at hok1 hbal1
  obtain ⟨hok2, hbal2⟩ := avl_setValue xv hok1 hbal1
  have hlt2 : ∀ a ∈ (plug (node p nil xv ph nil)
      (inner ++ Frame.inLeft x pv xh xr :: ctx)).addrs,
      a < ((t.write x ⟨pv, xh, (plug (node p nil pv ph nil) inner).ptr, xr.ptr,
        ctxPtr none ctx⟩).write p ⟨xv, ph, (nil : Shape α).ptr, (nil : Shape α).ptr,
        ctxPtr none (inner ++ Frame.inLeft x pv xh xr :: ctx)⟩).fresh := by
    intro a ha
    rw [mem_addrs_setValue, ← e1, mem_addrs_setValue] at ha
    exact hL.2.2.2 a ha
  obtain ⟨t2, T2, rp, hrun2, q1, q2, q3, _, _, q6, q7, _, q9, q10⟩ :=
    removeNode_spec hR2 hlt2 hok2 hbal2 (Or.inr rfl)
  have hrp : rp = none := q3 (Or.inr rfl)
  subst hrp
  have k1 : (plug (node p nil xv ph nil) (inner ++ Frame.inLeft x pv xh xr :: ctx)).addrs.Perm
      (plug (node p nil pv ph nil) (inner ++ Frame.inLeft x pv xh xr :: ctx)).addrs :=
    addrs_plug_congr _ (List.Perm.refl _)
  have k2 : (plug (node x (plug (node p nil pv ph nil) inner) pv xh xr) ctx).addrs.Perm
      (plug (node x (plug (node p nil pv ph nil) inner) xv xh xr) ctx).addrs :=
    addrs_plug_congr _ (List.Perm.refl _)
  rw [← e1 pv] at k1
  have hL2 : Linked t2 T2 := by
    refine linked_of_spliced hL q1 q2 (q6.trans (k1.trans k2)) ?_
    rw [q7]; rfl
  exact ⟨t2, T2, hrem.trans hrun2, hL2, q9, q10 rfl⟩

/-! ## The sequence of the values after `insert` and `remove`, and `inOrder` -/

/-- Order of the values after `insert` and `remove`.  For a tree that satisfies the
invariants of the data model and any argument, `insert` and `remove` end (returning or
throwing), and afterwards the in-order sequence of the values in the store (`inOrderValues`)
is strictly increasing under the comparator; no two of its values compare equal. -/
theorem inOrderValues_sorted_after {cmp : α → α → Int} (hc : StrictTotal cmp)
    {t : BinarySearchTree α} {T : Shape α} (hL : Linked t T) (hbst : BST cmp T)
    (hok : HeightOK T) (hbal : Balanced T) (item : α) :
    (∃ o t2 xs, insert cmp t item = some (o, t2) ∧ inOrderValues t2 = some xs ∧ Sorted cmp xs ∧
      xs.Pairwise (fun a b => cmp a b ≠ 0)) ∧
    (∃ o t2 xs, remove cmp t item = some (o, t2) ∧ inOrderValues t2 = some xs ∧ Sorted cmp xs ∧
      xs.Pairwise (fun a b => cmp a b ≠ 0)) := by
  have hne : ∀ xs : List α, Sorted cmp xs → xs.Pairwise (fun a b => cmp a b ≠ 0) := by
    intro xs h
    refine List.Pairwise.imp ?_ h
    intro a b e
    rw [e]; decide
  have hT : Sorted cmp T.values := (bst_iff_sorted hc T).1 hbst
  by_cases hs : ∃ v ∈ T.values, cmp v item = 0
  · constructor
    · exact ⟨_, t, T.values, insert_duplicate hc hL hbst item hs, inOrderValues_linked hL, hT,
        hne _ hT⟩
    · obtain ⟨t2, T2, rp, l1, l2, v, h1, _, h3⟩ := remove_present hc hL hbst hok hbal item hs
      have hsort : Sorted cmp (l1 ++ l2) := by
        have := hT
        rw [h3.2.2.1] at this
        exact this.remove_middle
      exact ⟨_, t2, l1 ++ l2, h1, h3.inOrderValues hL, hsort, hne _ hsort⟩
  · push_neg at hs
    constructor
    · obtain ⟨t2, T2, l1, l2, h1, h2, _, _, h5, h6, h7, h8, _⟩ :=
        insert_fresh hc hL hbst hok hbal item hs
      have hsort : Sorted cmp T2.values := by
        rw [h6]
        rw [h5] at hT
        exact hT.insert_middle h7 h8
      exact ⟨_, t2, T2.values, h1, inOrderValues_linked h2, hsort, hne _ hsort⟩
    · exact ⟨_, t, T.values, remove_absent hc hL hbst item hs, inOrderValues_linked hL, hT,
        hne _ hT⟩

/-- The order of the values on `testTree5` for the argument 5 (a duplicate for `insert`,
stored in a node with two children for `remove`). -/
theorem inOrderValues_sorted_after_instance :
    StrictTotal compare ∧ Linked testTree5 testShape5 ∧ BST compare testShape5 ∧
      HeightOK testShape5 ∧ Balanced testShape5 ∧
      (∃ o t2 xs, insert compare testTree5 5 = some (o, t2) ∧ inOrderValues t2 = some xs ∧
        Sorted compare xs ∧ xs.Pairwise (fun a b => compare a b ≠ 0)) ∧
      (∃ o t2 xs, remove compare testTree5 5 = some (o, t2) ∧ inOrderValues t2 = some xs ∧
        Sorted compare xs ∧ xs.Pairwise (fun a b => compare a b ≠ 0)) :=
  ⟨strictTotal_compare, testTree5_linked, testShape5_invariants.1, testShape5_invariants.2.1,
    testShape5_invariants.2.2,
    inOrderValues_sorted_after strictTotal_compare testTree5_linked testShape5_invariants.1
      testShape5_invariants.2.1 testShape5_invariants.2.2 5⟩

/-- A row of insertions sorts the values into the store.  The values of a list are handed to
`insert` one after another, starting from the empty tree of the constructor (an `insert`
that throws `DuplicateItemException` leaves the tree as it is, and the row goes on).  Every
call ends; the in-order sequence of the values in the store (`inOrderValues`) is strictly
increasing in the comparator order and holds each value of the input once, it is the only
such list, and `count()` is the number of distinct values of the input. -/
theorem build_sorts [DecidableEq α] {cmp : α → α → Int} (hc : StrictTotal cmp)
    (vs : List α) :
    ∃ t2 xs, insertEach cmp empty vs = some t2 ∧ inOrderValues t2 = some xs ∧ Sorted cmp xs ∧
      xs.Perm vs.dedup ∧ count t2 = vs.dedup.length ∧
      ∀ ys, Sorted cmp ys → ys.Perm vs.dedup → ys = xs := by
  obtain ⟨t2, T2, h1, h2, h3, h4, h5⟩ :=
    insertEach_values hc vs (@empty_linked α) trivial trivial trivial rfl
  have hs : Sorted cmp T2.values := (bst_iff_sorted hc T2).1 h3
  have hp : T2.values.Perm vs.dedup := by
    refine (List.perm_ext_iff_of_nodup (hs.nodup hc) (List.nodup_dedup vs)).2 ?_
    intro v
    rw [h5 v, List.mem_dedup]
    simp [Shape.values]
  refine ⟨t2, T2.values, h1, inOrderValues_linked h2, hs, hp, ?_, ?_⟩
  · unfold count
    rw [h4, ← T2.length_values, hp.length_eq]
  · intro ys hy hyp
    exact Sorted.unique hc hs hy (hyp.trans hp.symm)

/-- The row of insertions 5, 2, 8, 5, 2, 7 with the comparison function of the test driver:
the in-order sequence of the store and the count. -/
theorem build_sorts_instance :
    StrictTotal compare ∧
    (∃ t2 xs, insertEach compare empty [5, 2, 8, 5, 2, 7] = some t2 ∧
      inOrderValues t2 = some xs ∧ Sorted compare xs ∧ xs.Perm [5, 2, 8, 5, 2, 7].dedup ∧
      count t2 = ([5, 2, 8, 5, 2, 7] : List Int).dedup.length ∧
      ∀ ys, Sorted compare ys → ys.Perm [5, 2, 8, 5, 2, 7].dedup → ys = xs) ∧
    (insertEach compare empty [5, 2, 8, 5, 2, 7]).bind inOrderValues = some [2, 5, 7, 8] ∧
    (insertEach compare empty [5, 2, 8, 5, 2, 7]).map count = some 4 :=
  ⟨strictTotal_compare, build_sorts strictTotal_compare [5, 2, 8, 5, 2, 7], by rfl, by rfl⟩

theorem dataMember_data :
    (BinaryTreeNode.dataMember "data" : Option (BinaryTreeNode α → α)) = none := by
  unfold BinaryTreeNode.dataMember
  rw [if_neg (by decide)]

/-- No call of `inOrder` has a result: the member `privateInOrder` names is not declared. -/
theorem inOrder_eq_none (t : BinarySearchTree α) : inOrder t = none := by
  show privateInOrder t (2 * t.fresh + 1 + 1) t.root = none
  simp only [privateInOrder, dataMember_data, Option.bind_eq_bind, Option.none_bind]

theorem bind_inOrder {β : Type} (x : Option (β × BinarySearchTree α)) :
    x.bind (fun r => inOrder r.2) = none := by
  cases x with
  | none => rfl
  | some r => exact inOrder_eq_none r.2

theorem bind_inOrder_tree (x : Option (BinarySearchTree α)) : x.bind inOrder = none := by
  cases x with
  | none => rfl
  | some r => exact inOrder_eq_none r

/-- C1: `insert` preserves balance.  For a tree that satisfies the invariants of the data
model and a comparator that is a strict total order, `insert` ends (it returns or it throws
`DuplicateItemException`), and the tree it leaves holds parent links, has every stored height
equal to one more than the larger child height, and has at every node child heights that
differ by at most one, a missing child counting 0. -/
theorem insert_preserves_balance {cmp : α → α → Int} (hc : StrictTotal cmp)
    {t : BinarySearchTree α} {T : Shape α} (hL : Linked t T) (hbst : BST cmp T)
    (hok : HeightOK T) (hbal : Balanced T) (item : α) :
    ∃ o t2 T2, insert cmp t item = some (o, t2) ∧
      (o = Outcome.returned () ∨ o = Outcome.duplicateItemException) ∧
      Linked t2 T2 ∧ HeightOK T2 ∧ Balanced T2 := by
  by_cases hs : ∃ v ∈ T.values, cmp v item = 0
  · exact ⟨_, t, T, insert_duplicate hc hL hbst item hs, Or.inr rfl, hL, hok, hbal⟩
  · push_neg at hs
    obtain ⟨t2, T2, l1, l2, h1, h2, h3, h4, _⟩ := insert_fresh hc hL hbst hok hbal item hs
    exact ⟨_, t2, T2, h1, Or.inl rfl, h2, h3, h4⟩

/-- Instance of C1: the value 11 inserted into `testTree5` (a rotation at the node of 9). -/
theorem insert_preserves_balance_witness :
    StrictTotal compare ∧ Linked testTree5 testShape5 ∧ BST compare testShape5 ∧
      HeightOK testShape5 ∧ Balanced testShape5 ∧
      ∃ o t2 T2, insert compare testTree5 11 = some (o, t2) ∧
        (o = Outcome.returned () ∨ o = Outcome.duplicateItemException) ∧
        Linked t2 T2 ∧ HeightOK T2 ∧ Balanced T2 :=
  ⟨strictTotal_compare, testTree5_linked, testShape5_invariants.1, testShape5_invariants.2.1,
    testShape5_invariants.2.2,
    insert_preserves_balance strictTotal_compare testTree5_linked testShape5_invariants.1
      testShape5_invariants.2.1 testShape5_invariants.2.2 11⟩

set_option maxRecDepth 100000 in
/-- C2: `remove` does not always preserve balance.  The tree built by the insertions
5, 2, 8, 1, 7, 9, 10 satisfies the invariants; `remove(2)` returns and leaves a tree whose
root has a left child of stored height 1 and a right child of stored height 3. -/
theorem remove_leaves_unbalanced :
    Linked lowLeftTree lowLeftShape ∧ BST compare lowLeftShape ∧ HeightOK lowLeftShape ∧
      Balanced lowLeftShape ∧
      ∃ t2, remove compare lowLeftTree 2 = some (Outcome.returned (), t2) ∧
        Rep t2.store none lowLeftRemoved ∧ t2.root = lowLeftRemoved.ptr ∧
        HeightOK lowLeftRemoved ∧ ¬ Balanced lowLeftRemoved := by
  refine ⟨lowLeftTree_linked, lowLeftShape_invariants.1, lowLeftShape_invariants.2.1,
    lowLeftShape_invariants.2.2,
    ((remove compare lowLeftTree 2).map Prod.snd).getD empty, rfl, ?_, rfl, ?_, ?_⟩
  · simp only [lowLeftRemoved, Rep, ptr_node, ptr_nil, and_true, true_and]
    repeat' apply And.intro
    all_goals rfl
  · simp [lowLeftRemoved, HeightOK]
  · simp [lowLeftRemoved, Balanced]

/-- C3: `inOrder` visits no value.  `privateInOrder` hands `node->data` to the visitor, and
`BinaryTreeNode` declares no member `data` (the value is the member `nodeValue`), so the
traversal cannot be instantiated and `inOrder` has no result on any tree.  Shown on the tree
of the insertions 5, 2, 8, 3, 7, 9, 10, which satisfies the invariants, after `insert(4)` and
after `remove(3)`.  The values themselves are in the store in strictly increasing order: the
sequence read through `nodeValue` is 2, 3, 4, 5, 7, 8, 9, 10 and 2, 5, 7, 8, 9, 10. -/
theorem inOrder_names_undeclared_member :
    (BinaryTreeNode.dataMember "data" : Option (BinaryTreeNode Int → Int)) = none ∧
    (∀ t : BinarySearchTree Int, inOrder t = none) ∧
    Linked testTree5 testShape5 ∧ BST compare testShape5 ∧ HeightOK testShape5 ∧
    Balanced testShape5 ∧
    (insert compare testTree5 4).bind (fun r => inOrder r.2) = none ∧
    (remove compare testTree5 3).bind (fun r => inOrder r.2) = none ∧
    (insert compare testTree5 4).bind (fun r => inOrderValues r.2) =
      some [2, 3, 4, 5, 7, 8, 9, 10] ∧
    (remove compare testTree5 3).bind (fun r => inOrderValues r.2) =
      some [2, 5, 7, 8, 9, 10] :=
  ⟨dataMember_data, inOrder_eq_none, testTree5_linked, testShape5_invariants.1,
    testShape5_invariants.2.1, testShape5_invariants.2.2, bind_inOrder _, bind_inOrder _,
    by rfl, by rfl⟩

/-- C4: postcondition of `insert`.  For a tree that satisfies the invariants of the data
model and a value `item` that compares equal to no stored value, `insert` returns, and the
in-order sequence of the result is the in-order sequence of the original tree with `item`
put in at its sorted position: the values before it compare less, the values after it compare
greater, and the result holds `item` and the former values, each as often as before. -/
theorem insert_postcondition {cmp : α → α → Int} (hc : StrictTotal cmp)
    {t : BinarySearchTree α} {T : Shape α} (hL : Linked t T) (hbst : BST cmp T)
    (hok : HeightOK T) (hbal : Balanced T) (item : α)
    (hns : ∀ v ∈ T.values, cmp v item ≠ 0) :
    ∃ t2 l1 l2, insert cmp t item = some (Outcome.returned (), t2) ∧
      inOrderValues t = some (l1 ++ l2) ∧ inOrderValues t2 = some (l1 ++ item :: l2) ∧
      (∀ x ∈ l1, cmp x item = -1) ∧ (∀ x ∈ l2, cmp item x = -1) ∧
      (l1 ++ item :: l2).Perm (item :: (l1 ++ l2)) := by
  obtain ⟨t2, T2, l1, l2, h1, h2, _, _, h5, h6, h7, h8, _⟩ :=
    insert_fresh hc hL hbst hok hbal item hns
  refine ⟨t2, l1, l2, h1, ?_, ?_, h7, h8, List.perm_middle⟩
  · rw [← h5]; exact inOrderValues_linked hL
  · rw [← h6]; exact inOrderValues_linked h2

/-- Instance of C4: the value 4 inserted into `testTree5` (a rotation at the node of 2). -/
theorem insert_postcondition_witness :
    StrictTotal compare ∧ Linked testTree5 testShape5 ∧ BST compare testShape5 ∧
      HeightOK testShape5 ∧ Balanced testShape5 ∧
      (∀ v ∈ testShape5.values, compare v 4 ≠ 0) ∧
      ∃ t2 l1 l2, insert compare testTree5 4 = some (Outcome.returned (), t2) ∧
        inOrderValues testTree5 = some (l1 ++ l2) ∧ inOrderValues t2 = some (l1 ++ 4 :: l2) ∧
        (∀ x ∈ l1, compare x 4 = -1) ∧ (∀ x ∈ l2, compare 4 x = -1) ∧
        (l1 ++ 4 :: l2).Perm (4 :: (l1 ++ l2)) :=
  ⟨strictTotal_compare, testTree5_linked, testShape5_invariants.1, testShape5_invariants.2.1,
    testShape5_invariants.2.2, by decide,
    insert_postcondition strictTotal_compare testTree5_linked testShape5_invariants.1
      testShape5_invariants.2.1 testShape5_invariants.2.2 4 (by decide)⟩

/-- C5: postcondition of `remove`.  For a tree that satisfies the invariants of the data
model and a key `item` that compares equal to a stored value `v`, `remove` returns, and the
in-order sequence of the result is the in-order sequence of the original tree with that one
occurrence of `v` taken out; this covers the node with two children, where the value is first
exchanged with that of the in-order predecessor. -/
theorem remove_postcondition {cmp : α → α → Int} (hc : StrictTotal cmp)
    {t : BinarySearchTree α} {T : Shape α} (hL : Linked t T) (hbst : BST cmp T)
    (hok : HeightOK T) (hbal : Balanced T) (item : α)
    (hs : ∃ v ∈ T.values, cmp v item = 0) :
    ∃ t2 l1 l2 v, remove cmp t item = some (Outcome.returned (), t2) ∧ cmp v item = 0 ∧
      inOrderValues t = some (l1 ++ v :: l2) ∧ inOrderValues t2 = some (l1 ++ l2) := by
  obtain ⟨t2, T2, rp, l1, l2, v, h1, h2, h3⟩ := remove_present hc hL hbst hok hbal item hs
  refine ⟨t2, l1, l2, v, h1, h2, ?_, h3.inOrderValues hL⟩
  rw [← h3.2.2.1]; exact inOrderValues_linked hL

/-- Instance of C5: the key 5 removed from `testTree5`; its node is the root and has two
children. -/
theorem remove_postcondition_witness :
    StrictTotal compare ∧ Linked testTree5 testShape5 ∧ BST compare testShape5 ∧
      HeightOK testShape5 ∧ Balanced testShape5 ∧
      (∃ v ∈ testShape5.values, compare v 5 = 0) ∧
      ∃ t2 l1 l2 v, remove compare testTree5 5 = some (Outcome.returned (), t2) ∧
        compare v 5 = 0 ∧ inOrderValues testTree5 = some (l1 ++ v :: l2) ∧
        inOrderValues t2 = some (l1 ++ l2) :=
  ⟨strictTotal_compare, testTree5_linked, testShape5_invariants.1, testShape5_invariants.2.1,
    testShape5_invariants.2.2, ⟨5, by decide, by decide⟩,
    remove_postcondition strictTotal_compare testTree5_linked testShape5_invariants.1
      testShape5_invariants.2.1 testShape5_invariants.2.2 5 ⟨5, by decide, by decide⟩⟩

/-- C6: `search` is correct.  For a tree in BST order and a key `item`: when a stored value
compares equal to `item`, `search` returns that value; when none does, as on the empty tree,
it throws `ItemNotFoundException`; in both cases the tree is left as it was. -/
theorem search_correct {cmp : α → α → Int} (hc : StrictTotal cmp)
    {t : BinarySearchTree α} {T : Shape α} (hL : Linked t T) (hbst : BST cmp T) (item : α) :
    ((∃ v ∈ T.values, cmp v item = 0) →
      ∃ v ∈ T.values, cmp v item = 0 ∧ search cmp t item = some (Outcome.returned v, t)) ∧
    ((∀ v ∈ T.values, cmp v item ≠ 0) →
      search cmp t item = some (Outcome.itemNotFoundException, t)) ∧
    search cmp (empty : BinarySearchTree α) item =
      some (Outcome.itemNotFoundException, empty) :=
  ⟨search_present hc hL hbst item, search_absent hc hL hbst item,
    search_absent hc empty_linked trivial item (by simp [Shape.values])⟩

/-- Instance of C6: after the twelve insertions and `remove(7)` of the last tree of the test
driver, `search(5)` returns 5 and leaves the tree as it was. -/
theorem search_correct_witness :
    StrictTotal compare ∧ Linked testTree8 testShape8 ∧ BST compare testShape8 ∧
      search compare testTree8 5 = some (Outcome.returned 5, testTree8) := by
  refine ⟨strictTotal_compare, testTree8_linked, testShape8_bst, ?_⟩
  obtain ⟨v, _, h0, h⟩ :=
    (search_correct strictTotal_compare testTree8_linked testShape8_bst 5).1
      ⟨5, by decide, by decide⟩
  rw [(strictTotal_compare.eq_iff v 5).1 h0] at h
  exact h

/-- C7: rejection of duplicates.  For a tree in BST order and a value `item`, `insert` throws
`DuplicateItemException` exactly when a stored value compares equal to `item`, and then the
whole state of the tree (nodes, links, values, stored heights, count) is the one before the
call. -/
theorem insert_duplicate_iff {cmp : α → α → Int} (hc : StrictTotal cmp)
    {t : BinarySearchTree α} {T : Shape α} (hL : Linked t T) (hbst : BST cmp T) (item : α) :
    ((∃ t2, insert cmp t item = some (Outcome.duplicateItemException, t2)) ↔
      ∃ v ∈ T.values, cmp v item = 0) ∧
    ∀ t2, insert cmp t item = some (Outcome.duplicateItemException, t2) → t2 = t := by
  have key : ∀ t2, insert cmp t item = some (Outcome.duplicateItemException, t2) →
      (∃ v ∈ T.values, cmp v item = 0) ∧ t2 = t := by
    intro t2 h
    by_cases hs : ∃ v ∈ T.values, cmp v item = 0
    · rw [insert_duplicate hc hL hbst item hs] at h
      exact ⟨hs, ((Prod.mk.inj (Option.some.inj h)).2).symm⟩
    · push_neg at hs
      exact absurd h (insert_not_duplicate hc hL hbst item hs t2)
  refine ⟨⟨?_, ?_⟩, fun t2 h => (key t2 h).2⟩
  · rintro ⟨t2, h⟩; exact (key t2 h).1
  · intro hs; exact ⟨t, insert_duplicate hc hL hbst item hs⟩

/-- Instance of C7: the stored value 7 inserted into `testTree5`. -/
theorem insert_duplicate_iff_witness :
    StrictTotal compare ∧ Linked testTree5 testShape5 ∧ BST compare testShape5 ∧
      ((∃ t2, insert compare testTree5 7 = some (Outcome.duplicateItemException, t2)) ↔
        ∃ v ∈ testShape5.values, compare v 7 = 0) ∧
      ∀ t2, insert compare testTree5 7 = some (Outcome.duplicateItemException, t2) →
        t2 = testTree5 :=
  ⟨strictTotal_compare, testTree5_linked, testShape5_invariants.1,
    insert_duplicate_iff strictTotal_compare testTree5_linked testShape5_invariants.1 7⟩

/-- C8: `remove` of an absent key.  For a tree in BST order and a key `item`, `remove` throws
`ItemNotFoundException` exactly when no stored value compares equal to `item` (so for every
key on the empty tree), and then the whole state of the tree (nodes, links, values, stored
heights, count) is the one before the call. -/
theorem remove_absent_iff {cmp : α → α → Int} (hc : StrictTotal cmp)
    {t : BinarySearchTree α} {T : Shape α} (hL : Linked t T) (hbst : BST cmp T) (item : α) :
    ((∃ t2, remove cmp t item = some (Outcome.itemNotFoundException, t2)) ↔
      ∀ v ∈ T.values, cmp v item ≠ 0) ∧
    (∀ t2, remove cmp t item = some (Outcome.itemNotFoundException, t2) → t2 = t) ∧
    remove cmp (empty : BinarySearchTree α) item =
      some (Outcome.itemNotFoundException, empty) := by
  have key : ∀ t2, remove cmp t item = some (Outcome.itemNotFoundException, t2) →
      (∀ v ∈ T.values, cmp v item ≠ 0) ∧ t2 = t := by
    intro t2 h
    by_cases hs : ∃ v ∈ T.values, cmp v item = 0
    · exact absurd h (remove_not_absent hc hL hbst item hs t2)
    · push_neg at hs
      rw [remove_absent hc hL hbst item hs] at h
      exact ⟨hs, ((Prod.mk.inj (Option.some.inj h)).2).symm⟩
  refine ⟨⟨?_, ?_⟩, fun t2 h => (key t2 h).2,
    remove_absent hc empty_linked trivial item (by simp [Shape.values])⟩
  · rintro ⟨t2, h⟩; exact (key t2 h).1
  · intro hs; exact ⟨t, remove_absent hc hL hbst item hs⟩

/-- Instance of C8: the key 4, which `testTree5` does not store. -/
theorem remove_absent_iff_witness :
    StrictTotal compare ∧ Linked testTree5 testShape5 ∧ BST compare testShape5 ∧
      ((∃ t2, remove compare testTree5 4 = some (Outcome.itemNotFoundException, t2)) ↔
        ∀ v ∈ testShape5.values, compare v 4 ≠ 0) ∧
      (∀ t2, remove compare testTree5 4 = some (Outcome.itemNotFoundException, t2) →
        t2 = testTree5) ∧
      remove compare (empty : BinarySearchTree Int) 4 =
        some (Outcome.itemNotFoundException, empty) :=
  ⟨strictTotal_compare, testTree5_linked, testShape5_invariants.1,
    remove_absent_iff strictTotal_compare testTree5_linked testShape5_invariants.1 4⟩

/-- C9: `returnHeight` of an absent key throws nothing.  On the empty tree it reads the
height field through the null pointer `findParentOrDuplicate` returned; on the tree that
holds 5 alone the key 3 yields 1, the height field of the node of 5, where `search` throws
`ItemNotFoundException`. -/
theorem returnHeight_absent_key :
    returnHeight compare (empty : BinarySearchTree Int) 1 = none ∧
      returnHeight compare (treeOf [5]) 3 = some 1 ∧
      search compare (treeOf [5]) 3 = some (Outcome.itemNotFoundException, treeOf [5]) :=
  ⟨rfl, rfl, rfl⟩

/-- C10: heights after `insert`.  For a tree that satisfies the invariants of the data model,
`insert` ends and every stored height of the tree it leaves is one more than the larger
stored child height, a missing child counting 0.  When it returned, either the new leaf hangs
below the same ancestors, or a rotation replaced the subtree of an ancestor by a subtree with
another root and with the stored height that ancestor had before, the ancestors above it
being as they were. -/
theorem insert_heights {cmp : α → α → Int} (hc : StrictTotal cmp)
    {t : BinarySearchTree α} {T : Shape α} (hL : Linked t T) (hbst : BST cmp T)
    (hok : HeightOK T) (hbal : Balanced T) (item : α) :
    ∃ o t2 T2, insert cmp t item = some (o, t2) ∧ Linked t2 T2 ∧ HeightOK T2 ∧
      ((o = Outcome.duplicateItemException ∧ T2 = T) ∨
        (o = Outcome.returned () ∧ Ascent T T2 t.fresh item)) := by
  by_cases hs : ∃ v ∈ T.values, cmp v item = 0
  · exact ⟨_, t, T, insert_duplicate hc hL hbst item hs, hL, hok, Or.inl ⟨rfl, rfl⟩⟩
  · push_neg at hs
    obtain ⟨t2, T2, l1, l2, h1, h2, h3, _, _, _, _, _, _, _, _, h12⟩ :=
      insert_fresh hc hL hbst hok hbal item hs
    exact ⟨_, t2, T2, h1, h2, h3, Or.inr ⟨rfl, h12⟩⟩

/-- Instance of C10: the value 12 inserted into `testTree5` (a rotation at the node of 9,
below the nodes of 8 and 5, whose heights the ascent does not reach). -/
theorem insert_heights_witness :
    StrictTotal compare ∧ Linked testTree5 testShape5 ∧ BST compare testShape5 ∧
      HeightOK testShape5 ∧ Balanced testShape5 ∧
      ∃ o t2 T2, insert compare testTree5 12 = some (o, t2) ∧ Linked t2 T2 ∧ HeightOK T2 ∧
        ((o = Outcome.duplicateItemException ∧ T2 = testShape5) ∨
          (o = Outcome.returned () ∧ Ascent testShape5 T2 testTree5.fresh 12)) :=
  ⟨strictTotal_compare, testTree5_linked, testShape5_invariants.1, testShape5_invariants.2.1,
    testShape5_invariants.2.2,
    insert_heights strictTotal_compare testTree5_linked testShape5_invariants.1
      testShape5_invariants.2.1 testShape5_invariants.2.2 12⟩

/-- C11: heights after `remove`.  For a tree that satisfies the invariants of the data model
and any key, `remove` ends (it returns or it throws `ItemNotFoundException`), and in the tree
it leaves every stored height is one more than the larger stored child height, a missing child
counting 0; this holds for any number of rotations during the ascent. -/
theorem remove_heights {cmp : α → α → Int} (hc : StrictTotal cmp)
    {t : BinarySearchTree α} {T : Shape α} (hL : Linked t T) (hbst : BST cmp T)
    (hok : HeightOK T) (hbal : Balanced T) (item : α) :
    ∃ o t2 T2 rp, remove cmp t item = some (o, t2) ∧
      (o = Outcome.returned () ∨ o = Outcome.itemNotFoundException) ∧
      Rep t2.store rp T2 ∧ t2.root = T2.ptr ∧ HeightOK T2 := by
  by_cases hs : ∃ v ∈ T.values, cmp v item = 0
  · obtain ⟨t2, T2, rp, l1, l2, v, h1, _, h3⟩ := remove_present hc hL hbst hok hbal item hs
    exact ⟨_, t2, T2, rp, h1, Or.inl rfl, h3.1, h3.2.1, h3.2.2.2.2.2.2.2⟩
  · push_neg at hs
    exact ⟨_, t, T, none, remove_absent hc hL hbst item hs, Or.inr rfl, hL.1, hL.2.1, hok⟩

/-- Instance of C11: the key 3 removed from `testTree5`, the first deletion of the test
driver (a rotation at the root). -/
theorem remove_heights_witness :
    StrictTotal compare ∧ Linked testTree5 testShape5 ∧ BST compare testShape5 ∧
      HeightOK testShape5 ∧ Balanced testShape5 ∧
      ∃ o t2 T2 rp, remove compare testTree5 3 = some (o, t2) ∧
        (o = Outcome.returned () ∨ o = Outcome.itemNotFoundException) ∧
        Rep t2.store rp T2 ∧ t2.root = T2.ptr ∧ HeightOK T2 :=
  ⟨strictTotal_compare, testTree5_linked, testShape5_invariants.1, testShape5_invariants.2.1,
    testShape5_invariants.2.2,
    remove_heights strictTotal_compare testTree5_linked testShape5_invariants.1
      testShape5_invariants.2.1 testShape5_invariants.2.2 3⟩

/-- C13: the parent pointer of a new root after `remove`.  The tree built by `insert(5)`,
`insert(2)` satisfies the invariants; `remove(5)` returns, makes the node of 2 the root and
leaves its parent pointer at the address of the released node of 5; a following `insert(1)`
walks up through that pointer and reads the released node. -/
theorem remove_root_keeps_parent :
    Linked rootWithChild rootWithChildShape ∧ BST compare rootWithChildShape ∧
      HeightOK rootWithChildShape ∧ Balanced rootWithChildShape ∧
      ∃ t2, remove compare rootWithChild 5 = some (Outcome.returned (), t2) ∧
        t2.root = some 1 ∧ t2.store 1 = some ⟨2, 1, none, none, some 0⟩ ∧
        t2.store 0 = none ∧ insert compare t2 1 = none :=
  ⟨rootWithChild_linked, rootWithChildShape_invariants.1, rootWithChildShape_invariants.2.1,
    rootWithChildShape_invariants.2.2,
    ((remove compare rootWithChild 5).map Prod.snd).getD empty, rfl, rfl, rfl, rfl, rfl⟩

/-- C14: round trip.  For a tree that satisfies the invariants of the data model and a value
that compares equal to no stored value, `insert` of the value and then `remove` of it both
return, and the tree they leave has the in-order sequence and the count of the original
tree. -/
theorem insert_remove_roundtrip {cmp : α → α → Int} (hc : StrictTotal cmp)
    {t : BinarySearchTree α} {T : Shape α} (hL : Linked t T) (hbst : BST cmp T)
    (hok : HeightOK T) (hbal : Balanced T) (item : α)
    (hns : ∀ v ∈ T.values, cmp v item ≠ 0) :
    ∃ t1 t2 xs, insert cmp t item = some (Outcome.returned (), t1) ∧
      remove cmp t1 item = some (Outcome.returned (), t2) ∧
      inOrderValues t = some xs ∧ inOrderValues t2 = some xs ∧ count t2 = count t := by
  obtain ⟨t1, T1, l1, l2, h1, h2, h3, h4, h5, h6, h7, h8, _, _, h11, _⟩ :=
    insert_fresh hc hL hbst hok hbal item hns
  have hT : Sorted cmp T.values := (bst_iff_sorted hc T).1 hbst
  have hT1 : Sorted cmp T1.values := by
    rw [h6]; rw [h5] at hT; exact hT.insert_middle h7 h8
  obtain ⟨t2, T2, rp, m1, m2, v, k1, k2, k3⟩ :=
    remove_present hc h2 ((bst_iff_sorted hc T1).2 hT1) h3 h4 item
      ⟨item, by rw [h6]; simp, (hc.eq_iff _ _).2 rfl⟩
  have hv : v = item := (hc.eq_iff _ _).1 k2
  subst hv
  have hsplit : l1 ++ v :: l2 = m1 ++ v :: m2 := by rw [← h6, k3.2.2.1]
  have hm : Sorted cmp (m1 ++ v :: m2) := by rw [← k3.2.2.1]; exact hT1
  have hl : Sorted cmp (l1 ++ v :: l2) := by rw [← h6]; exact hT1
  obtain ⟨e1, e2⟩ := split_unique hsplit (hl.not_mem_before hc) (hm.not_mem_before hc)
  refine ⟨t1, t2, T.values, h1, k1, inOrderValues_linked hL, ?_, ?_⟩
  · rw [k3.inOrderValues h2, h5, e1, e2]
  · unfold count
    rw [k3.2.2.2.2.2.2.1, h11]
    omega

/-- Instance of C14: the value 4 inserted into `testTree5` and removed again. -/
theorem insert_remove_roundtrip_witness :
    StrictTotal compare ∧ Linked testTree5 testShape5 ∧ BST compare testShape5 ∧
      HeightOK testShape5 ∧ Balanced testShape5 ∧
      (∀ v ∈ testShape5.values, compare v 4 ≠ 0) ∧
      ∃ t1 t2 xs, insert compare testTree5 4 = some (Outcome.returned (), t1) ∧
        remove compare t1 4 = some (Outcome.returned (), t2) ∧
        inOrderValues testTree5 = some xs ∧ inOrderValues t2 = some xs ∧ count t2 = count testTree5 :=
  ⟨strictTotal_compare, testTree5_linked, testShape5_invariants.1, testShape5_invariants.2.1,
    testShape5_invariants.2.2, by decide,
    insert_remove_roundtrip strictTotal_compare testTree5_linked testShape5_invariants.1
      testShape5_invariants.2.1 testShape5_invariants.2.2 4 (by decide)⟩

/-- C15: logarithmic height.  Whatever values are handed to `insert` one after another,
starting from the tree the constructor leaves (a duplicate being rejected and the run going
on), every call ends, and for the stored height `h` of the root (0 when there is none) and
the count `n` of the resulting tree `fib (h + 2) ≤ n + 1`; the descent of
`findParentOrDuplicate`, which `search`, `insert` and `remove` start with, visits at most `h`
nodes for any key. -/
theorem height_logarithmic {cmp : α → α → Int} (hc : StrictTotal cmp) (vs : List α) :
    ∃ t2 h, insertEach cmp empty vs = some t2 ∧ t2.heightOrZero t2.root = some h ∧ 0 ≤ h ∧
      Nat.fib (h.toNat + 2) ≤ (count t2).toNat + 1 ∧
      ∀ item, ∃ visited, findVisits cmp t2 item t2.fuel t2.root = some visited ∧
        visited.length ≤ h.toNat ∧
        findParentOrDuplicate cmp t2 item = some (lastVisit t2.root visited) := by
  obtain ⟨t2, T2, h1, hL, _, hok, hbal, hn⟩ :=
    insertEach_invariants hc vs empty_linked trivial trivial trivial rfl
  have hd := hok.depth_eq
  have hfib := fib_le_size hok hbal
  refine ⟨t2, T2.ht, h1, ?_, hok.ht_nonneg, ?_, ?_⟩
  · rw [hL.2.1]; exact heightOrZero_rep hL.1
  · have e1 : T2.ht.toNat = T2.depth := by omega
    have e2 : (count t2).toNat = T2.size := by unfold count; omega
    rw [e1, e2]; exact hfib
  · intro item
    obtain ⟨visited, hv, hlen⟩ := @findVisits_rep _ cmp t2 item T2 t2.fuel none hL.1
      hL.depth_lt_fuel
    rw [← hL.2.1] at hv
    refine ⟨visited, hv, by omega, ?_⟩
    unfold findParentOrDuplicate
    rw [findLoop_eq_visits, hv]
    rfl

/-- Instance of C15: the five insertions of the first tree of the test driver. -/
theorem height_logarithmic_witness :
    StrictTotal compare ∧
      ∃ t2 h, insertEach compare empty [5, 2, 8, 7, 6] = some t2 ∧
        t2.heightOrZero t2.root = some h ∧ 0 ≤ h ∧
        Nat.fib (h.toNat + 2) ≤ (count t2).toNat + 1 ∧
        ∀ item, ∃ visited, findVisits compare t2 item t2.fuel t2.root = some visited ∧
          visited.length ≤ h.toNat ∧
          findParentOrDuplicate compare t2 item = some (lastVisit t2.root visited) :=
  ⟨strictTotal_compare, height_logarithmic strictTotal_compare [5, 2, 8, 7, 6]⟩

/-- C16: single rotation of `insert`.  In a tree that satisfies the invariants of the data
model let the descent for `item` run through `A`, its left child `B` and on to the left of `B`,
let every node below `A` on that path pass the balance test of the ascent and `A` fail it.
Then `insert` returns, its last step is `rotateRight(B)`, and in the tree it leaves `B` stands
where `A` stood (below the same ancestors `fs`, or as root), the subtree with the new leaf is
the left child of `B`, `A` is the right child of `B` with the former right subtree of `B` as
left child, `B` stores the height `A` stored before and `A` one less.  The mirror image holds
for a path through the right children, with `rotateLeft(B)`. -/
theorem insert_single_rotation {cmp : α → α → Int} {t : BinarySearchTree α} {T : Shape α}
    (hL : Linked t T) (hok : HeightOK T) (hbal : Balanced T) (item : α) :
    (∀ (cP : List (Frame α)) (A B : Nat) (av bv : α) (ah bh : Int) (ar br : Shape α)
        (fs : List (Frame α)),
      T = plug nil (cP ++ Frame.inLeft B bv bh br :: Frame.inLeft A av ah ar :: fs) →
      Descends cmp item (cP ++ Frame.inLeft B bv bh br :: Frame.inLeft A av ah ar :: fs) →
      PathBalanced 1 (cP ++ [Frame.inLeft B bv bh br]) →
      ¬PathBalanced (topHeight 1 (cP ++ [Frame.inLeft B bv bh br]))
        [Frame.inLeft A av ah ar] →
      ∃ t1 t2, insert cmp t item = some (Outcome.returned (), t2) ∧
        rotateRight t1 (some B) = some t2 ∧
        Linked t2 (plug (node B (plug (node t.fresh nil item 1 nil) (lift 1 cP)) bv ah
          (node A br av (ah - 1) ar)) fs)) ∧
    (∀ (cP : List (Frame α)) (A B : Nat) (av bv : α) (ah bh : Int) (al bl : Shape α)
        (fs : List (Frame α)),
      T = plug nil (cP ++ Frame.inRight B bl bv bh :: Frame.inRight A al av ah :: fs) →
      Descends cmp item (cP ++ Frame.inRight B bl bv bh :: Frame.inRight A al av ah :: fs) →
      PathBalanced 1 (cP ++ [Frame.inRight B bl bv bh]) →
      ¬PathBalanced (topHeight 1 (cP ++ [Frame.inRight B bl bv bh]))
        [Frame.inRight A al av ah] →
      ∃ t1 t2, insert cmp t item = some (Outcome.returned (), t2) ∧
        rotateLeft t1 (some B) = some t2 ∧
        Linked t2 (plug (node B (node A al av (ah - 1) bl) bv ah
          (plug (node t.fresh nil item 1 nil) (lift 1 cP))) fs)) := by
  constructor
  · intro cP A B av bv ah bh ar br fs e hd hp hu
    subst e
    exact insert_left_left hL hok hbal hd hp hu
  · intro cP A B av bv ah bh al bl fs e hd hp hu
    subst e
    exact insert_right_right hL hok hbal hd hp hu

/-- Instance of C16: the last insertions of `testTree1` (6 below 7 below 8, left-left) and of
`testTree4` (4 below 3 below 2, right-right), with the heights the test driver checks. -/
theorem insert_single_rotation_witness :
    (Linked testTree1 testShape1 ∧ HeightOK testShape1 ∧ Balanced testShape1 ∧
      ∃ t1 t2, insert compare testTree1 6 = some (Outcome.returned (), t2) ∧
        rotateRight t1 (some 3) = some t2 ∧
        Linked t2 (plug (node 3 (plug (node testTree1.fresh nil 6 1 nil) (lift 1 [])) 7 2
          (node 2 nil 8 (2 - 1) nil)) [Frame.inRight 0 (node 1 nil 2 1 nil) 5 3])) ∧
    (Linked testTree4 testShape4 ∧ HeightOK testShape4 ∧ Balanced testShape4 ∧
      ∃ t1 t2, insert compare testTree4 4 = some (Outcome.returned (), t2) ∧
        rotateLeft t1 (some 3) = some t2 ∧
        Linked t2 (plug (node 3 (node 1 nil 2 (2 - 1) nil) 3 2
          (plug (node testTree4.fresh nil 4 1 nil) (lift 1 [])))
          [Frame.inLeft 0 5 3 (node 2 nil 9 1 nil)])) ∧
    returnHeight compare (treeOf [5, 2, 8, 7, 6]) 7 = some 2 ∧
    returnHeight compare (treeOf [5, 2, 8, 7, 6]) 8 = some 1 ∧
    returnHeight compare (treeOf [5, 2, 9, 3, 4]) 2 = some 1 ∧
    returnHeight compare (treeOf [5, 2, 9, 3, 4]) 3 = some 2 :=
  ⟨⟨testTree1_linked, testShape1_invariants.1, testShape1_invariants.2,
      (insert_single_rotation testTree1_linked testShape1_invariants.1
        testShape1_invariants.2 6).1 [] 2 3 8 7 2 1 nil nil
        [Frame.inRight 0 (node 1 nil 2 1 nil) 5 3] rfl
        (by simp [Descends, compare]) (by simp [PathBalanced])
        (by simp [PathBalanced, topHeight, hgt])⟩,
    ⟨testTree4_linked, testShape4_invariants.1, testShape4_invariants.2,
      (insert_single_rotation testTree4_linked testShape4_invariants.1
        testShape4_invariants.2 4).2 [] 1 3 2 3 2 1 nil nil
        [Frame.inLeft 0 5 3 (node 2 nil 9 1 nil)] rfl
        (by simp [Descends, compare]) (by simp [PathBalanced])
        (by simp [PathBalanced, topHeight, hgt])⟩,
    rfl, rfl, rfl, rfl⟩

/-- C17: double rotation of `insert`.  In a tree that satisfies the invariants of the data
model let the descent for `item` run through `A`, its left child `B` and on to the right of
`B`, let every node below `A` on that path pass the balance test of the ascent and `A` fail
it; `C` is the right child of `B` after the insertion (the new leaf, or the node that was
there).  Then `insert` returns, its last steps are `rotateLeft(C)` and `rotateRight(C)`, and in
the tree it leaves `C` stands where `A` stood (below the same ancestors `fs`, or as root), `B`
is its left child and keeps its left subtree, `A` is its right child and keeps its right
subtree, the two subtrees of `C` went to `B` and `A`, `C` stores the height `A` stored
before, `A` and `B` one less.  The mirror image holds for a path through the right child of
`A` and the left child of `B`, with `rotateRight(C)` and `rotateLeft(C)`. -/
theorem insert_double_rotation {cmp : α → α → Int} {t : BinarySearchTree α} {T : Shape α}
    (hL : Linked t T) (hok : HeightOK T) (hbal : Balanced T) (item : α) :
    (∀ (cP : List (Frame α)) (A B : Nat) (av bv : α) (ah bh : Int) (ar bl : Shape α)
        (fs : List (Frame α)),
      T = plug nil (cP ++ Frame.inRight B bl bv bh :: Frame.inLeft A av ah ar :: fs) →
      Descends cmp item (cP ++ Frame.inRight B bl bv bh :: Frame.inLeft A av ah ar :: fs) →
      PathBalanced 1 (cP ++ [Frame.inRight B bl bv bh]) →
      ¬PathBalanced (topHeight 1 (cP ++ [Frame.inRight B bl bv bh]))
        [Frame.inLeft A av ah ar] →
      ∃ t1 t2 c cl cv ch cr,
        plug (node t.fresh nil item 1 nil) (lift 1 cP) = node c cl cv ch cr ∧
        insert cmp t item = some (Outcome.returned (), t2) ∧
        (rotateLeft t1 (some c)).bind (fun t3 => rotateRight t3 (some c)) = some t2 ∧
        Linked t2 (plug (node c (node B bl bv (ah - 1) cl) cv ah (node A cr av (ah - 1) ar))
          fs)) ∧
    (∀ (cP : List (Frame α)) (A B : Nat) (av bv : α) (ah bh : Int) (al br : Shape α)
        (fs : List (Frame α)),
      T = plug nil (cP ++ Frame.inLeft B bv bh br :: Frame.inRight A al av ah :: fs) →
      Descends cmp item (cP ++ Frame.inLeft B bv bh br :: Frame.inRight A al av ah :: fs) →
      PathBalanced 1 (cP ++ [Frame.inLeft B bv bh br]) →
      ¬PathBalanced (topHeight 1 (cP ++ [Frame.inLeft B bv bh br]))
        [Frame.inRight A al av ah] →
      ∃ t1 t2 c cl cv ch cr,
        plug (node t.fresh nil item 1 nil) (lift 1 cP) = node c cl cv ch cr ∧
        insert cmp t item = some (Outcome.returned (), t2) ∧
        (rotateRight t1 (some c)).bind (fun t3 => rotateLeft t3 (some c)) = some t2 ∧
        Linked t2 (plug (node c (node A al av (ah - 1) cl) cv ah (node B cr bv (ah - 1) br))
          fs)) := by
  constructor
  · intro cP A B av bv ah bh ar bl fs e hd hp hu
    subst e
    exact insert_left_right hL hok hbal hd hp hu
  · intro cP A B av bv ah bh al br fs e hd hp hu
    subst e
    exact insert_right_left hL hok hbal hd hp hu

/-- Instance of C17: the last insertions of `testTree2` (8 right of 7 left of 9) and of
`testTree3` (10 left of 11 right of 9), with the heights the test driver checks. -/
theorem insert_double_rotation_witness :
    (Linked testTree2 testShape2 ∧ HeightOK testShape2 ∧ Balanced testShape2 ∧
      ∃ t1 t2 c cl cv ch cr,
        plug (node testTree2.fresh nil 8 1 nil) (lift 1 []) = node c cl cv ch cr ∧
        insert compare testTree2 8 = some (Outcome.returned (), t2) ∧
        (rotateLeft t1 (some c)).bind (fun t3 => rotateRight t3 (some c)) = some t2 ∧
        Linked t2 (plug (node c (node 3 nil 7 (2 - 1) cl) cv 2 (node 2 cr 9 (2 - 1) nil))
          [Frame.inRight 0 (node 1 nil 2 1 nil) 5 3])) ∧
    (Linked testTree3 testShape3 ∧ HeightOK testShape3 ∧ Balanced testShape3 ∧
      ∃ t1 t2 c cl cv ch cr,
        plug (node testTree3.fresh nil 10 1 nil) (lift 1 []) = node c cl cv ch cr ∧
        insert compare testTree3 10 = some (Outcome.returned (), t2) ∧
        (rotateRight t1 (some c)).bind (fun t3 => rotateLeft t3 (some c)) = some t2 ∧
        Linked t2 (plug (node c (node 2 nil 9 (2 - 1) cl) cv 2 (node 3 cr 11 (2 - 1) nil))
          [Frame.inRight 0 (node 1 nil 2 1 nil) 5 3])) ∧
    returnHeight compare (treeOf [5, 2, 9, 7, 8]) 8 = some 2 ∧
    returnHeight compare (treeOf [5, 2, 9, 7, 8]) 9 = some 1 ∧
    returnHeight compare (treeOf [5, 2, 9, 11, 10]) 10 = some 2 ∧
    returnHeight compare (treeOf [5, 2, 9, 11, 10]) 9 = some 1 :=
  ⟨⟨testTree2_linked, testShape2_invariants.1, testShape2_invariants.2,
      (insert_double_rotation testTree2_linked testShape2_invariants.1
        testShape2_invariants.2 8).1 [] 2 3 9 7 2 1 nil nil
        [Frame.inRight 0 (node 1 nil 2 1 nil) 5 3] rfl
        (by simp [Descends, compare]) (by simp [PathBalanced])
        (by simp [PathBalanced, topHeight, hgt])⟩,
    ⟨testTree3_linked, testShape3_invariants.1, testShape3_invariants.2,
      (insert_double_rotation testTree3_linked testShape3_invariants.1
        testShape3_invariants.2 10).2 [] 2 3 9 11 2 1 nil nil
        [Frame.inRight 0 (node 1 nil 2 1 nil) 5 3] rfl
        (by simp [Descends, compare]) (by simp [PathBalanced])
        (by simp [PathBalanced, topHeight, hgt])⟩,
    rfl, rfl, rfl, rfl⟩

/-- C18: single rotation of `remove`.  Let `A` be a node of a tree with parent links whose
right subtree (root `R`) stores a height two above that of its left subtree, both subtrees
being balanced with consistent stored heights, and let the height of the right subtree of `R`
minus that of its left subtree be 0 or 1.  Then `removeRebalance` with `A` and the pointer to
the left child of `A` (null when there is none) does what `rotateLeft(R)` does: `R` stands
where `A` stood, `A` is its left child, the in-order sequence of the values (`inOrderValues`)
is as before, the subtree is balanced with consistent stored heights, and its height is the
one `getHeight` gives for `A` before (for the difference 0) or one less (for the difference
1).  The mirror image holds for a higher
left subtree with root `L` and a difference of 0 or -1, with `rotateRight(L)`. -/
theorem remove_single_rotation {t : BinarySearchTree α} {T : Shape α} (hL : Linked t T)
    (pp : Option Nat) :
    (∀ (fs : List (Frame α)) (A R : Nat) (al rl rr : Shape α) (av rv : α) (ah rh : Int),
      T = plug (node A al av ah (node R rl rv rh rr)) fs →
      HeightOK al → Balanced al → HeightOK (node R rl rv rh rr) →
      Balanced (node R rl rv rh rr) → rh = al.ht + 2 →
      (rr.ht - rl.ht = 0 ∨ rr.ht - rl.ht = 1) →
      ∃ t2, removeRebalance t (some A) al.ptr pp = some t2 ∧
        rotateLeft t (some R) = some t2 ∧
        Linked t2 (plug (node R (node A al av (hgt al.ht rl.ht) rl) rv
          (hgt (hgt al.ht rl.ht) rr.ht) rr) fs) ∧
        inOrderValues t2 = inOrderValues t ∧
        HeightOK (node R (node A al av (hgt al.ht rl.ht) rl) rv
          (hgt (hgt al.ht rl.ht) rr.ht) rr) ∧
        Balanced (node R (node A al av (hgt al.ht rl.ht) rl) rv
          (hgt (hgt al.ht rl.ht) rr.ht) rr) ∧
        (rr.ht - rl.ht = 0 → hgt (hgt al.ht rl.ht) rr.ht = hgt al.ht rh) ∧
        (rr.ht - rl.ht = 1 → hgt (hgt al.ht rl.ht) rr.ht = hgt al.ht rh - 1)) ∧
    (∀ (fs : List (Frame α)) (A L : Nat) (ll lr ar : Shape α) (av lv : α) (ah lh : Int),
      T = plug (node A (node L ll lv lh lr) av ah ar) fs →
      HeightOK ar → Balanced ar → HeightOK (node L ll lv lh lr) →
      Balanced (node L ll lv lh lr) → lh = ar.ht + 2 →
      (lr.ht - ll.ht = 0 ∨ lr.ht - ll.ht = -1) →
      ∃ t2, removeRebalance t (some A) ar.ptr pp = some t2 ∧
        rotateRight t (some L) = some t2 ∧
        Linked t2 (plug (node L ll lv (hgt ll.ht (hgt lr.ht ar.ht))
          (node A lr av (hgt lr.ht ar.ht) ar)) fs) ∧
        inOrderValues t2 = inOrderValues t ∧
        HeightOK (node L ll lv (hgt ll.ht (hgt lr.ht ar.ht))
          (node A lr av (hgt lr.ht ar.ht) ar)) ∧
        Balanced (node L ll lv (hgt ll.ht (hgt lr.ht ar.ht))
          (node A lr av (hgt lr.ht ar.ht) ar)) ∧
        (lr.ht - ll.ht = 0 → hgt ll.ht (hgt lr.ht ar.ht) = hgt lh ar.ht) ∧
        (lr.ht - ll.ht = -1 → hgt ll.ht (hgt lr.ht ar.ht) = hgt lh ar.ht - 1)) := by
  constructor
  · intro fs A R al rl rr av rv ah rh e h1 h2 h3 h4 h5 h6
    subst e
    exact removeRebalance_single_left pp hL h1 h2 h3 h4 h5 h6
  · intro fs A L ll lr ar av lv ah lh e h1 h2 h3 h4 h5 h6
    subst e
    exact removeRebalance_single_right pp hL h1 h2 h3 h4 h5 h6

/-- Instance of C18: `removeRebalance` at the root of the two trees `remove` left with a root
whose subtrees differ by two (`lowLeftRemoved`, `lowRightRemoved`), called with the pointer to
the lower child; and the heights the test driver checks after its first and its fourth
removal. -/
theorem remove_single_rotation_witness :
    (Linked (removedFrom [5, 2, 8, 1, 7, 9, 10] 2) lowLeftRemoved ∧
      ∃ t2, removeRebalance (removedFrom [5, 2, 8, 1, 7, 9, 10] 2) (some 0) (some 3) none =
          some t2 ∧
        rotateLeft (removedFrom [5, 2, 8, 1, 7, 9, 10] 2) (some 2) = some t2 ∧
        Linked t2 (node 2 (node 0 (node 3 nil 1 1 nil) 5 2 (node 4 nil 7 1 nil)) 8 3
          (node 5 nil 9 2 (node 6 nil 10 1 nil))) ∧
        inOrderValues t2 = inOrderValues (removedFrom [5, 2, 8, 1, 7, 9, 10] 2)) ∧
    (Linked (removedFrom [5, 2, 8, 1, 3, 9, 0] 8) lowRightRemoved ∧
      ∃ t2, removeRebalance (removedFrom [5, 2, 8, 1, 3, 9, 0] 8) (some 0) (some 5) none =
          some t2 ∧
        rotateRight (removedFrom [5, 2, 8, 1, 3, 9, 0] 8) (some 1) = some t2 ∧
        Linked t2 (node 1 (node 3 (node 6 nil 0 1 nil) 1 2 nil) 2 3
          (node 0 (node 4 nil 3 1 nil) 5 2 (node 5 nil 9 1 nil))) ∧
        inOrderValues t2 = inOrderValues (removedFrom [5, 2, 8, 1, 3, 9, 0] 8)) ∧
    returnHeight compare (removedFrom [5, 2, 8, 3, 7, 9, 10] 3) 5 = some 2 ∧
    returnHeight compare (removedFrom [5, 2, 8, 3, 7, 9, 10] 3) 8 = some 3 ∧
    returnHeight compare (removedFrom [8, 5, 10, 3, 6, 9, 2, 4, 7, 11, 12, 1] 7) 3 = some 3 ∧
    returnHeight compare (removedFrom [8, 5, 10, 3, 6, 9, 2, 4, 7, 11, 12, 1] 7) 5 = some 2 := by
  refine ⟨⟨lowLeftRemoved_linked, ?_⟩, ⟨lowRightRemoved_linked, ?_⟩, rfl, rfl, rfl, rfl⟩
  · obtain ⟨t2, h1, h2, h3, h4, _⟩ :=
      (remove_single_rotation lowLeftRemoved_linked none).1 [] 0 2 (node 3 nil 1 1 nil)
        (node 4 nil 7 1 nil) (node 5 nil 9 2 (node 6 nil 10 1 nil)) 5 8 4 3 rfl
        (by simp [HeightOK]) (by simp [Balanced]) (by simp [HeightOK]) (by simp [Balanced])
        (by simp) (by simp)
    exact ⟨t2, h1, h2, h3, h4⟩
  · obtain ⟨t2, h1, h2, h3, h4, _⟩ :=
      (remove_single_rotation lowRightRemoved_linked none).2 [] 0 1
        (node 3 (node 6 nil 0 1 nil) 1 2 nil) (node 4 nil 3 1 nil) (node 5 nil 9 1 nil) 5 2 4 3
        rfl (by simp [HeightOK]) (by simp [Balanced]) (by simp [HeightOK])
        (by simp [Balanced]) (by simp) (by simp)
    exact ⟨t2, h1, h2, h3, h4⟩

/-- C19: double rotation of `remove`.  Let `A` be a node of a tree with parent links whose
right subtree (root `R`) stores a height two above that of its left subtree, both subtrees
being balanced with consistent stored heights, and let the height of the right subtree of `R`
minus that of its left subtree (root `C`) be -1.  Then `removeRebalance` with `A` and the
pointer to the left child of `A` (null when there is none) does what `rotateRight(C)` followed
by `rotateLeft(C)` does: `C` stands where `A` stood, with `A` as its left and `R` as its right
child, the in-order sequence of the values (`inOrderValues`) is as before, the subtree is
balanced with consistent stored heights, and
its height is one less than the one `getHeight` gives for `A` before.  The mirror image holds
for a higher left subtree with root `L` whose right subtree (root `C`) is the higher one by
one, with `rotateLeft(C)` followed by `rotateRight(C)`. -/
theorem remove_double_rotation {t : BinarySearchTree α} {T : Shape α} (hL : Linked t T)
    (pp : Option Nat) :
    (∀ (fs : List (Frame α)) (A R C : Nat) (al cl cr rr : Shape α) (av rv cv : α)
        (ah rh ch : Int),
      T = plug (node A al av ah (node R (node C cl cv ch cr) rv rh rr)) fs →
      HeightOK al → Balanced al → HeightOK (node R (node C cl cv ch cr) rv rh rr) →
      Balanced (node R (node C cl cv ch cr) rv rh rr) → rh = al.ht + 2 →
      rr.ht - (node C cl cv ch cr).ht = -1 →
      ∃ t2, removeRebalance t (some A) al.ptr pp = some t2 ∧
        (rotateRight t (some C)).bind (fun t1 => rotateLeft t1 (some C)) = some t2 ∧
        Linked t2 (plug (node C (node A al av (hgt al.ht cl.ht) cl) cv
          (hgt (hgt al.ht cl.ht) (hgt cr.ht rr.ht)) (node R cr rv (hgt cr.ht rr.ht) rr)) fs) ∧
        inOrderValues t2 = inOrderValues t ∧
        HeightOK (node C (node A al av (hgt al.ht cl.ht) cl) cv
          (hgt (hgt al.ht cl.ht) (hgt cr.ht rr.ht)) (node R cr rv (hgt cr.ht rr.ht) rr)) ∧
        Balanced (node C (node A al av (hgt al.ht cl.ht) cl) cv
          (hgt (hgt al.ht cl.ht) (hgt cr.ht rr.ht)) (node R cr rv (hgt cr.ht rr.ht) rr)) ∧
        hgt (hgt al.ht cl.ht) (hgt cr.ht rr.ht) = hgt al.ht rh - 1) ∧
    (∀ (fs : List (Frame α)) (A L C : Nat) (ll cl cr ar : Shape α) (av lv cv : α)
        (ah lh ch : Int),
      T = plug (node A (node L ll lv lh (node C cl cv ch cr)) av ah ar) fs →
      HeightOK ar → Balanced ar → HeightOK (node L ll lv lh (node C cl cv ch cr)) →
      Balanced (node L ll lv lh (node C cl cv ch cr)) → lh = ar.ht + 2 →
      (node C cl cv ch cr).ht - ll.ht = 1 →
      ∃ t2, removeRebalance t (some A) ar.ptr pp = some t2 ∧
        (rotateLeft t (some C)).bind (fun t1 => rotateRight t1 (some C)) = some t2 ∧
        Linked t2 (plug (node C (node L ll lv (hgt ll.ht cl.ht) cl) cv
          (hgt (hgt ll.ht cl.ht) (hgt cr.ht ar.ht)) (node A cr av (hgt cr.ht ar.ht) ar)) fs) ∧
        inOrderValues t2 = inOrderValues t ∧
        HeightOK (node C (node L ll lv (hgt ll.ht cl.ht) cl) cv
          (hgt (hgt ll.ht cl.ht) (hgt cr.ht ar.ht)) (node A cr av (hgt cr.ht ar.ht) ar)) ∧
        Balanced (node C (node L ll lv (hgt ll.ht cl.ht) cl) cv
          (hgt (hgt ll.ht cl.ht) (hgt cr.ht ar.ht)) (node A cr av (hgt cr.ht ar.ht) ar)) ∧
        hgt (hgt ll.ht cl.ht) (hgt cr.ht ar.ht) = hgt lh ar.ht - 1) := by
  constructor
  · intro fs A R C al cl cr rr av rv cv ah rh ch e h1 h2 h3 h4 h5 h6
    subst e
    exact removeRebalance_double_left pp hL h1 h2 h3 h4 h5 h6
  · intro fs A L C ll cl cr ar av lv cv ah lh ch e h1 h2 h3 h4 h5 h6
    subst e
    exact removeRebalance_double_right pp hL h1 h2 h3 h4 h5 h6

/-- Instance of C19: `removeRebalance` at the root of the two trees `remove` left with a root
whose subtrees differ by two and whose higher child leans inwards (`lowLeftInnerRemoved`,
`lowRightInnerRemoved`), called with the pointer to the lower child; and the heights the test
driver checks after its second and its third removal. -/
theorem remove_double_rotation_witness :
    (Linked (removedFrom [5, 2, 8, 1, 7, 9, 6] 2) lowLeftInnerRemoved ∧
      ∃ t2, removeRebalance (removedFrom [5, 2, 8, 1, 7, 9, 6] 2) (some 0) (some 3) none =
          some t2 ∧
        (rotateRight (removedFrom [5, 2, 8, 1, 7, 9, 6] 2) (some 4)).bind
          (fun t1 => rotateLeft t1 (some 4)) = some t2 ∧
        Linked t2 (node 4 (node 0 (node 3 nil 1 1 nil) 5 2 (node 6 nil 6 1 nil)) 7 3
          (node 2 nil 8 2 (node 5 nil 9 1 nil))) ∧
        inOrderValues t2 = inOrderValues (removedFrom [5, 2, 8, 1, 7, 9, 6] 2)) ∧
    (Linked (removedFrom [5, 2, 8, 1, 3, 9, 4] 8) lowRightInnerRemoved ∧
      ∃ t2, removeRebalance (removedFrom [5, 2, 8, 1, 3, 9, 4] 8) (some 0) (some 5) none =
          some t2 ∧
        (rotateLeft (removedFrom [5, 2, 8, 1, 3, 9, 4] 8) (some 4)).bind
          (fun t1 => rotateRight t1 (some 4)) = some t2 ∧
        Linked t2 (node 4 (node 1 (node 3 nil 1 1 nil) 2 2 nil) 3 3
          (node 0 (node 6 nil 4 1 nil) 5 2 (node 5 nil 9 1 nil))) ∧
        inOrderValues t2 = inOrderValues (removedFrom [5, 2, 8, 1, 3, 9, 4] 8)) ∧
    returnHeight compare (removedFrom [5, 2, 8, 3, 7, 9, 6] 3) 7 = some 3 ∧
    returnHeight compare (removedFrom [5, 2, 8, 3, 7, 9, 6] 3) 8 = some 2 ∧
    returnHeight compare (removedFrom [8, 5, 10, 2, 6, 9, 11, 3, 7, 1, 12, 4] 7) 3 = some 3 ∧
    returnHeight compare (removedFrom [8, 5, 10, 2, 6, 9, 11, 3, 7, 1, 12, 4] 7) 8 = some 4 := by
  refine ⟨⟨lowLeftInnerRemoved_linked, ?_⟩, ⟨lowRightInnerRemoved_linked, ?_⟩,
    rfl, rfl, rfl, rfl⟩
  · obtain ⟨t2, h1, h2, h3, h4, _⟩ :=
      (remove_double_rotation lowLeftInnerRemoved_linked none).1 [] 0 2 4 (node 3 nil 1 1 nil)
        (node 6 nil 6 1 nil) nil (node 5 nil 9 1 nil) 5 8 7 4 3 2 rfl
        (by simp [HeightOK]) (by simp [Balanced]) (by simp [HeightOK]) (by simp [Balanced])
        (by simp) (by simp)
    exact ⟨t2, h1, h2, h3, h4⟩
  · obtain ⟨t2, h1, h2, h3, h4, _⟩ :=
      (remove_double_rotation lowRightInnerRemoved_linked none).2 [] 0 1 4
        (node 3 nil 1 1 nil) nil (node 6 nil 4 1 nil) (node 5 nil 9 1 nil) 5 2 3 4 3 2 rfl
        (by simp [HeightOK]) (by simp [Balanced]) (by simp [HeightOK]) (by simp [Balanced])
        (by simp) (by simp)
    exact ⟨t2, h1, h2, h3, h4⟩

/-- C20: rotations keep the in-order sequence.  In a tree with parent links, let the node `N`
be the left child of `P`.  Then `rotateRight(N)` returns, the tree it leaves has `N` where `P`
stood (under the same ancestors, or as the root without a parent when `P` was the root), `P`
as the right child of `N`, the former right subtree of `N` as the left subtree of `P`, every
parent link as the shape asks, and the in-order sequence of the values (`inOrderValues`) is
what it was before.  The mirror image
holds for `rotateLeft(N)` when `N` is the right child of `P`. -/
theorem rotation_preserves_inOrder {t : BinarySearchTree α} {T : Shape α} (hL : Linked t T) :
    (∀ (fs : List (Frame α)) (P N : Nat) (nl nr po : Shape α) (pv nv : α) (ph nh : Int),
      T = plug (node P (node N nl nv nh nr) pv ph po) fs →
      ∃ t2, rotateRight t (some N) = some t2 ∧
        Linked t2 (plug (node N nl nv (hgt nl.ht (hgt nr.ht po.ht))
          (node P nr pv (hgt nr.ht po.ht) po)) fs) ∧
        inOrderValues t2 = inOrderValues t) ∧
    (∀ (fs : List (Frame α)) (P N : Nat) (po nl nr : Shape α) (pv nv : α) (ph nh : Int),
      T = plug (node P po pv ph (node N nl nv nh nr)) fs →
      ∃ t2, rotateLeft t (some N) = some t2 ∧
        Linked t2 (plug (node N (node P po pv (hgt po.ht nl.ht) nl) nv
          (hgt (hgt po.ht nl.ht) nr.ht) nr) fs) ∧
        inOrderValues t2 = inOrderValues t) := by
  constructor
  · intro fs P N nl nr po pv nv ph nh e
    subst e
    obtain ⟨hrep, hctx, hnd, hroot⟩ := hL.ready
    obtain ⟨t2, hrot, hK⟩ := rotateRight_kept hrep hctx hnd hroot
    exact ⟨t2, hrot, hK.linked hL, hK.inOrderValues_eq hL⟩
  · intro fs P N po nl nr pv nv ph nh e
    subst e
    obtain ⟨hrep, hctx, hnd, hroot⟩ := hL.ready
    obtain ⟨t2, hrot, hK⟩ := rotateLeft_kept hrep hctx hnd hroot
    exact ⟨t2, hrot, hK.linked hL, hK.inOrderValues_eq hL⟩

/-- Instance of C20 on the tree of the insertions 5, 2, 8, 3, 7, 9, 10: `rotateRight` of the
node of 2 (left child of the root) and `rotateLeft` of the node of 9 (right child of the node
of 8, below the root). -/
theorem rotation_preserves_inOrder_witness :
    Linked testTree5 testShape5 ∧
    (∃ t2, rotateRight testTree5 (some 1) = some t2 ∧
      Linked t2 (node 1 nil 2 5 (node 0 (node 3 nil 3 1 nil) 5 4
        (node 2 (node 4 nil 7 1 nil) 8 3 (node 5 nil 9 2 (node 6 nil 10 1 nil))))) ∧
      inOrderValues t2 = inOrderValues testTree5) ∧
    (∃ t2, rotateLeft testTree5 (some 5) = some t2 ∧
      Linked t2 (node 0 (node 1 nil 2 2 (node 3 nil 3 1 nil)) 5 4
        (node 5 (node 2 (node 4 nil 7 1 nil) 8 2 nil) 9 3 (node 6 nil 10 1 nil))) ∧
      inOrderValues t2 = inOrderValues testTree5) :=
  ⟨testTree5_linked,
    (rotation_preserves_inOrder testTree5_linked).1 [] 0 1 nil (node 3 nil 3 1 nil)
      (node 2 (node 4 nil 7 1 nil) 8 3 (node 5 nil 9 2 (node 6 nil 10 1 nil))) 5 2 4 2 rfl,
    (rotation_preserves_inOrder testTree5_linked).2
      [Frame.inRight 0 (node 1 nil 2 2 (node 3 nil 3 1 nil)) 5 4] 2 5 (node 4 nil 7 1 nil)
      nil (node 6 nil 10 1 nil) 8 9 3 2 rfl⟩

/-- C21: result of the locator.  On a tree with parent links that satisfies the order
invariant, `findParentOrDuplicate(item)` returns; the result is null exactly when the tree
has no root; when a stored value compares equal to `item`, the result is a node of the tree
that holds this value; when no stored value does and the tree is not empty, the result is a
node whose left child pointer is null and whose value compares greater than `item`, or a node
whose right child pointer is null and whose value compares less, and a new node with `item`
in that empty place leaves a tree that satisfies the order invariant. -/
theorem findParentOrDuplicate_result {cmp : α → α → Int} (hc : StrictTotal cmp)
    {t : BinarySearchTree α} {T : Shape α} (hL : Linked t T) (hbst : BST cmp T) (item : α) :
    ∃ r, findParentOrDuplicate cmp t item = some r ∧ (r = none ↔ t.root = none) ∧
      (∀ v ∈ T.values, cmp v item = 0 →
        ∃ a n, r = some a ∧ a ∈ T.addrs ∧ t.store a = some n ∧ n.nodeValue = v) ∧
      ((∀ v ∈ T.values, cmp v item ≠ 0) → t.root ≠ none →
        (∃ fs a v h rt, T = plug nil (Frame.inLeft a v h rt :: fs) ∧ r = some a ∧
          t.store a = some ⟨v, h, none, rt.ptr, ctxPtr none fs⟩ ∧ cmp v item = 1 ∧
          ∀ b hb, BST cmp (plug (node b nil item hb nil) (Frame.inLeft a v h rt :: fs))) ∨
        (∃ fs a l v h, T = plug nil (Frame.inRight a l v h :: fs) ∧ r = some a ∧
          t.store a = some ⟨v, h, l.ptr, none, ctxPtr none fs⟩ ∧ cmp v item = -1 ∧
          ∀ b hb, BST cmp (plug (node b nil item hb nil) (Frame.inRight a l v h :: fs)))) := by
  obtain ⟨sub, ctx, hp, hres⟩ := findParentOrDuplicate_spec hc hL hbst item
  subst hp
  obtain ⟨hsub, hctx⟩ := (rep_plug _ _).1 hL.1
  rcases hres with ⟨a, l, v, h, r, rfl, e0, hfind⟩ | ⟨rfl, hfind, hb, ha, hf⟩
  · have hroot : t.root ≠ none := by
      obtain ⟨b, bl, bv, bh, br, e⟩ := plug_node a l v h r ctx
      rw [hL.2.1, e]; simp
    refine ⟨some a, hfind, ?_, ?_, ?_⟩
    · simp [hroot]
    · intro w _ hw
      refine ⟨a, _, rfl, (addrs_plug _ _).mem_iff.2 (by simp [Shape.addrs]), hsub.1, ?_⟩
      rw [(hc.eq_iff _ _).1 hw, (hc.eq_iff _ _).1 e0]
    · intro hns
      refine absurd e0 (hns v ?_)
      rw [values_plug]; simp [Shape.values]
  · cases ctx with
    | nil =>
      refine ⟨none, hfind, ?_, ?_, ?_⟩
      · simp [hL.2.1, plug]
      · intro w hw; simp [plug, Shape.values] at hw
      · intro _ hr; exact absurd (by simp [hL.2.1, plug]) hr
    | cons f fs =>
      have hroot : t.root ≠ none := by rw [hL.2.1]; exact plug_ptr_ne_none _ _ _
      refine ⟨some f.addr, hfind, ?_, ?_, ?_⟩
      · simp [hroot]
      · intro w hw e0
        rw [values_plug] at hw
        simp only [Shape.values, List.append_nil] at hw
        exact absurd e0 (not_stored_of_bounds hc hb ha w hw)
      · intro _ _
        cases f with
        | inLeft a v h rt =>
          exact Or.inl ⟨fs, a, v, h, rt, rfl, rfl, hctx.1, hf.2,
            fun b hb2 => bst_plug_leaf hc hbst hb ha b hb2⟩
        | inRight a l v h =>
          refine Or.inr ⟨fs, a, l, v, h, rfl, rfl, hctx.1, ?_,
            fun b hb2 => bst_plug_leaf hc hbst hb ha b hb2⟩
          rcases hc.range v item with e | e | e
          · exact e
          · exact absurd e hf.1
          · exact absurd e hf.2

/-- Instance of C21 on the tree of the insertions 5, 2, 8, 3, 7, 9, 10 for the key 4, which
is not stored, with the results for 4 (the node of 3, whose right place is empty), for the
stored key 7 and on the empty tree. -/
theorem findParentOrDuplicate_result_witness :
    StrictTotal compare ∧ Linked testTree5 testShape5 ∧ BST compare testShape5 ∧
    (∃ r, findParentOrDuplicate compare testTree5 4 = some r ∧
      (r = none ↔ testTree5.root = none) ∧
      (∀ v ∈ testShape5.values, compare v 4 = 0 →
        ∃ a n, r = some a ∧ a ∈ testShape5.addrs ∧ testTree5.store a = some n ∧
          n.nodeValue = v) ∧
      ((∀ v ∈ testShape5.values, compare v 4 ≠ 0) → testTree5.root ≠ none →
        (∃ fs a v h rt, testShape5 = plug nil (Frame.inLeft a v h rt :: fs) ∧ r = some a ∧
          testTree5.store a = some ⟨v, h, none, rt.ptr, ctxPtr none fs⟩ ∧ compare v 4 = 1 ∧
          ∀ b hb, BST compare (plug (node b nil 4 hb nil) (Frame.inLeft a v h rt :: fs))) ∨
        (∃ fs a l v h, testShape5 = plug nil (Frame.inRight a l v h :: fs) ∧ r = some a ∧
          testTree5.store a = some ⟨v, h, l.ptr, none, ctxPtr none fs⟩ ∧ compare v 4 = -1 ∧
          ∀ b hb, BST compare (plug (node b nil 4 hb nil) (Frame.inRight a l v h :: fs))))) ∧
    findParentOrDuplicate compare testTree5 4 = some (some 3) ∧
    testTree5.store 3 = some ⟨3, 1, none, none, some 1⟩ ∧
    findParentOrDuplicate compare testTree5 7 = some (some 4) ∧
    findParentOrDuplicate compare (empty : BinarySearchTree Int) 4 = some none :=
  ⟨strictTotal_compare, testTree5_linked, testShape5_invariants.1,
    findParentOrDuplicate_result strictTotal_compare testTree5_linked
      testShape5_invariants.1 4, by rfl, by rfl, by rfl, by rfl⟩

/-- C22: no missing node is read during rebalancing.  The embedding yields `none` when a null
or released pointer is read through, and a rotation yields `none` unless its argument is an
existing node whose parent exists and whose grandparent exists when the parent is not the
root.  On a tree that satisfies the invariants of the data model (values in order, stored
heights consistent, balanced, parent links with a root without parent), `insert` and `remove`
never yield `none`, whatever the argument: each returns or throws its exception. -/
theorem rebalancing_reads_nodes {cmp : α → α → Int} (hc : StrictTotal cmp)
    {t : BinarySearchTree α} {T : Shape α} (hL : Linked t T) (hbst : BST cmp T)
    (hok : HeightOK T) (hbal : Balanced T) (item : α) :
    (∃ o t2, insert cmp t item = some (o, t2)) ∧ (∃ o t2, remove cmp t item = some (o, t2)) ∧
      ∀ (s : BinarySearchTree α) (node : Option Nat), ¬RotationReads s node →
        rotateRight s node = none ∧ rotateLeft s node = none := by
  refine ⟨?_, ?_, ?_⟩
  · by_cases hs : ∃ v ∈ T.values, cmp v item = 0
    · exact ⟨_, t, insert_duplicate hc hL hbst item hs⟩
    · push_neg at hs
      obtain ⟨t2, _, _, _, h, _⟩ := insert_fresh hc hL hbst hok hbal item hs
      exact ⟨_, t2, h⟩
  · by_cases hs : ∃ v ∈ T.values, cmp v item = 0
    · obtain ⟨t2, _, _, _, _, _, h, _⟩ := remove_present hc hL hbst hok hbal item hs
      exact ⟨_, t2, h⟩
    · push_neg at hs
      exact ⟨_, t, remove_absent hc hL hbst item hs⟩
  · intro s node hn
    constructor
    · cases h : rotateRight s node with
      | none => rfl
      | some s2 => exact absurd (rotateRight_reads h) hn
    · cases h : rotateLeft s node with
      | none => rfl
      | some s2 => exact absurd (rotateLeft_reads h) hn

/-- Instance of C22 on the tree of the insertions 5, 2, 8, 3, 7, 9, 10 with the argument 4;
a rotation of the root, which has no parent, is an error of the embedding. -/
theorem rebalancing_reads_nodes_witness :
    StrictTotal compare ∧ Linked testTree5 testShape5 ∧ BST compare testShape5 ∧
    HeightOK testShape5 ∧ Balanced testShape5 ∧
    ((∃ o t2, insert compare testTree5 4 = some (o, t2)) ∧
      (∃ o t2, remove compare testTree5 4 = some (o, t2)) ∧
      ∀ (s : BinarySearchTree Int) (node : Option Nat), ¬RotationReads s node →
        rotateRight s node = none ∧ rotateLeft s node = none) ∧
    rotateRight testTree5 (some 0) = none ∧ rotateLeft testTree5 none = none :=
  ⟨strictTotal_compare, testTree5_linked, testShape5_invariants.1, testShape5_invariants.2.1,
    testShape5_invariants.2.2,
    rebalancing_reads_nodes strictTotal_compare testTree5_linked testShape5_invariants.1
      testShape5_invariants.2.1 testShape5_invariants.2.2 4, by rfl, by rfl⟩

/-- C23: heights after a rotation.  In a tree with parent links, let `N` be the left child of
`P`.  After `rotateRight(N)` the node `P` (now the right child of `N`, with the former right
subtree of `N` and its own right subtree as children) stores 1 + the maximum of the stored
heights of its two children, and `N` stores 1 + the maximum of the stored height of its left
child and the new stored height of `P`; these are the values `getHeight` computes for the two
nodes in the resulting tree, and when the three subtrees below have consistent stored
heights, so has the rotated subtree.  The mirror image holds for `rotateLeft(N)` when `N` is
the right child of `P`. -/
theorem rotation_heights {t : BinarySearchTree α} {T : Shape α} (hL : Linked t T) :
    (∀ (fs : List (Frame α)) (P N : Nat) (nl nr po : Shape α) (pv nv : α) (ph nh : Int),
      T = plug (node P (node N nl nv nh nr) pv ph po) fs →
      ∃ t2 hp hn, rotateRight t (some N) = some t2 ∧
        Linked t2 (plug (node N nl nv hn (node P nr pv hp po)) fs) ∧
        hp = 1 + max nr.ht po.ht ∧ hn = 1 + max nl.ht hp ∧
        t2.heightOrZero (some P) = some hp ∧ getHeight t2 (some P) = some hp ∧
        t2.heightOrZero (some N) = some hn ∧ getHeight t2 (some N) = some hn ∧
        (HeightOK nl → HeightOK nr → HeightOK po →
          HeightOK (node N nl nv hn (node P nr pv hp po)))) ∧
    (∀ (fs : List (Frame α)) (P N : Nat) (po nl nr : Shape α) (pv nv : α) (ph nh : Int),
      T = plug (node P po pv ph (node N nl nv nh nr)) fs →
      ∃ t2 hp hn, rotateLeft t (some N) = some t2 ∧
        Linked t2 (plug (node N (node P po pv hp nl) nv hn nr) fs) ∧
        hp = 1 + max po.ht nl.ht ∧ hn = 1 + max hp nr.ht ∧
        t2.heightOrZero (some P) = some hp ∧ getHeight t2 (some P) = some hp ∧
        t2.heightOrZero (some N) = some hn ∧ getHeight t2 (some N) = some hn ∧
        (HeightOK po → HeightOK nl → HeightOK nr →
          HeightOK (node N (node P po pv hp nl) nv hn nr))) := by
  constructor
  · intro fs P N nl nr po pv nv ph nh e
    subst e
    obtain ⟨hrep, hctx, hnd, hroot⟩ := hL.ready
    obtain ⟨t2, hrot, hK⟩ := rotateRight_kept hrep hctx hnd hroot
    have hL2 := hK.linked hL
    obtain ⟨hsub, _⟩ := (rep_plug _ _).1 hL2.1
    refine ⟨t2, _, _, hrot, hL2, hgt_eq _ _, hgt_eq _ _, ?_, ?_, ?_, ?_, ?_⟩
    · exact heightOrZero_rep hsub.2.2
    · exact getHeight_rep hsub.2.2
    · exact heightOrZero_rep hsub
    · exact getHeight_rep hsub
    · intro h1 h2 h3
      exact ⟨hgt_eq _ _, h1, hgt_eq _ _, h2, h3⟩
  · intro fs P N po nl nr pv nv ph nh e
    subst e
    obtain ⟨hrep, hctx, hnd, hroot⟩ := hL.ready
    obtain ⟨t2, hrot, hK⟩ := rotateLeft_kept hrep hctx hnd hroot
    have hL2 := hK.linked hL
    obtain ⟨hsub, _⟩ := (rep_plug _ _).1 hL2.1
    refine ⟨t2, _, _, hrot, hL2, hgt_eq _ _, hgt_eq _ _, ?_, ?_, ?_, ?_, ?_⟩
    · exact heightOrZero_rep hsub.2.1
    · exact getHeight_rep hsub.2.1
    · exact heightOrZero_rep hsub
    · exact getHeight_rep hsub
    · intro h1 h2 h3
      exact ⟨hgt_eq _ _, ⟨hgt_eq _ _, h1, h2⟩, h3⟩

/-- Instance of C23 on the tree of the insertions 5, 2, 8, 3, 7, 9, 10: `rotateLeft` of the
node of 8 (right child of the root 5), after which the node of 5 stores 3 and the node of 8
stores 4; and `rotateRight` of the node of 7 (left child of the node of 8). -/
theorem rotation_heights_witness :
    Linked testTree5 testShape5 ∧
    (∃ t2 hp hn, rotateLeft testTree5 (some 2) = some t2 ∧
      Linked t2 (node 2 (node 0 (node 1 nil 2 2 (node 3 nil 3 1 nil)) 5 hp (node 4 nil 7 1 nil))
        8 hn (node 5 nil 9 2 (node 6 nil 10 1 nil))) ∧
      hp = 3 ∧ hn = 4 ∧
      t2.heightOrZero (some 0) = some hp ∧ getHeight t2 (some 0) = some hp ∧
      t2.heightOrZero (some 2) = some hn ∧ getHeight t2 (some 2) = some hn) ∧
    (∃ t2 hp hn, rotateRight testTree5 (some 4) = some t2 ∧
      Linked t2 (node 0 (node 1 nil 2 2 (node 3 nil 3 1 nil)) 5 4
        (node 4 nil 7 hn (node 2 nil 8 hp (node 5 nil 9 2 (node 6 nil 10 1 nil))))) ∧
      hp = 3 ∧ hn = 4 ∧
      t2.heightOrZero (some 2) = some hp ∧ getHeight t2 (some 2) = some hp ∧
      t2.heightOrZero (some 4) = some hn ∧ getHeight t2 (some 4) = some hn) := by
  refine ⟨testTree5_linked, ?_, ?_⟩
  · obtain ⟨t2, hp, hn, h1, h2, h3, h4, h5, h6, h7, h8, _⟩ :=
      (rotation_heights testTree5_linked).2 [] 0 2 (node 1 nil 2 2 (node 3 nil 3 1 nil))
        (node 4 nil 7 1 nil) (node 5 nil 9 2 (node 6 nil 10 1 nil)) 5 8 4 3 rfl
    refine ⟨t2, hp, hn, h1, h2, ?_, ?_, h5, h6, h7, h8⟩
    · rw [h3]; rfl
    · rw [h4, h3]; rfl
  · obtain ⟨t2, hp, hn, h1, h2, h3, h4, h5, h6, h7, h8, _⟩ :=
      (rotation_heights testTree5_linked).1
        [Frame.inRight 0 (node 1 nil 2 2 (node 3 nil 3 1 nil)) 5 4] 2 4 nil nil
        (node 5 nil 9 2 (node 6 nil 10 1 nil)) 8 7 3 1 rfl
    refine ⟨t2, hp, hn, h1, h2, ?_, ?_, h5, h6, h7, h8⟩
    · rw [h3]; rfl
    · rw [h4, h3]; rfl

/-- C24: `remove` keeps the balance when the node it splices out is a leaf.  Let a tree
satisfy the invariants of the data model and let the node `x` hold a value that compares
equal to `item`.  When `x` has no child (`x` itself is spliced out), or when `x` has two
children and the rightmost node of its left subtree, the in-order predecessor, has no child
(the predecessor is spliced out after the exchange of the values), `remove(item)` returns and
leaves a tree with parent links, consistent stored heights and every node balanced. -/
theorem remove_leaf_preserves_balance {cmp : α → α → Int} (hc : StrictTotal cmp)
    {t : BinarySearchTree α} {T : Shape α} (hL : Linked t T) (hbst : BST cmp T)
    (hok : HeightOK T) (hbal : Balanced T) (item : α) (ctx : List (Frame α)) (x : Nat)
    (xl xr : Shape α) (xv : α) (xh : Int) (hT : T = plug (node x xl xv xh xr) ctx)
    (e0 : cmp xv item = 0)
    (hleaf : (xl = nil ∧ xr = nil) ∨ (RightmostLeaf xl ∧ xr ≠ nil)) :
    ∃ t2 T2, remove cmp t item = some (Outcome.returned (), t2) ∧ Linked t2 T2 ∧
      HeightOK T2 ∧ Balanced T2 := by
  subst hT
  have hv : item ∈ (node x xl xv xh xr).values := by
    rw [← (hc.eq_iff _ _).1 e0]; simp [Shape.values]
  have hfind := find_stored hL (bst_descends hc hbst hv) e0
  rcases hleaf with ⟨rfl, rfl⟩ | ⟨hl, hr⟩
  · exact remove_simple_leaf hL hok hbal hfind e0
  · exact remove_swap_leaf hL hok hbal hfind e0 hl hr

/-- Instance of C24 on the tree of the insertions 5, 2, 8, 3, 7, 9, 10: `remove(3)` splices
out the leaf of 3 and rotates at the root (the first removal of the test driver), and
`remove(5)` splices out the same leaf after the exchange of 5 and 3. -/
theorem remove_leaf_preserves_balance_witness :
    StrictTotal compare ∧ Linked testTree5 testShape5 ∧ BST compare testShape5 ∧
    HeightOK testShape5 ∧ Balanced testShape5 ∧
    (∃ t2 T2, remove compare testTree5 3 = some (Outcome.returned (), t2) ∧ Linked t2 T2 ∧
      HeightOK T2 ∧ Balanced T2) ∧
    (∃ t2 T2, remove compare testTree5 5 = some (Outcome.returned (), t2) ∧ Linked t2 T2 ∧
      HeightOK T2 ∧ Balanced T2) ∧
    (remove compare testTree5 3).bind (fun r => inOrderValues r.2) = some [2, 5, 7, 8, 9, 10] ∧
    (remove compare testTree5 3).bind (fun r => returnHeight compare r.2 8) = some 3 ∧
    (remove compare testTree5 5).bind (fun r => inOrderValues r.2) = some [2, 3, 7, 8, 9, 10] :=
  ⟨strictTotal_compare, testTree5_linked, testShape5_invariants.1, testShape5_invariants.2.1,
    testShape5_invariants.2.2,
    remove_leaf_preserves_balance strictTotal_compare testTree5_linked
      testShape5_invariants.1 testShape5_invariants.2.1 testShape5_invariants.2.2 3
      [Frame.inRight 1 nil 2 2, Frame.inLeft 0 5 4
        (node 2 (node 4 nil 7 1 nil) 8 3 (node 5 nil 9 2 (node 6 nil 10 1 nil)))]
      3 nil nil 3 1 rfl (by decide) (Or.inl ⟨rfl, rfl⟩),
    remove_leaf_preserves_balance strictTotal_compare testTree5_linked
      testShape5_invariants.1 testShape5_invariants.2.1 testShape5_invariants.2.2 5
      [] 0 (node 1 nil 2 2 (node 3 nil 3 1 nil))
      (node 2 (node 4 nil 7 1 nil) 8 3 (node 5 nil 9 2 (node 6 nil 10 1 nil))) 5 4 rfl
      (by decide) (Or.inr ⟨by simp [RightmostLeaf], by simp⟩),
    by rfl, by rfl, by rfl⟩

/-- C25: a tree built by insertions cannot be traversed.  The insertions 5, 2, 8, 5, 2, 7 into
the empty tree of the constructor sort the values into the store (read through `nodeValue`
the in-order sequence is 2, 5, 7, 8) and leave the count 4, the number of distinct values.
But `inOrder` has no result on the tree, after this row of insertions as after every other:
`privateInOrder` hands `node->data` to the visitor, a member `BinaryTreeNode` does not
declare. -/
theorem build_then_inOrder :
    (∀ vs : List Int, (insertEach compare empty vs).bind inOrder = none) ∧
    (insertEach compare empty [5, 2, 8, 5, 2, 7]).bind inOrder = none ∧
    (insertEach compare empty [5, 2, 8, 5, 2, 7]).bind inOrderValues = some [2, 5, 7, 8] ∧
    (insertEach compare empty [5, 2, 8, 5, 2, 7]).map count = some 4 :=
  ⟨fun vs => bind_inOrder_tree _, bind_inOrder_tree _, by rfl, by rfl⟩

/-- C26: rotations are mutually inverse.  In a tree with parent links, let `N` be the left
child of `P`, and let `N` and `P` store consistent heights (1 + the maximum of the stored
heights of their children).  Then `rotateRight(N)` followed by `rotateLeft(P)` returns and
gives back the tree state it started from: the same root, the same node count, and the same
content of the store at every address, that is the same value, stored height, child pointers
and parent pointer of every node.  The mirror image holds for `rotateLeft(N)` followed by
`rotateRight(P)` when `N` is the right child of `P`. -/
theorem rotations_inverse {t : BinarySearchTree α} {T : Shape α} (hL : Linked t T) :
    (∀ (fs : List (Frame α)) (P N : Nat) (nl nr po : Shape α) (pv nv : α) (ph nh : Int),
      T = plug (node P (node N nl nv nh nr) pv ph po) fs →
      nh = 1 + max nl.ht nr.ht → ph = 1 + max nh po.ht →
      (rotateRight t (some N)).bind (fun t1 => rotateLeft t1 (some P)) = some t) ∧
    (∀ (fs : List (Frame α)) (P N : Nat) (po nl nr : Shape α) (pv nv : α) (ph nh : Int),
      T = plug (node P po pv ph (node N nl nv nh nr)) fs →
      nh = 1 + max nl.ht nr.ht → ph = 1 + max po.ht nh →
      (rotateLeft t (some N)).bind (fun t1 => rotateRight t1 (some P)) = some t) := by
  constructor
  · intro fs P N nl nr po pv nv ph nh e hn hp
    subst e
    obtain ⟨hrep, hctx, hnd, hroot⟩ := hL.ready
    obtain ⟨t1, hrot1, hK1⟩ := rotateRight_kept hrep hctx hnd hroot
    have hL1 := hK1.linked hL
    obtain ⟨hrep1, hctx1, hnd1, hroot1⟩ := hL1.ready
    obtain ⟨t2, hrot2, hK2⟩ := rotateLeft_kept hrep1 hctx1 hnd1 hroot1
    have hL2 := hK2.linked hL1
    have eS : plug (node P (node N nl nv (hgt nl.ht nr.ht) nr) pv
        (hgt (hgt nl.ht nr.ht) po.ht) po) fs =
        plug (node P (node N nl nv nh nr) pv ph po) fs := by
      rw [hgt_eq nl.ht nr.ht, ← hn, hgt_eq nh po.ht, ← hp]
    rw [eS] at hL2
    rw [hrot1, Option.some_bind, hrot2]
    refine congrArg some (tree_ext (hL2.2.1.trans hL.2.1.symm)
      (hK2.2.2.2.2.2.trans hK1.2.2.2.2.2) (funext fun b => ?_)
      (hK2.2.2.2.2.1.trans hK1.2.2.2.2.1))
    by_cases hb : b ∈ (plug (node P (node N nl nv nh nr) pv ph po) fs).addrs
    · exact rep_store_eq hL2.1 hL.1 b hb
    · have hb1 : b ∉ (plug (node N nl nv (hgt nl.ht (hgt nr.ht po.ht))
          (node P nr pv (hgt nr.ht po.ht) po)) fs).addrs :=
        fun h => hb (hK1.2.2.2.1.mem_iff.1 h)
      have f1 := rotateRight_frame hrot1 hrep.2.1.1 hrep.1 b (by
        intro q hq
        refine outside_ne hb q ?_
        rcases hq with rfl | rfl | rfl | rfl
        · exact Or.inl ⟨N, by simp [Shape.addrs], rfl⟩
        · exact Or.inl ⟨P, by simp [Shape.addrs], rfl⟩
        · exact Or.inr (Or.inl rfl)
        · rcases ptr_cases nr with ⟨a, ha, e⟩ | e
          · exact Or.inl ⟨a, by simp [Shape.addrs, ha], e⟩
          · exact Or.inr (Or.inr e))
      have f2 := rotateLeft_frame hrot2 hrep1.2.2.1 hrep1.1 b (by
        intro q hq
        refine outside_ne hb1 q ?_
        rcases hq with rfl | rfl | rfl | rfl
        · exact Or.inl ⟨P, by simp [Shape.addrs], rfl⟩
        · exact Or.inl ⟨N, by simp [Shape.addrs], rfl⟩
        · exact Or.inr (Or.inl rfl)
        · rcases ptr_cases nr with ⟨a, ha, e⟩ | e
          · exact Or.inl ⟨a, by simp [Shape.addrs, ha], e⟩
          · exact Or.inr (Or.inr e))
      exact f2.trans f1
  · intro fs P N po nl nr pv nv ph nh e hn hp
    subst e
    obtain ⟨hrep, hctx, hnd, hroot⟩ := hL.ready
    obtain ⟨t1, hrot1, hK1⟩ := rotateLeft_kept hrep hctx hnd hroot
    have hL1 := hK1.linked hL
    obtain ⟨hrep1, hctx1, hnd1, hroot1⟩ := hL1.ready
    obtain ⟨t2, hrot2, hK2⟩ := rotateRight_kept hrep1 hctx1 hnd1 hroot1
    have hL2 := hK2.linked hL1
    have eS : plug (node P po pv (hgt po.ht (hgt nl.ht nr.ht))
        (node N nl nv (hgt nl.ht nr.ht) nr)) fs =
        plug (node P po pv ph (node N nl nv nh nr)) fs := by
      rw [hgt_eq nl.ht nr.ht, ← hn, hgt_eq po.ht nh, ← hp]
    rw [eS] at hL2
    rw [hrot1, Option.some_bind, hrot2]
    refine congrArg some (tree_ext (hL2.2.1.trans hL.2.1.symm)
      (hK2.2.2.2.2.2.trans hK1.2.2.2.2.2) (funext fun b => ?_)
      (hK2.2.2.2.2.1.trans hK1.2.2.2.2.1))
    by_cases hb : b ∈ (plug (node P po pv ph (node N nl nv nh nr)) fs).addrs
    · exact rep_store_eq hL2.1 hL.1 b hb
    · have hb1 : b ∉ (plug (node N (node P po pv (hgt po.ht nl.ht) nl) nv
          (hgt (hgt po.ht nl.ht) nr.ht) nr) fs).addrs :=
        fun h => hb (hK1.2.2.2.1.mem_iff.1 h)
      have f1 := rotateLeft_frame hrot1 hrep.2.2.1 hrep.1 b (by
        intro q hq
        refine outside_ne hb q ?_
        rcases hq with rfl | rfl | rfl | rfl
        · exact Or.inl ⟨N, by simp [Shape.addrs], rfl⟩
        · exact Or.inl ⟨P, by simp [Shape.addrs], rfl⟩
        · exact Or.inr (Or.inl rfl)
        · rcases ptr_cases nl with ⟨a, ha, e⟩ | e
          · exact Or.inl ⟨a, by simp [Shape.addrs, ha], e⟩
          · exact Or.inr (Or.inr e))
      have f2 := rotateRight_frame hrot2 hrep1.2.1.1 hrep1.1 b (by
        intro q hq
        refine outside_ne hb1 q ?_
        rcases hq with rfl | rfl | rfl | rfl
        · exact Or.inl ⟨P, by simp [Shape.addrs], rfl⟩
        · exact Or.inl ⟨N, by simp [Shape.addrs], rfl⟩
        · exact Or.inr (Or.inl rfl)
        · rcases ptr_cases nl with ⟨a, ha, e⟩ | e
          · exact Or.inl ⟨a, by simp [Shape.addrs, ha], e⟩
          · exact Or.inr (Or.inr e))
      exact f2.trans f1

/-- Instance of C26 on the tree of the insertions 5, 2, 8, 3, 7, 9, 10: the node of 2 is the
left child and the node of 8 the right child of the root 5. -/
theorem rotations_inverse_witness :
    Linked testTree5 testShape5 ∧
    (rotateRight testTree5 (some 1)).bind (fun t1 => rotateLeft t1 (some 0)) =
      some testTree5 ∧
    (rotateLeft testTree5 (some 2)).bind (fun t1 => rotateRight t1 (some 0)) =
      some testTree5 :=
  ⟨testTree5_linked,
    (rotations_inverse testTree5_linked).1 [] 0 1 nil (node 3 nil 3 1 nil)
      (node 2 (node 4 nil 7 1 nil) 8 3 (node 5 nil 9 2 (node 6 nil 10 1 nil))) 5 2 4 2 rfl
      (by decide) (by decide),
    (rotations_inverse testTree5_linked).2 [] 0 2 (node 1 nil 2 2 (node 3 nil 3 1 nil))
      (node 4 nil 7 1 nil) (node 5 nil 9 2 (node 6 nil 10 1 nil)) 5 8 4 3 rfl
      (by decide) (by decide)⟩

end AVL
